import Mathlib

/-! # DSAVisualizerCompiler: trace generation, codec and replay

A shallow embedding of the trace generator (`codegen.c`), the trace store and
writer (`ir.c`), and the two readers / replay engines (`cli_visualizer.c`,
`json_to_js.c`), followed by theorems about them.

Conventions of the embedding.
* C `int` arrays are `List Int`; a read `a[i]` is `a.getD i 0`, a write
  `a[i] = v` is `a.set i v`.  Array values are only compared and copied, never
  added, so no machine overflow arises on them.
* Loop counters that never go negative are `Nat`; counters that can reach `-1`
  are `Int` (or, where the loop is a plain count-down, the shifted value is
  used and the shift is stated in the doc comment).
* The global IR list (`irHead`/`irTail`) is a `List IRNode`; `addIRWithIndices`
  appends at the tail.
-/

namespace DSAVisualizer

/-! ## Trace event model (`ir.h`, `ir.c`) -/

/-- One trace event: the `IRNode` of `ir.h`.  `indices.length` is the C field
`index_count`; the `details` field is always the empty string and is never
written to the file, so it is not represented. -/
structure IRNode where
  action : String
  indices : List Int
deriving DecidableEq, Repr

/-- Appends one event, as `addIRWithIndices` of `ir.c` does: the operand count
is capped at four.  (The action tag is copied with `strncpy` into 32 bytes;
every caller passes a literal shorter than that.) -/
def addIRWithIndices (ir : List IRNode) (action : String) (indices : List Int) :
    List IRNode :=
  ir ++ [⟨action, indices.take 4⟩]

/-! ## Loop combinators -/

/-- Runs `body i`, `body (i+1)`, ... for `count` consecutive values of the
counter. -/
def loopFrom {σ : Type} (body : Nat → σ → σ) : Nat → Nat → σ → σ
  | _, 0, s => s
  | i, c + 1, s => loopFrom body (i + 1) c (body i s)

/-- The C loop `for (i = lo; i < hi; i++) body`, for a body that neither
changes `i` nor breaks out. -/
def forRange {σ : Type} (lo hi : Nat) (body : Nat → σ → σ) (s : σ) : σ :=
  loopFrom body lo (hi - lo) s

/-! ## Sort generators (`codegen.c`) -/

/-- The state of a sort generator: its private `working_array` and the events
emitted so far. -/
structure SortSt where
  working_array : List Int
  ir : List IRNode
deriving DecidableEq, Repr

/-- Emits one event from inside a sort generator. -/
def SortSt.emit (s : SortSt) (action : String) (indices : List Int) : SortSt :=
  { s with ir := addIRWithIndices s.ir action indices }

/-- The three-assignment exchange `temp = a[i]; a[i] = a[j]; a[j] = temp`. -/
def swapEntries (a : List Int) (i j : Nat) : List Int :=
  let temp := a.getD i 0
  let a := a.set i (a.getD j 0)
  a.set j temp

/-- Body of the inner loop of `generateBubbleSortSteps`. -/
def bubbleInnerBody (i : Nat) (s : SortSt) : SortSt :=
  let j := i + 1
  let compare_indices : List Int := [(i : Int), (j : Int)]
  let s := s.emit "compare" compare_indices
  if s.working_array.getD i 0 > s.working_array.getD j 0 then
    let s := s.emit "swap" compare_indices
    { s with working_array := swapEntries s.working_array i j }
  else
    s.emit "no_swap" compare_indices

/-- Body of the outer loop of `generateBubbleSortSteps`: one pass. -/
def bubblePassBody (n : Nat) (pass : Nat) (s : SortSt) : SortSt :=
  let s := forRange 0 (n - pass - 1) bubbleInnerBody s
  let sorted_index : Int := ((n - pass - 1 : Nat) : Int)
  s.emit "mark_sorted" [sorted_index]

/-- Final state of `generateBubbleSortSteps(n, array)`. -/
def bubbleSortRun (n : Nat) (array : List Int) : SortSt :=
  forRange 0 (n - 1) (bubblePassBody n) ⟨array.take n, []⟩

/-- The trace emitted by `generateBubbleSortSteps(n, array)`. -/
def generateBubbleSortSteps (n : Nat) (array : List Int) : List IRNode :=
  (bubbleSortRun n array).ir

/-! ## Replaying swap events (`visualizeStep`, the `swap` branch) -/

/-- Applies one event to the replayed array the way the `swap` branch of
`visualizeStep` does: a `swap` with at least two operands exchanges the two
positions; any other event leaves the array alone. -/
def applySwapEvent (working_array : List Int) (step : IRNode) : List Int :=
  if step.action = "swap" ∧ step.indices.length ≥ 2 then
    let i := step.indices.getD 0 0
    let j := step.indices.getD 1 0
    swapEntries working_array i.toNat j.toNat
  else
    working_array

/-- Applies, in order, the swap events of a trace to an array. -/
def applySwapEvents (A : List Int) (steps : List IRNode) : List Int :=
  steps.foldl applySwapEvent A

/-! ### Insertion sort -/

/-- The inner loop of `generateInsertionSortSteps`,
`while (j >= 0 && working_array[j] > key) { ... j--; }`.
The counter of this function is `j + 1` (the position about to be overwritten),
so that the count-down is on a natural number: the argument `0` is `j = -1`,
where `j >= 0` fails, and the argument `j + 1` is the C value `j`.  The result
is the final `j + 1` together with the state. -/
def insertionShift (key : Int) : Nat → SortSt → Nat × SortSt
  | 0, s => (0, s)
  | j + 1, s =>
    if s.working_array.getD j 0 > key then
      let compare_indices : List Int := [(j : Int), ((j + 1 : Nat) : Int)]
      let s := s.emit "compare" compare_indices
      let s := { s with working_array := s.working_array.set (j + 1) (s.working_array.getD j 0) }
      let shift_indices : List Int := [(j : Int), ((j + 1 : Nat) : Int)]
      let s := s.emit "swap" shift_indices
      insertionShift key j s
    else
      (j + 1, s)

/-- Body of the outer loop of `generateInsertionSortSteps` (for `i ≥ 1`; the
second operand of the marker event is `j = i - 1`). -/
def insertionOuterBody (i : Nat) (s : SortSt) : SortSt :=
  let key := s.working_array.getD i 0
  let current_indices : List Int := [(i : Int), (i : Int) - 1]
  let s := s.emit "compare" current_indices
  let r := insertionShift key i s
  let s := { r.2 with working_array := r.2.working_array.set r.1 key }
  let sorted_index : Int := (i : Int)
  s.emit "mark_sorted" [sorted_index]

/-- Final state of `generateInsertionSortSteps(n, array)`. -/
def insertionSortRun (n : Nat) (array : List Int) : SortSt :=
  forRange 1 n insertionOuterBody ⟨array.take n, []⟩

/-- The trace emitted by `generateInsertionSortSteps(n, array)`. -/
def generateInsertionSortSteps (n : Nat) (array : List Int) : List IRNode :=
  (insertionSortRun n array).ir

/-! ### Selection sort -/

/-- Body of the inner loop of `generateSelectionSortSteps`; the state carries
`min_idx`.  Both branches emit `no_swap`, as in the source. -/
def selectionInnerBody (j : Nat) (st : Nat × SortSt) : Nat × SortSt :=
  let min_idx := st.1
  let s := st.2
  let compare_indices : List Int := [(min_idx : Int), (j : Int)]
  let s := s.emit "compare" compare_indices
  if s.working_array.getD j 0 < s.working_array.getD min_idx 0 then
    (j, s.emit "no_swap" compare_indices)
  else
    (min_idx, s.emit "no_swap" compare_indices)

/-- Body of the outer loop of `generateSelectionSortSteps`. -/
def selectionOuterBody (n : Nat) (i : Nat) (s : SortSt) : SortSt :=
  let r := forRange (i + 1) n selectionInnerBody (i, s)
  let min_idx := r.1
  let s := r.2
  let s :=
    if min_idx ≠ i then
      let swap_indices : List Int := [(i : Int), (min_idx : Int)]
      let s := s.emit "swap" swap_indices
      { s with working_array := swapEntries s.working_array i min_idx }
    else s
  s.emit "mark_sorted" [(i : Int)]

/-- Final state of `generateSelectionSortSteps(n, array)`. -/
def selectionSortRun (n : Nat) (array : List Int) : SortSt :=
  forRange 0 (n - 1) (selectionOuterBody n) ⟨array.take n, []⟩

/-- The trace emitted by `generateSelectionSortSteps(n, array)`. -/
def generateSelectionSortSteps (n : Nat) (array : List Int) : List IRNode :=
  (selectionSortRun n array).ir

/-! ### Merge sort -/

/-- State of one merge: the read positions `i`, `j`, the buffer `temp` (filled
from index 0 upward, so `temp[k++] = x` is an append) and the generator state. -/
structure MergeSt where
  i : Nat
  j : Nat
  temp : List Int
  s : SortSt
deriving DecidableEq, Repr

/-- The loop `while (i <= mid && j <= right)` of one merge.  Each iteration
advances `i` or `j` by one, so `fuel ≥ (mid + 1 - i) + (right + 1 - j)` is
never exhausted. -/
def mergeCompareLoop (mid right : Nat) : Nat → MergeSt → MergeSt
  | 0, m => m
  | fuel + 1, m =>
    if m.i ≤ mid ∧ m.j ≤ right then
      let compare_indices : List Int := [(m.i : Int), (m.j : Int)]
      let s := m.s.emit "compare" compare_indices
      if s.working_array.getD m.i 0 ≤ s.working_array.getD m.j 0 then
        mergeCompareLoop mid right fuel
          { i := m.i + 1, j := m.j, temp := m.temp ++ [s.working_array.getD m.i 0],
            s := s.emit "no_swap" compare_indices }
      else
        mergeCompareLoop mid right fuel
          { i := m.i, j := m.j + 1, temp := m.temp ++ [s.working_array.getD m.j 0],
            s := s.emit "swap" compare_indices }
    else m

/-- The loops `while (i <= mid) temp[k++] = working_array[i++];` and
`while (j <= right) temp[k++] = working_array[j++];`: the rest of the run from
position `from` up to and including `upto` is appended to `temp`. -/
def copyRest (w : List Int) (start upto : Nat) (temp : List Int) : List Int :=
  forRange start (upto + 1) (fun p t => t ++ [w.getD p 0]) temp

/-- The copy-back loop `for (i = left, k = 0; i <= right; i++, k++)
working_array[i] = temp[k];`. -/
def copyBack (left right : Nat) (temp : List Int) (w : List Int) : List Int :=
  forRange left (right + 1) (fun i w => w.set i (temp.getD (i - left) 0)) w

/-- One merge of the runs `left..mid` and `mid+1..right`. -/
def mergeRuns (n step left : Nat) (s : SortSt) : SortSt :=
  let mid := left + step - 1
  let right := if left + 2 * step - 1 < n then left + 2 * step - 1 else n - 1
  let m := mergeCompareLoop mid right (2 * n) { i := left, j := mid + 1, temp := [], s := s }
  let temp := copyRest m.s.working_array m.i mid m.temp
  let temp := copyRest m.s.working_array m.j right temp
  { m.s with working_array := copyBack left right temp m.s.working_array }

/-- The loop `for (left = 0; left < n - step; left += 2 * step)`.  `left`
grows by at least two per iteration, so `fuel ≥ n` is never exhausted. -/
def mergePass (n step : Nat) : Nat → Nat → SortSt → SortSt
  | 0, _, s => s
  | fuel + 1, left, s =>
    if left < n - step then
      mergePass n step fuel (left + 2 * step) (mergeRuns n step left s)
    else s

/-- The loop `while (step < n) { ...; step *= 2; }`.  `step` starts at one and
doubles, so `fuel ≥ n` is never exhausted. -/
def mergeOuter (n : Nat) : Nat → Nat → SortSt → SortSt
  | 0, _, s => s
  | fuel + 1, step, s =>
    if step < n then
      mergeOuter n fuel (step * 2) (mergePass n step n 0 s)
    else s

/-- Final state of `generateMergeSortSteps(n, array)`. -/
def mergeSortRun (n : Nat) (array : List Int) : SortSt :=
  mergeOuter n n 1 ⟨array.take n, []⟩

/-- The trace emitted by `generateMergeSortSteps(n, array)`. -/
def generateMergeSortSteps (n : Nat) (array : List Int) : List IRNode :=
  (mergeSortRun n array).ir

/-! ### Quick sort -/

/-- State of the partition loop of `generateQuickSortSteps`: the C variable
`i` (which starts at `low - 1`, possibly `-1`) and the generator state. -/
structure PartSt where
  i : Int
  s : SortSt
deriving DecidableEq, Repr

/-- Body of the partition loop `for (j = low; j < high; j++)`. -/
def partitionBody (high : Int) (pivot : Int) (j : Nat) (p : PartSt) : PartSt :=
  let compare_indices : List Int := [(j : Int), high]
  let s := p.s.emit "compare" compare_indices
  if s.working_array.getD j 0 < pivot then
    let i := p.i + 1
    if i ≠ (j : Int) then
      let swap_indices : List Int := [i, (j : Int)]
      let s := s.emit "swap" swap_indices
      { i := i, s := { s with working_array := swapEntries s.working_array i.toNat j } }
    else
      { i := i, s := s.emit "no_swap" compare_indices }
  else
    { i := p.i, s := s.emit "no_swap" compare_indices }

/-- The work done for one popped range with `low < high`: pivot marker, the
partition loop, the pivot-placing swap and `mark_sorted`.  Returns the final
`i` and the state.  The loop counter `j` runs over naturals from `low` to
`high - 1`; every range that reaches this point has `0 ≤ low`. -/
def partitionRange (low high : Int) (s : SortSt) : PartSt :=
  let pivot := s.working_array.getD high.toNat 0
  let i := low - 1
  let pivot_index := high
  let s := s.emit "compare" [pivot_index]
  let p := forRange low.toNat high.toNat (partitionBody high pivot) { i := i, s := s }
  let swap_indices : List Int := [p.i + 1, high]
  let s := p.s.emit "swap" swap_indices
  let s := { s with working_array := swapEntries s.working_array (p.i + 1).toNat high.toNat }
  let pivot_pos := p.i + 1
  { i := p.i, s := s.emit "mark_sorted" [pivot_pos] }

/-- The loop `while (top > 0)` of `generateQuickSortSteps`.  The range stack is
a list whose head is the top (`stack[top - 1]`).  Every iteration pops one
range; `quickLoop_terminates` shows that the fuel passed by `quickSortRun` is
never exhausted, and `quick_stack_within_capacity` that for at most 256
elements the list never grows beyond the 256 cells of the C array. -/
def quickLoop : Nat → List (Int × Int) → SortSt → List (Int × Int) × SortSt
  | 0, stack, s => (stack, s)
  | _ + 1, [], s => ([], s)
  | fuel + 1, (low, high) :: stack, s =>
    if low < high then
      let p := partitionRange low high s
      let i := p.i
      let stack := if i + 1 + 1 < high then (i + 2, high) :: stack else stack
      let stack := if low < i + 1 - 1 then (low, i) :: stack else stack
      quickLoop fuel stack p.s
    else
      quickLoop fuel stack s

/-- Final range stack and state of `generateQuickSortSteps(n, array)`. -/
def quickSortRun (n : Nat) (array : List Int) : List (Int × Int) × SortSt :=
  quickLoop (n + 1) [((0 : Int), (n : Int) - 1)] ⟨array.take n, []⟩

/-- The trace emitted by `generateQuickSortSteps(n, array)`. -/
def generateQuickSortSteps (n : Nat) (array : List Int) : List IRNode :=
  (quickSortRun n array).2.ir

/-! ## Predicates used in the statements and invariants -/

/-- Every position `b ≥ k` of `w` holds a value no smaller than the value at
any earlier position. -/
def TailSorted (w : List Int) (k : Nat) : Prop :=
  ∀ a b, a < b → k ≤ b → b < w.length → w.getD a 0 ≤ w.getD b 0

/-- What a sort generator maintains when its swap events mirror its own
exchanges: the working array keeps its length, is a rearrangement of the
input, and is what replaying the emitted swap events on the input gives. -/
def Tracks (A : List Int) (s : SortSt) : Prop :=
  s.working_array.length = A.length ∧ List.Perm s.working_array A ∧
    applySwapEvents A s.ir = s.working_array

/-- Invariant of the inner loop of bubble sort during pass `p`, on entry to
iteration `i`: the largest value of positions `0..i` sits at `i`. -/
def BubbleInner (A : List Int) (p i : Nat) (s : SortSt) : Prop :=
  Tracks A s ∧ TailSorted s.working_array (A.length - p) ∧
    ∀ k, k < i → s.working_array.getD k 0 ≤ s.working_array.getD i 0

/-- Invariant of the outer loop of bubble sort on entry to pass `p`. -/
def BubbleOuter (A : List Int) (p : Nat) (s : SortSt) : Prop :=
  Tracks A s ∧ TailSorted s.working_array (A.length - p)

/-- Invariant of the shifting loop of insertion sort in outer step `i`, with
the hole at position `h` (the C value `j + 1`). -/
def InsertionInner (A : List Int) (key : Int) (i h : Nat) (s : SortSt) : Prop :=
  s.working_array.length = A.length ∧
    applySwapEvents A s.ir = s.working_array.set h key ∧
    List.Perm (s.working_array.set h key) A ∧
    (∀ a b, a < b → b ≤ i → a ≠ h → b ≠ h →
      s.working_array.getD a 0 ≤ s.working_array.getD b 0) ∧
    (∀ b, h < b → b ≤ i → key < s.working_array.getD b 0)

/-- Invariant of the outer loop of insertion sort: positions `0..i-1` are in
order. -/
def InsertionOuter (A : List Int) (i : Nat) (s : SortSt) : Prop :=
  Tracks A s ∧ ∀ a b, a < b → b < i → s.working_array.getD a 0 ≤ s.working_array.getD b 0

/-- Every position `a < k` of `w` holds a value no larger than the value at
any later position. -/
def HeadSorted (w : List Int) (k : Nat) : Prop :=
  ∀ a b, a < b → a < k → b < w.length → w.getD a 0 ≤ w.getD b 0

/-- Invariant of the inner loop of selection sort in outer step `i`, on entry
to iteration `j`: `min_idx` points at a smallest value of positions `i..j-1`. -/
def SelectionInner (A : List Int) (i j : Nat) (st : Nat × SortSt) : Prop :=
  Tracks A st.2 ∧ HeadSorted st.2.working_array i ∧ i ≤ st.1 ∧ st.1 < j ∧
    ∀ k, i ≤ k → k < j → st.2.working_array.getD st.1 0 ≤ st.2.working_array.getD k 0

/-- Invariant of the outer loop of selection sort. -/
def SelectionOuter (A : List Int) (i : Nat) (s : SortSt) : Prop :=
  Tracks A s ∧ HeadSorted s.working_array i

/-- Number of events of a trace that carry the given action tag. -/
def countAction (a : String) (ir : List IRNode) : Nat :=
  ir.countP (fun e => e.action = a)

/-- Every value left of boundary `b` is at most every value from `b` on. -/
def Partitioned (w : List Int) (b : Nat) : Prop :=
  ∀ a c, a < b → b ≤ c → c < w.length → w.getD a 0 ≤ w.getD c 0

/-- The array `w'` differs from `w` only by moving values around inside
positions `lo..hi`. -/
def Within (w w' : List Int) (lo hi : Nat) : Prop :=
  w'.length = w.length ∧ (∀ k, k < lo ∨ hi < k → w'.getD k 0 = w.getD k 0) ∧
    ∀ c, lo ≤ c → c ≤ hi → ∃ c', lo ≤ c' ∧ c' ≤ hi ∧ w'.getD c 0 = w.getD c' 0

/-- Invariant of the partition loop of quick sort over the range `lo..hi`, on
entry to iteration `j`; `q` is the C value `i + 1`. -/
def PartInv (A w0 : List Int) (m0 : Nat) (pivot : Int) (lo hi j : Nat) (p : PartSt) : Prop :=
  Tracks A p.s ∧ Within w0 p.s.working_array lo hi ∧
    countAction "mark_sorted" p.s.ir = m0 ∧
    ∃ q : Nat, p.i + 1 = (q : Int) ∧ lo ≤ q ∧ q ≤ j ∧
      (∀ k, lo ≤ k → k < q → p.s.working_array.getD k 0 < pivot) ∧
      (∀ k, q ≤ k → k < j → pivot ≤ p.s.working_array.getD k 0) ∧
      p.s.working_array.getD hi 0 = pivot

/-- Boundary `b` (between positions `b-1` and `b`) lies strictly inside one of
the ranges still on the stack. -/
def Covered (stack : List (Int × Int)) (b : Nat) : Prop :=
  ∃ r ∈ stack, r.1 < (b : Int) ∧ (b : Int) ≤ r.2

/-- The ranges on the stack lie inside the array and are pairwise disjoint. -/
def RangesOK (n : Nat) (stack : List (Int × Int)) : Prop :=
  (∀ r ∈ stack, 0 ≤ r.1 ∧ r.2 < (n : Int)) ∧
    stack.Pairwise (fun r₁ r₂ => r₁.2 < r₂.1 ∨ r₂.2 < r₁.1)

/-- An upper bound on the number of iterations the stack still causes. -/
def stackWork (stack : List (Int × Int)) : Nat :=
  (stack.map (fun r => max 1 (r.2 - r.1).toNat)).sum

/-- Total of `high - low` over the ranges on the stack. -/
def stackSpan (stack : List (Int × Int)) : Nat :=
  (stack.map (fun r => (r.2 - r.1).toNat)).sum

/-- Invariant of the `while (top > 0)` loop of quick sort. -/
def QuickInv (A : List Int) (stack : List (Int × Int)) (s : SortSt) : Prop :=
  Tracks A s ∧ RangesOK A.length stack ∧
    (∀ b, 1 ≤ b → b < A.length → Covered stack b ∨ Partitioned s.working_array b) ∧
    countAction "mark_sorted" s.ir + stackSpan stack ≤ A.length - 1

/-! ## Data-structure operations (`codegen.c`) -/

/-- One recorded call `structure.operation(value, value2)`: the
`OperationNode` of `codegen.c`. -/
structure OperationNode where
  operation : String
  value : Int
  value2 : Int
deriving DecidableEq, Repr

/-- State of `generateStackOperations`: the array `stack[256]`, `top`, and the
events emitted so far. -/
structure StackGenSt where
  stack : List Int
  top : Int
  ir : List IRNode
deriving DecidableEq, Repr

/-- One iteration of the loop of `generateStackOperations`. -/
def stackOpStep (st : StackGenSt) (op : OperationNode) : StackGenSt :=
  if op.operation = "push" then
    let top := st.top + 1
    let stack := st.stack.set top.toNat op.value
    let indices : List Int := [top, op.value]
    { stack := stack, top := top, ir := addIRWithIndices st.ir "push" indices }
  else if op.operation = "pop" then
    if st.top ≥ 0 then
      let val := st.stack.getD st.top.toNat 0
      let indices : List Int := [st.top, val]
      { st with top := st.top - 1, ir := addIRWithIndices st.ir "pop" indices }
    else st
  else if op.operation = "peek" ∨ op.operation = "top" then
    if st.top ≥ 0 then
      let indices : List Int := [st.top]
      { st with ir := addIRWithIndices st.ir "peek" indices }
    else st
  else st

/-- The trace emitted by `generateStackOperations` for the recorded operations
`ds_operations`.  The array has 256 cells; the initial contents are never
read before being written. -/
def generateStackOperations (ds_operations : List OperationNode) : List IRNode :=
  (ds_operations.foldl stackOpStep
    { stack := List.replicate 256 0, top := -1, ir := [] }).ir

/-! ## Interactive player: stack display (`visualizeStep`, `displayStack`) -/

/-- One iteration of the loop that rebuilds `stack_arr` / `stack_top` from the
steps in the `push`, `pop` and `peek` branches of `visualizeStep`. -/
def rebuildStackStep (st : List Int × Int) (s : IRNode) : List Int × Int :=
  if s.action = "push" ∧ s.indices.length ≥ 2 then
    let stack_top := st.2 + 1
    (st.1.set stack_top.toNat (s.indices.getD 1 0), stack_top)
  else if s.action = "pop" ∧ s.indices.length ≥ 2 then
    if st.2 ≥ 0 then (st.1, st.2 - 1) else st
  else st

/-- The values `displayStack(stack_arr, stack_top, _)` prints, bottom first:
cells `0..stack_top`. -/
def displayStack (stack_arr : List Int) (stack_top : Int) : List Int :=
  stack_arr.take (stack_top + 1).toNat

/-- The stack that `visualizeStep` displays for the step at position `i` of the
list `steps`, if that step is one of `push`, `pop`, `peek` (`none` for a step
that shows no stack).  The `push` and `peek` branches run the rebuilding loop
`while (s && s != step->next)`, over the steps up to and including the current
one; the `pop` branch runs `while (s && s != step)`, over the steps before the
current one. -/
def stackShownAt (steps : List IRNode) (i : Nat) : Option (List Int) :=
  match steps[i]? with
  | none => none
  | some step =>
    let init : List Int × Int := (List.replicate 256 0, -1)
    if step.action = "push" ∧ step.indices.length ≥ 2 then
      let r := (steps.take (i + 1)).foldl rebuildStackStep init
      some (displayStack r.1 r.2)
    else if step.action = "pop" ∧ step.indices.length ≥ 2 then
      let r := (steps.take i).foldl rebuildStackStep init
      some (displayStack r.1 r.2)
    else if step.action = "peek" ∧ step.indices.length ≥ 1 then
      let r := (steps.take (i + 1)).foldl rebuildStackStep init
      some (displayStack r.1 r.2)
    else none

/-- The reference fold of C10: from the empty stack, a `push` event appends its
value and a `pop` event removes the top; other events change nothing. -/
def foldStackEvents (steps : List IRNode) : List Int :=
  steps.foldl (fun st e =>
    if e.action = "push" then st ++ [e.indices.getD 1 0]
    else if e.action = "pop" then st.dropLast
    else st) []

/-! ## Tree operations (`codegen.c`) -/

/-- The binary tree of `codegen.c` (`TreeNode`); `nil` is the `NULL` pointer. -/
inductive TreeNode where
  | nil : TreeNode
  | node (value : Int) (left right : TreeNode) : TreeNode
deriving DecidableEq, Repr

/-- The function `insertTreeNode` of `codegen.c`: ordinary BST insertion, equal
values going right.  (Its out-parameters `parent_val` and `is_left` are not
used by the caller afterwards.) -/
def insertTreeNode : TreeNode → Int → TreeNode
  | .nil, value => .node value .nil .nil
  | .node v left right, value =>
    if value < v then .node v (insertTreeNode left value) right
    else .node v left (insertTreeNode right value)

/-- The `while (1)` descent of `generateTreeOperations` that finds the future
parent and side of a value before it is inserted: returns
`(temp_parent, temp_side)`.  The recursion follows `temp = temp->left` /
`temp = temp->right`; the `nil` case is not reached from a non-empty tree. -/
def findInsertParent : TreeNode → Int → Int × Int
  | .nil, _ => (-1, -1)
  | .node v left right, value =>
    if value < v then
      if left = .nil then (v, 1) else findInsertParent left value
    else
      if right = .nil then (v, 0) else findInsertParent right value

/-- The function `inorderTraversal`: the values in left, node, right order. -/
def inorderTraversal : TreeNode → List Int
  | .nil => []
  | .node v left right => inorderTraversal left ++ [v] ++ inorderTraversal right

/-- The function `preorderTraversal`. -/
def preorderTraversal : TreeNode → List Int
  | .nil => []
  | .node v left right => [v] ++ preorderTraversal left ++ preorderTraversal right

/-- The function `postorderTraversal`. -/
def postorderTraversal : TreeNode → List Int
  | .nil => []
  | .node v left right => postorderTraversal left ++ postorderTraversal right ++ [v]

/-- State of `generateTreeOperations`: the tree, the array `tree_values` of
inserted values, and the events emitted so far. -/
structure TreeGenSt where
  root : TreeNode
  tree_values : List Int
  ir : List IRNode
deriving DecidableEq, Repr

/-- Emits one `visit(value)` event per traversed value, in order. -/
def emitVisits (ir : List IRNode) (result : List Int) : List IRNode :=
  result.foldl (fun ir v => addIRWithIndices ir "visit" [v]) ir

/-- One iteration of the loop of `generateTreeOperations`.  The store
`tree_values[tree_size++] = value` into `int tree_values[256]` is not checked
in the source; it is an append here, which is what the code does for the
first 256 inserts.  The theorems about inserts carry that bound. -/
def treeOpStep (st : TreeGenSt) (op : OperationNode) : TreeGenSt :=
  if op.operation = "insert" then
    let ir :=
      if st.root = .nil then
        let indices : List Int := [op.value, -1, -1, 0]
        addIRWithIndices st.ir "insert" indices
      else
        let r := findInsertParent st.root op.value
        let indices : List Int := [op.value, r.1, r.2, 0]
        addIRWithIndices st.ir "insert" indices
    { root := insertTreeNode st.root op.value,
      tree_values := st.tree_values ++ [op.value], ir := ir }
  else if op.operation = "traverse_inorder" then
    { st with ir := emitVisits st.ir (inorderTraversal st.root) }
  else if op.operation = "traverse_preorder" then
    { st with ir := emitVisits st.ir (preorderTraversal st.root) }
  else if op.operation = "traverse_postorder" then
    { st with ir := emitVisits st.ir (postorderTraversal st.root) }
  else st

/-- Final state of `generateTreeOperations` for the recorded operations. -/
def treeOpsRun (ds_operations : List OperationNode) : TreeGenSt :=
  ds_operations.foldl treeOpStep { root := .nil, tree_values := [], ir := [] }

/-- The trace emitted by `generateTreeOperations`. -/
def generateTreeOperations (ds_operations : List OperationNode) : List IRNode :=
  (treeOpsRun ds_operations).ir

/-! ## Interactive player: tree display (`displayTree`) -/

/-- The tree the player rebuilds (`TreeVizNode`); `nil` is the `NULL` pointer. -/
inductive TreeVizNode where
  | nil : TreeVizNode
  | node (value parent_val is_left : Int) (left right : TreeVizNode) : TreeVizNode
deriving DecidableEq, Repr

/-- Number of nodes of a rebuilt tree. -/
def TreeVizNode.size : TreeVizNode → Nat
  | .nil => 0
  | .node _ _ _ l r => 1 + l.size + r.size

/-- The breadth-first search of `displayTree` for the parent: the queue holds
the nodes still to be examined, each with the path (`true` = left) that leads
to it from the root; the result is the path of the first node examined whose
value is `parent_val`.  Each iteration dequeues one node and every node is
enqueued at most once, so `fuel > size of the tree` is never exhausted, and
the 256 cells of the C queue suffice for a tree of at most 256 nodes. -/
def findParentLoop (parent_val : Int) :
    Nat → List (List Bool × TreeVizNode) → Option (List Bool)
  | 0, _ => none
  | _ + 1, [] => none
  | fuel + 1, (path, current) :: queue =>
    match current with
    | .nil => findParentLoop parent_val fuel queue
    | .node v _ _ l r =>
      if v = parent_val then some path
      else
        let queue := if l ≠ .nil then queue ++ [(path ++ [true], l)] else queue
        let queue := if r ≠ .nil then queue ++ [(path ++ [false], r)] else queue
        findParentLoop parent_val fuel queue

/-- The pointer update `parent->left = new_node` / `parent->right = new_node`
on the node reached by `path`; the previous child, if any, is dropped. -/
def attachAt (new_node : TreeVizNode) (is_left : Int) : TreeVizNode → List Bool → TreeVizNode
  | .nil, _ => .nil
  | .node v p s l r, [] =>
    if is_left ≠ 0 then .node v p s new_node r else .node v p s l new_node
  | .node v p s l r, true :: path => .node v p s (attachAt new_node is_left l path) r
  | .node v p s l r, false :: path => .node v p s l (attachAt new_node is_left r path)

/-- One iteration of the rebuilding loop of `displayTree`, on the pair
`(root, node_count)`. -/
def displayTreeStep (st : TreeVizNode × Nat) (s : IRNode) : TreeVizNode × Nat :=
  if s.action = "insert" ∧ s.indices.length ≥ 4 then
    let value := s.indices.getD 0 0
    let parent_val := s.indices.getD 1 0
    let is_left := s.indices.getD 2 0
    if parent_val = -1 then
      (.node value (-1) (-1) .nil .nil, st.2 + 1)
    else
      match findParentLoop parent_val (st.1.size + 1) [([], st.1)] with
      | some path =>
        (attachAt (.node value parent_val is_left .nil .nil) is_left st.1 path, st.2 + 1)
      | none => st
  else st

/-- The tree `displayTree(steps, current_step)` has rebuilt when it starts
printing, where `steps` here is the list of steps up to and including
`current_step`. -/
def displayTreeBuild (steps : List IRNode) : TreeVizNode × Nat :=
  steps.foldl displayTreeStep (.nil, 0)

/-- Shape and values of a rebuilt tree, as a `TreeNode`. -/
def TreeVizNode.shape : TreeVizNode → TreeNode
  | .nil => .nil
  | .node v _ _ l r => .node v l.shape r.shape

/-! ## Auxiliary notions for the tree proofs -/

/-- The subtree reached from `t` by following `path` (`true` = left). -/
def TreeVizNode.subtreeAt : TreeVizNode → List Bool → TreeVizNode
  | t, [] => t
  | .nil, _ :: _ => .nil
  | .node _ _ _ l _, true :: path => l.subtreeAt path
  | .node _ _ _ _ r, false :: path => r.subtreeAt path

/-- The value stored at the root of a tree, if it has one. -/
def TreeVizNode.rootValue : TreeVizNode → Option Int
  | .nil => none
  | .node v _ _ _ _ => some v

/-- The path the BST descent for `value` takes from the root to the node that
becomes the parent of `value` (`true` = left). -/
def descentPath : TreeNode → Int → List Bool
  | .nil, _ => []
  | .node v left right, value =>
    if value < v then
      if left = .nil then [] else true :: descentPath left value
    else
      if right = .nil then [] else false :: descentPath right value

/-- The values inserted by a list of recorded operations, in order. -/
def insertedValues (ops : List OperationNode) : List Int :=
  (ops.filter (fun op => op.operation = "insert")).map (fun op => op.value)

/-- Total number of nodes of the trees waiting in the search queue. -/
def queueSize (queue : List (List Bool × TreeVizNode)) : Nat :=
  (queue.map (fun e => e.2.size)).sum

/-! ## Serialization: the writer (`ir.c`, `writeIRToJSON`) -/

/-- The text `printf("%d", v)` produces. -/
def fmtInt (v : Int) : String :=
  match v with
  | Int.ofNat m => Nat.repr m
  | Int.negSucc m => "-" ++ Nat.repr (m + 1)

/-- The loop that prints integers separated by `", "` (used for the array and
for `indices`). -/
def writeIntList : List Int → String
  | [] => ""
  | [x] => fmtInt x
  | x :: y :: rest => fmtInt x ++ ", " ++ writeIntList (y :: rest)

/-- The text written for one step; `hasNext` is `curr->next != NULL`. -/
def writeStep (curr : IRNode) (hasNext : Bool) : String :=
  "    \x7b\n" ++ "      \"action\": \"" ++ curr.action ++ "\"" ++
    (if curr.indices.length > 0 then
      if curr.indices.length = 1 then
        ",\n      \"index\": " ++ fmtInt (curr.indices.getD 0 0)
      else
        ",\n      \"indices\": [" ++ writeIntList curr.indices ++ "]"
    else "") ++
    "\n    \x7d" ++ (if hasNext then "," else "") ++ "\n"

/-- The loop over the IR list in `writeIRToJSON`. -/
def writeSteps : List IRNode → String
  | [] => ""
  | [curr] => writeStep curr false
  | curr :: next :: rest => writeStep curr true ++ writeSteps (next :: rest)

/-- The text `writeIRToJSON` writes, given the globals `algorithmName`,
`algorithmArray` (of length `algorithmArraySize`) and the IR list. -/
def writeIRToJSON (algorithmName : String) (algorithmArray : List Int)
    (ir : List IRNode) : String :=
  "\x7b\n" ++ "  \"algorithm\": \"" ++ algorithmName ++ "\",\n" ++
    "  \"array\": [" ++
    (if algorithmArray.length > 0 then writeIntList algorithmArray else "5, 3, 8, 4, 2") ++
    "],\n" ++
    "  \"steps\": [\n" ++ writeSteps ir ++ "  ],\n" ++
    "  \"metadata\": \x7b\n" ++
    "    \"timeComplexity\": \"O(n²)\",\n" ++
    "    \"spaceComplexity\": \"O(1)\",\n" ++
    "    \"description\": \"Generated from algorithm visualization compiler.\"\n" ++
    "  \x7d\n" ++ "\x7d\n"

/-! ## C string functions used by the readers

A C string is a `List Char`; a pointer into it is the suffix it points at. -/

/-- The function `isspace` in the C locale. -/
def isspace (c : Char) : Bool :=
  c = ' ' || c = '\t' || c = '\n' || c = '\x0b' || c = '\x0c' || c = '\r'

/-- Whether `s` begins with `needle`. -/
def startsWith : List Char → List Char → Bool
  | _, [] => true
  | [], _ :: _ => false
  | c :: s, d :: needle => c = d && startsWith s needle

/-- The function `strchr`: the suffix that starts at the first occurrence of `ch`. -/
def strchr : List Char → Char → Option (List Char)
  | [], _ => none
  | c :: s, ch => if c = ch then some (c :: s) else strchr s ch

/-- The function `strstr`: the suffix that starts at the first occurrence of
`needle`. -/
def strstr : List Char → List Char → Option (List Char)
  | [], needle => if needle = [] then some [] else none
  | c :: s, needle => if startsWith (c :: s) needle then some (c :: s) else strstr s needle

/-- The function `strrchr` restricted to what `parseJSON` needs: the number of
characters of `s` that stand before the last occurrence of `ch`. -/
def strrchrOffset : List Char → Char → Option Nat
  | [], _ => none
  | c :: s, ch =>
    match strrchrOffset s ch with
    | some k => some (k + 1)
    | none => if c = ch then some 0 else none

/-- The function `strtol(pos, &end, 10)`: skips white space, reads an optional
sign and the decimal digits.  The result is `none` when no digits are found
(`end == pos`), otherwise the value and the suffix `end`.  Values are taken
unbounded; the traces of the generator hold C `int`s, which `strtol` and the
cast back to `int` return unchanged. -/
def strtol (pos : List Char) : Option (Int × List Char) :=
  let s := pos.dropWhile isspace
  let neg := match s with
    | '-' :: _ => true
    | _ => false
  let s := match s with
    | '-' :: t => t
    | '+' :: t => t
    | _ => s
  let digits := s.takeWhile Char.isDigit
  if digits = [] then none
  else
    let v : Nat := digits.foldl (fun a c => 10 * a + (c.toNat - 48)) 0
    some (if neg then -(v : Int) else (v : Int), s.dropWhile Char.isDigit)

/-- The scanning loop shared by `extractArray` and the `indices` branch of
`extractIndices`: reads integers separated by white space and commas until
`]`, the end of the text, a non-number, or `max_size` values.  Every iteration
that continues consumes at least one digit, so `fuel ≥ pos.length` is never
exhausted. -/
def readInts (max_size : Nat) : Nat → List Char → List Int → List Int
  | 0, _, acc => acc
  | fuel + 1, pos, acc =>
    match pos with
    | [] => acc
    | c :: _ =>
      if c = ']' ∨ max_size ≤ acc.length then acc
      else
        let pos := pos.dropWhile (fun c => isspace c || c = ',')
        match pos with
        | ']' :: _ => acc
        | _ =>
          match strtol pos with
          | none => acc
          | some (value, e) => readInts max_size fuel e (acc ++ [value])

/-- The function `extractString` (identical in both readers): the text between
the quotes of the value of `key`, cut to `max_len - 1` characters. -/
def extractString (line : List Char) (key : String) (max_len : Nat) : Option (List Char) :=
  let search_str := ['"'] ++ key.toList ++ ['"']
  match strstr line search_str with
  | none => none
  | some pos =>
    match strchr pos ':' with
    | none => none
    | some pos =>
      let pos := (pos.drop 1).dropWhile isspace
      match pos with
      | '"' :: pos =>
        match strchr pos '"' with
        | none => none
        | some e =>
          let len := pos.length - e.length
          let len := if max_len ≤ len then max_len - 1 else len
          some (pos.take len)
      | _ => none

/-- The function `extractArray` (identical in both readers); an array that
cannot be read is left with size 0. -/
def extractArray (line : List Char) (max_size : Nat) : List Int :=
  match strchr line '[' with
  | none => []
  | some pos => readInts max_size pos.length (pos.drop 1) []

/-- What both readers produce: the `JSONData` structure.  A `Step` has the
fields of an `IRNode` (action, operands, operand count). -/
structure JSONData where
  algorithm : String
  array : List Int
  steps : List IRNode
deriving DecidableEq, Repr

/-- The prefix both `parseJSON` functions share: algorithm name (default
`"Algorithm"`, at most 63 characters) and array. -/
def parseHeader (buffer : List Char) : String × List Int :=
  let algorithm :=
    match extractString buffer "algorithm" 64 with
    | some alg_name => String.mk (alg_name.take 63)
    | none => "Algorithm"
  let array :=
    match strstr buffer "\"array\"".toList with
    | some _ => extractArray buffer 256
    | none => []
  (algorithm, array)

/-- The step built from the text of one step object: the action (at most 31
characters, empty when there is none) and the operands found by the reader's
`extractIndices` (none when it fails). -/
def stepOfObject (extractIndices : List Char → Option (List Int)) (step_obj : List Char) :
    IRNode :=
  let action :=
    match extractString step_obj "action" 64 with
    | some action => String.mk (action.take 31)
    | none => ""
  let indices :=
    match extractIndices step_obj with
    | some l => l
    | none => []
  ⟨action, indices⟩

namespace CliVisualizer

/-- The function `extractIndices` of `cli_visualizer.c`: `some operands` when
it returns 1, `none` when it returns 0. -/
def extractIndices (line : List Char) : Option (List Int) :=
  let fromIndex : Option (List Int) :=
    match strstr line "\"index\"".toList with
    | none => none
    | some index_pos =>
      match strchr index_pos ':' with
      | none => none
      | some index_pos =>
        let index_pos := (index_pos.drop 1).dropWhile isspace
        match strtol index_pos with
        | some (value, _) => some [value]
        | none => none
  match strstr line "\"indices\"".toList with
  | some indices_pos =>
    match strchr indices_pos '[' with
    | some arr_start => some (readInts 4 arr_start.length (arr_start.drop 1) [])
    | none => fromIndex
  | none => fromIndex

/-- The loop `while (*steps_start)` of `parseJSON` in `cli_visualizer.c`: the
next `\x7b`, the next `\x7d` after it, one step from the text between them.
Every iteration moves `steps_start` forward, so `fuel ≥ steps_start.length`
is never exhausted. -/
def parseStepsLoop : Nat → List Char → List IRNode → List IRNode
  | 0, _, steps => steps
  | fuel + 1, steps_start, steps =>
    match steps_start with
    | [] => steps
    | _ :: _ =>
      match strchr steps_start '\x7b' with
      | none => steps
      | some obj_start =>
        match strchr obj_start '\x7d' with
        | none => steps
        | some obj_end =>
          let obj_len := obj_start.length - obj_end.length
          let step_obj := obj_start.take obj_len
          let step := stepOfObject extractIndices step_obj
          parseStepsLoop fuel (obj_end.drop 1) (steps ++ [step])

/-- The function `parseJSON` of `cli_visualizer.c`, applied to the contents of
the file. -/
def parseJSON (buffer : List Char) : JSONData :=
  let h := parseHeader buffer
  let steps :=
    match strstr buffer "\"steps\"".toList with
    | none => []
    | some steps_start =>
      match strchr steps_start '[' with
      | none => []
      | some steps_start => parseStepsLoop steps_start.length (steps_start.drop 1) []
  { algorithm := h.1, array := h.2, steps := steps }

end CliVisualizer

namespace JsonToJs

/-- The function `parseNumber` of `json_to_js.c`: succeeds only when `strtol`
consumes the text up to its end (`end != str && *end == '\0'`). -/
def parseNumber (str : List Char) : Option Int :=
  match strtol str with
  | some (value, e) => if e = [] then some value else none
  | none => none

/-- The function `extractIndices` of `json_to_js.c`: `some operands` when it
returns 1, `none` when it returns 0. -/
def extractIndices (line : List Char) : Option (List Int) :=
  let fromIndex : Option (List Int) :=
    match strstr line "\"index\"".toList with
    | none => none
    | some index_pos =>
      match strchr index_pos ':' with
      | none => none
      | some index_pos =>
        let index_pos := (index_pos.drop 1).dropWhile isspace
        match parseNumber index_pos with
        | some value => some [value]
        | none => none
  match strstr line "\"indices\"".toList with
  | some indices_pos =>
    match strchr indices_pos '[' with
    | some arr_start => some (readInts 4 arr_start.length (arr_start.drop 1) [])
    | none => fromIndex
  | none => fromIndex

/-- The brace-matching loop `while (obj_end < steps_end && brace_count > 0)`:
`obj_end` is the suffix scanned, `remaining` the number of characters before
`steps_end`.  Returns the final `obj_end`, `remaining` and `brace_count`. -/
def matchBrace : List Char → Nat → Nat → List Char × Nat × Nat
  | [], remaining, brace_count => ([], remaining, brace_count)
  | c :: obj_end, remaining, brace_count =>
    if 0 < remaining ∧ 0 < brace_count then
      let brace_count :=
        if c = '\x7b' then brace_count + 1
        else if c = '\x7d' then brace_count - 1
        else brace_count
      matchBrace obj_end (remaining - 1) brace_count
    else (c :: obj_end, remaining, brace_count)

/-- The loop `while (step_pos < steps_end)` of `parseJSON` in `json_to_js.c`.
`step_pos` is the suffix of the buffer at the current position and `remaining`
is `steps_end - step_pos`.  Every iteration moves `step_pos` forward, so
`fuel ≥ remaining` is never exhausted. -/
def parseStepsLoop : Nat → List Char → Nat → List IRNode → List IRNode
  | 0, _, _, steps => steps
  | fuel + 1, step_pos, remaining, steps =>
    if remaining = 0 then steps
    else
      -- skip white space and commas, not past `steps_end`
      let skipped := ((step_pos.take remaining).takeWhile (fun c => isspace c || c = ',')).length
      let step_pos := step_pos.drop skipped
      let remaining := remaining - skipped
      if remaining = 0 then steps
      else
        match strchr step_pos '\x7b' with
        | none => steps
        | some obj_start =>
          let before := step_pos.length - obj_start.length
          if remaining ≤ before then steps
          else
            let m := matchBrace (obj_start.drop 1) (remaining - before - 1) 1
            let obj_end := m.1
            if m.2.2 ≠ 0 then steps
            else
              let obj_len := obj_start.length - obj_end.length + 1
              let step_obj := obj_start.take obj_len
              let step := stepOfObject extractIndices step_obj
              parseStepsLoop fuel (obj_end.drop 1) (m.2.1 - 1) (steps ++ [step])

/-- The function `parseJSON` of `json_to_js.c`, applied to the contents of the
file. -/
def parseJSON (buffer : List Char) : JSONData :=
  let h := parseHeader buffer
  let steps :=
    match strstr buffer "\"steps\"".toList with
    | none => []
    | some steps_start =>
      match strchr steps_start '[' with
      | none => []
      | some steps_start =>
        let steps_start := steps_start.drop 1
        match strrchrOffset steps_start ']' with
        | none => []
        | some steps_end => parseStepsLoop steps_end steps_start steps_end []
  { algorithm := h.1, array := h.2, steps := steps }

end JsonToJs

/-- The largest value `top` takes at the head of an iteration of the loop of
`generateQuickSortSteps` (same recursion as `quickLoop`); the C array `stack`
has room for 256 ranges. -/
def quickLoopPeak : Nat → List (Int × Int) → SortSt → Nat
  | 0, stack, _ => stack.length
  | _ + 1, [], _ => 0
  | fuel + 1, (low, high) :: stack, s =>
    if low < high then
      let p := partitionRange low high s
      let i := p.i
      let stack' := if i + 1 + 1 < high then (i + 2, high) :: stack else stack
      let stack' := if low < i + 1 - 1 then (low, i) :: stack' else stack'
      max (stack.length + 1) (quickLoopPeak fuel stack' p.s)
    else
      max (stack.length + 1) (quickLoopPeak fuel stack s)

/-! ## Queue operations (`codegen.c`) -/

/-- State of `generateQueueOperations`: the array `queue[256]`, the indices
`front` and `rear`, the element count `size`, and the events emitted so far. -/
structure QueueGenSt where
  queue : List Int
  front : Int
  rear : Int
  size : Int
  ir : List IRNode
deriving DecidableEq, Repr

/-- One iteration of the loop of `generateQueueOperations`. -/
def queueOpStep (st : QueueGenSt) (op : OperationNode) : QueueGenSt :=
  if op.operation = "enqueue" then
    let rear := st.rear + 1
    let queue := st.queue.set rear.toNat op.value
    let size := st.size + 1
    let indices : List Int := [rear, op.value]
    { st with queue := queue, rear := rear, size := size,
              ir := addIRWithIndices st.ir "enqueue" indices }
  else if op.operation = "dequeue" then
    if st.size > 0 then
      let val := st.queue.getD st.front.toNat 0
      let indices : List Int := [st.front, val]
      { st with front := st.front + 1, size := st.size - 1,
                ir := addIRWithIndices st.ir "dequeue" indices }
    else st
  else st

/-- Final state of `generateQueueOperations` for the recorded operations.  The
array has 256 cells; the initial contents are never read before being
written. -/
def queueOpsRun (ds_operations : List OperationNode) : QueueGenSt :=
  ds_operations.foldl queueOpStep
    { queue := List.replicate 256 0, front := 0, rear := -1, size := 0, ir := [] }

/-- The trace emitted by `generateQueueOperations`. -/
def generateQueueOperations (ds_operations : List OperationNode) : List IRNode :=
  (queueOpsRun ds_operations).ir

/-- Final state of `generateStackOperations` for the recorded operations. -/
def stackOpsRun (ds_operations : List OperationNode) : StackGenSt :=
  ds_operations.foldl stackOpStep { stack := List.replicate 256 0, top := -1, ir := [] }

/-! ## Graph operations (`codegen.c`) -/

/-- State of the breadth-first search in `generateGraphOperations`: the array
`visited[256]`, the queue (cells `0..q_rear`, so `queue[++q_rear] = x` is an
append), the index `q_front`, and the events emitted so far. -/
structure BfsSt where
  visited : List Int
  queue : List Int
  q_front : Nat
  ir : List IRNode
deriving DecidableEq, Repr

/-- Body of the loop `for (i = 0; i < edge_count; i++)` of the breadth-first
search, for the edge `edges[i] = e` and the dequeued node `current`. -/
def bfsEdgeStep (current : Int) (st : BfsSt) (e : Int × Int) : BfsSt :=
  if e.1 = current ∧ st.visited.getD e.2.toNat 0 = 0 then
    let visit_indices : List Int := [e.2]
    { st with visited := st.visited.set e.2.toNat 1, queue := st.queue ++ [e.2],
              ir := addIRWithIndices st.ir "visit" visit_indices }
  else if e.2 = current ∧ st.visited.getD e.1.toNat 0 = 0 then
    let visit_indices : List Int := [e.1]
    { st with visited := st.visited.set e.1.toNat 1, queue := st.queue ++ [e.1],
              ir := addIRWithIndices st.ir "visit" visit_indices }
  else st

/-- The loop `while (q_front <= q_rear)` of the breadth-first search.  Every
iteration advances `q_front`; `bfsLoop_spec` shows that the fuel passed by
`bfsRun` is never exhausted. -/
def bfsLoop (edges : List (Int × Int)) : Nat → BfsSt → BfsSt
  | 0, st => st
  | fuel + 1, st =>
    if st.q_front < st.queue.length then
      let current := st.queue.getD st.q_front 0
      let st := { st with q_front := st.q_front + 1 }
      bfsLoop edges fuel (edges.foldl (bfsEdgeStep current) st)
    else st

/-- The `bfs` branch of `generateGraphOperations`, started from `op->value`
with the edges recorded so far: the final search state. -/
def bfsRun (edges : List (Int × Int)) (start : Int) (ir : List IRNode) : BfsSt :=
  let indices : List Int := [start]
  let ir := addIRWithIndices ir "bfs_start" indices
  let visited := (List.replicate 256 (0 : Int)).set start.toNat 1
  let queue : List Int := [start]
  let ir := addIRWithIndices ir "visit" indices
  bfsLoop edges 256 { visited := visited, queue := queue, q_front := 0, ir := ir }

/-- State of the depth-first search in `generateGraphOperations`: the array
`visited[256]`, the explicit stack (head = `stack[top]`), and the events
emitted so far. -/
structure DfsSt where
  visited : List Int
  stack : List Int
  ir : List IRNode
deriving DecidableEq, Repr

/-- Body of the loop `for (i = 0; i < edge_count; i++)` of the depth-first
search: pushes the unvisited neighbour of `current` across the edge `e`. -/
def dfsEdgeStep (current : Int) (st : DfsSt) (e : Int × Int) : DfsSt :=
  if e.1 = current ∧ st.visited.getD e.2.toNat 0 = 0 then
    { st with stack := e.2 :: st.stack }
  else if e.2 = current ∧ st.visited.getD e.1.toNat 0 = 0 then
    { st with stack := e.1 :: st.stack }
  else st

/-- The loop `while (top >= 0)` of the depth-first search.  Every iteration
pops one entry; `dfsLoop_spec` shows that the fuel passed by `dfsRun` is never
exhausted. -/
def dfsLoop (edges : List (Int × Int)) : Nat → DfsSt → DfsSt
  | 0, st => st
  | fuel + 1, st =>
    match st.stack with
    | [] => st
    | current :: rest =>
      let st := { st with stack := rest }
      if st.visited.getD current.toNat 0 = 0 then
        let visit_indices : List Int := [current]
        let st := { st with visited := st.visited.set current.toNat 1,
                            ir := addIRWithIndices st.ir "visit" visit_indices }
        dfsLoop edges fuel (edges.foldl (dfsEdgeStep current) st)
      else
        dfsLoop edges fuel st

/-- The `dfs` branch of `generateGraphOperations`: the final search state. -/
def dfsRun (edges : List (Int × Int)) (start : Int) (ir : List IRNode) : DfsSt :=
  let indices : List Int := [start]
  let ir := addIRWithIndices ir "dfs_start" indices
  dfsLoop edges (edges.length + 1)
    { visited := List.replicate 256 (0 : Int), stack := [start], ir := ir }

/-- State of `generateGraphOperations`: the arrays `nodes` and `edges` (filled
from index 0, so a store at `node_count++` / `edge_count++` is an append) and
the events emitted so far. -/
structure GraphGenSt where
  nodes : List Int
  edges : List (Int × Int)
  ir : List IRNode
deriving DecidableEq, Repr

/-- One iteration of the loop of `generateGraphOperations`. -/
def graphOpStep (st : GraphGenSt) (op : OperationNode) : GraphGenSt :=
  if op.operation = "add_node" then
    let indices : List Int := [op.value]
    { st with nodes := st.nodes ++ [op.value],
              ir := addIRWithIndices st.ir "add_node" indices }
  else if op.operation = "add_edge" then
    let indices : List Int := [op.value, op.value2]
    { st with edges := st.edges ++ [(op.value, op.value2)],
              ir := addIRWithIndices st.ir "add_edge" indices }
  else if op.operation = "bfs" then
    { st with ir := (bfsRun st.edges op.value st.ir).ir }
  else if op.operation = "dfs" then
    { st with ir := (dfsRun st.edges op.value st.ir).ir }
  else st

/-- Final state of `generateGraphOperations` for the recorded operations. -/
def graphOpsRun (ds_operations : List OperationNode) : GraphGenSt :=
  ds_operations.foldl graphOpStep { nodes := [], edges := [], ir := [] }

/-- The trace emitted by `generateGraphOperations`. -/
def generateGraphOperations (ds_operations : List OperationNode) : List IRNode :=
  (graphOpsRun ds_operations).ir

/-! ## Interactive player: graph display (`displayGraph`) -/

/-- State of the collecting loop of `displayGraph`: `nodes`, `edges` and the
array `visited_nodes[256]`. -/
structure GraphShown where
  nodes : List Int
  edges : List (Int × Int)
  visited_nodes : List Int
deriving DecidableEq, Repr

/-- One iteration of the collecting loop of `displayGraph`. -/
def displayGraphStep (g : GraphShown) (step : IRNode) : GraphShown :=
  if step.action = "add_node" ∧ step.indices.length ≥ 1 then
    let node := step.indices.getD 0 0
    if g.visited_nodes.getD node.toNat 0 = 0 then
      { g with nodes := g.nodes ++ [node], visited_nodes := g.visited_nodes.set node.toNat 1 }
    else g
  else if step.action = "add_edge" ∧ step.indices.length ≥ 2 then
    { g with edges := g.edges ++ [(step.indices.getD 0 0, step.indices.getD 1 0)] }
  else g

/-- The node list and edge list `displayGraph(steps)` prints. -/
def displayGraph (steps : List IRNode) : List Int × List (Int × Int) :=
  let g := steps.foldl displayGraphStep
    { nodes := [], edges := [], visited_nodes := List.replicate 256 0 }
  (g.nodes, g.edges)

/-- The graph that `visualizeStep` displays for the step at position `i` of the
list `steps`, if that step is `add_node`, `add_edge`, `bfs_start` or
`dfs_start` (`none` for a step that shows no graph).  All four branches call
`displayGraph(data->steps)`, on the whole list of steps. -/
def graphShownAt (steps : List IRNode) (i : Nat) : Option (List Int × List (Int × Int)) :=
  match steps[i]? with
  | none => none
  | some step =>
    if step.action = "add_node" ∧ step.indices.length ≥ 1 then some (displayGraph steps)
    else if step.action = "add_edge" ∧ step.indices.length ≥ 2 then some (displayGraph steps)
    else if step.action = "bfs_start" ∨ step.action = "dfs_start" then
      some (displayGraph steps)
    else none

/-! ## The arrays held by the two replay engines -/

/-- What one call of `visualizeStep` does to the player's `working_array`
(`array_size` is `data->array_size`): the `swap` branch exchanges two
positions, the `push` branch stores the pushed value at its position when that
position lies inside the array, and no other branch writes to the array. -/
def visualizeStepArray (array_size : Nat) (working_array : List Int) (step : IRNode) :
    List Int :=
  if step.action = "compare" ∧ step.indices.length ≥ 2 then working_array
  else if step.action = "swap" ∧ step.indices.length ≥ 2 then
    let i := step.indices.getD 0 0
    let j := step.indices.getD 1 0
    swapEntries working_array i.toNat j.toNat
  else if step.action = "no_swap" ∧ step.indices.length ≥ 2 then working_array
  else if step.action = "mark_sorted" ∧ step.indices.length ≥ 1 then working_array
  else if step.action = "push" ∧ step.indices.length ≥ 2 then
    let pos := step.indices.getD 0 0
    let val := step.indices.getD 1 0
    if pos ≥ 0 ∧ pos < (array_size : Int) then working_array.set pos.toNat val
    else working_array
  else working_array

/-- The player's `working_array` after `main` of `cli_visualizer.c` has copied
the array of the file and called `visualizeStep` on every step. -/
def playerArray (array : List Int) (steps : List IRNode) : List Int :=
  steps.foldl (visualizeStepArray array.length) array

/-- What one iteration of the playback loop of `generateJS` does to the shadow
array `data->array`: only a `swap` with at least two operands changes it. -/
def generateJSArrayStep (array : List Int) (curr : IRNode) : List Int :=
  if curr.action = "compare" then array
  else if curr.action = "swap" then
    if curr.indices.length ≥ 2 then
      let i := curr.indices.getD 0 0
      let j := curr.indices.getD 1 0
      swapEntries array i.toNat j.toNat
    else array
  else array

/-- The shadow array of `generateJS` after all steps. -/
def emitterArray (array : List Int) (steps : List IRNode) : List Int :=
  steps.foldl generateJSArrayStep array

/-! ## Reference behaviour of the stack and queue generators

These definitions follow the wording of the specification, on an ordinary list,
and are compared with the array-based generators. -/

/-- The stack events as the specification words them, for the operations
`ops` applied to a stack holding `stk` (top last): a push of `v` gives
`push(k, v)` with `k` the number of elements before the push; a pop on a
non-empty stack gives `pop(k, v)` with `v` the top and `k` the size minus one;
a peek or top on a non-empty stack gives `peek(size - 1)`; anything on an
empty stack gives no event. -/
def stackEventsSpec : List OperationNode → List Int → List IRNode
  | [], _ => []
  | op :: ops, stk =>
    if op.operation = "push" then
      ⟨"push", [(stk.length : Int), op.value]⟩ :: stackEventsSpec ops (stk ++ [op.value])
    else if op.operation = "pop" then
      if stk = [] then stackEventsSpec ops stk
      else ⟨"pop", [(stk.length : Int) - 1, stk.getLastD 0]⟩ :: stackEventsSpec ops stk.dropLast
    else if op.operation = "peek" ∨ op.operation = "top" then
      if stk = [] then stackEventsSpec ops stk
      else ⟨"peek", [(stk.length : Int) - 1]⟩ :: stackEventsSpec ops stk
    else stackEventsSpec ops stk

/-- Number of operations of a list that carry the given name. -/
def countOps (name : String) (ops : List OperationNode) : Nat :=
  ops.countP (fun op => op.operation = name)

/-- The generator's array-and-index state represents the list `stk`. -/
def StackSim (st : StackGenSt) (stk : List Int) : Prop :=
  st.stack.length = 256 ∧ st.top = (stk.length : Int) - 1 ∧
    ∀ i, i < stk.length → st.stack.getD i 0 = stk.getD i 0

/-- The queue events as the specification words them, for the operations
`ops` when the values enqueued so far are `all` (in order) and `m` dequeue
events have been emitted: the enqueue of `v` gives `enqueue(k, v)` with `k`
the number of earlier enqueues; a dequeue gives an event exactly when fewer
values have been dequeued than enqueued, and that event is `dequeue(m, w)`
with `w` the value of the `m`-th enqueue. -/
def queueEventsSpec : List OperationNode → List Int → Nat → List IRNode
  | [], _, _ => []
  | op :: ops, all, m =>
    if op.operation = "enqueue" then
      ⟨"enqueue", [(all.length : Int), op.value]⟩ :: queueEventsSpec ops (all ++ [op.value]) m
    else if op.operation = "dequeue" then
      if m < all.length then
        ⟨"dequeue", [(m : Int), all.getD m 0]⟩ :: queueEventsSpec ops all (m + 1)
      else queueEventsSpec ops all m
    else queueEventsSpec ops all m

/-- The generator's array-and-index state represents the list `all` of
enqueued values with `m` of them dequeued. -/
def QueueSim (st : QueueGenSt) (all : List Int) (m : Nat) : Prop :=
  st.queue.length = 256 ∧ st.rear = (all.length : Int) - 1 ∧ st.front = (m : Int) ∧
    st.size = (all.length : Int) - (m : Int) ∧ m ≤ all.length ∧
    ∀ i, i < all.length → st.queue.getD i 0 = all.getD i 0

/-! ## Reference notions for the tree generator -/

/-- The recorded operations of a program that only inserts the given values. -/
def insertOps (vals : List Int) : List OperationNode :=
  vals.map (fun v => ⟨"insert", v, 0⟩)

/-- The binary-search-tree order that `insertTreeNode` maintains: smaller
values to the left, greater or equal values to the right. -/
def IsBST : TreeNode → Prop
  | .nil => True
  | .node v l r =>
    (∀ x ∈ inorderTraversal l, x < v) ∧ (∀ x ∈ inorderTraversal r, v ≤ x) ∧ IsBST l ∧ IsBST r

/-! ## Graph searches: what is to be visited -/

/-- Two node ids are joined by one recorded edge, taken in either direction. -/
def Adj (edges : List (Int × Int)) (u w : Int) : Prop :=
  ∃ e ∈ edges, (e.1 = u ∧ e.2 = w) ∨ (e.2 = u ∧ e.1 = w)

/-- Node `v` is connected to `s` by a path of recorded edges, each taken in
either direction (the empty path connects `s` to itself). -/
def Connected (edges : List (Int × Int)) (s v : Int) : Prop :=
  Relation.ReflTransGen (Adj edges) s v

/-- A node id that indexes the arrays `visited[256]`. -/
def NodeOK (x : Int) : Prop := 0 ≤ x ∧ x < 256

/-- Every endpoint of every recorded edge is a node id in `0..255`. -/
def EdgesOK (edges : List (Int × Int)) : Prop :=
  ∀ e ∈ edges, NodeOK e.1 ∧ NodeOK e.2

/-- The events `visit(v)` for the values of a list, in order. -/
def visitEvents (l : List Int) : List IRNode :=
  l.map (fun v => ⟨"visit", [v]⟩)

/-- The operations `add_edge(u, v)` for a list of edges. -/
def addEdgeOps (edges : List (Int × Int)) : List OperationNode :=
  edges.map (fun e => ⟨"add_edge", e.1, e.2⟩)

/-- The events `add_edge(u, v)` for a list of edges. -/
def addEdgeEvents (edges : List (Int × Int)) : List IRNode :=
  edges.map (fun e => ⟨"add_edge", [e.1, e.2]⟩)

/-- Invariant of the breadth-first search between edge steps: the queue holds
each discovered node once, `visited` marks exactly the queued nodes, one
`visit` event was emitted per queued node, and every queued node is connected
to the source, which is queued first. -/
structure BfsBase (edges : List (Int × Int)) (start : Int) (ir0 : List IRNode)
    (st : BfsSt) : Prop where
  vlen : st.visited.length = 256
  qrange : ∀ x ∈ st.queue, NodeOK x
  qnodup : st.queue.Nodup
  vis : ∀ x, NodeOK x → (st.visited.getD x.toNat 0 ≠ 0 ↔ x ∈ st.queue)
  ir_eq : st.ir = ir0 ++ visitEvents st.queue
  conn : ∀ x ∈ st.queue, Connected edges start x
  head : st.queue.head? = some start

/-- Invariant of the loop `while (q_front <= q_rear)`: the base invariant, and
every neighbour of every dequeued node is queued. -/
structure BfsInv (edges : List (Int × Int)) (start : Int) (ir0 : List IRNode)
    (st : BfsSt) : Prop where
  base : BfsBase edges start ir0 st
  front_le : st.q_front ≤ st.queue.length
  closed : ∀ u ∈ st.queue.take st.q_front, ∀ w, Adj edges u w → w ∈ st.queue

/-- Number of recorded edges neither endpoint of which is marked in `visited`:
the edges across which the depth-first search can still push a node. -/
def freshEdges (visited : List Int) (edges : List (Int × Int)) : Nat :=
  edges.countP (fun e => visited.getD e.1.toNat 0 = 0 ∧ visited.getD e.2.toNat 0 = 0)

/-- The largest number of entries the explicit stack of the depth-first search
holds at any point of `dfsLoop` (inside the loop over the edges the stack only
grows, so it is largest after that loop). -/
def dfsLoopPeak (edges : List (Int × Int)) : Nat → DfsSt → Nat
  | 0, st => st.stack.length
  | fuel + 1, st =>
    match st.stack with
    | [] => 0
    | current :: rest =>
      let st1 := { st with stack := rest }
      if st1.visited.getD current.toNat 0 = 0 then
        let visit_indices : List Int := [current]
        let st2 := { st1 with visited := st1.visited.set current.toNat 1,
                              ir := addIRWithIndices st1.ir "visit" visit_indices }
        max st.stack.length (dfsLoopPeak edges fuel (edges.foldl (dfsEdgeStep current) st2))
      else
        max st.stack.length (dfsLoopPeak edges fuel st1)

/-- Invariant of the loop `while (top >= 0)` of the depth-first search, for the
list `L` of the nodes visited so far: `visited` marks exactly the nodes of `L`,
one `visit` event was emitted per node of `L`, every visited or stacked node is
connected to the source, and every neighbour of a visited node is visited or
waits on the stack. -/
structure DfsInv (edges : List (Int × Int)) (start : Int) (ir0 : List IRNode)
    (st : DfsSt) (L : List Int) : Prop where
  vlen : st.visited.length = 256
  ir_eq : st.ir = ir0 ++ visitEvents L
  nodup : L.Nodup
  vis : ∀ x, NodeOK x → (st.visited.getD x.toNat 0 ≠ 0 ↔ x ∈ L)
  srange : ∀ x ∈ st.stack, NodeOK x
  sconn : ∀ x ∈ st.stack, Connected edges start x
  lconn : ∀ x ∈ L, Connected edges start x
  closed : ∀ u ∈ L, ∀ w, Adj edges u w → w ∈ L ∨ w ∈ st.stack
  first : L.head? = some start ∨ (L = [] ∧ st.stack = [start])

/-! ## The syntax tree (`ast.h`, `ast.c`) -/

/-- The enumeration `NodeType` of `ast.h`. -/
inductive NodeType where
  | ASSIGN_NODE
  | LOOP_NODE
  | IF_NODE
  | VALUE_NODE
  | NUMBER_NODE
  | SEQ_NODE
  | ARRAY_DECL_NODE
  | ALGORITHM_CALL_NODE
deriving DecidableEq, Repr

/-- The structure `ASTNode` of `ast.h`; `null` is the `NULL` pointer.  The
constructors of `ast.c` keep `array_values` and `array_count` in step (either
`NULL` and 0, or `array_count > 0` values), so the two fields are one list;
`name` is `none` for a `NULL` string. -/
inductive ASTNode where
  | null : ASTNode
  | node (type : NodeType) (name : Option String) (number : Int) (array_values : List Int)
      (left right body cond inc : ASTNode) : ASTNode
deriving Repr

/-- The field `right` of a node that is not `NULL`. -/
def ASTNode.right : ASTNode → ASTNode
  | .null => .null
  | .node _ _ _ _ _ right _ _ _ => right

/-! ## Code generation driver (`codegen.c`, `ir.c`) -/

/-- The global variables of `codegen.c` (`dsl_array` .. `has_error`) and of
`ir.c` (`algorithmName` .. the list of events).  The counters `loop_depth`,
`compare_index`, `node_count` and `semantic_error_line` are left out: they are
only written, or only read to print a message. -/
structure Globals where
  dsl_array : List Int
  dsl_array_size : Nat
  algorithm_to_generate : String
  ds_type : String
  ds_operations : List OperationNode
  has_error : Bool
  algorithmName : String
  algorithmArray : List Int
  algorithmArraySize : Nat
  detectedAlgorithm : String
  ir : List IRNode
deriving DecidableEq, Repr

/-- The globals as the program starts: static storage is zeroed, and
`algorithmName` is initialised to `"Algorithm"`. -/
def initialGlobals : Globals :=
  { dsl_array := List.replicate 256 0, dsl_array_size := 0, algorithm_to_generate := "",
    ds_type := "", ds_operations := [], has_error := false, algorithmName := "Algorithm",
    algorithmArray := List.replicate 256 0, algorithmArraySize := 0,
    detectedAlgorithm := "", ir := [] }

/-- The loop `for (i = 0; i < n; i++) dst[i] = src[i]`. -/
def copyInts (n : Nat) (src dst : List Int) : List Int :=
  forRange 0 n (fun i a => a.set i (src.getD i 0)) dst

/-- `strncpy(dst, src, n)` into a buffer whose byte `n` is zero: the first `n`
characters of `src` (names are ASCII, one byte per character). -/
def strncpy (src : String) (n : Nat) : String :=
  String.mk (src.data.take n)

/-- The function `isValidAlgorithm`. -/
def isValidAlgorithm (name : String) : Bool :=
  if name = "" then false
  else name = "bubble_sort" || name = "insertion_sort" || name = "selection_sort" ||
    name = "merge_sort" || name = "quick_sort" || name = "quicksort"

/-- The function `isValidDataStructure`. -/
def isValidDataStructure (name : String) : Bool :=
  if name = "" then false
  else name = "stack" || name = "queue" || name = "tree" || name = "graph"

/-- The function `isValidStackOperation`. -/
def isValidStackOperation (op : String) : Bool :=
  if op = "" then false
  else op = "push" || op = "pop" || op = "peek" || op = "top"

/-- The function `isValidQueueOperation`. -/
def isValidQueueOperation (op : String) : Bool :=
  if op = "" then false
  else op = "enqueue" || op = "dequeue"

/-- The function `isValidTreeOperation`. -/
def isValidTreeOperation (op : String) : Bool :=
  if op = "" then false
  else op = "insert" || op = "traverse_inorder" || op = "traverse_preorder" ||
    op = "traverse_postorder"

/-- The function `isValidGraphOperation`. -/
def isValidGraphOperation (op : String) : Bool :=
  if op = "" then false
  else op = "add_node" || op = "add_edge" || op = "bfs" || op = "dfs"

/-- The functions `reportError` and `reportErrorAtLine`: the message goes to
`stderr`; the effect on the globals is the error flag. -/
def reportError (g : Globals) : Globals :=
  { g with has_error := true }

/-- The function `atoi`, through `strtol`: 0 when no number is read. -/
def atoi (s : List Char) : Int :=
  match strtol s with
  | some (v, _) => v
  | none => 0

/-- The function `extractNumberFromAST`. -/
def extractNumberFromAST : ASTNode → Int
  | .null => 0
  | .node type name number _ _ _ _ _ _ =>
    if type = .NUMBER_NODE then number
    else if type = .VALUE_NODE then
      match name with
      | some nm => atoi nm.data
      | none => 0
    else 0

/-- The call `sscanf(name, "%[^.].%s", ds_name, op_name)`: the two strings when
both conversions succeed (return value 2).  `%[^.]` takes the characters before
the first dot and fails on none; `%s` skips white space and takes the
characters up to the next white space.  Neither conversion has a field width:
the source stores into `char ds_name[64]` and `char op_name[64]`, so the split
is what the code does for names of at most 63 bytes, the bound the theorem on
structure programs carries. -/
def scanDotted (name : List Char) : Option (List Char × List Char) :=
  let ds_name := name.takeWhile (fun c => c ≠ '.')
  if ds_name = [] then none
  else
    match name.dropWhile (fun c => c ≠ '.') with
    | '.' :: t =>
      let op_name := (t.dropWhile isspace).takeWhile (fun c => !isspace c)
      if op_name = [] then none else some (ds_name, op_name)
    | _ => none

/-- The function `addOperation`: appends to the list `ds_operations`. -/
def addOperation (g : Globals) (op : String) (val val2 : Int) : Globals :=
  { g with ds_operations := g.ds_operations ++ [⟨strncpy op 31, val, val2⟩] }

/-- The first statement of the `ARRAY_DECL_NODE` case of `collectDSLInfo`: a
declaration that lists values sets `dsl_array_size` and copies its values (at
most 256) to the front of `dsl_array`. -/
def storeDeclared (array_values : List Int) (g : Globals) : Globals :=
  if array_values.length > 0 then
    { g with dsl_array_size := array_values.length,
             dsl_array := copyInts (min array_values.length 256) array_values g.dsl_array }
  else g

/-- The function `collectDSLInfo`: the loop over `curr = curr->right`, which
stops after the first node that leaves the error flag set. -/
def collectDSLInfo : ASTNode → Globals → Globals
  | .null, g => g
  | .node type name _ array_values left right body _ _, g =>
    let g :=
      match type with
      | .ARRAY_DECL_NODE =>
        let g := storeDeclared array_values g
        if name = none ∨ name = some "" then reportError g else g
      | .ALGORITHM_CALL_NODE =>
        match name with
        | none => reportError g
        | some nm =>
          if (strchr nm.data '.').isSome then
            match scanDotted nm.data with
            | some (ds_name, op_name) =>
              let g := { g with ds_type := strncpy (String.mk ds_name) 31 }
              let val := extractNumberFromAST left
              let val2 := extractNumberFromAST left.right
              addOperation g (String.mk op_name) val val2
            | none => reportError g
          else
            let g := { g with algorithm_to_generate := strncpy nm 63 }
            match left with
            | .null => if g.dsl_array_size = 0 then reportError g else g
            | _ => g
      | .ASSIGN_NODE =>
        if name = none ∨ name = some "" then reportError g else g
      | _ => collectDSLInfo left (collectDSLInfo body g)
    if g.has_error then g else collectDSLInfo right g

/-- The function `setArray` of `ir.c`. -/
def setArray (g : Globals) (arr : List Int) (size : Nat) : Globals :=
  let algorithmArraySize := if size > 256 then 256 else size
  { g with algorithmArraySize := algorithmArraySize,
           algorithmArray := copyInts algorithmArraySize arr g.algorithmArray }

/-- The function `setAlgorithmName` of `ir.c`. -/
def setAlgorithmName (g : Globals) (name : String) : Globals :=
  { g with algorithmName := strncpy name 63 }

/-- The function `setDetectedAlgorithm` of `ir.c`. -/
def setDetectedAlgorithm (g : Globals) (name : String) : Globals :=
  { g with detectedAlgorithm := strncpy name 63 }

/-- The validation loop over `ds_operations` in `generateCode`, from the
operation `op` on: the error flag it leaves.  An invalid operation sets the
flag; the loop returns as soon as the flag is set. -/
def validateOperations (ds_type : String) : List OperationNode → Bool → Bool
  | [], has_error => has_error
  | op :: rest, has_error =>
    let has_error :=
      if ds_type = "stack" then
        if isValidStackOperation op.operation then has_error else true
      else if ds_type = "queue" then
        if isValidQueueOperation op.operation then has_error else true
      else if ds_type = "tree" then
        if isValidTreeOperation op.operation then has_error else true
      else if ds_type = "graph" then
        if isValidGraphOperation op.operation then has_error else true
      else has_error
    if has_error then true else validateOperations ds_type rest has_error

/-- The last statement of `generateCode`: the sort generator selected by
`algorithm_to_generate`, run over the first `array_size` cells of
`array_to_use`. -/
def generateSortSteps (algorithm_to_generate : String) (array_size : Nat)
    (array_to_use : List Int) : List IRNode :=
  if algorithm_to_generate = "bubble_sort" ∨ algorithm_to_generate = "" then
    generateBubbleSortSteps array_size array_to_use
  else if algorithm_to_generate = "insertion_sort" then
    generateInsertionSortSteps array_size array_to_use
  else if algorithm_to_generate = "selection_sort" then
    generateSelectionSortSteps array_size array_to_use
  else if algorithm_to_generate = "merge_sort" then
    generateMergeSortSteps array_size array_to_use
  else if algorithm_to_generate = "quick_sort" ∨ algorithm_to_generate = "quicksort" then
    generateQuickSortSteps array_size array_to_use
  else []

/-- The structure branch of `generateCode`, entered when operations were
recorded and `ds_type` is set.  The four generators append their events to the
list of events; `generateTreeOperations` also stores the inserted values with
`setArray`. -/
def generateStructure (g : Globals) : Globals :=
  if ¬ isValidDataStructure g.ds_type then reportError g
  else if validateOperations g.ds_type g.ds_operations g.has_error then
    { g with has_error := true, ds_operations := [] }
  else
    let g :=
      if g.ds_type = "stack" then
        let g := setDetectedAlgorithm (setAlgorithmName g "Stack Operations") "stack"
        { g with ir := g.ir ++ generateStackOperations g.ds_operations }
      else if g.ds_type = "queue" then
        let g := setDetectedAlgorithm (setAlgorithmName g "Queue Operations") "queue"
        { g with ir := g.ir ++ generateQueueOperations g.ds_operations }
      else if g.ds_type = "tree" then
        let g := setDetectedAlgorithm (setAlgorithmName g "Binary Tree Operations") "tree"
        let st := treeOpsRun g.ds_operations
        let g := { g with ir := g.ir ++ st.ir }
        if st.tree_values.length > 0 then setArray g st.tree_values st.tree_values.length
        else g
      else if g.ds_type = "graph" then
        let g := setDetectedAlgorithm (setAlgorithmName g "Graph Operations") "graph"
        { g with ir := g.ir ++ generateGraphOperations g.ds_operations }
      else g
    { g with ds_operations := [] }

/-- The sort branch of `generateCode`. -/
def generateSort (g : Globals) : Globals :=
  let default_array : List Int := [5, 3, 8, 4, 2]
  let array_size : Nat := 5
  let (g, array_size) :=
    if g.dsl_array_size > 0 then (setArray g g.dsl_array g.dsl_array_size, g.dsl_array_size)
    else
      let g := setArray g default_array array_size
      ({ g with dsl_array := copyInts array_size default_array g.dsl_array,
                dsl_array_size := array_size }, array_size)
  if g.algorithm_to_generate ≠ "" ∧ ¬ isValidAlgorithm g.algorithm_to_generate then
    reportError g
  else
    let display_name :=
      if g.algorithm_to_generate ≠ "" then
        if g.algorithm_to_generate = "bubble_sort" then "Bubble Sort"
        else if g.algorithm_to_generate = "insertion_sort" then "Insertion Sort"
        else if g.algorithm_to_generate = "selection_sort" then "Selection Sort"
        else if g.algorithm_to_generate = "merge_sort" then "Merge Sort"
        else if g.algorithm_to_generate = "quick_sort" ∨ g.algorithm_to_generate = "quicksort"
        then "Quick Sort"
        else "Algorithm"
      else "Bubble Sort"
    let g := setAlgorithmName g display_name
    let g := setDetectedAlgorithm g
      (if g.algorithm_to_generate ≠ "" then g.algorithm_to_generate else "bubble_sort")
    let array_to_use := if g.dsl_array_size > 0 then g.dsl_array else default_array
    { g with ir := g.ir ++ generateSortSteps g.algorithm_to_generate array_size array_to_use }

/-- The function `generateCode`, as a transformation of the globals. -/
def generateCode (node : ASTNode) (g : Globals) : Globals :=
  let g := { g with dsl_array_size := 0, algorithm_to_generate := "", ds_type := "",
                    ds_operations := [], has_error := false }
  let g := collectDSLInfo node g
  if g.ds_operations ≠ [] ∧ g.ds_type ≠ "" then generateStructure g
  else generateSort g

/-- The function `hasGenerationError`. -/
def hasGenerationError (g : Globals) : Bool :=
  g.has_error

/-- The array `writeIRToJSON` is given: the first `algorithmArraySize` cells of
`algorithmArray`. -/
def storedArray (g : Globals) : List Int :=
  g.algorithmArray.take g.algorithmArraySize

/-- The statement list made of the array declarations `decls` (name and
values), linked through `right` and followed by `rest`. -/
def declChain : List (String × List Int) → ASTNode → ASTNode
  | [], rest => rest
  | d :: ds, rest =>
    .node .ARRAY_DECL_NODE (some d.1) 0 d.2 .null (declChain ds rest) .null .null .null

/-- The statement `name(arg)`, as `createAlgorithmCallNode` builds it. -/
def algorithmCall (name : String) (arg : ASTNode) : ASTNode :=
  .node .ALGORITHM_CALL_NODE (some name) 0 [] arg .null .null .null .null

/-- The operand field of one written event as the specification words it:
nothing for no operand, a scalar `index` for exactly one operand, and otherwise
an `indices` array that lists all operands in order. -/
def operandFieldSpec : List Int → String
  | [] => ""
  | [v] => ",\n      \"index\": " ++ fmtInt v
  | v :: w :: rest =>
    ",\n      \"indices\": [" ++ ", ".intercalate ((v :: w :: rest).map fmtInt) ++ "]"

/-- One written event as the specification words it: the action followed by
the operand field. -/
def stepObjectSpec (e : IRNode) : String :=
  "    \x7b\n      \"action\": \"" ++ e.action ++ "\"" ++ operandFieldSpec e.indices ++
    "\n    \x7d"

/-! ## Code emitter: the text written by `generateJS` (`json_to_js.c`) -/

/-- The value `(i < data->array_size) ? data->array[i] : 0` that `generateJS`
logs for position `i`; the shadow array `array` has `data->array_size` cells.
(The events of a trace hold positions that are not negative.) -/
def shadowValue (array : List Int) (i : Int) : Int :=
  if i < (array.length : Int) then array.getD i.toNat 0 else 0

/-- The text one iteration of the playback loop of `generateJS` writes for the
step `curr`, with the shadow array `array` as it is before the step. -/
def generateJSStepText (array : List Int) (curr : IRNode) : String :=
  if curr.action = "compare" then
    if curr.indices.length ≥ 2 then
      let i := curr.indices.getD 0 0
      let j := curr.indices.getD 1 0
      let val_i := shadowValue array i
      let val_j := shadowValue array j
      "tracer.select(" ++ fmtInt i ++ ", " ++ fmtInt j ++ ");\n" ++
        "log.println('Compare " ++ fmtInt val_i ++ " and " ++ fmtInt val_j ++ "');\n" ++
        "Tracer.delay();\n\n"
    else ""
  else if curr.action = "swap" then
    if curr.indices.length ≥ 2 then
      let i := curr.indices.getD 0 0
      let j := curr.indices.getD 1 0
      let val_i := shadowValue array i
      let val_j := shadowValue array j
      "log.println('Swapping " ++ fmtInt val_i ++ " and " ++ fmtInt val_j ++ "');\n" ++
        "swap(" ++ fmtInt i ++ ", " ++ fmtInt j ++ ");\n" ++
        "tracer.deselect(" ++ fmtInt i ++ ", " ++ fmtInt j ++ ");\n" ++
        "Tracer.delay();\n\n"
    else ""
  else if curr.action = "no_swap" then
    if curr.indices.length ≥ 2 then
      let i := curr.indices.getD 0 0
      let j := curr.indices.getD 1 0
      "log.println('No swap needed');\n" ++
        "tracer.deselect(" ++ fmtInt i ++ ", " ++ fmtInt j ++ ");\n" ++
        "Tracer.delay();\n\n"
    else ""
  else if curr.action = "mark_sorted" then
    if curr.indices.length ≥ 1 then
      let idx := curr.indices.getD 0 0
      "log.println('âœ… Element at index " ++ fmtInt idx ++ " sorted');\n" ++
        "Tracer.delay();\n\n"
    else ""
  else if curr.action = "push" then
    if curr.indices.length ≥ 2 then
      let pos := curr.indices.getD 0 0
      let val := curr.indices.getD 1 0
      "log.println('Pushing " ++ fmtInt val ++ " onto stack');\n" ++
        "tracer.patch(" ++ fmtInt pos ++ ", " ++ fmtInt val ++ ");\n" ++
        "Tracer.delay();\n\n"
    else ""
  else if curr.action = "pop" then
    if curr.indices.length ≥ 2 then
      let pos := curr.indices.getD 0 0
      let val := curr.indices.getD 1 0
      "log.println('Popping " ++ fmtInt val ++ " from stack');\n" ++
        "tracer.depatch(" ++ fmtInt pos ++ ");\n" ++
        "Tracer.delay();\n\n"
    else ""
  else if curr.action = "peek" then
    if curr.indices.length ≥ 1 then
      let pos := curr.indices.getD 0 0
      "log.println('Peeking at top of stack');\n" ++
        "tracer.select(" ++ fmtInt pos ++ ");\n" ++
        "Tracer.delay();\n" ++
        "tracer.deselect(" ++ fmtInt pos ++ ");\n" ++
        "Tracer.delay();\n\n"
    else ""
  else if curr.action = "enqueue" then
    if curr.indices.length ≥ 2 then
      let pos := curr.indices.getD 0 0
      let val := curr.indices.getD 1 0
      "log.println('Enqueuing " ++ fmtInt val ++ "');\n" ++
        "tracer.patch(" ++ fmtInt pos ++ ", " ++ fmtInt val ++ ");\n" ++
        "Tracer.delay();\n\n"
    else ""
  else if curr.action = "dequeue" then
    if curr.indices.length ≥ 2 then
      let pos := curr.indices.getD 0 0
      let val := curr.indices.getD 1 0
      "log.println('Dequeuing " ++ fmtInt val ++ "');\n" ++
        "tracer.depatch(" ++ fmtInt pos ++ ");\n" ++
        "Tracer.delay();\n\n"
    else ""
  else if curr.action = "insert" then
    if curr.indices.length ≥ 4 then
      let val := curr.indices.getD 0 0
      let parent := curr.indices.getD 1 0
      let is_left := curr.indices.getD 2 0
      (if parent = -1 then
        "log.println('Inserting " ++ fmtInt val ++ " as root');\n" ++
          "tracer.setTreeData(\x7b '" ++ fmtInt val ++ "': \x7b value: " ++ fmtInt val ++
          " \x7d \x7d);\n"
      else
        "log.println('Inserting " ++ fmtInt val ++ " as " ++
          (if is_left ≠ 0 then "left" else "right") ++ " child of " ++ fmtInt parent ++
          "');\n" ++
          "tracer.setTreeData(\x7b '" ++ fmtInt val ++ "': \x7b value: " ++ fmtInt val ++
          ", parent: '" ++ fmtInt parent ++ "', left: " ++
          (if is_left ≠ 0 then "true" else "false") ++ " \x7d \x7d);\n") ++
        "Tracer.delay();\n\n"
    else if curr.indices.length ≥ 1 then
      let val := curr.indices.getD 0 0
      "log.println('Inserting node " ++ fmtInt val ++ "');\n" ++
        "tracer.select(" ++ fmtInt val ++ ");\n" ++
        "Tracer.delay();\n" ++
        "tracer.deselect(" ++ fmtInt val ++ ");\n" ++
        "Tracer.delay();\n\n"
    else ""
  else if curr.action = "visit" then
    if curr.indices.length ≥ 1 then
      let val := curr.indices.getD 0 0
      "log.println('Visiting node: " ++ fmtInt val ++ "');\n" ++
        "tracer.select(" ++ fmtInt val ++ ");\n" ++
        "Tracer.delay();\n" ++
        "tracer.deselect(" ++ fmtInt val ++ ");\n" ++
        "Tracer.delay();\n\n"
    else ""
  else if curr.action = "add_node" then
    if curr.indices.length ≥ 1 then
      let node := curr.indices.getD 0 0
      "log.println('Adding node " ++ fmtInt node ++ "');\n" ++
        "tracer.addNode(" ++ fmtInt node ++ ");\n" ++
        "Tracer.delay();\n\n"
    else ""
  else if curr.action = "add_edge" then
    if curr.indices.length ≥ 2 then
      let from_id := curr.indices.getD 0 0
      let to_id := curr.indices.getD 1 0
      "log.println('Adding edge from " ++ fmtInt from_id ++ " to " ++ fmtInt to_id ++ "');\n" ++
        "tracer.addEdge(" ++ fmtInt from_id ++ ", " ++ fmtInt to_id ++ ");\n" ++
        "Tracer.delay();\n\n"
    else ""
  else if curr.action = "bfs_start" ∨ curr.action = "dfs_start" then
    if curr.indices.length ≥ 1 then
      let start := curr.indices.getD 0 0
      "log.println('Starting " ++ (if curr.action = "bfs_start" then "BFS" else "DFS") ++
        " from node " ++ fmtInt start ++ "');\n" ++
        "tracer.select(" ++ fmtInt start ++ ");\n" ++
        "Tracer.delay();\n\n"
    else ""
  else ""

/-- The playback loop of `generateJS`: the text written for the steps, the
shadow array being updated after each step. -/
def generateJSSteps : List Int → List IRNode → String
  | _, [] => ""
  | array, curr :: rest =>
    generateJSStepText array curr ++ generateJSSteps (generateJSArrayStep array curr) rest

/-- Whether `generateJS` takes the subject for a tree or a graph:
`is_tree || is_graph`, two `strstr` tests on `data->algorithm`. -/
def isTreeOrGraph (algorithm : String) : Bool :=
  (strstr algorithm.data "Tree".toList).isSome || (strstr algorithm.data "Graph".toList).isSome

/-- The text `generateJS` writes before the helper function `swap`: the import
line, the array, and the tracer set-up. -/
def generateJSPreamble (data : JSONData) : String :=
  "// === Auto-Generated Visualization Script ===\n" ++
    (if isTreeOrGraph data.algorithm then
      "const \x7b Array1DTracer, GraphTracer, LogTracer, Layout, VerticalLayout, " ++
        "HorizontalLayout, Tracer \x7d = require('algorithm-visualizer');\n\n"
    else
      "const \x7b Array1DTracer, LogTracer, Layout, VerticalLayout, Tracer \x7d = " ++
        "require('algorithm-visualizer');\n\n") ++
    "const array = [" ++ writeIntList data.array ++ "];\n" ++
    (if isTreeOrGraph data.algorithm then
      "const tracer = new GraphTracer('" ++ data.algorithm ++ "');\n" ++
        "const log = new LogTracer('Log');\n\n" ++
        "Layout.setRoot(new VerticalLayout([tracer, log]));\n"
    else
      "const tracer = new Array1DTracer('" ++ data.algorithm ++ "');\n" ++
        "const log = new LogTracer('Log');\n\n" ++
        "Layout.setRoot(new VerticalLayout([tracer, log]));\n" ++
        "tracer.set(array);\n") ++
    "Tracer.delay();\n\n"

/-- The text `generateJS` writes for the trace `data`. -/
def generateJS (data : JSONData) : String :=
  generateJSPreamble data ++
    "function swap(i, j) \x7b\n" ++
    "  const temp = array[i];\n" ++
    "  array[i] = array[j];\n" ++
    "  array[j] = temp;\n" ++
    "  tracer.set(array);\n" ++
    "  Tracer.delay();\n" ++
    "\x7d\n\n" ++
    "// === Step Playback ===\n" ++
    generateJSSteps data.array data.steps ++
    "log.println('Done!');\n"

/-- The least number of operands `generateJS` needs to write anything for an
event with the given action (`none` for an action outside the vocabulary): two
for the actions that name two operands, one for the others; an `insert` with
one to three operands is written in a shorter form. -/
def requiredOperands (action : String) : Option Nat :=
  if action ∈ ["compare", "swap", "no_swap", "push", "pop", "enqueue", "dequeue", "add_edge"]
  then some 2
  else if action ∈
    ["mark_sorted", "peek", "visit", "add_node", "bfs_start", "dfs_start", "insert"]
  then some 1
  else none

/-- The graph preamble as the specification describes it: the import line
with `GraphTracer`, the array, a `GraphTracer` named after the subject, and no
`tracer.set(array)`. -/
def graphPreambleSpec (algorithm : String) (array : List Int) : String :=
  "// === Auto-Generated Visualization Script ===\n" ++
    "const \x7b Array1DTracer, GraphTracer, LogTracer, Layout, VerticalLayout, " ++
    "HorizontalLayout, Tracer \x7d = require('algorithm-visualizer');\n\n" ++
    "const array = [" ++ ", ".intercalate (array.map fmtInt) ++ "];\n" ++
    "const tracer = new GraphTracer('" ++ algorithm ++ "');\n" ++
    "const log = new LogTracer('Log');\n\n" ++
    "Layout.setRoot(new VerticalLayout([tracer, log]));\n" ++
    "Tracer.delay();\n\n"

/-- The array preamble as the specification describes it: the import line
without `GraphTracer`, the array, an `Array1DTracer` named after the subject,
and `tracer.set(array)`. -/
def arrayPreambleSpec (algorithm : String) (array : List Int) : String :=
  "// === Auto-Generated Visualization Script ===\n" ++
    "const \x7b Array1DTracer, LogTracer, Layout, VerticalLayout, Tracer \x7d = " ++
    "require('algorithm-visualizer');\n\n" ++
    "const array = [" ++ ", ".intercalate (array.map fmtInt) ++ "];\n" ++
    "const tracer = new Array1DTracer('" ++ algorithm ++ "');\n" ++
    "const log = new LogTracer('Log');\n\n" ++
    "Layout.setRoot(new VerticalLayout([tracer, log]));\n" ++
    "tracer.set(array);\n" ++
    "Tracer.delay();\n\n"

/-! ## Reference shape of the bubble-sort trace

These definitions follow the wording of the specification: they build the trace
from the initial array alone, the live values being those of the array obtained
by replaying the swap events emitted so far. -/

/-- What the specification appends for the pair `(i, i+1)` to the trace `ir` of
the array `A`: `compare(i, i+1)`, then `swap(i, i+1)` when the live value at `i`
is greater than the live value at `i+1`, and `no_swap(i, i+1)` otherwise. -/
def bubbleStepSpec (A : List Int) (ir : List IRNode) (i : Nat) : List IRNode :=
  ir ++ [⟨"compare", [(i : Int), ((i + 1 : Nat) : Int)]⟩,
    ⟨if (applySwapEvents A ir).getD i 0 > (applySwapEvents A ir).getD (i + 1) 0
      then "swap" else "no_swap", [(i : Int), ((i + 1 : Nat) : Int)]⟩]

/-- One pass of the specification: the pairs `i = 0..n-pass-2` in order, closed
by `mark_sorted(n-pass-1)`. -/
def bubblePassSpec (A : List Int) (ir : List IRNode) (pass : Nat) : List IRNode :=
  (List.range (A.length - pass - 1)).foldl (bubbleStepSpec A) ir ++
    [⟨"mark_sorted", [((A.length - pass - 1 : Nat) : Int)]⟩]

/-- The bubble-sort trace of `A` as the specification words it: the passes
`pass = 0..n-2` in order. -/
def bubbleTraceSpec (A : List Int) : List IRNode :=
  (List.range (A.length - 1)).foldl (bubblePassSpec A) []

/-- The operand lists of the `mark_sorted` events of a trace, in order. -/
def markedOperands (ir : List IRNode) : List (List Int) :=
  (ir.filter (fun e => e.action = "mark_sorted")).map (fun e => e.indices)

/-! ## Positions marked as sorted -/

/-- The event `e` is a swap that involves position `q` of the replayed array. -/
def Touches (e : IRNode) (q : Nat) : Prop :=
  e.action = "swap" ∧ e.indices.length ≥ 2 ∧
    ((e.indices.getD 0 0).toNat = q ∨ (e.indices.getD 1 0).toNat = q)

/-- No swap event of the trace involves a position that an earlier
`mark_sorted` event has marked. -/
def MarksKept (ir : List IRNode) : Prop :=
  ∀ (a b : Nat) (p : Int) (e : IRNode), a < b → ir[a]? = some ⟨"mark_sorted", [p]⟩ →
    ir[b]? = some e → ¬ Touches e p.toNat

/-- Invariant used inside the generators: marks are kept, and every position
marked so far belongs to the set `F` of positions the generator no longer
touches. -/
def Frozen (F : Nat → Prop) (ir : List IRNode) : Prop :=
  MarksKept ir ∧ ∀ p : Int, (⟨"mark_sorted", [p]⟩ : IRNode) ∈ ir → F p.toNat

/-- Once `mark_sorted(p)` has been emitted, position `p` is permanently placed:
in the array obtained by replaying the swap events of the trace on `A`, the
value at position `p` after any later event is the value it had immediately
after the `mark_sorted(p)` event. -/
def MarksPermanent (A : List Int) (ir : List IRNode) : Prop :=
  ∀ (k : Nat) (p : Int), ir[k]? = some ⟨"mark_sorted", [p]⟩ → ∀ m, k + 1 ≤ m →
    (applySwapEvents A (ir.take m)).getD p.toNat 0 =
      (applySwapEvents A (ir.take (k + 1))).getD p.toNat 0

/-- Position `q` lies in none of the ranges on the stack of quick sort. -/
def Outside (stack : List (Int × Int)) (q : Nat) : Prop :=
  ∀ r ∈ stack, ¬ (r.1 ≤ (q : Int) ∧ (q : Int) ≤ r.2)

/-- The trace holds no `mark_sorted` event. -/
def NoMarks (ir : List IRNode) : Prop :=
  ∀ e ∈ ir, e.action ≠ "mark_sorted"

/-! ## Reference shape of the selection-sort trace

These definitions follow the wording of the specification: they build the trace
from the initial array alone, the live values being those of the array obtained
by replaying the swap events emitted so far. -/

/-- What the specification appends for position `j` of the scan, given the
position `m` of the minimum found so far: `compare(m, j)` and `no_swap(m, j)`;
the minimum moves to `j` when the live value at `j` is smaller. -/
def selectionStepSpec (A : List Int) (st : Nat × List IRNode) (j : Nat) : Nat × List IRNode :=
  (if (applySwapEvents A st.2).getD j 0 < (applySwapEvents A st.2).getD st.1 0 then j else st.1,
    st.2 ++ [⟨"compare", [(st.1 : Int), (j : Int)]⟩, ⟨"no_swap", [(st.1 : Int), (j : Int)]⟩])

/-- The position the scan of pass `i` selects, with the trace after the scan:
the positions `j = i+1..n-1` in order, starting from the minimum position `i`. -/
def selectionScanSpec (A : List Int) (ir : List IRNode) (i : Nat) : Nat × List IRNode :=
  (List.range' (i + 1) (A.length - (i + 1))).foldl (selectionStepSpec A) (i, ir)

/-- One pass of the specification: the scan, `swap(i, min_idx)` exactly when the
selected position differs from `i`, and `mark_sorted(i)`. -/
def selectionPassSpec (A : List Int) (ir : List IRNode) (i : Nat) : List IRNode :=
  (selectionScanSpec A ir i).2 ++
    (if (selectionScanSpec A ir i).1 ≠ i then
      [⟨"swap", [(i : Int), ((selectionScanSpec A ir i).1 : Int)]⟩] else []) ++
    [⟨"mark_sorted", [(i : Int)]⟩]

/-- The selection-sort trace of `A` as the specification words it: the passes
`i = 0..n-2` in order. -/
def selectionTraceSpec (A : List Int) : List IRNode :=
  (List.range (A.length - 1)).foldl (selectionPassSpec A) []

/-- Every `compare` event of the trace is immediately followed by a `no_swap`
event with the same operands. -/
def ComparesPaired (ir : List IRNode) : Prop :=
  ∀ (k : Nat) (e : IRNode), ir[k]? = some e → e.action = "compare" →
    ir[k + 1]? = some ⟨"no_swap", e.indices⟩

/-- Invariant behind `ComparesPaired`: the trace is paired and does not end
with a `compare` event. -/
def PairedClosed (ir : List IRNode) : Prop :=
  ComparesPaired ir ∧ ∀ e, ir.getLast? = some e → e.action ≠ "compare"

/-! ## The player's final queue (`cli_visualizer.c`, `main`) -/

/-- One iteration of the loop over the steps that rebuilds the final queue in
`main` of `cli_visualizer.c`; the state is `(queue_arr, front, rear)`. -/
def finalQueueStep (st : List Int × Int × Int) (s : IRNode) : List Int × Int × Int :=
  let queue_arr := st.1
  let front := st.2.1
  let rear := st.2.2
  if s.action = "enqueue" ∧ s.indices.length ≥ 2 then
    let rear := rear + 1
    (queue_arr.set rear.toNat (s.indices.getD 1 0), front, rear)
  else if s.action = "dequeue" ∧ s.indices.length ≥ 2 then
    if front ≤ rear then (queue_arr, front + 1, rear) else (queue_arr, front, rear)
  else (queue_arr, front, rear)

/-- The `(queue_arr, front, rear)` that `main` of `cli_visualizer.c` passes to
`displayQueue` after the last step: `int queue_arr[256] = \x7b0\x7d`, `front = 0`,
`rear = -1`, folded over all steps. -/
def finalQueue (steps : List IRNode) : List Int × Int × Int :=
  steps.foldl finalQueueStep (List.replicate 256 0, 0, -1)

/-- The function `insertTreeNode` of `codegen.c` together with its
out-parameters: `out` is the pair `(*parent_val, *is_left)`, written at every
node the recursion passes and left untouched when `root` is `NULL`. -/
def insertTreeNodeOut : TreeNode → Int → Int × Int → TreeNode × (Int × Int)
  | .nil, value, out => (.node value .nil .nil, out)
  | .node v left right, value, out =>
    let out := (v, out.2)
    if value < v then
      let out := (out.1, 1)
      let r := insertTreeNodeOut left value out
      (.node v r.1 right, r.2)
    else
      let out := (out.1, 0)
      let r := insertTreeNodeOut right value out
      (.node v left r.1, r.2)

/-- The subtree reached from `t` by following `path` (`true` = left). -/
def TreeNode.subtreeAt : TreeNode → List Bool → TreeNode
  | t, [] => t
  | .nil, _ :: _ => .nil
  | .node _ l _, true :: path => l.subtreeAt path
  | .node _ _ r, false :: path => r.subtreeAt path

/-- In the tree `t'`, the node reached by `path` holds `p` and has the leaf
`v` as its child on side `s` (1 = left, 0 = right); in the tree `t`, the same
node had no child there and the same subtree on the other side. -/
def AttachedAt (t t' : TreeNode) (path : List Bool) (v p s : Int) : Prop :=
  (s = 1 ∧ ∃ r, t.subtreeAt path = .node p .nil r ∧
      t'.subtreeAt path = .node p (.node v .nil .nil) r) ∨
    (s = 0 ∧ ∃ l, t.subtreeAt path = .node p l .nil ∧
      t'.subtreeAt path = .node p l (.node v .nil .nil))

/-- The range stacks at the head of every iteration of the loop of
`generateQuickSortSteps`, in order (same recursion as `quickLoop`); the last
one is the stack on which the loop stops. -/
def quickLoopStacks : Nat → List (Int × Int) → SortSt → List (List (Int × Int))
  | 0, stack, _ => [stack]
  | _ + 1, [], _ => [[]]
  | fuel + 1, (low, high) :: stack, s =>
    if low < high then
      let p := partitionRange low high s
      let i := p.i
      let stack' := if i + 1 + 1 < high then (i + 2, high) :: stack else stack
      let stack' := if low < i + 1 - 1 then (low, i) :: stack' else stack'
      ((low, high) :: stack) :: quickLoopStacks fuel stack' p.s
    else
      ((low, high) :: stack) :: quickLoopStacks fuel stack s

/-! ## The circular-buffer queue of `algorithms.c` -/

/-- The value lists of the array declarations that the scan of
`collectDSLInfo` meets, in the order it meets them: along `right`, and for a
statement of another kind through `body` and then `left`. -/
def scanDeclared : ASTNode → List (List Int)
  | .null => []
  | .node type _ _ array_values left right body _ _ =>
    (match type with
      | .ARRAY_DECL_NODE => [array_values]
      | .ALGORITHM_CALL_NODE => []
      | .ASSIGN_NODE => []
      | _ => scanDeclared body ++ scanDeclared left) ++ scanDeclared right

/-- The scan of `collectDSLInfo` meets no call statement: neither an algorithm
call nor a structure operation, which are both `ALGORITHM_CALL_NODE`s. -/
def callFree : ASTNode → Bool
  | .null => true
  | .node type _ _ _ left right body _ _ =>
    (match type with
      | .ARRAY_DECL_NODE => true
      | .ALGORITHM_CALL_NODE => false
      | .ASSIGN_NODE => true
      | _ => callFree body && callFree left) && callFree right

/-- Every array declaration and every assignment the scan of `collectDSLInfo`
meets carries a name that is neither `NULL` nor empty. -/
def namedStatements : ASTNode → Bool
  | .null => true
  | .node type name _ _ left right body _ _ =>
    (match type with
      | .ARRAY_DECL_NODE => !(decide (name = none ∨ name = some ""))
      | .ALGORITHM_CALL_NODE => true
      | .ASSIGN_NODE => !(decide (name = none ∨ name = some ""))
      | _ => namedStatements body && namedStatements left) && namedStatements right

/-- The declared array of a program in the words of the specification: the
values of the last declaration that lists values, or `[5, 3, 8, 4, 2]` when no
declaration lists any. -/
def declaredArray (node : ASTNode) : List Int :=
  match ((scanDeclared node).filter (fun v => decide (v.length > 0))).getLast? with
  | some d => d
  | none => [5, 3, 8, 4, 2]

/-- Every operand of every event of the trace is a valid position of an array
of length `n`, that is lies in `0..n-1`. -/
def OperandsValid (n : Nat) (ir : List IRNode) : Prop :=
  ∀ e ∈ ir, ∀ x ∈ e.indices, 0 ≤ x ∧ x < (n : Int)

/-! ## Distances in the recorded graph -/

/-- The value `strtol` computes from a list of decimal digits. -/
def digitsValue (ds : List Char) : Nat :=
  ds.foldl (fun a c => 10 * a + (c.toNat - 48)) 0

/-- The characters of a written integer: decimal digits and the minus sign. -/
def numChar (c : Char) : Bool := c.isDigit || c = '-'

/-- Whether `needle` could begin at the start of `a` once more text follows:
no character of `a` contradicts it. -/
def mayStart : List Char → List Char → Bool
  | _, [] => true
  | [], _ :: _ => true
  | c :: a, d :: needle => c = d && mayStart a needle

/-- No occurrence of `needle` begins inside `pre`, whatever text follows. -/
def noEarly (pre needle : List Char) : Bool :=
  (List.range pre.length).all (fun i => !mayStart (pre.drop i) needle)

/-- The characters of a written list of integers. -/
def listChar (c : Char) : Bool := numChar c || c = ',' || c = ' '

/-- The text `writeIRToJSON` writes for the operands of a step. -/
def operandsText (e : IRNode) : List Char :=
  if e.indices.length > 0 then
    if e.indices.length = 1 then
      ",\n      \"index\": ".data ++ (fmtInt (e.indices.getD 0 0)).data
    else
      ",\n      \"indices\": [".data ++ (writeIntList e.indices).data ++ [']']
  else []

/-- The text of a step between its braces. -/
def stepBody (e : IRNode) : List Char :=
  "\n      \"action\": \"".data ++ e.action.data ++ '"' :: operandsText e ++ "\n    ".data

/-- The characters an action name may hold for the readers to find it: no
quote, bracket or brace, and at most 31 of them. -/
def ActionOK (a : String) : Prop :=
  a.data.length ≤ 31 ∧ ∀ c ∈ a.data, c ≠ '"' ∧ c ≠ '[' ∧ c ≠ '\x7b' ∧ c ≠ '\x7d'

/-- What follows the closing brace of a step: a comma when another step
follows, and the end of the line. -/
def stepSep (rest : List IRNode) : List Char :=
  if rest = [] then ['\n'] else [',', '\n']

/-- The subjects `ir.c` and `codegen.c` store in `algorithmName`: the initial
value and the nine names `generateCode` sets. -/
def subjectNames : List String :=
  ["Algorithm", "Bubble Sort", "Insertion Sort", "Selection Sort", "Merge Sort", "Quick Sort",
    "Stack Operations", "Queue Operations", "Binary Tree Operations", "Graph Operations"]

/-- The action names the generators of `codegen.c` pass to `addIRWithIndices`. -/
def traceActions : List String :=
  ["compare", "swap", "no_swap", "mark_sorted", "push", "pop", "peek", "enqueue", "dequeue",
    "insert", "visit", "add_node", "add_edge", "bfs_start", "dfs_start"]

/-- The array `writeIRToJSON` writes: the stored array, or the default one
when none is stored. -/
def writtenArray (algorithmArray : List Int) : List Int :=
  if algorithmArray.length > 0 then algorithmArray else [5, 3, 8, 4, 2]

/-- The text `writeIRToJSON` writes after the steps. -/
def trailerText : List Char :=
  ("  ],\n" ++ "  \"metadata\": \x7b\n" ++ "    \"timeComplexity\": \"O(n²)\",\n" ++
    "    \"spaceComplexity\": \"O(1)\",\n" ++
    "    \"description\": \"Generated from algorithm visualization compiler.\"\n" ++
    "  \x7d\n" ++ "\x7d\n").data

/-- The text `writeIRToJSON` writes after the bracket that closes the steps. -/
def trailerRest : List Char :=
  (",\n" ++ "  \"metadata\": \x7b\n" ++ "    \"timeComplexity\": \"O(n²)\",\n" ++
    "    \"spaceComplexity\": \"O(1)\",\n" ++
    "    \"description\": \"Generated from algorithm visualization compiler.\"\n" ++
    "  \x7d\n" ++ "\x7d\n").data

/-- The events a generator of `codegen.c` leaves in the list: the action is
one of the names passed to `addIRWithIndices` and at most four operands are
kept. -/
def Writable (ir : List IRNode) : Prop :=
  ∀ e ∈ ir, e.action ∈ traceActions ∧ e.indices.length ≤ 4

/-- The number of partition steps of `generateQuickSortSteps`: the iterations
of its loop that pop a range with `low < high` and partition it (same
recursion as `quickLoop`). -/
def quickLoopPartitions : Nat → List (Int × Int) → SortSt → Nat
  | 0, _, _ => 0
  | _ + 1, [], _ => 0
  | fuel + 1, (low, high) :: stack, s =>
    if low < high then
      let p := partitionRange low high s
      let i := p.i
      let stack := if i + 1 + 1 < high then (i + 2, high) :: stack else stack
      let stack := if low < i + 1 - 1 then (low, i) :: stack else stack
      quickLoopPartitions fuel stack p.s + 1
    else
      quickLoopPartitions fuel stack s

/-- Number of pivot markers of a trace: the `compare` events that carry a
single operand, which quick sort emits at the start of a partition step. -/
def countPivotMarkers (ir : List IRNode) : Nat :=
  ir.countP (fun e => decide (e.action = "compare" ∧ e.indices.length = 1))

theorem forRange_induction {σ : Type} (P : Nat → σ → Prop) (body : Nat → σ → σ)
    (lo hi : Nat) (s : σ) (hle : lo ≤ hi) (h0 : P lo s)
    (hstep : ∀ i s, lo ≤ i → i < hi → P i s → P (i + 1) (body i s)) :
    P hi (forRange lo hi body s) := by
  unfold forRange
  have key : ∀ c i s, lo ≤ i → i + c = hi → P i s → P hi (loopFrom body i c s) := by
    intro c
    induction c with
    | zero =>
      intro i s _ hi' hP
      simp only [Nat.add_zero] at hi'
      subst hi'
      simpa [loopFrom] using hP
    | succ c ih =>
      intro i s hlo hi' hP
      simp only [loopFrom]
      exact ih (i + 1) (body i s) (by omega) (by omega) (hstep i s hlo (by omega) hP)
  exact key (hi - lo) lo s (le_refl _) (by omega) h0

theorem getD_set_eq (l : List Int) (i j : Nat) (x : Int) :
    (l.set i x).getD j 0 = if i = j ∧ i < l.length then x else l.getD j 0 := by
  simp only [List.getD_eq_getElem?_getD, List.getElem?_set]
  by_cases h : i = j
  · subst h
    by_cases h2 : i < l.length
    · simp [h2]
    · simp [h2, List.getElem?_eq_none (by omega : l.length ≤ i)]
  · simp [h]

theorem length_swapEntries (l : List Int) (i j : Nat) :
    (swapEntries l i j).length = l.length := by
  simp [swapEntries]

theorem getD_swapEntries (l : List Int) (i j k : Nat) (hi : i < l.length)
    (hj : j < l.length) :
    (swapEntries l i j).getD k 0 =
      if k = j then l.getD i 0 else if k = i then l.getD j 0 else l.getD k 0 := by
  simp only [swapEntries, getD_set_eq, List.length_set]
  by_cases h1 : j = k
  · subst h1
    simp [hj]
  · by_cases h2 : i = k
    · subst h2
      have : ¬ i = j := fun h => h1 h.symm
      simp [h1, hi, this]
    · have h1' : ¬ k = j := fun h => h1 h.symm
      have h2' : ¬ k = i := fun h => h2 h.symm
      simp [h1, h2, h1', h2']

theorem getD_eq_getElem_of_lt (l : List Int) (i : Nat) (h : i < l.length) :
    l.getD i 0 = l[i] := by
  simp [List.getD_eq_getElem?_getD, List.getElem?_eq_getElem h]

theorem swapEntries_perm (l : List Int) (i j : Nat) (hi : i < l.length)
    (hj : j < l.length) : List.Perm (swapEntries l i j) l := by
  rw [List.perm_iff_count]
  intro a
  by_cases hij : i = j
  · subst hij
    simp only [swapEntries]
    rw [List.count_set _ _ _ _ (by simpa using hi), List.count_set _ _ _ _ hi]
    simp only [List.getElem_set_self, getD_eq_getElem_of_lt l i hi]
    have := List.count_pos_iff.mpr (List.getElem_mem hi)
    by_cases h : l[i] = a
    · subst h
      simp
    · simp [h]
  · simp only [swapEntries]
    rw [List.count_set _ _ _ _ (by simpa using hj), List.count_set _ _ _ _ hi]
    rw [List.getElem_set_ne hij]
    simp only [getD_eq_getElem_of_lt l i hi, getD_eq_getElem_of_lt l j hj]
    have h1 := List.count_pos_iff.mpr (List.getElem_mem hi)
    have h2 := List.count_pos_iff.mpr (List.getElem_mem hj)
    by_cases ha : l[i] = a <;> by_cases hb : l[j] = a
    · simp [ha, hb]
      rw [ha] at h1
      omega
    · simp [ha, hb]
      rw [ha] at h1
      omega
    · simp [ha, hb]
    · simp [ha, hb]

theorem loopFrom_preserves {σ : Type} (P : σ → Prop) (body : Nat → σ → σ)
    (hstep : ∀ i s, P s → P (body i s)) :
    ∀ (c i : Nat) (s : σ), P s → P (loopFrom body i c s) := by
  intro c
  induction c with
  | zero => intro i s h; exact h
  | succ c ih => intro i s h; exact ih _ _ (hstep i s h)

theorem forRange_preserves {σ : Type} (P : σ → Prop) (body : Nat → σ → σ)
    (hstep : ∀ i s, P s → P (body i s)) (lo hi : Nat) (s : σ) (h : P s) :
    P (forRange lo hi body s) :=
  loopFrom_preserves P body hstep _ _ _ h

theorem foldl_preserves {σ α : Type} (P : σ → Prop) (f : σ → α → σ)
    (hstep : ∀ s x, P s → P (f s x)) : ∀ (l : List α) (s : σ), P s → P (l.foldl f s) := by
  intro l
  induction l with
  | nil => intro s h; exact h
  | cons x l ih => intro s h; exact ih _ (hstep s x h)

/-! ## Replay tracking and bubble sort -/

theorem sorted_of_tailSorted (w : List Int) (h : TailSorted w 1) :
    List.Sorted (· ≤ ·) w := by
  unfold List.Sorted
  rw [List.pairwise_iff_getElem]
  intro i j hi hj hij
  have := h i j hij (by omega) hj
  rwa [getD_eq_getElem_of_lt w i hi, getD_eq_getElem_of_lt w j hj] at this

theorem applySwapEvents_emit (A : List Int) (ir : List IRNode) (action : String)
    (indices : List Int) :
    applySwapEvents A (addIRWithIndices ir action indices) =
      applySwapEvent (applySwapEvents A ir) ⟨action, indices.take 4⟩ := by
  simp [applySwapEvents, addIRWithIndices, List.foldl_append]

theorem tracks_emit_other (A : List Int) (s : SortSt) (action : String)
    (indices : List Int) (h : Tracks A s) (ha : action ≠ "swap") :
    Tracks A (s.emit action indices) := by
  obtain ⟨h1, h2, h3⟩ := h
  refine ⟨h1, h2, ?_⟩
  simp [SortSt.emit, applySwapEvents_emit, applySwapEvent, ha, h3]

theorem tracks_emit_swap (A : List Int) (s : SortSt) (i j : Nat)
    (h : Tracks A s) (hi : i < A.length) (hj : j < A.length) :
    Tracks A { (s.emit "swap" [(i : Int), (j : Int)]) with
      working_array := swapEntries s.working_array i j } := by
  obtain ⟨h1, h2, h3⟩ := h
  refine ⟨?_, ?_, ?_⟩
  · simp [length_swapEntries, h1]
  · exact (swapEntries_perm _ i j (by omega) (by omega)).trans h2
  · simp [SortSt.emit, applySwapEvents_emit, applySwapEvent, h3]

theorem bubbleInnerBody_inv (A : List Int) (p i : Nat) (s : SortSt)
    (hi : i < A.length - p - 1) (h : BubbleInner A p i s) :
    BubbleInner A p (i + 1) (bubbleInnerBody i s) := by
  obtain ⟨ht, hs, hm⟩ := h
  have hlen := ht.1
  unfold bubbleInnerBody
  simp only [SortSt.emit]
  split
  · rename_i hgt
    refine ⟨tracks_emit_swap A (s.emit "compare" _) i (i + 1)
      (tracks_emit_other A s _ _ ht (by decide)) (by omega) (by omega), ?_, ?_⟩
    · intro a b hab hb hbl
      simp only [length_swapEntries] at hbl
      simp only [getD_swapEntries _ i (i + 1) _ (by omega : i < s.working_array.length)
        (by omega : i + 1 < s.working_array.length)]
      have hb1 : ¬ b = i + 1 := by omega
      have hb2 : ¬ b = i := by omega
      simp only [hb1, hb2, if_false]
      split
      · exact hs i b (by omega) hb hbl
      · split
        · exact hs (i + 1) b (by omega) hb hbl
        · exact hs a b hab hb hbl
    · intro k hk
      simp only [getD_swapEntries _ i (i + 1) _ (by omega : i < s.working_array.length)
        (by omega : i + 1 < s.working_array.length)]
      simp only [if_true]
      have hk1 : ¬ k = i + 1 := by omega
      simp only [hk1, if_false]
      split
      · exact le_of_lt hgt
      · exact hm k (by omega)
  · rename_i hle
    refine ⟨tracks_emit_other A (s.emit "compare" _) _ _
      (tracks_emit_other A s _ _ ht (by decide)) (by decide), hs, ?_⟩
    intro k hk
    by_cases hki : k = i
    · subst hki
      exact not_lt.mp hle
    · exact le_trans (hm k (by omega)) (not_lt.mp hle)

theorem bubblePassBody_inv (A : List Int) (p : Nat) (s : SortSt)
    (h : BubbleOuter A p s) :
    BubbleOuter A (p + 1) (bubblePassBody A.length p s) := by
  obtain ⟨ht, hs⟩ := h
  unfold bubblePassBody
  have hin := forRange_induction (BubbleInner A p) bubbleInnerBody 0 (A.length - p - 1) s
    (Nat.zero_le _) ⟨ht, hs, fun k hk => absurd hk (Nat.not_lt_zero k)⟩
    (fun i s _ hi h => bubbleInnerBody_inv A p i s hi h)
  obtain ⟨ht2, hs2, hm2⟩ := hin
  refine ⟨tracks_emit_other A _ _ _ ht2 (by decide), ?_⟩
  simp only [SortSt.emit]
  intro a b hab hb hbl
  by_cases hbe : b = A.length - p - 1
  · subst hbe
    exact hm2 a hab
  · exact hs2 a b hab (by omega) hbl

theorem bubbleSortRun_inv (A : List Int) :
    BubbleOuter A (A.length - 1) (bubbleSortRun A.length A) := by
  unfold bubbleSortRun
  refine forRange_induction (BubbleOuter A) (bubblePassBody A.length) 0 (A.length - 1) _
    (Nat.zero_le _) ?_ (fun p s _ _ h => bubblePassBody_inv A p s h)
  refine ⟨⟨by simp, by simp, by simp [applySwapEvents]⟩, ?_⟩
  intro a b _ hb hbl
  simp at hb hbl
  omega

/-! ## C1: bubble sort -/

/-- C1: for every integer array `A` of length at most 256, applying in order
the swap events of the trace emitted by `generateBubbleSortSteps` to a copy of
`A` yields an array that is non-decreasing and is a permutation of `A`. -/
theorem bubble_replay_sorted_perm (A : List Int) (_hn : A.length ≤ 256) :
    List.Sorted (· ≤ ·) (applySwapEvents A (generateBubbleSortSteps A.length A)) ∧
      List.Perm (applySwapEvents A (generateBubbleSortSteps A.length A)) A := by
  obtain ⟨⟨h1, h2, h3⟩, hs⟩ := bubbleSortRun_inv A
  unfold generateBubbleSortSteps
  rw [h3]
  refine ⟨sorted_of_tailSorted _ ?_, h2⟩
  intro a b hab hb hbl
  exact hs a b hab (by omega) hbl

/-- Witness for C1 at the spec's example array. -/
theorem bubble_replay_sorted_perm_witness :
    List.Sorted (· ≤ ·)
        (applySwapEvents [5, 3, 8, 4, 2] (generateBubbleSortSteps 5 [5, 3, 8, 4, 2])) ∧
      List.Perm (applySwapEvents [5, 3, 8, 4, 2] (generateBubbleSortSteps 5 [5, 3, 8, 4, 2]))
        [5, 3, 8, 4, 2] :=
  bubble_replay_sorted_perm [5, 3, 8, 4, 2] (by decide)

theorem ext_getD (l₁ l₂ : List Int) (hlen : l₁.length = l₂.length)
    (h : ∀ k, k < l₁.length → l₁.getD k 0 = l₂.getD k 0) : l₁ = l₂ := by
  apply List.ext_getElem hlen
  intro k h1 h2
  have := h k h1
  rwa [getD_eq_getElem_of_lt l₁ k h1, getD_eq_getElem_of_lt l₂ k h2] at this

theorem insertionShift_inv (A : List Int) (key : Int) (i : Nat) (hi : i < A.length) :
    ∀ (h : Nat) (s : SortSt), h ≤ i → InsertionInner A key i h s →
      InsertionInner A key i (insertionShift key h s).1 (insertionShift key h s).2 ∧
      (insertionShift key h s).1 ≤ i ∧
      ((insertionShift key h s).1 = 0 ∨
        (insertionShift key h s).2.working_array.getD ((insertionShift key h s).1 - 1) 0 ≤ key) := by
  intro h
  induction h with
  | zero =>
    intro s _ hinv
    simp only [insertionShift]
    exact ⟨hinv, Nat.zero_le _, Or.inl trivial⟩
  | succ j ih =>
    intro s hj hinv
    obtain ⟨hlen, hrep, hperm, hsort, hkey⟩ := hinv
    simp only [insertionShift]
    split
    · rename_i hgt
      refine (fun x => (ih _ (by omega) x).imp id (And.imp (fun h => Nat.le_trans h (Nat.le_refl _)) id)) ?_
      have hrep' : applySwapEvents A s.ir = s.working_array.set (j + 1) key := hrep
      have heq : swapEntries (s.working_array.set (j + 1) key) j (j + 1) =
          (s.working_array.set (j + 1) (s.working_array.getD j 0)).set j key := by
        apply ext_getD
        · simp [length_swapEntries]
        · intro k hk
          simp only [length_swapEntries, List.length_set] at hk
          rw [getD_swapEntries _ j (j + 1) k (by simp; omega) (by simp; omega)]
          simp only [getD_set_eq, List.length_set]
          by_cases h1 : k = j + 1
          · subst h1
            have : ¬ j = j + 1 := by omega
            simp [this]
            omega
          · by_cases h2 : k = j
            · subst h2
              simp
              omega
            · have h3 : ¬ j + 1 = k := fun h => h1 h.symm
              have h4 : ¬ j = k := fun h => h2 h.symm
              simp [h1, h2, h3, h4]
      refine ⟨by simpa [SortSt.emit] using hlen, ?_, ?_, ?_, ?_⟩
      · simp only [SortSt.emit, applySwapEvents_emit, applySwapEvent]
        simp [hrep', heq]
      · simp only [SortSt.emit]
        rw [← heq]
        exact (swapEntries_perm _ j (j + 1) (by simp; omega) (by simp; omega)).trans hperm
      · intro a b hab hb ha1 hb1
        simp only [SortSt.emit, getD_set_eq]
        by_cases hb2 : b = j + 1
        · subst hb2
          have : ¬ j + 1 = a := by omega
          simp only [this, false_and, if_false, true_and]
          rw [if_pos (by omega)]
          exact hsort a j (by omega) (by omega) (by omega) (by omega)
        · by_cases ha2 : a = j + 1
          · subst ha2
            have : ¬ j + 1 = b := fun h => hb2 h.symm
            simp only [this, false_and, if_false, true_and]
            rw [if_pos (by omega)]
            exact hsort j b (by omega) hb (by omega) hb2
          · have h3 : ¬ j + 1 = a := fun h => ha2 h.symm
            have h4 : ¬ j + 1 = b := fun h => hb2 h.symm
            simp only [h3, h4, false_and, if_false]
            exact hsort a b hab hb ha2 hb2
      · intro b hb1 hb2
        simp only [SortSt.emit, getD_set_eq]
        by_cases hb3 : b = j + 1
        · subst hb3
          simp only [true_and]
          rw [if_pos (by omega)]
          exact hgt
        · have h4 : ¬ j + 1 = b := fun h => hb3 h.symm
          simp only [h4, false_and, if_false]
          exact hkey b (by omega) hb2
    · rename_i hle
      refine ⟨⟨hlen, hrep, hperm, hsort, hkey⟩, hj, Or.inr ?_⟩
      simpa using hle

theorem insertionOuterBody_inv (A : List Int) (i : Nat) (s : SortSt)
    (hi : i < A.length) (h : InsertionOuter A i s) :
    InsertionOuter A (i + 1) (insertionOuterBody i s) := by
  obtain ⟨⟨hlen, hperm, hrep⟩, hs⟩ := h
  unfold insertionOuterBody
  dsimp only
  have hself : s.working_array.set i (s.working_array.getD i 0) = s.working_array := by
    apply ext_getD
    · simp
    · intro k _
      simp only [getD_set_eq]
      split
      · rename_i h; rw [h.1]
      · rfl
  have h0 : InsertionInner A (s.working_array.getD i 0) i i
      (s.emit "compare" [(i : Int), (i : Int) - 1]) := by
    refine ⟨hlen, ?_, ?_, ?_, ?_⟩
    · simp only [SortSt.emit, applySwapEvents_emit, applySwapEvent, hself, hrep]
      rw [if_neg (fun h => absurd h.1 (by decide))]
    · simp only [SortSt.emit, hself]; exact hperm
    · intro a b hab hb _ hbi
      exact hs a b hab (by omega)
    · intro b hb1 hb2
      omega
  obtain ⟨⟨hlen2, hrep2, hperm2, hsort2, hkey2⟩, hle, hstop⟩ :=
    insertionShift_inv A (s.working_array.getD i 0) i hi i _ (le_refl _) h0
  generalize insertionShift (s.working_array.getD i 0) i
    (s.emit "compare" [(i : Int), (i : Int) - 1]) = r at *
  obtain ⟨h, s2⟩ := r
  simp only at hlen2 hrep2 hperm2 hsort2 hkey2 hle hstop ⊢
  refine ⟨⟨by simp only [SortSt.emit, List.length_set, hlen2], by
    simp only [SortSt.emit]; exact hperm2, by
    simp only [SortSt.emit, applySwapEvents_emit, applySwapEvent, hrep2]
    rw [if_neg (fun h => absurd h.1 (by decide))]⟩, ?_⟩
  intro a b hab hb
  simp only [SortSt.emit, getD_set_eq]
  have hh : h < s2.working_array.length := by omega
  by_cases hbh : b = h
  · subst hbh
    have : ¬ b = a := by omega
    simp only [this, false_and, if_false, true_and, hh, if_true]
    rcases hstop with h0 | hle2
    · omega
    · by_cases hab2 : a = b - 1
      · subst hab2; exact hle2
      · exact le_trans (hsort2 a (b - 1) (by omega) (by omega) (by omega) (by omega)) hle2
  · by_cases hah : a = h
    · subst hah
      have : ¬ a = b := by omega
      simp only [this, false_and, if_false, true_and, hh, if_true]
      exact le_of_lt (hkey2 b hab (by omega))
    · have h3 : ¬ h = a := fun x => hah x.symm
      have h4 : ¬ h = b := fun x => hbh x.symm
      simp only [h3, h4, false_and, if_false]
      exact hsort2 a b hab (by omega) hah hbh

theorem insertionSortRun_inv (A : List Int) (hn : 1 ≤ A.length) :
    InsertionOuter A A.length (insertionSortRun A.length A) := by
  unfold insertionSortRun
  refine forRange_induction (InsertionOuter A) insertionOuterBody 1 A.length _
    hn ?_ (fun p s _ hp h => insertionOuterBody_inv A p s hp h)
  refine ⟨⟨by simp, by simp, by simp [applySwapEvents]⟩, ?_⟩
  intro a b _ hb
  omega

/-! ## C3: insertion sort -/

/-- C3: for every integer array `A` of length at most 256, applying in order
the swap events of the trace emitted by `generateInsertionSortSteps` to a copy
of `A` yields a non-decreasing permutation of `A`, and that array is the
generator's own final working array (the shifts around the held key, replayed
as exchanges, give the same result). -/
theorem insertion_replay_sorted_perm (A : List Int) (_hn : A.length ≤ 256) :
    List.Sorted (· ≤ ·) (applySwapEvents A (generateInsertionSortSteps A.length A)) ∧
      List.Perm (applySwapEvents A (generateInsertionSortSteps A.length A)) A ∧
      applySwapEvents A (generateInsertionSortSteps A.length A) =
        (insertionSortRun A.length A).working_array := by
  by_cases h0 : A.length = 0
  · have : A = [] := List.length_eq_zero.mp h0
    subst this
    decide
  · obtain ⟨⟨h1, h2, h3⟩, hs⟩ := insertionSortRun_inv A (by omega)
    unfold generateInsertionSortSteps
    rw [h3]
    refine ⟨sorted_of_tailSorted _ ?_, h2, rfl⟩
    intro a b hab hb hbl
    exact hs a b hab (by omega)

/-- Witness for C3 at the spec's example array. -/
theorem insertion_replay_sorted_perm_witness :
    List.Sorted (· ≤ ·)
        (applySwapEvents [5, 3, 8, 4, 2] (generateInsertionSortSteps 5 [5, 3, 8, 4, 2])) ∧
      List.Perm (applySwapEvents [5, 3, 8, 4, 2] (generateInsertionSortSteps 5 [5, 3, 8, 4, 2]))
        [5, 3, 8, 4, 2] ∧
      applySwapEvents [5, 3, 8, 4, 2] (generateInsertionSortSteps 5 [5, 3, 8, 4, 2]) =
        (insertionSortRun 5 [5, 3, 8, 4, 2]).working_array :=
  insertion_replay_sorted_perm [5, 3, 8, 4, 2] (by decide)

theorem selectionInnerBody_inv (A : List Int) (i j : Nat) (st : Nat × SortSt)
    (h : SelectionInner A i j st) :
    SelectionInner A i (j + 1) (selectionInnerBody j st) := by
  obtain ⟨ht, hs, h1, h2, hm⟩ := h
  unfold selectionInnerBody
  simp only [SortSt.emit]
  split
  · rename_i hlt
    refine ⟨tracks_emit_other A (st.2.emit "compare" _) _ _
      (tracks_emit_other A st.2 _ _ ht (by decide)) (by decide), hs, by omega, by omega, ?_⟩
    intro k hk1 hk2
    show st.2.working_array.getD j 0 ≤ st.2.working_array.getD k 0
    by_cases hkj : k = j
    · subst hkj; exact le_refl _
    · exact le_trans (le_of_lt hlt) (hm k hk1 (by omega))
  · rename_i hge
    refine ⟨tracks_emit_other A (st.2.emit "compare" _) _ _
      (tracks_emit_other A st.2 _ _ ht (by decide)) (by decide), hs, h1, by omega, ?_⟩
    intro k hk1 hk2
    show st.2.working_array.getD st.1 0 ≤ st.2.working_array.getD k 0
    by_cases hkj : k = j
    · subst hkj; exact not_lt.mp hge
    · exact hm k hk1 (by omega)

theorem selectionOuterBody_inv (A : List Int) (i : Nat) (s : SortSt)
    (hi : i < A.length - 1) (h : SelectionOuter A i s) :
    SelectionOuter A (i + 1) (selectionOuterBody A.length i s) := by
  obtain ⟨ht, hs⟩ := h
  unfold selectionOuterBody
  have hin := forRange_induction (SelectionInner A i) selectionInnerBody (i + 1) A.length (i, s)
    (by omega) ⟨ht, hs, le_refl _, by simp, fun k hk1 hk2 => by
      have : k = i := by omega
      subst this; exact le_refl _⟩
    (fun j st _ _ h => selectionInnerBody_inv A i j st h)
  obtain ⟨ht2, hs2, h1, h2, hm⟩ := hin
  generalize forRange (i + 1) A.length selectionInnerBody (i, s) = r at *
  obtain ⟨m, s2⟩ := r
  simp only at ht2 hs2 h1 h2 hm ⊢
  have hlen := ht2.1
  split
  · refine ⟨tracks_emit_other A _ _ _ (tracks_emit_swap A s2 i m ht2 (by omega) h2) (by decide), ?_⟩
    simp only [SortSt.emit]
    intro a b hab ha hb
    simp only [length_swapEntries] at hb
    simp only [getD_swapEntries _ i m _ (by omega : i < s2.working_array.length)
      (by omega : m < s2.working_array.length)]
    by_cases hai : a = i
    · subst hai
      have : ¬ a = m := by omega
      simp only [this, if_false, if_true]
      split
      · exact hm a (le_refl _) (by omega)
      · have : ¬ b = a := by omega
        simp only [this, if_false]
        exact hm b (by omega) (by omega)
    · have ha' : a < i := by omega
      have : ¬ a = m := by omega
      simp only [this, hai, if_false]
      split
      · exact hs2 a i ha' ha' (by omega)
      · split
        · exact hs2 a m (by omega) ha' (by omega)
        · exact hs2 a b hab ha' hb
  · rename_i hmi
    have hmi : m = i := by
      by_contra hne
      exact hmi hne
    subst hmi
    refine ⟨tracks_emit_other A _ _ _ ht2 (by decide), ?_⟩
    simp only [SortSt.emit]
    intro a b hab ha hb
    by_cases hai : a = m
    · subst hai
      exact hm b (by omega) (by omega)
    · exact hs2 a b hab (by omega) hb

theorem selectionSortRun_inv (A : List Int) :
    SelectionOuter A (A.length - 1) (selectionSortRun A.length A) := by
  unfold selectionSortRun
  refine forRange_induction (SelectionOuter A) (selectionOuterBody A.length) 0 (A.length - 1) _
    (Nat.zero_le _) ?_ (fun p s _ hp h => selectionOuterBody_inv A p s hp h)
  refine ⟨⟨by simp, by simp, by simp [applySwapEvents]⟩, ?_⟩
  intro a b _ ha _
  omega

/-! ## C5: selection sort -/

/-- C5: for every integer array `A` of length at most 256, applying in order
the swap events of the trace emitted by `generateSelectionSortSteps` to a copy
of `A` yields a non-decreasing permutation of `A`. -/
theorem selection_replay_sorted_perm (A : List Int) (_hn : A.length ≤ 256) :
    List.Sorted (· ≤ ·) (applySwapEvents A (generateSelectionSortSteps A.length A)) ∧
      List.Perm (applySwapEvents A (generateSelectionSortSteps A.length A)) A := by
  obtain ⟨⟨h1, h2, h3⟩, hs⟩ := selectionSortRun_inv A
  unfold generateSelectionSortSteps
  rw [h3]
  refine ⟨sorted_of_tailSorted _ ?_, h2⟩
  intro a b hab hb hbl
  exact hs a b hab (by omega) hbl

/-- Witness for C5 at the spec's example array. -/
theorem selection_replay_sorted_perm_witness :
    List.Sorted (· ≤ ·)
        (applySwapEvents [5, 3, 8, 4, 2] (generateSelectionSortSteps 5 [5, 3, 8, 4, 2])) ∧
      List.Perm (applySwapEvents [5, 3, 8, 4, 2] (generateSelectionSortSteps 5 [5, 3, 8, 4, 2]))
        [5, 3, 8, 4, 2] :=
  selection_replay_sorted_perm [5, 3, 8, 4, 2] (by decide)

theorem countAction_emit (a : String) (s : SortSt) (action : String) (indices : List Int) :
    countAction a (s.emit action indices).ir =
      countAction a s.ir + if action = a then 1 else 0 := by
  simp only [countAction, SortSt.emit, addIRWithIndices, List.countP_append, List.countP_cons,
    List.countP_nil, decide_eq_true_eq, Nat.zero_add]

theorem within_refl (w : List Int) (lo hi : Nat) : Within w w lo hi :=
  ⟨rfl, fun _ _ => rfl, fun c h1 h2 => ⟨c, h1, h2, rfl⟩⟩

theorem within_swap (w0 w : List Int) (lo hi x y : Nat) (h : Within w0 w lo hi)
    (hx1 : lo ≤ x) (hx2 : x ≤ hi) (hy1 : lo ≤ y) (hy2 : y ≤ hi) (hhi : hi < w.length) :
    Within w0 (swapEntries w x y) lo hi := by
  obtain ⟨h1, h2, h3⟩ := h
  refine ⟨by rw [length_swapEntries, h1], ?_, ?_⟩
  · intro k hk
    rw [getD_swapEntries w x y k (by omega) (by omega)]
    rw [if_neg (by omega), if_neg (by omega)]
    exact h2 k hk
  · intro c hc1 hc2
    rw [getD_swapEntries w x y c (by omega) (by omega)]
    split
    · exact h3 x hx1 hx2
    · split
      · exact h3 y hy1 hy2
      · exact h3 c hc1 hc2

theorem partitionBody_inv (A w0 : List Int) (m0 : Nat) (pivot : Int) (lo hi j : Nat)
    (p : PartSt) (hj1 : lo ≤ j) (hj2 : j < hi) (hhi : hi < A.length)
    (h : PartInv A w0 m0 pivot lo hi j p) :
    PartInv A w0 m0 pivot lo hi (j + 1) (partitionBody (hi : Int) pivot j p) := by
  obtain ⟨ht, hw, hc, q, hq, hq1, hq2, hlt, hge, hpiv⟩ := h
  have hlen := ht.1
  unfold partitionBody
  simp only [SortSt.emit]
  have htc : Tracks A (p.s.emit "compare" [(j : Int), (hi : Int)]) :=
    tracks_emit_other A p.s _ _ ht (by decide)
  split
  · rename_i hltp
    rw [hq]
    split
    · rename_i hne
      have hqj : q < j := by
        have : q ≠ j := fun h => hne (by rw [h])
        omega
      have hsw := tracks_emit_swap A _ q j htc (by omega) (by omega)
      simp only [SortSt.emit] at hsw
      simp only [Int.toNat_ofNat]
      refine ⟨hsw, within_swap w0 _ lo hi q j hw hq1 (by omega) hj1 (by omega) (by omega), ?_,
        q + 1, by push_cast; rfl, by omega, by omega, ?_, ?_, ?_⟩
      · have := countAction_emit "mark_sorted" (p.s.emit "compare" [(j : Int), (hi : Int)])
          "swap" [(q : Int), (j : Int)]
        simp only [SortSt.emit] at this
        rw [this, if_neg (by decide), Nat.add_zero]
        have := countAction_emit "mark_sorted" p.s "compare" [(j : Int), (hi : Int)]
        simp only [SortSt.emit] at this
        rw [this, if_neg (by decide), Nat.add_zero, hc]
      · intro k hk1 hk2
        rw [getD_swapEntries _ q j k (by omega) (by omega)]
        rw [if_neg (by omega)]
        split
        · exact hltp
        · exact hlt k hk1 (by omega)
      · intro k hk1 hk2
        rw [getD_swapEntries _ q j k (by omega) (by omega)]
        split
        · exact hge q (le_refl _) hqj
        · rw [if_neg (by omega)]
          exact hge k (by omega) (by omega)
      · rw [getD_swapEntries _ q j hi (by omega) (by omega)]
        rw [if_neg (by omega), if_neg (by omega)]
        exact hpiv
    · rename_i heq
      have hqj : q = j := by
        have : (q : Int) = (j : Int) := by
          by_contra hne
          exact heq hne
        exact_mod_cast this
      subst hqj
      refine ⟨tracks_emit_other A _ _ _ htc (by decide), hw, ?_,
        q + 1, by push_cast; rfl, by omega, by omega, ?_, ?_, hpiv⟩
      · have := countAction_emit "mark_sorted" (p.s.emit "compare" [(q : Int), (hi : Int)])
          "no_swap" [(q : Int), (hi : Int)]
        simp only [SortSt.emit] at this
        rw [this, if_neg (by decide), Nat.add_zero]
        have := countAction_emit "mark_sorted" p.s "compare" [(q : Int), (hi : Int)]
        simp only [SortSt.emit] at this
        rw [this, if_neg (by decide), Nat.add_zero, hc]
      · intro k hk1 hk2
        by_cases hkq : k = q
        · subst hkq; exact hltp
        · exact hlt k hk1 (by omega)
      · intro k hk1 hk2
        omega
  · rename_i hge2
    refine ⟨tracks_emit_other A _ _ _ htc (by decide), hw, ?_,
      q, hq, hq1, by omega, hlt, ?_, hpiv⟩
    · have := countAction_emit "mark_sorted" (p.s.emit "compare" [(j : Int), (hi : Int)])
        "no_swap" [(j : Int), (hi : Int)]
      simp only [SortSt.emit] at this
      rw [this, if_neg (by decide), Nat.add_zero]
      have := countAction_emit "mark_sorted" p.s "compare" [(j : Int), (hi : Int)]
      simp only [SortSt.emit] at this
      rw [this, if_neg (by decide), Nat.add_zero, hc]
    · intro k hk1 hk2
      by_cases hkj : k = j
      · subst hkj; exact not_lt.mp hge2
      · exact hge k hk1 (by omega)

theorem partitionRange_spec (A : List Int) (s : SortSt) (lo hi : Nat) (hlo : lo < hi)
    (hhi : hi < A.length) (ht : Tracks A s) :
    ∃ q : Nat, (partitionRange (lo : Int) (hi : Int) s).i + 1 = (q : Int) ∧ lo ≤ q ∧ q ≤ hi ∧
      Tracks A (partitionRange (lo : Int) (hi : Int) s).s ∧
      Within s.working_array (partitionRange (lo : Int) (hi : Int) s).s.working_array lo hi ∧
      countAction "mark_sorted" (partitionRange (lo : Int) (hi : Int) s).s.ir =
        countAction "mark_sorted" s.ir + 1 ∧
      (∀ k, lo ≤ k → k < q →
        (partitionRange (lo : Int) (hi : Int) s).s.working_array.getD k 0 <
          (partitionRange (lo : Int) (hi : Int) s).s.working_array.getD q 0) ∧
      (∀ k, q < k → k ≤ hi →
        (partitionRange (lo : Int) (hi : Int) s).s.working_array.getD q 0 ≤
          (partitionRange (lo : Int) (hi : Int) s).s.working_array.getD k 0) := by
  have hlen := ht.1
  unfold partitionRange
  simp only [Int.toNat_ofNat]
  have h0 : PartInv A s.working_array (countAction "mark_sorted" s.ir)
      (s.working_array.getD hi 0) lo hi lo
      { i := (lo : Int) - 1, s := s.emit "compare" [(hi : Int)] } := by
    refine ⟨tracks_emit_other A s _ _ ht (by decide), within_refl _ _ _, ?_,
      lo, by simp, le_refl _, le_refl _, ?_, ?_, rfl⟩
    · rw [countAction_emit, if_neg (by decide), Nat.add_zero]
    · intro k hk1 hk2; omega
    · intro k hk1 hk2; omega
  have hfin := forRange_induction (PartInv A s.working_array (countAction "mark_sorted" s.ir)
      (s.working_array.getD hi 0) lo hi) (partitionBody (hi : Int) (s.working_array.getD hi 0))
      lo hi _ (le_of_lt hlo) h0
      (fun j p hj1 hj2 h => partitionBody_inv A _ _ _ lo hi j p hj1 hj2 hhi h)
  generalize forRange lo hi (partitionBody (hi : Int) (s.working_array.getD hi 0))
    { i := (lo : Int) - 1, s := s.emit "compare" [(hi : Int)] } = p at hfin ⊢
  obtain ⟨ht2, hw, hc, q, hq, hq1, hq2, hlt, hge, hpiv⟩ := hfin
  have hlen2 := ht2.1
  refine ⟨q, hq, hq1, hq2, ?_⟩
  simp only [hq, Int.toNat_ofNat]
  have hsw := tracks_emit_swap A p.s q hi ht2 (by omega) (by omega)
  refine ⟨tracks_emit_other A _ _ _ hsw (by decide), ?_, ?_, ?_, ?_⟩
  · simp only [SortSt.emit]
    exact within_swap _ _ lo hi q hi hw hq1 hq2 (by omega) (le_refl _) (by omega)
  · rw [countAction_emit, if_pos rfl]
    have := countAction_emit "mark_sorted" p.s "swap" [(q : Int), (hi : Int)]
    simp only [SortSt.emit] at this ⊢
    simp only [countAction] at this ⊢
    rw [this, if_neg (by decide), Nat.add_zero]
    simp only [countAction] at hc
    rw [hc]
  · intro k hk1 hk2
    simp only [SortSt.emit]
    rw [getD_swapEntries _ q hi k (by omega) (by omega),
      getD_swapEntries _ q hi q (by omega) (by omega)]
    rw [if_neg (by omega), if_neg (by omega)]
    have : p.s.working_array.getD k 0 < if q = hi then p.s.working_array.getD q 0
        else p.s.working_array.getD hi 0 := by
      split
      · rename_i h; subst h; rw [hpiv]; exact hlt k hk1 hk2
      · rw [hpiv]; exact hlt k hk1 hk2
    simpa using this
  · intro k hk1 hk2
    simp only [SortSt.emit]
    rw [getD_swapEntries _ q hi k (by omega) (by omega),
      getD_swapEntries _ q hi q (by omega) (by omega)]
    rw [if_neg (by omega), if_pos rfl, hpiv]
    split
    · exact hge q (le_refl _) (by omega)
    · rw [if_neg (by omega)]
      exact hge k (by omega) (by omega)

theorem partitioned_preserved (w w' : List Int) (lo hi b : Nat) (hw : Within w w' lo hi)
    (hhi : hi < w.length) (hb : b ≤ lo ∨ hi < b) (h : Partitioned w b) :
    Partitioned w' b := by
  obtain ⟨h1, h2, h3⟩ := hw
  intro a c hac hbc hc
  rw [h1] at hc
  rcases hb with hb | hb
  · rw [h2 a (Or.inl (by omega))]
    by_cases hc2 : hi < c
    · rw [h2 c (Or.inr hc2)]
      exact h a c hac hbc hc
    · by_cases hc3 : c < lo
      · rw [h2 c (Or.inl hc3)]
        exact h a c hac hbc hc
      · obtain ⟨c', hc1', hc2', heq⟩ := h3 c (by omega) (by omega)
        rw [heq]
        exact h a c' (by omega) (by omega) (by omega)
  · rw [h2 c (Or.inr (by omega))]
    by_cases ha2 : a < lo
    · rw [h2 a (Or.inl ha2)]
      exact h a c hac hbc hc
    · by_cases ha3 : hi < a
      · rw [h2 a (Or.inr ha3)]
        exact h a c hac hbc hc
      · obtain ⟨a', ha1', ha2', heq⟩ := h3 a (by omega) (by omega)
        rw [heq]
        exact h a' c (by omega) (by omega) hc

theorem partitioned_of_within (w w' : List Int) (lo hi b : Nat) (hw : Within w w' lo hi)
    (hb1 : lo ≤ b) (hb2 : b ≤ hi + 1) (hhi : hi < w.length)
    (hL : lo = 0 ∨ Partitioned w lo) (hR : w.length ≤ hi + 1 ∨ Partitioned w (hi + 1))
    (hin : ∀ a c, lo ≤ a → a < b → b ≤ c → c ≤ hi → w'.getD a 0 ≤ w'.getD c 0) :
    Partitioned w' b := by
  obtain ⟨h1, h2, h3⟩ := hw
  intro a c hac hbc hc
  rw [h1] at hc
  by_cases ha : a < lo
  · have hPL : Partitioned w lo := by
      rcases hL with h | h
      · omega
      · exact h
    rw [h2 a (Or.inl ha)]
    by_cases hc2 : hi < c
    · rw [h2 c (Or.inr hc2)]
      exact hPL a c ha (by omega) hc
    · obtain ⟨c', hc1', hc2', heq⟩ := h3 c (by omega) (by omega)
      rw [heq]
      exact hPL a c' ha hc1' (by omega)
  · by_cases hc2 : hi < c
    · have hPR : Partitioned w (hi + 1) := by
        rcases hR with h | h
        · omega
        · exact h
      rw [h2 c (Or.inr hc2)]
      obtain ⟨a', ha1', ha2', heq⟩ := h3 a (by omega) (by omega)
      rw [heq]
      exact hPR a' c (by omega) (by omega) hc
    · exact hin a c (by omega) hac hbc (by omega)

theorem sorted_of_partitioned (w : List Int)
    (h : ∀ b, 1 ≤ b → b < w.length → Partitioned w b) : List.Sorted (· ≤ ·) w := by
  apply sorted_of_tailSorted
  intro a b hab hb hbl
  exact h b hb hbl a b hab (le_refl _) hbl

theorem rangesOK_cons (n : Nat) (r : Int × Int) (rest : List (Int × Int)) :
    RangesOK n (r :: rest) ↔
      (0 ≤ r.1 ∧ r.2 < (n : Int)) ∧ (∀ r' ∈ rest, r.2 < r'.1 ∨ r'.2 < r.1) ∧ RangesOK n rest := by
  simp only [RangesOK, List.pairwise_cons, List.mem_cons, forall_eq_or_imp]
  tauto

theorem covered_cons (r : Int × Int) (rest : List (Int × Int)) (b : Nat) :
    Covered (r :: rest) b ↔ (r.1 < (b : Int) ∧ (b : Int) ≤ r.2) ∨ Covered rest b := by
  simp only [Covered, List.mem_cons, exists_eq_or_imp]

theorem stackWork_cons (r : Int × Int) (rest : List (Int × Int)) :
    stackWork (r :: rest) = max 1 (r.2 - r.1).toNat + stackWork rest := by
  simp only [stackWork, List.map_cons, List.sum_cons]

theorem stackSpan_cons (r : Int × Int) (rest : List (Int × Int)) :
    stackSpan (r :: rest) = (r.2 - r.1).toNat + stackSpan rest := by
  simp only [stackSpan, List.map_cons, List.sum_cons]

theorem rangesOK_sub (n : Nat) (lo hi a b : Int) (rest : List (Int × Int))
    (h : RangesOK n ((lo, hi) :: rest)) (ha : lo ≤ a) (hb : b ≤ hi) :
    RangesOK n ((a, b) :: rest) := by
  rw [rangesOK_cons] at h ⊢
  obtain ⟨⟨h1, h2⟩, h3, h4⟩ := h
  refine ⟨⟨by simp only; omega, by simp only; omega⟩, ?_, h4⟩
  intro r' hr'
  have := h3 r' hr'
  simp only at this ⊢
  omega

theorem quickStep_inv (A : List Int) (lo hi : Nat) (rest : List (Int × Int)) (s : SortSt)
    (hlt : lo < hi) (hinv : QuickInv A (((lo : Int), (hi : Int)) :: rest) s) :
    QuickInv A
        (if (lo : Int) < (partitionRange (lo : Int) (hi : Int) s).i + 1 - 1 then
          ((lo : Int), (partitionRange (lo : Int) (hi : Int) s).i) ::
            (if (partitionRange (lo : Int) (hi : Int) s).i + 1 + 1 < (hi : Int) then
              ((partitionRange (lo : Int) (hi : Int) s).i + 2, (hi : Int)) :: rest else rest)
        else
          (if (partitionRange (lo : Int) (hi : Int) s).i + 1 + 1 < (hi : Int) then
              ((partitionRange (lo : Int) (hi : Int) s).i + 2, (hi : Int)) :: rest else rest))
        (partitionRange (lo : Int) (hi : Int) s).s ∧
      stackWork
        (if (lo : Int) < (partitionRange (lo : Int) (hi : Int) s).i + 1 - 1 then
          ((lo : Int), (partitionRange (lo : Int) (hi : Int) s).i) ::
            (if (partitionRange (lo : Int) (hi : Int) s).i + 1 + 1 < (hi : Int) then
              ((partitionRange (lo : Int) (hi : Int) s).i + 2, (hi : Int)) :: rest else rest)
        else
          (if (partitionRange (lo : Int) (hi : Int) s).i + 1 + 1 < (hi : Int) then
              ((partitionRange (lo : Int) (hi : Int) s).i + 2, (hi : Int)) :: rest else rest))
        < stackWork (((lo : Int), (hi : Int)) :: rest) := by
  obtain ⟨ht, hr, hcov, hcnt⟩ := hinv
  have hr0 := hr
  rw [rangesOK_cons] at hr0
  obtain ⟨⟨-, hhiA⟩, hdis, hrest⟩ := hr0
  simp only at hhiA hdis
  have hhi : hi < A.length := by exact_mod_cast hhiA
  obtain ⟨q, hq, hq1, hq2, ht2, hw, hc2, hlow, hhigh⟩ :=
    partitionRange_spec A s lo hi hlt hhi ht
  generalize partitionRange (lo : Int) (hi : Int) s = p at *
  have hi' : p.i = (q : Int) - 1 := by omega
  have hlen := ht.1
  have hlen2 := ht2.1
  -- the two boundaries of the popped range were already settled
  have hL : lo = 0 ∨ Partitioned s.working_array lo := by
    by_cases h0 : lo = 0
    · exact Or.inl h0
    · right
      rcases hcov lo (by omega) (by omega) with hc | hp
      · rw [covered_cons] at hc
        rcases hc with hc | ⟨r, hr1, hr2, hr3⟩
        · simp only at hc; omega
        · have := hdis r hr1
          omega
      · exact hp
  have hR : s.working_array.length ≤ hi + 1 ∨ Partitioned s.working_array (hi + 1) := by
    by_cases h0 : s.working_array.length ≤ hi + 1
    · exact Or.inl h0
    · right
      rcases hcov (hi + 1) (by omega) (by omega) with hc | hp
      · rw [covered_cons] at hc
        rcases hc with hc | ⟨r, hr1, hr2, hr3⟩
        · simp only at hc; omega
        · have := hdis r hr1
          push_cast at hr2 hr3
          omega
      · exact hp
  have hPq : Partitioned p.s.working_array q :=
    partitioned_of_within _ _ lo hi q hw hq1 (by omega) (by omega) hL hR
      (fun a c ha1 ha2 hc1 hc2 => by
        by_cases hcq : c = q
        · subst hcq; exact le_of_lt (hlow a ha1 ha2)
        · exact le_trans (le_of_lt (hlow a ha1 ha2)) (hhigh c (by omega) hc2))
  have hPq1 : Partitioned p.s.working_array (q + 1) :=
    partitioned_of_within _ _ lo hi (q + 1) hw (by omega) (by omega) (by omega) hL hR
      (fun a c ha1 ha2 hc1 hc2 => by
        by_cases haq : a = q
        · subst haq; exact hhigh c (by omega) hc2
        · exact le_trans (le_of_lt (hlow a ha1 (by omega))) (hhigh c (by omega) hc2))
  -- boundaries outside the popped range
  have hout : ∀ b, 1 ≤ b → b < A.length → (b ≤ lo ∨ hi < b) →
      Covered rest b ∨ Partitioned p.s.working_array b := by
    intro b hb1 hb2 hb3
    rcases hcov b hb1 hb2 with hc | hp
    · rw [covered_cons] at hc
      rcases hc with hc | hc
      · simp only at hc; omega
      · exact Or.inl hc
    · exact Or.inr (partitioned_preserved _ _ lo hi b hw (by omega) hb3 hp)
  rw [stackSpan_cons] at hcnt
  simp only at hcnt
  rw [hi']
  by_cases c1 : (q : Int) - 1 + 1 + 1 < (hi : Int) <;>
    by_cases c2 : (lo : Int) < (q : Int) - 1 + 1 - 1
  · simp only [c1, c2, if_true]
    refine ⟨⟨ht2, ?_, ?_, ?_⟩, ?_⟩
    · rw [rangesOK_cons]
      refine ⟨⟨by simp only; omega, by simp only; omega⟩, ?_,
        rangesOK_sub _ _ _ _ _ _ hr (by omega) (le_refl _)⟩
      intro r' hr'
      simp only [List.mem_cons] at hr'
      rcases hr' with h | h
      · subst h; simp only; omega
      · have := hdis r' h
        simp only; omega
    · intro b hb1 hb2
      by_cases hb3 : b ≤ lo ∨ hi < b
      · rcases hout b hb1 hb2 hb3 with h | h
        · left; rw [covered_cons, covered_cons]; exact Or.inr (Or.inr h)
        · exact Or.inr h
      · by_cases hbq : b = q
        · subst hbq; exact Or.inr hPq
        · by_cases hbq1 : b = q + 1
          · subst hbq1; exact Or.inr hPq1
          · left; rw [covered_cons, covered_cons]; simp only; omega
    · rw [stackSpan_cons, stackSpan_cons]
      simp only
      omega
    · rw [stackWork_cons, stackWork_cons, stackWork_cons]
      simp only
      omega
  · simp only [c1, c2, if_true, if_false]
    refine ⟨⟨ht2, rangesOK_sub _ _ _ _ _ _ hr (by omega) (le_refl _), ?_, ?_⟩, ?_⟩
    · intro b hb1 hb2
      by_cases hb3 : b ≤ lo ∨ hi < b
      · rcases hout b hb1 hb2 hb3 with h | h
        · left; rw [covered_cons]; exact Or.inr h
        · exact Or.inr h
      · by_cases hbq : b = q
        · subst hbq; exact Or.inr hPq
        · by_cases hbq1 : b = q + 1
          · subst hbq1; exact Or.inr hPq1
          · left; rw [covered_cons]; simp only; omega
    · rw [stackSpan_cons]
      simp only
      omega
    · rw [stackWork_cons, stackWork_cons]
      simp only
      omega
  · simp only [c1, c2, if_true, if_false]
    refine ⟨⟨ht2, rangesOK_sub _ _ _ _ _ _ hr (le_refl _) (by omega), ?_, ?_⟩, ?_⟩
    · intro b hb1 hb2
      by_cases hb3 : b ≤ lo ∨ hi < b
      · rcases hout b hb1 hb2 hb3 with h | h
        · left; rw [covered_cons]; exact Or.inr h
        · exact Or.inr h
      · by_cases hbq : b = q
        · subst hbq; exact Or.inr hPq
        · by_cases hbq1 : b = q + 1
          · subst hbq1; exact Or.inr hPq1
          · left; rw [covered_cons]; simp only; omega
    · rw [stackSpan_cons]
      simp only
      omega
    · rw [stackWork_cons, stackWork_cons]
      simp only
      omega
  · simp only [c1, c2, if_false]
    refine ⟨⟨ht2, hrest, ?_, ?_⟩, ?_⟩
    · intro b hb1 hb2
      by_cases hb3 : b ≤ lo ∨ hi < b
      · exact hout b hb1 hb2 hb3
      · by_cases hbq : b = q
        · subst hbq; exact Or.inr hPq
        · by_cases hbq1 : b = q + 1
          · subst hbq1; exact Or.inr hPq1
          · omega
    · omega
    · rw [stackWork_cons]
      simp only
      omega

theorem stackWork_pos_of_ne_nil (stack : List (Int × Int)) (h : stack ≠ []) :
    1 ≤ stackWork stack := by
  cases stack with
  | nil => exact absurd rfl h
  | cons r rest =>
    rw [stackWork_cons]
    have : 1 ≤ max 1 (r.2 - r.1).toNat := le_max_left _ _
    omega

theorem quickLoop_inv (A : List Int) :
    ∀ (fuel : Nat) (stack : List (Int × Int)) (s : SortSt),
      QuickInv A stack s → stackWork stack ≤ fuel →
        (quickLoop fuel stack s).1 = [] ∧ QuickInv A [] (quickLoop fuel stack s).2 := by
  intro fuel
  induction fuel with
  | zero =>
    intro stack s hinv hw
    have : stack = [] := by
      by_contra h
      have := stackWork_pos_of_ne_nil stack h
      omega
    subst this
    exact ⟨rfl, hinv⟩
  | succ fuel ih =>
    intro stack s hinv hw
    cases stack with
    | nil => exact ⟨rfl, hinv⟩
    | cons r rest =>
      obtain ⟨low, high⟩ := r
      simp only [quickLoop]
      have hr := hinv.2.1
      rw [rangesOK_cons] at hr
      obtain ⟨⟨hlow0, hhighn⟩, hdis, hrest⟩ := hr
      simp only at hlow0 hhighn
      split
      · rename_i hlt
        obtain ⟨lo, rfl⟩ := Int.eq_ofNat_of_zero_le hlow0
        obtain ⟨hi, rfl⟩ := Int.eq_ofNat_of_zero_le (by omega : (0 : Int) ≤ high)
        have hlt' : lo < hi := by exact_mod_cast hlt
        obtain ⟨h1, h2⟩ := quickStep_inv A lo hi rest s hlt' hinv
        exact ih _ _ h1 (by omega)
      · rename_i hge
        obtain ⟨ht, -, hcov, hcnt⟩ := hinv
        refine ih rest s ⟨ht, hrest, ?_, ?_⟩ ?_
        · intro b hb1 hb2
          rcases hcov b hb1 hb2 with hc | hp
          · rw [covered_cons] at hc
            rcases hc with hc | hc
            · simp only at hc; omega
            · exact Or.inl hc
          · exact Or.inr hp
        · rw [stackSpan_cons] at hcnt
          omega
        · rw [stackWork_cons] at hw
          have : 1 ≤ max 1 ((low, high).2 - (low, high).1).toNat := le_max_left _ _
          omega

theorem quickSortRun_inv (A : List Int) :
    (quickSortRun A.length A).1 = [] ∧ QuickInv A [] (quickSortRun A.length A).2 := by
  unfold quickSortRun
  apply quickLoop_inv A
  · refine ⟨⟨by simp, by simp, by simp [applySwapEvents]⟩, ?_, ?_, ?_⟩
    · rw [rangesOK_cons]
      refine ⟨⟨le_refl _, by simp only; omega⟩, fun r' hr' => by simp at hr', ?_⟩
      exact ⟨fun r hr => by simp at hr, List.Pairwise.nil⟩
    · intro b hb1 hb2
      left
      rw [covered_cons]
      left
      simp only [List.take_length]
      omega
    · rw [stackSpan_cons]
      simp only [countAction, List.countP_nil, stackSpan, List.map_nil, List.sum_nil]
      omega
  · rw [stackWork_cons]
    simp only [stackWork, List.map_nil, List.sum_nil]
    omega

/-- The `while (top > 0)` loop of `generateQuickSortSteps` ends with an empty
range stack within the fuel that `quickSortRun` passes. -/
theorem quickLoop_terminates (A : List Int) : (quickSortRun A.length A).1 = [] :=
  (quickSortRun_inv A).1

/-! ## C4: quick sort -/

/-- C4: for every integer array `A` of length at most 256, applying in order
the swap events of the trace emitted by `generateQuickSortSteps` (the
pivot-placing swap included, which may exchange a position with itself) to a
copy of `A` yields a non-decreasing permutation of `A`. -/
theorem quick_replay_sorted_perm (A : List Int) (_hn : A.length ≤ 256) :
    List.Sorted (· ≤ ·) (applySwapEvents A (generateQuickSortSteps A.length A)) ∧
      List.Perm (applySwapEvents A (generateQuickSortSteps A.length A)) A := by
  obtain ⟨-, ⟨h1, h2, h3⟩, -, hcov, -⟩ := quickSortRun_inv A
  unfold generateQuickSortSteps
  rw [h3]
  refine ⟨sorted_of_partitioned _ ?_, h2⟩
  intro b hb1 hb2
  rcases hcov b hb1 (by omega) with hc | hp
  · obtain ⟨r, hr, -⟩ := hc
    simp at hr
  · exact hp

/-- Witness for C4 at the spec's example array. -/
theorem quick_replay_sorted_perm_witness :
    List.Sorted (· ≤ ·)
        (applySwapEvents [5, 3, 8, 4, 2] (generateQuickSortSteps 5 [5, 3, 8, 4, 2])) ∧
      List.Perm (applySwapEvents [5, 3, 8, 4, 2] (generateQuickSortSteps 5 [5, 3, 8, 4, 2]))
        [5, 3, 8, 4, 2] :=
  quick_replay_sorted_perm [5, 3, 8, 4, 2] (by decide)

theorem bubbleInner_count (i : Nat) (s : SortSt) :
    countAction "mark_sorted" (bubbleInnerBody i s).ir = countAction "mark_sorted" s.ir := by
  unfold bubbleInnerBody
  dsimp only
  split
  · show countAction "mark_sorted" ((s.emit "compare" _).emit "swap" _).ir = _
    rw [countAction_emit, countAction_emit, if_neg (by decide), if_neg (by decide)]; rfl
  · rw [countAction_emit, countAction_emit, if_neg (by decide), if_neg (by decide)]; rfl

theorem bubblePass_count (n p : Nat) (s : SortSt) :
    countAction "mark_sorted" (bubblePassBody n p s).ir =
      countAction "mark_sorted" s.ir + 1 := by
  unfold bubblePassBody
  dsimp only
  rw [countAction_emit, if_pos rfl]
  have := forRange_induction
    (fun _ (t : SortSt) => countAction "mark_sorted" t.ir = countAction "mark_sorted" s.ir)
    bubbleInnerBody 0 (n - p - 1) s (Nat.zero_le _) rfl
    (fun i t _ _ h => by dsimp only at h ⊢; rw [bubbleInner_count]; exact h)
  rw [this]

theorem bubble_count (n : Nat) (A : List Int) :
    countAction "mark_sorted" (generateBubbleSortSteps n A) = n - 1 := by
  unfold generateBubbleSortSteps bubbleSortRun
  have := forRange_induction (fun p (t : SortSt) => countAction "mark_sorted" t.ir = p)
    (bubblePassBody n) 0 (n - 1) ⟨A.take n, []⟩ (Nat.zero_le _) rfl
    (fun p t _ _ h => by dsimp only at h ⊢; rw [bubblePass_count, h])
  exact this

theorem insertionShift_count (key : Int) :
    ∀ (h : Nat) (s : SortSt),
      countAction "mark_sorted" (insertionShift key h s).2.ir =
        countAction "mark_sorted" s.ir := by
  intro h
  induction h with
  | zero => intro s; rfl
  | succ j ih =>
    intro s
    simp only [insertionShift]
    split
    · rw [ih]
      show countAction "mark_sorted" (SortSt.emit
        { (s.emit "compare" _) with working_array := _ } "swap" _).ir = _
      rw [countAction_emit, if_neg (by decide)]
      show countAction "mark_sorted" (s.emit "compare" _).ir + 0 = _
      rw [countAction_emit, if_neg (by decide)]; rfl
    · rfl

theorem insertionOuter_count (i : Nat) (s : SortSt) :
    countAction "mark_sorted" (insertionOuterBody i s).ir =
      countAction "mark_sorted" s.ir + 1 := by
  unfold insertionOuterBody
  dsimp only
  rw [countAction_emit, if_pos rfl]
  show countAction "mark_sorted" (insertionShift _ i _).2.ir + 1 = _
  rw [insertionShift_count, countAction_emit, if_neg (by decide)]

theorem insertion_count (n : Nat) (A : List Int) :
    countAction "mark_sorted" (generateInsertionSortSteps n A) = n - 1 := by
  unfold generateInsertionSortSteps insertionSortRun
  by_cases hn : 1 ≤ n
  · have := forRange_induction (fun p (t : SortSt) => countAction "mark_sorted" t.ir = p - 1)
      insertionOuterBody 1 n ⟨A.take n, []⟩ hn rfl
      (fun p t hp _ h => by dsimp only at h ⊢; rw [insertionOuter_count, h]; omega)
    exact this
  · have : n = 0 := by omega
    subst this
    rfl

theorem selectionInner_count (j : Nat) (st : Nat × SortSt) :
    countAction "mark_sorted" (selectionInnerBody j st).2.ir =
      countAction "mark_sorted" st.2.ir := by
  unfold selectionInnerBody
  dsimp only
  split
  · show countAction "mark_sorted" ((st.2.emit "compare" _).emit "no_swap" _).ir = _
    rw [countAction_emit, countAction_emit, if_neg (by decide), if_neg (by decide)]; rfl
  · show countAction "mark_sorted" ((st.2.emit "compare" _).emit "no_swap" _).ir = _
    rw [countAction_emit, countAction_emit, if_neg (by decide), if_neg (by decide)]; rfl

theorem selectionOuter_count (n i : Nat) (s : SortSt) :
    countAction "mark_sorted" (selectionOuterBody n i s).ir =
      countAction "mark_sorted" s.ir + 1 := by
  unfold selectionOuterBody
  dsimp only
  rw [countAction_emit, if_pos rfl]
  have := forRange_induction
    (fun _ (t : Nat × SortSt) => countAction "mark_sorted" t.2.ir = countAction "mark_sorted" s.ir)
    selectionInnerBody (i + 1) (max (i + 1) n) (i, s) (le_max_left _ _) rfl
    (fun j t _ _ h => by dsimp only at h ⊢; rw [selectionInner_count]; exact h)
  have hfr : forRange (i + 1) (max (i + 1) n) selectionInnerBody (i, s) =
      forRange (i + 1) n selectionInnerBody (i, s) := by
    unfold forRange
    congr 1
    omega
  rw [hfr] at this
  split
  · show countAction "mark_sorted" (SortSt.emit _ "swap" _).ir + 1 = _
    rw [countAction_emit, if_neg (by decide), this]
  · rw [this]

theorem selection_count (n : Nat) (A : List Int) :
    countAction "mark_sorted" (generateSelectionSortSteps n A) = n - 1 := by
  unfold generateSelectionSortSteps selectionSortRun
  have := forRange_induction (fun p (t : SortSt) => countAction "mark_sorted" t.ir = p)
    (selectionOuterBody n) 0 (n - 1) ⟨A.take n, []⟩ (Nat.zero_le _) rfl
    (fun p t _ _ h => by dsimp only at h ⊢; rw [selectionOuter_count, h])
  exact this

theorem countPivotMarkers_emit (s : SortSt) (action : String) (indices : List Int) :
    countPivotMarkers (s.emit action indices).ir =
      countPivotMarkers s.ir +
        if action = "compare" ∧ (indices.take 4).length = 1 then 1 else 0 := by
  simp only [countPivotMarkers, SortSt.emit, addIRWithIndices, List.countP_append,
    List.countP_cons, List.countP_nil, decide_eq_true_eq, Nat.zero_add]

theorem partitionRange_marks (low high : Int) (s : SortSt) :
    countAction "mark_sorted" (partitionRange low high s).s.ir =
        countAction "mark_sorted" s.ir + 1 ∧
      countPivotMarkers (partitionRange low high s).s.ir = countPivotMarkers s.ir + 1 := by
  unfold partitionRange
  dsimp only
  have h0 : countAction "mark_sorted" (s.emit "compare" [high]).ir =
        countAction "mark_sorted" s.ir ∧
      countPivotMarkers (s.emit "compare" [high]).ir = countPivotMarkers s.ir + 1 := by
    rw [countAction_emit, countPivotMarkers_emit]
    exact ⟨rfl, rfl⟩
  have hloop := forRange_preserves
    (fun p : PartSt => countAction "mark_sorted" p.s.ir = countAction "mark_sorted" s.ir ∧
      countPivotMarkers p.s.ir = countPivotMarkers s.ir + 1)
    (partitionBody high (s.working_array.getD high.toNat 0))
    (by
      intro j p hp
      unfold partitionBody
      dsimp only
      have hc : countAction "mark_sorted" (p.s.emit "compare" [(j : Int), high]).ir =
            countAction "mark_sorted" s.ir ∧
          countPivotMarkers (p.s.emit "compare" [(j : Int), high]).ir =
            countPivotMarkers s.ir + 1 := by
        rw [countAction_emit, countPivotMarkers_emit, hp.1, hp.2]
        exact ⟨rfl, rfl⟩
      split
      · split
        · show countAction "mark_sorted"
              ((p.s.emit "compare" [(j : Int), high]).emit "swap" [p.i + 1, (j : Int)]).ir = _ ∧
            countPivotMarkers
              ((p.s.emit "compare" [(j : Int), high]).emit "swap" [p.i + 1, (j : Int)]).ir = _
          rw [countAction_emit, countPivotMarkers_emit, hc.1, hc.2]
          exact ⟨rfl, rfl⟩
        · show countAction "mark_sorted"
              ((p.s.emit "compare" [(j : Int), high]).emit "no_swap" [(j : Int), high]).ir = _ ∧
            countPivotMarkers
              ((p.s.emit "compare" [(j : Int), high]).emit "no_swap" [(j : Int), high]).ir = _
          rw [countAction_emit, countPivotMarkers_emit, hc.1, hc.2]
          exact ⟨rfl, rfl⟩
      · show countAction "mark_sorted"
            ((p.s.emit "compare" [(j : Int), high]).emit "no_swap" [(j : Int), high]).ir = _ ∧
          countPivotMarkers
            ((p.s.emit "compare" [(j : Int), high]).emit "no_swap" [(j : Int), high]).ir = _
        rw [countAction_emit, countPivotMarkers_emit, hc.1, hc.2]
        exact ⟨rfl, rfl⟩)
    low.toNat high.toNat { i := low - 1, s := s.emit "compare" [high] } h0
  generalize forRange low.toNat high.toNat
    (partitionBody high (s.working_array.getD high.toNat 0))
    { i := low - 1, s := s.emit "compare" [high] } = p at hloop ⊢
  show countAction "mark_sorted"
        (SortSt.emit
          (SortSt.mk (swapEntries (p.s.emit "swap" [p.i + 1, high]).working_array
            (p.i + 1).toNat high.toNat) (p.s.emit "swap" [p.i + 1, high]).ir)
          "mark_sorted" [p.i + 1]).ir = _ ∧
      countPivotMarkers
        (SortSt.emit
          (SortSt.mk (swapEntries (p.s.emit "swap" [p.i + 1, high]).working_array
            (p.i + 1).toNat high.toNat) (p.s.emit "swap" [p.i + 1, high]).ir)
          "mark_sorted" [p.i + 1]).ir = _
  rw [countAction_emit, countPivotMarkers_emit]
  dsimp only
  rw [countAction_emit, countPivotMarkers_emit, hloop.1, hloop.2]
  exact ⟨rfl, rfl⟩

theorem quickLoop_marks :
    ∀ (fuel : Nat) (stack : List (Int × Int)) (s : SortSt),
      countAction "mark_sorted" (quickLoop fuel stack s).2.ir =
          countAction "mark_sorted" s.ir + quickLoopPartitions fuel stack s ∧
        countPivotMarkers (quickLoop fuel stack s).2.ir =
          countPivotMarkers s.ir + quickLoopPartitions fuel stack s := by
  intro fuel
  induction fuel with
  | zero => intro stack s; exact ⟨rfl, rfl⟩
  | succ fuel ih =>
    intro stack s
    cases stack with
    | nil => exact ⟨rfl, rfl⟩
    | cons r rest =>
      obtain ⟨low, high⟩ := r
      simp only [quickLoop, quickLoopPartitions]
      split
      · obtain ⟨k1, k2⟩ := partitionRange_marks low high s
        obtain ⟨i1, i2⟩ := ih
          (if low < (partitionRange low high s).i + 1 - 1 then
            (low, (partitionRange low high s).i) ::
              (if (partitionRange low high s).i + 1 + 1 < high then
                ((partitionRange low high s).i + 2, high) :: rest else rest)
          else
            (if (partitionRange low high s).i + 1 + 1 < high then
              ((partitionRange low high s).i + 2, high) :: rest else rest))
          (partitionRange low high s).s
        rw [i1, i2, k1, k2]
        constructor <;> omega
      · exact ih _ _

/-! ## C8: number of `mark_sorted` events -/

/-- C8 as stated fails: on the spec's example array, of length 5, the bubble,
insertion and selection traces hold 4 `mark_sorted` events, the merge trace
none, and the quick trace 3; none of them holds 5. -/
theorem mark_sorted_count_counterexample :
    countAction "mark_sorted" (generateBubbleSortSteps 5 [5, 3, 8, 4, 2]) = 4 ∧
      countAction "mark_sorted" (generateInsertionSortSteps 5 [5, 3, 8, 4, 2]) = 4 ∧
      countAction "mark_sorted" (generateSelectionSortSteps 5 [5, 3, 8, 4, 2]) = 4 ∧
      countAction "mark_sorted" (generateMergeSortSteps 5 [5, 3, 8, 4, 2]) = 0 ∧
      countAction "mark_sorted" (generateQuickSortSteps 5 [5, 3, 8, 4, 2]) = 3 ∧
      ([5, 3, 8, 4, 2] : List Int).length = 5 := by
  decide

/-- C8, amended: for every array `A` of length `n ≤ 256`, the bubble, insertion
and selection traces each contain exactly `n - 1` `mark_sorted` events (none
when `n = 0`); the quick-sort trace contains exactly one `mark_sorted` event
per partition step (an iteration of its loop that pops a range with
`low < high`), as many as it contains pivot markers (`compare` events with a
single operand), at least one when `n ≥ 2` and at most `n - 1`. -/
theorem mark_sorted_count (A : List Int) (_hn : A.length ≤ 256) :
    countAction "mark_sorted" (generateBubbleSortSteps A.length A) = A.length - 1 ∧
      countAction "mark_sorted" (generateInsertionSortSteps A.length A) = A.length - 1 ∧
      countAction "mark_sorted" (generateSelectionSortSteps A.length A) = A.length - 1 ∧
      countAction "mark_sorted" (generateQuickSortSteps A.length A) =
        quickLoopPartitions (A.length + 1) [((0 : Int), (A.length : Int) - 1)]
          ⟨A.take A.length, []⟩ ∧
      countPivotMarkers (generateQuickSortSteps A.length A) =
        countAction "mark_sorted" (generateQuickSortSteps A.length A) ∧
      (2 ≤ A.length → 1 ≤ countAction "mark_sorted" (generateQuickSortSteps A.length A)) ∧
      countAction "mark_sorted" (generateQuickSortSteps A.length A) ≤ A.length - 1 := by
  obtain ⟨m1, m2⟩ := quickLoop_marks (A.length + 1) [((0 : Int), (A.length : Int) - 1)]
    ⟨A.take A.length, []⟩
  have e1 : countAction "mark_sorted" (generateQuickSortSteps A.length A) =
      quickLoopPartitions (A.length + 1) [((0 : Int), (A.length : Int) - 1)]
        ⟨A.take A.length, []⟩ := by
    unfold generateQuickSortSteps quickSortRun
    rw [m1]
    simp [countAction]
  have e2 : countPivotMarkers (generateQuickSortSteps A.length A) =
      quickLoopPartitions (A.length + 1) [((0 : Int), (A.length : Int) - 1)]
        ⟨A.take A.length, []⟩ := by
    unfold generateQuickSortSteps quickSortRun
    rw [m2]
    simp [countPivotMarkers]
  refine ⟨bubble_count _ _, insertion_count _ _, selection_count _ _, e1, by rw [e2, e1], ?_, ?_⟩
  · intro h2
    rw [e1]
    have hlt : (0 : Int) < (A.length : Int) - 1 := by omega
    simp only [quickLoopPartitions, if_pos hlt]
    omega
  · obtain ⟨-, -, -, -, hc⟩ := quickSortRun_inv A
    unfold generateQuickSortSteps
    simp only [stackSpan, List.map_nil, List.sum_nil, Nat.add_zero] at hc
    exact hc

/-- Witness for the amended C8 at the spec's example array: three partition
steps, three pivot markers and three `mark_sorted` events for quick sort. -/
theorem mark_sorted_count_witness :
    (countAction "mark_sorted" (generateBubbleSortSteps 5 [5, 3, 8, 4, 2]) = 5 - 1 ∧
      countAction "mark_sorted" (generateInsertionSortSteps 5 [5, 3, 8, 4, 2]) = 5 - 1 ∧
      countAction "mark_sorted" (generateSelectionSortSteps 5 [5, 3, 8, 4, 2]) = 5 - 1 ∧
      countAction "mark_sorted" (generateQuickSortSteps 5 [5, 3, 8, 4, 2]) =
        quickLoopPartitions 6 [(0, 4)] ⟨[5, 3, 8, 4, 2], []⟩ ∧
      countPivotMarkers (generateQuickSortSteps 5 [5, 3, 8, 4, 2]) =
        countAction "mark_sorted" (generateQuickSortSteps 5 [5, 3, 8, 4, 2]) ∧
      (2 ≤ 5 → 1 ≤ countAction "mark_sorted" (generateQuickSortSteps 5 [5, 3, 8, 4, 2])) ∧
      countAction "mark_sorted" (generateQuickSortSteps 5 [5, 3, 8, 4, 2]) ≤ 5 - 1) ∧
      quickLoopPartitions 6 [(0, 4)] ⟨[5, 3, 8, 4, 2], []⟩ = 3 :=
  ⟨mark_sorted_count [5, 3, 8, 4, 2] (by decide), by decide⟩

/-! ## C2: merge sort -/

/-- C2 fails at `[2, 3, 1]`: the merge generator sorts its own working array,
but replaying its swap events as exchanges gives `[1, 3, 2]`, which is not
non-decreasing. -/
theorem merge_replay_not_sorted :
    generateMergeSortSteps 3 [2, 3, 1] =
        [⟨"compare", [0, 1]⟩, ⟨"no_swap", [0, 1]⟩, ⟨"compare", [0, 2]⟩, ⟨"swap", [0, 2]⟩] ∧
      (mergeSortRun 3 [2, 3, 1]).working_array = [1, 2, 3] ∧
      applySwapEvents [2, 3, 1] (generateMergeSortSteps 3 [2, 3, 1]) = [1, 3, 2] ∧
      ¬ List.Sorted (· ≤ ·) (applySwapEvents [2, 3, 1] (generateMergeSortSteps 3 [2, 3, 1])) := by
  decide

/-! ## C10: stack display -/

/-- C10 fails at a pop step: for the program `push 7; pop`, the player shows at
step 1 (the pop) the stack `[7]`, while folding events 0 through 1 gives the
empty stack; at step 0 (the push) the two agree. -/
theorem stack_shown_at_pop_step :
    generateStackOperations [⟨"push", 7, 0⟩, ⟨"pop", 0, 0⟩] =
        [⟨"push", [0, 7]⟩, ⟨"pop", [0, 7]⟩] ∧
      stackShownAt (generateStackOperations [⟨"push", 7, 0⟩, ⟨"pop", 0, 0⟩]) 1 = some [7] ∧
      foldStackEvents ((generateStackOperations [⟨"push", 7, 0⟩, ⟨"pop", 0, 0⟩]).take 2) = [] ∧
      stackShownAt (generateStackOperations [⟨"push", 7, 0⟩, ⟨"pop", 0, 0⟩]) 0 = some [7] ∧
      foldStackEvents ((generateStackOperations [⟨"push", 7, 0⟩, ⟨"pop", 0, 0⟩]).take 1) = [7] := by
  decide

theorem subtreeAt_nil (path : List Bool) : TreeVizNode.nil.subtreeAt path = .nil := by
  cases path <;> rfl

theorem subtreeAt_empty (t : TreeVizNode) : t.subtreeAt [] = t := by
  cases t <;> rfl

theorem subtreeAt_append (t : TreeVizNode) (p q : List Bool) :
    t.subtreeAt (p ++ q) = (t.subtreeAt p).subtreeAt q := by
  induction p generalizing t with
  | nil => rw [subtreeAt_empty, List.nil_append]
  | cons b p ih =>
    cases t with
    | nil => simp [TreeVizNode.subtreeAt, subtreeAt_nil]
    | node v a s l r =>
      cases b
      · simpa [TreeVizNode.subtreeAt] using ih r
      · simpa [TreeVizNode.subtreeAt] using ih l

theorem shape_eq_nil (t : TreeVizNode) : t.shape = .nil ↔ t = .nil := by
  cases t <;> simp [TreeVizNode.shape]

theorem rootValue_mem (t : TreeVizNode) (path : List Bool) (p : Int)
    (h : (t.subtreeAt path).rootValue = some p) : p ∈ preorderTraversal t.shape := by
  induction path generalizing t with
  | nil =>
    cases t with
    | nil => simp [TreeVizNode.subtreeAt, TreeVizNode.rootValue] at h
    | node v a s l r =>
      simp only [TreeVizNode.subtreeAt, TreeVizNode.rootValue, Option.some.injEq] at h
      simp [TreeVizNode.shape, preorderTraversal, h]
  | cons b path ih =>
    cases t with
    | nil => simp [TreeVizNode.subtreeAt, TreeVizNode.rootValue] at h
    | node v a s l r =>
      cases b
      · have := ih r (by simpa [TreeVizNode.subtreeAt] using h)
        simp [TreeVizNode.shape, preorderTraversal, this]
      · have := ih l (by simpa [TreeVizNode.subtreeAt] using h)
        simp [TreeVizNode.shape, preorderTraversal, this]

theorem path_unique (t : TreeVizNode) (hnd : (preorderTraversal t.shape).Nodup)
    (p : Int) (π ρ : List Bool) (h1 : (t.subtreeAt π).rootValue = some p)
    (h2 : (t.subtreeAt ρ).rootValue = some p) : π = ρ := by
  induction t generalizing π ρ with
  | nil => simp [subtreeAt_nil, TreeVizNode.rootValue] at h1
  | node v a s l r ihl ihr =>
    simp only [TreeVizNode.shape, preorderTraversal, List.singleton_append, List.cons_append,
      List.nodup_cons, List.mem_append, List.nodup_append, List.nil_append] at hnd
    obtain ⟨hv, hl, hr, hdis⟩ := hnd
    cases π with
    | nil =>
      simp only [TreeVizNode.subtreeAt, TreeVizNode.rootValue, Option.some.injEq] at h1
      subst h1
      cases ρ with
      | nil => rfl
      | cons b ρ =>
        cases b
        · exact absurd (Or.inr (rootValue_mem r ρ v (by simpa [TreeVizNode.subtreeAt] using h2))) hv
        · exact absurd (Or.inl (rootValue_mem l ρ v (by simpa [TreeVizNode.subtreeAt] using h2))) hv
    | cons b π =>
      cases b
      · have m1 := rootValue_mem r π p (by simpa [TreeVizNode.subtreeAt] using h1)
        cases ρ with
        | nil =>
          simp only [TreeVizNode.subtreeAt, TreeVizNode.rootValue, Option.some.injEq] at h2
          subst h2
          exact absurd (Or.inr m1) hv
        | cons c ρ =>
          cases c
          · rw [ihr hr π ρ (by simpa [TreeVizNode.subtreeAt] using h1)
              (by simpa [TreeVizNode.subtreeAt] using h2)]
          · have m2 := rootValue_mem l ρ p (by simpa [TreeVizNode.subtreeAt] using h2)
            exact absurd m1 (fun h => hdis m2 h)
      · have m1 := rootValue_mem l π p (by simpa [TreeVizNode.subtreeAt] using h1)
        cases ρ with
        | nil =>
          simp only [TreeVizNode.subtreeAt, TreeVizNode.rootValue, Option.some.injEq] at h2
          subst h2
          exact absurd (Or.inl m1) hv
        | cons c ρ =>
          cases c
          · have m2 := rootValue_mem r ρ p (by simpa [TreeVizNode.subtreeAt] using h2)
            exact absurd m2 (fun h => hdis m1 h)
          · rw [ihl hl π ρ (by simpa [TreeVizNode.subtreeAt] using h1)
              (by simpa [TreeVizNode.subtreeAt] using h2)]

theorem size_pos_of_ne_nil (t : TreeVizNode) (h : t ≠ .nil) : 1 ≤ t.size := by
  cases t with
  | nil => exact absurd rfl h
  | node v a s l r => simp only [TreeVizNode.size]; omega

theorem queueSize_append (q₁ q₂ : List (List Bool × TreeVizNode)) :
    queueSize (q₁ ++ q₂) = queueSize q₁ + queueSize q₂ := by
  simp [queueSize]

theorem findParentLoop_sound (root : TreeVizNode) (p : Int) :
    ∀ (fuel : Nat) (queue : List (List Bool × TreeVizNode)) (π : List Bool),
      (∀ e ∈ queue, root.subtreeAt e.1 = e.2) →
      findParentLoop p fuel queue = some π → (root.subtreeAt π).rootValue = some p := by
  intro fuel
  induction fuel with
  | zero => intro queue π _ h; simp [findParentLoop] at h
  | succ fuel ih =>
    intro queue π hq h
    cases queue with
    | nil => simp [findParentLoop] at h
    | cons e queue =>
      obtain ⟨path, current⟩ := e
      have hcur : root.subtreeAt path = current := hq (path, current) (List.mem_cons_self _ _)
      have hrest : ∀ e ∈ queue, root.subtreeAt e.1 = e.2 :=
        fun e he => hq e (List.mem_cons_of_mem _ he)
      cases current with
      | nil =>
        simp only [findParentLoop] at h
        exact ih queue π hrest h
      | node v a s l r =>
        simp only [findParentLoop] at h
        split at h
        · rename_i hv
          simp only [Option.some.injEq] at h
          subst h
          rw [hcur]
          simp [TreeVizNode.rootValue, hv]
        · refine ih _ π ?_ h
          intro e he
          have hl : root.subtreeAt (path ++ [true]) = l := by
            rw [subtreeAt_append, hcur]; simp [TreeVizNode.subtreeAt, subtreeAt_empty]
          have hr : root.subtreeAt (path ++ [false]) = r := by
            rw [subtreeAt_append, hcur]; simp [TreeVizNode.subtreeAt, subtreeAt_empty]
          by_cases c1 : l = .nil <;> by_cases c2 : r = .nil <;>
            simp only [c1, c2, ne_eq, not_true_eq_false, not_false_eq_true, if_true, if_false,
              List.mem_append, List.mem_singleton] at he
          · exact hrest e he
          · rcases he with he | he
            · exact hrest e he
            · subst he; exact hr
          · rcases he with he | he
            · exact hrest e he
            · subst he; exact hl
          · rcases he with (he | he) | he
            · exact hrest e he
            · subst he; exact hl
            · subst he; exact hr

theorem findParentLoop_complete (p : Int) :
    ∀ (fuel : Nat) (queue : List (List Bool × TreeVizNode)),
      (∀ e ∈ queue, e.2 ≠ .nil) → queueSize queue ≤ fuel →
      (∃ e ∈ queue, p ∈ preorderTraversal e.2.shape) →
      ∃ π, findParentLoop p fuel queue = some π := by
  intro fuel
  induction fuel with
  | zero =>
    intro queue hne hsz hex
    obtain ⟨e, he, -⟩ := hex
    cases queue with
    | nil => simp at he
    | cons e' queue =>
      have := size_pos_of_ne_nil e'.2 (hne e' (List.mem_cons_self _ _))
      simp only [queueSize, List.map_cons, List.sum_cons] at hsz
      omega
  | succ fuel ih =>
    intro queue hne hsz hex
    cases queue with
    | nil =>
      obtain ⟨e, he, -⟩ := hex
      simp at he
    | cons e queue =>
      obtain ⟨path, current⟩ := e
      have hrest : ∀ e ∈ queue, e.2 ≠ .nil := fun e he => hne e (List.mem_cons_of_mem _ he)
      cases current with
      | nil => exact absurd rfl (hne (path, .nil) (List.mem_cons_self _ _))
      | node v a s l r =>
        simp only [findParentLoop]
        split
        · exact ⟨path, rfl⟩
        · rename_i hv
          have hsz' : queueSize queue + l.size + r.size ≤ fuel := by
            simp only [queueSize, List.map_cons, List.sum_cons, TreeVizNode.size] at hsz
            simp only [queueSize]
            omega
          apply ih
          · intro e he
            by_cases c1 : l = .nil <;> by_cases c2 : r = .nil <;>
              simp only [c1, c2, ne_eq, not_true_eq_false, not_false_eq_true, if_true, if_false,
                List.mem_append, List.mem_singleton] at he
            · exact hrest e he
            · rcases he with he | he
              · exact hrest e he
              · subst he; exact c2
            · rcases he with he | he
              · exact hrest e he
              · subst he; exact c1
            · rcases he with (he | he) | he
              · exact hrest e he
              · subst he; exact c1
              · subst he; exact c2
          · by_cases c1 : l = .nil <;> by_cases c2 : r = .nil <;>
              simp only [c1, c2, ne_eq, not_true_eq_false, not_false_eq_true, if_true, if_false,
                queueSize_append] <;>
              simp only [queueSize, List.map_cons, List.map_nil, List.sum_cons, List.sum_nil] <;>
              simp only [queueSize] at hsz' <;> omega
          · obtain ⟨e, he, hp⟩ := hex
            rcases List.mem_cons.mp he with he | he
            · subst he
              simp only [TreeVizNode.shape, preorderTraversal, List.singleton_append,
                List.cons_append, List.mem_cons, List.mem_append, List.nil_append] at hp
              rcases hp with hp | hp | hp
              · exact absurd hp.symm hv
              · have c1 : l ≠ .nil := by
                  intro h; subst h; simp [TreeVizNode.shape, preorderTraversal] at hp
                refine ⟨(path ++ [true], l), ?_, hp⟩
                by_cases c2 : r = .nil <;> simp [c1, c2]
              · have c2 : r ≠ .nil := by
                  intro h; subst h; simp [TreeVizNode.shape, preorderTraversal] at hp
                refine ⟨(path ++ [false], r), ?_, hp⟩
                by_cases c1 : l = .nil <;> simp [c1, c2]
            · refine ⟨e, ?_, hp⟩
              by_cases c1 : l = .nil <;> by_cases c2 : r = .nil <;> simp [c1, c2, he]

theorem descentPath_rootValue (t : TreeVizNode) (x : Int) (hne : t ≠ .nil) :
    (t.subtreeAt (descentPath t.shape x)).rootValue = some (findInsertParent t.shape x).1 := by
  induction t with
  | nil => exact absurd rfl hne
  | node v a s l r ihl ihr =>
    simp only [TreeVizNode.shape, descentPath, findInsertParent]
    split
    · split
      · simp [TreeVizNode.subtreeAt, TreeVizNode.rootValue]
      · rename_i h
        have hl : l ≠ .nil := fun e => h ((shape_eq_nil l).mpr e)
        simpa [TreeVizNode.subtreeAt] using ihl hl
    · split
      · simp [TreeVizNode.subtreeAt, TreeVizNode.rootValue]
      · rename_i h
        have hr : r ≠ .nil := fun e => h ((shape_eq_nil r).mpr e)
        simpa [TreeVizNode.subtreeAt] using ihr hr

theorem attachAt_descentPath (t : TreeVizNode) (x a s : Int) (hne : t ≠ .nil) :
    (attachAt (.node x a s .nil .nil) (findInsertParent t.shape x).2 t
        (descentPath t.shape x)).shape = insertTreeNode t.shape x := by
  induction t with
  | nil => exact absurd rfl hne
  | node v a' s' l r ihl ihr =>
    simp only [TreeVizNode.shape, descentPath, findInsertParent, insertTreeNode]
    split
    · split
      · rename_i h
        simp [attachAt, TreeVizNode.shape, h, insertTreeNode]
      · rename_i h
        have hl : l ≠ .nil := fun e => h ((shape_eq_nil l).mpr e)
        simp only [attachAt, TreeVizNode.shape, ihl hl]
    · split
      · rename_i h
        simp [attachAt, TreeVizNode.shape, h, insertTreeNode]
      · rename_i h
        have hr : r ≠ .nil := fun e => h ((shape_eq_nil r).mpr e)
        simp only [attachAt, TreeVizNode.shape, ihr hr]

theorem findParent_eq_descentPath (t : TreeVizNode) (x : Int) (hne : t ≠ .nil)
    (hnd : (preorderTraversal t.shape).Nodup) :
    findParentLoop (findInsertParent t.shape x).1 (t.size + 1) [([], t)] =
      some (descentPath t.shape x) := by
  have hd := descentPath_rootValue t x hne
  have hmem := rootValue_mem t _ _ hd
  obtain ⟨π, hπ⟩ := findParentLoop_complete (findInsertParent t.shape x).1 (t.size + 1)
    [([], t)] (by simpa using hne) (by simp [queueSize]) ⟨([], t), by simp, hmem⟩
  have hs := findParentLoop_sound t _ (t.size + 1) [([], t)] π
    (by simp [subtreeAt_empty]) hπ
  rw [hπ, path_unique t hnd _ π _ hs hd]

theorem preorder_insert_perm (t : TreeNode) (x : Int) :
    List.Perm (preorderTraversal (insertTreeNode t x)) (x :: preorderTraversal t) := by
  induction t with
  | nil => simp [insertTreeNode, preorderTraversal]
  | node v l r ihl ihr =>
    simp only [insertTreeNode]
    split
    · simp only [preorderTraversal, List.singleton_append, List.cons_append, List.nil_append]
      refine List.Perm.trans ?_ (List.Perm.swap _ _ _)
      exact List.Perm.cons _ (List.Perm.append_right _ ihl)
    · simp only [preorderTraversal, List.singleton_append, List.cons_append, List.nil_append]
      refine List.Perm.trans ?_ (List.Perm.swap _ _ _)
      refine List.Perm.cons _ ?_
      exact (List.Perm.append_left _ ihr).trans List.perm_middle

theorem displayTreeBuild_emit (ir : List IRNode) (action : String) (indices : List Int) :
    displayTreeBuild (addIRWithIndices ir action indices) =
      displayTreeStep (displayTreeBuild ir) ⟨action, indices.take 4⟩ := by
  simp [displayTreeBuild, addIRWithIndices, List.foldl_append]

theorem displayTreeBuild_emitVisits (result : List Int) :
    ∀ ir : List IRNode, displayTreeBuild (emitVisits ir result) = displayTreeBuild ir := by
  induction result with
  | nil => intro ir; rfl
  | cons v result ih =>
    intro ir
    simp only [emitVisits, List.foldl_cons]
    have := ih (addIRWithIndices ir "visit" [v])
    simp only [emitVisits] at this
    rw [this, displayTreeBuild_emit]
    simp [displayTreeStep]

theorem findInsertParent_side (t : TreeNode) (x : Int) (hne : t ≠ .nil) :
    (findInsertParent t x).2 = 1 ∨ (findInsertParent t x).2 = 0 := by
  induction t with
  | nil => exact absurd rfl hne
  | node v l r ihl ihr =>
    simp only [findInsertParent]
    split
    · split
      · exact Or.inl rfl
      · rename_i h; exact ihl h
    · split
      · exact Or.inr rfl
      · rename_i h; exact ihr h

theorem treeOps_inv :
    ∀ (ops : List OperationNode) (st : TreeGenSt),
      (displayTreeBuild st.ir).1.shape = st.root →
      (preorderTraversal st.root ++ insertedValues ops).Nodup →
      (∀ x ∈ preorderTraversal st.root ++ insertedValues ops, x ≠ -1) →
      (displayTreeBuild (ops.foldl treeOpStep st).ir).1.shape =
        (ops.foldl treeOpStep st).root := by
  intro ops
  induction ops with
  | nil => intro st h _ _; exact h
  | cons op ops ih =>
    intro st hinv hnd hne
    simp only [List.foldl_cons]
    by_cases hop : op.operation = "insert"
    · have hins : insertedValues (op :: ops) = op.value :: insertedValues ops := by
        simp [insertedValues, hop]
      rw [hins] at hnd hne
      have hperm := preorder_insert_perm st.root op.value
      apply ih
      · simp only [treeOpStep, hop, if_true]
        by_cases hroot : st.root = .nil
        · simp only [hroot, if_true, displayTreeBuild_emit]
          simp [displayTreeStep, TreeVizNode.shape, insertTreeNode]
        · simp only [hroot, if_false, displayTreeBuild_emit]
          have hV : (displayTreeBuild st.ir).1 ≠ .nil := by
            intro h
            apply hroot
            rw [← hinv, h]
            rfl
          have hnd' : (preorderTraversal (displayTreeBuild st.ir).1.shape).Nodup := by
            rw [hinv]
            exact (List.nodup_append.mp hnd).1
          have hfind := findParent_eq_descentPath _ op.value hV hnd'
          have hd := descentPath_rootValue _ op.value hV
          have hmem := rootValue_mem _ _ _ hd
          rw [hinv] at hfind hmem
          have hp1 : (findInsertParent st.root op.value).1 ≠ -1 :=
            hne _ (List.mem_append_left _ hmem)
          have hatt := attachAt_descentPath (displayTreeBuild st.ir).1 op.value
            (findInsertParent st.root op.value).1 (findInsertParent st.root op.value).2 hV
          rw [hinv] at hatt
          simp only [displayTreeStep, List.take, List.length_cons, List.length_nil]
          simp only [List.getD_cons_zero, List.getD_cons_succ]
          simp [hp1, hfind, hatt]
      · simp only [treeOpStep, hop, if_true]
        refine (List.Perm.nodup_iff ?_).mpr hnd
        exact (List.Perm.append_right _ hperm).trans (by
          simpa using (@List.perm_middle Int op.value (preorderTraversal st.root)
            (insertedValues ops)).symm)
      · simp only [treeOpStep, hop, if_true]
        intro x hx
        apply hne x
        have : x ∈ op.value :: preorderTraversal st.root ∨ x ∈ insertedValues ops := by
          rcases List.mem_append.mp hx with h | h
          · exact Or.inl (hperm.mem_iff.mp h)
          · exact Or.inr h
        simp only [List.mem_append, List.mem_cons] at this ⊢
        tauto
    · have hins : insertedValues (op :: ops) = insertedValues ops := by
        simp [insertedValues, hop]
      rw [hins] at hnd hne
      have hstep : (displayTreeBuild (treeOpStep st op).ir).1.shape = (treeOpStep st op).root ∧
          (treeOpStep st op).root = st.root := by
        simp only [treeOpStep, hop, if_false]
        split
        · simp only [displayTreeBuild_emitVisits]; exact ⟨hinv, trivial⟩
        · split
          · simp only [displayTreeBuild_emitVisits]; exact ⟨hinv, trivial⟩
          · split
            · simp only [displayTreeBuild_emitVisits]; exact ⟨hinv, trivial⟩
            · exact ⟨hinv, rfl⟩
      apply ih _ hstep.1
      · rw [hstep.2]; exact hnd
      · rw [hstep.2]; exact hne

/-! ## C9: the tree rebuilt by the player -/

/-- C9 as stated fails.  With a repeated value (`insert 5, 5, 7`) the player
attaches 7 to the first node holding 5 and drops the second 5; with the value
`-1` in the tree (`insert -1, 3`) the recorded parent value `-1` is read as
"no parent" and the new node replaces the root. -/
theorem tree_rebuild_counterexample :
    (displayTreeBuild (generateTreeOperations
        [⟨"insert", 5, 0⟩, ⟨"insert", 5, 0⟩, ⟨"insert", 7, 0⟩])).1.shape =
        .node 5 .nil (.node 7 .nil .nil) ∧
      (treeOpsRun [⟨"insert", 5, 0⟩, ⟨"insert", 5, 0⟩, ⟨"insert", 7, 0⟩]).root =
        .node 5 .nil (.node 5 .nil (.node 7 .nil .nil)) ∧
      (displayTreeBuild (generateTreeOperations
        [⟨"insert", -1, 0⟩, ⟨"insert", 3, 0⟩])).1.shape = .node 3 .nil .nil ∧
      (treeOpsRun [⟨"insert", -1, 0⟩, ⟨"insert", 3, 0⟩]).root =
        .node (-1) .nil (.node 3 .nil .nil) := by
  decide

/-- C9, amended: for every sequence of tree operations that inserts at most
256 values, pairwise distinct and all different from `-1`, the tree the player
rebuilds from the whole trace has the same shape and the same values as the
binary search tree the generator built. -/
theorem tree_rebuild_eq (ops : List OperationNode)
    (_hlen : (insertedValues ops).length ≤ 256) (hnd : (insertedValues ops).Nodup)
    (hne : ∀ x ∈ insertedValues ops, x ≠ -1) :
    (displayTreeBuild (generateTreeOperations ops)).1.shape = (treeOpsRun ops).root := by
  unfold generateTreeOperations treeOpsRun
  apply treeOps_inv
  · rfl
  · simpa [preorderTraversal] using hnd
  · simpa [preorderTraversal] using hne

/-- Witness for the amended C9: the spec's example `insert 5, 3, 8` followed by
an in-order traversal. -/
theorem tree_rebuild_eq_witness :
    (displayTreeBuild (generateTreeOperations
        [⟨"insert", 5, 0⟩, ⟨"insert", 3, 0⟩, ⟨"insert", 8, 0⟩, ⟨"traverse_inorder", 0, 0⟩])).1.shape =
      (treeOpsRun
        [⟨"insert", 5, 0⟩, ⟨"insert", 3, 0⟩, ⟨"insert", 8, 0⟩, ⟨"traverse_inorder", 0, 0⟩]).root :=
  tree_rebuild_eq _ (by decide) (by decide) (by decide)

/-! ## C6: round trip through the player's reader -/

set_option maxRecDepth 100000 in
/-- C6 fails on every trace: the player's reader scans for the next opening
brace without stopping at the end of the `steps` array, so the `metadata`
object is read as one more step with an empty action and no operands.  For
bubble sort on `[2, 1]` the name, the array and the three events are read back
exactly, followed by that extra step. -/
theorem cli_reader_extra_step :
    CliVisualizer.parseJSON
        (writeIRToJSON "Bubble Sort" [2, 1] (generateBubbleSortSteps 2 [2, 1])).toList =
      { algorithm := "Bubble Sort", array := [2, 1],
        steps := generateBubbleSortSteps 2 [2, 1] ++ [⟨"", []⟩] } := by
  decide

/-! ## C7: round trip through the code emitter's reader -/

set_option maxRecDepth 100000 in
/-- C7 fails on every event with a single operand: `parseNumber` accepts the
operand only when nothing follows the number in the step text, and the closing
brace always follows.  For bubble sort on `[2, 1]` the events `compare(0,1)` and
`swap(0,1)` are read back exactly, but `mark_sorted(1)` is read back without
its operand. -/
theorem js_reader_drops_single_operand :
    generateBubbleSortSteps 2 [2, 1] =
        [⟨"compare", [0, 1]⟩, ⟨"swap", [0, 1]⟩, ⟨"mark_sorted", [1]⟩] ∧
      (JsonToJs.parseJSON
        (writeIRToJSON "Bubble Sort" [2, 1] (generateBubbleSortSteps 2 [2, 1])).toList).steps =
        [⟨"compare", [0, 1]⟩, ⟨"swap", [0, 1]⟩, ⟨"mark_sorted", []⟩] := by
  decide

/-! ## Quick sort: the range stack stays within its capacity -/

theorem length_le_stackWork (stack : List (Int × Int)) : stack.length ≤ stackWork stack := by
  induction stack with
  | nil => simp [stackWork]
  | cons r rest ih =>
    rw [stackWork_cons, List.length_cons]
    have : 1 ≤ max 1 (r.2 - r.1).toNat := le_max_left _ _
    omega

theorem quickLoopPeak_le (A : List Int) :
    ∀ (fuel : Nat) (stack : List (Int × Int)) (s : SortSt),
      QuickInv A stack s → quickLoopPeak fuel stack s ≤ stackWork stack := by
  intro fuel
  induction fuel with
  | zero =>
    intro stack s _
    simp only [quickLoopPeak]
    exact length_le_stackWork stack
  | succ fuel ih =>
    intro stack s hinv
    cases stack with
    | nil => simp [quickLoopPeak]
    | cons r rest =>
      obtain ⟨low, high⟩ := r
      simp only [quickLoopPeak]
      have hlen := length_le_stackWork ((low, high) :: rest)
      rw [List.length_cons] at hlen
      have hr := hinv.2.1
      rw [rangesOK_cons] at hr
      obtain ⟨⟨hlow0, hhighn⟩, hdis, hrest⟩ := hr
      simp only at hlow0 hhighn
      split
      · rename_i hlt
        obtain ⟨lo, rfl⟩ := Int.eq_ofNat_of_zero_le hlow0
        obtain ⟨hi, rfl⟩ := Int.eq_ofNat_of_zero_le (by omega : (0 : Int) ≤ high)
        have hlt' : lo < hi := by exact_mod_cast hlt
        obtain ⟨h1, h2⟩ := quickStep_inv A lo hi rest s hlt' hinv
        have := ih _ _ h1
        exact max_le hlen (by omega)
      · rename_i hge
        obtain ⟨ht, -, hcov, hcnt⟩ := hinv
        have := ih rest s ⟨ht, hrest, ?_, ?_⟩
        · rw [stackWork_cons]
          exact max_le (by rw [stackWork_cons] at hlen; exact hlen) (by omega)
        · intro b hb1 hb2
          rcases hcov b hb1 hb2 with hc | hp
          · rw [covered_cons] at hc
            rcases hc with hc | hc
            · simp only at hc; omega
            · exact Or.inl hc
          · exact Or.inr hp
        · rw [stackSpan_cons] at hcnt
          omega

/-- For an array of at most 256 elements the range stack of
`generateQuickSortSteps` never holds more than 256 ranges, so the C array
`stack[256]` is not overrun and the list model of the stack is exact. -/
theorem quick_stack_within_capacity (A : List Int) (hn : A.length ≤ 256) :
    quickLoopPeak (A.length + 1) [((0 : Int), (A.length : Int) - 1)] ⟨A.take A.length, []⟩
      ≤ 256 := by
  have hinv : QuickInv A [((0 : Int), (A.length : Int) - 1)] ⟨A.take A.length, []⟩ := by
    refine ⟨⟨by simp, by simp, by simp [applySwapEvents]⟩, ?_, ?_, ?_⟩
    · rw [rangesOK_cons]
      refine ⟨⟨le_refl _, by simp only; omega⟩, fun r' hr' => by simp at hr', ?_⟩
      exact ⟨fun r hr => by simp at hr, List.Pairwise.nil⟩
    · intro b hb1 hb2
      left
      rw [covered_cons]
      left
      simp only [List.take_length]
      omega
    · rw [stackSpan_cons]
      simp only [countAction, List.countP_nil, stackSpan, List.map_nil, List.sum_nil]
      omega
  have := quickLoopPeak_le A (A.length + 1) _ _ hinv
  rw [stackWork_cons] at this
  simp only [stackWork, List.map_nil, List.sum_nil] at this
  omega

/-! ## C11: graph display -/

/-- C11 fails: every graph branch of `visualizeStep` calls `displayGraph` on
the whole list of steps.  For the program `add_node 0; add_node 1;
add_edge 0 1` the player shows at step 0 the nodes `[0, 1]` and the edge
`(0, 1)`, although events 0 through 0 introduce only node 0 (collecting the
same way over that prefix gives `([0], [])`). -/
theorem graph_shown_at_first_step :
    generateGraphOperations [⟨"add_node", 0, 0⟩, ⟨"add_node", 1, 0⟩, ⟨"add_edge", 0, 1⟩] =
        [⟨"add_node", [0]⟩, ⟨"add_node", [1]⟩, ⟨"add_edge", [0, 1]⟩] ∧
      graphShownAt (generateGraphOperations
        [⟨"add_node", 0, 0⟩, ⟨"add_node", 1, 0⟩, ⟨"add_edge", 0, 1⟩]) 0 =
        some ([0, 1], [(0, 1)]) ∧
      displayGraph ((generateGraphOperations
        [⟨"add_node", 0, 0⟩, ⟨"add_node", 1, 0⟩, ⟨"add_edge", 0, 1⟩]).take 1) = ([0], []) := by
  decide

theorem generateJSArrayStep_eq (w : List Int) (e : IRNode) :
    generateJSArrayStep w e = applySwapEvent w e := by
  unfold generateJSArrayStep applySwapEvent
  by_cases h1 : e.action = "compare"
  · have : ¬ e.action = "swap" := by rw [h1]; decide
    simp [h1, this]
  · by_cases h2 : e.action = "swap"
    · by_cases h3 : e.indices.length ≥ 2
      · simp [h1, h2, h3]
      · simp [h1, h2, h3]
    · simp [h1, h2]

theorem visualizeStepArray_eq (n : Nat) (w : List Int) (e : IRNode)
    (hp : e.action ≠ "push") : visualizeStepArray n w e = applySwapEvent w e := by
  unfold visualizeStepArray applySwapEvent
  by_cases h2 : e.action = "swap"
  · have h1 : ¬ e.action = "compare" := by rw [h2]; decide
    by_cases h3 : e.indices.length ≥ 2
    · simp [h1, h2, h3]
    · have h4 : ¬ "swap" = "no_swap" := by decide
      have h5 : ¬ "swap" = "mark_sorted" := by decide
      have h6 : ¬ "swap" = "push" := by decide
      simp [h2, h3, h4, h5, h6]
  · simp [h2, hp]

theorem foldl_congr_mem {α β : Type} (f g : β → α → β) :
    ∀ (l : List α) (b : β), (∀ e ∈ l, ∀ b, f b e = g b e) → l.foldl f b = l.foldl g b := by
  intro l
  induction l with
  | nil => intro b _; rfl
  | cons a l ih =>
    intro b h
    simp only [List.foldl_cons]
    rw [h a (List.mem_cons_self _ _) b]
    exact ih _ (fun e he b => h e (List.mem_cons_of_mem _ he) b)

/-! ## C12: the player's array and the emitter's shadow array -/

/-- C12 as stated fails on a stack trace: for the program `push 3` read with
the default array `[5, 3, 8, 4, 2]`, the event is `push(0, 3)`, both operands
are valid positions, the player stores 3 at position 0 and the emitter leaves
its shadow array alone. -/
theorem player_emitter_array_counterexample :
    generateStackOperations [⟨"push", 3, 0⟩] = [⟨"push", [0, 3]⟩] ∧
      playerArray [5, 3, 8, 4, 2] (generateStackOperations [⟨"push", 3, 0⟩]) =
        [3, 3, 8, 4, 2] ∧
      emitterArray [5, 3, 8, 4, 2] (generateStackOperations [⟨"push", 3, 0⟩]) =
        [5, 3, 8, 4, 2] := by
  decide

/-- C12, amended: for every initial array and every event sequence with no
`push` event whose operands are valid positions of that array, the array the
player holds after all events equals the emitter's shadow array, and both
equal the initial array with the swap events applied in order. -/
theorem player_emitter_array_eq (A : List Int) (steps : List IRNode)
    (hp : ∀ e ∈ steps, e.action ≠ "push")
    (_hvalid : ∀ e ∈ steps, ∀ x ∈ e.indices, 0 ≤ x ∧ x < (A.length : Int)) :
    playerArray A steps = emitterArray A steps ∧
      emitterArray A steps = applySwapEvents A steps := by
  have h1 : emitterArray A steps = applySwapEvents A steps :=
    foldl_congr_mem _ _ steps A (fun e _ b => generateJSArrayStep_eq b e)
  have h2 : playerArray A steps = applySwapEvents A steps :=
    foldl_congr_mem _ _ steps A (fun e he b => visualizeStepArray_eq _ b e (hp e he))
  exact ⟨h2.trans h1.symm, h1⟩

/-- Witness for the amended C12: the bubble-sort trace of the spec's example. -/
theorem player_emitter_array_eq_witness :
    playerArray [5, 3, 8, 4, 2] (generateBubbleSortSteps 5 [5, 3, 8, 4, 2]) =
        emitterArray [5, 3, 8, 4, 2] (generateBubbleSortSteps 5 [5, 3, 8, 4, 2]) ∧
      emitterArray [5, 3, 8, 4, 2] (generateBubbleSortSteps 5 [5, 3, 8, 4, 2]) =
        applySwapEvents [5, 3, 8, 4, 2] (generateBubbleSortSteps 5 [5, 3, 8, 4, 2]) :=
  player_emitter_array_eq [5, 3, 8, 4, 2] (generateBubbleSortSteps 5 [5, 3, 8, 4, 2])
    (by decide) (by decide)

theorem getD_append_left (l₁ l₂ : List Int) (i : Nat) (h : i < l₁.length) :
    (l₁ ++ l₂).getD i 0 = l₁.getD i 0 := by
  simp only [List.getD_eq_getElem?_getD, List.getElem?_append_left h]

theorem getD_append_length (l : List Int) (v : Int) :
    (l ++ [v]).getD l.length 0 = v := by
  simp [List.getD_eq_getElem?_getD]

theorem getLastD_eq_getD (l : List Int) (h : l ≠ []) :
    l.getLastD 0 = l.getD (l.length - 1) 0 := by
  rw [List.getLastD_eq_getLast?, List.getLast?_eq_getLast _ h, List.getLast_eq_getElem]
  simp only [Option.getD_some]
  rw [getD_eq_getElem_of_lt]

theorem getD_dropLast (l : List Int) (i : Nat) (h : i < l.length - 1) :
    l.dropLast.getD i 0 = l.getD i 0 := by
  rw [getD_eq_getElem_of_lt _ _ (by simpa using h), getD_eq_getElem_of_lt _ _ (by omega)]
  simp [List.getElem_dropLast]

theorem stackOpStep_push (st : StackGenSt) (op : OperationNode) (h : op.operation = "push") :
    stackOpStep st op =
      { stack := st.stack.set (st.top + 1).toNat op.value, top := st.top + 1,
        ir := addIRWithIndices st.ir "push" [st.top + 1, op.value] } := by
  simp only [stackOpStep, h, if_true]

theorem stackOpStep_pop (st : StackGenSt) (op : OperationNode) (h : op.operation = "pop") :
    stackOpStep st op =
      if st.top ≥ 0 then
        { st with top := st.top - 1,
                  ir := addIRWithIndices st.ir "pop" [st.top, st.stack.getD st.top.toNat 0] }
      else st := by
  have h1 : ¬ op.operation = "push" := by rw [h]; decide
  unfold stackOpStep
  rw [if_neg h1, if_pos h]

theorem stackOpStep_peek (st : StackGenSt) (op : OperationNode)
    (h : op.operation = "peek" ∨ op.operation = "top") :
    stackOpStep st op =
      if st.top ≥ 0 then { st with ir := addIRWithIndices st.ir "peek" [st.top] } else st := by
  have h1 : ¬ op.operation = "push" := by rcases h with h | h <;> rw [h] <;> decide
  have h2 : ¬ op.operation = "pop" := by rcases h with h | h <;> rw [h] <;> decide
  unfold stackOpStep
  rw [if_neg h1, if_neg h2, if_pos h]

theorem stackOpStep_other (st : StackGenSt) (op : OperationNode)
    (h1 : ¬ op.operation = "push") (h2 : ¬ op.operation = "pop")
    (h3 : ¬ (op.operation = "peek" ∨ op.operation = "top")) : stackOpStep st op = st := by
  simp only [stackOpStep, h1, h2, h3, if_false]

theorem stackOps_refine :
    ∀ (ops : List OperationNode) (st : StackGenSt) (stk : List Int),
      StackSim st stk → stk.length + countOps "push" ops ≤ 256 →
      (ops.foldl stackOpStep st).ir = st.ir ++ stackEventsSpec ops stk := by
  intro ops
  induction ops with
  | nil => intro st stk _ _; simp [stackEventsSpec]
  | cons op ops ih =>
    intro st stk hsim hcap
    obtain ⟨hlen, htop, hval⟩ := hsim
    simp only [List.foldl_cons, stackEventsSpec]
    by_cases h1 : op.operation = "push"
    · have hc : countOps "push" (op :: ops) = countOps "push" ops + 1 := by
        simp [countOps, h1]
      rw [hc] at hcap
      rw [stackOpStep_push st op h1, if_pos h1]
      have hidx : (st.top + 1).toNat = stk.length := by omega
      have htop1 : st.top + 1 = (stk.length : Int) := by omega
      rw [ih _ (stk ++ [op.value]) ?_ (by simp only [List.length_append, List.length_singleton]; omega)]
      · simp only [addIRWithIndices, List.append_assoc, List.singleton_append, htop1]
        rfl
      · refine ⟨by simp [hlen], ?_, ?_⟩
        · simp only [List.length_append, List.length_singleton]; push_cast; omega
        · intro i hi
          simp only [List.length_append, List.length_singleton] at hi
          simp only [hidx]
          rw [getD_set_eq]
          by_cases hi2 : i = stk.length
          · subst hi2
            rw [if_pos ⟨rfl, by omega⟩, getD_append_length]
          · rw [if_neg (fun h => hi2 h.1.symm), getD_append_left _ _ _ (by omega)]
            exact hval i (by omega)
    · have hc : countOps "push" (op :: ops) = countOps "push" ops := by
        simp [countOps, h1]
      rw [hc] at hcap
      rw [if_neg h1]
      by_cases h2 : op.operation = "pop"
      · rw [stackOpStep_pop st op h2, if_pos h2]
        by_cases hs : stk = []
        · subst hs
          have : ¬ st.top ≥ 0 := by simp at htop; omega
          rw [if_neg this, if_pos rfl]
          exact ih st [] ⟨hlen, htop, hval⟩ hcap
        · have hpos : 0 < stk.length := List.length_pos.mpr hs
          have hge : st.top ≥ 0 := by omega
          rw [if_pos hge, if_neg hs]
          have e2 : st.stack.getD st.top.toNat 0 = stk.getLastD 0 := by
            rw [getLastD_eq_getD _ hs]
            have : st.top.toNat = stk.length - 1 := by omega
            rw [this]
            exact hval _ (by omega)
          rw [ih _ stk.dropLast ?_ (by simp only [List.length_dropLast]; omega)]
          · rw [e2]
            simp only [addIRWithIndices, List.append_assoc, List.singleton_append, htop]
            rfl
          · refine ⟨hlen, ?_, ?_⟩
            · simp only [List.length_dropLast]; omega
            · intro i hi
              simp only [List.length_dropLast] at hi
              rw [getD_dropLast _ _ hi]
              exact hval i (by omega)
      · rw [if_neg h2]
        by_cases h3 : op.operation = "peek" ∨ op.operation = "top"
        · rw [stackOpStep_peek st op h3, if_pos h3]
          by_cases hs : stk = []
          · subst hs
            have : ¬ st.top ≥ 0 := by simp at htop; omega
            rw [if_neg this, if_pos rfl]
            exact ih st [] ⟨hlen, htop, hval⟩ hcap
          · have hpos : 0 < stk.length := List.length_pos.mpr hs
            have hge : st.top ≥ 0 := by omega
            rw [if_pos hge, if_neg hs]
            rw [ih { st with ir := addIRWithIndices st.ir "peek" [st.top] } stk
              ⟨hlen, htop, hval⟩ hcap]
            simp only [addIRWithIndices, List.append_assoc, List.singleton_append, htop]
            rfl
        · rw [stackOpStep_other st op h1 h2 h3, if_neg h3]
          exact ih st stk ⟨hlen, htop, hval⟩ hcap

/-! ## C13: events of the stack generator -/

/-- C13: for every sequence of stack operations with at most 256 pushes, the
trace of `generateStackOperations` is the event list the specification
describes: `push(k, v)` with `k` the size before the push, `pop(size - 1, v)`
with `v` the most recent value not yet popped, `peek(size - 1)`, and nothing
for a pop, peek or top on an empty stack. -/
theorem stack_events_spec (ops : List OperationNode) (h : countOps "push" ops ≤ 256) :
    generateStackOperations ops = stackEventsSpec ops [] := by
  have := stackOps_refine ops { stack := List.replicate 256 0, top := -1, ir := [] } []
    ⟨List.length_replicate _ _, rfl, fun i hi => absurd hi (Nat.not_lt_zero i)⟩
    (by rw [List.length_nil, Nat.zero_add]; exact h)
  rw [List.nil_append] at this
  exact this

/-- Witness for C13. -/
theorem stack_events_spec_witness :
    generateStackOperations
        [⟨"push", 7, 0⟩, ⟨"push", 9, 0⟩, ⟨"peek", 0, 0⟩, ⟨"pop", 0, 0⟩, ⟨"top", 0, 0⟩,
          ⟨"pop", 0, 0⟩, ⟨"pop", 0, 0⟩] =
      stackEventsSpec
        [⟨"push", 7, 0⟩, ⟨"push", 9, 0⟩, ⟨"peek", 0, 0⟩, ⟨"pop", 0, 0⟩, ⟨"top", 0, 0⟩,
          ⟨"pop", 0, 0⟩, ⟨"pop", 0, 0⟩] [] :=
  stack_events_spec _ (by decide)

theorem queueOpStep_enqueue (st : QueueGenSt) (op : OperationNode)
    (h : op.operation = "enqueue") :
    queueOpStep st op =
      { st with queue := st.queue.set (st.rear + 1).toNat op.value, rear := st.rear + 1,
                size := st.size + 1,
                ir := addIRWithIndices st.ir "enqueue" [st.rear + 1, op.value] } := by
  unfold queueOpStep
  rw [if_pos h]

theorem queueOpStep_dequeue (st : QueueGenSt) (op : OperationNode)
    (h : op.operation = "dequeue") :
    queueOpStep st op =
      if st.size > 0 then
        { st with front := st.front + 1, size := st.size - 1,
                  ir := addIRWithIndices st.ir "dequeue"
                    [st.front, st.queue.getD st.front.toNat 0] }
      else st := by
  have h1 : ¬ op.operation = "enqueue" := by rw [h]; decide
  unfold queueOpStep
  rw [if_neg h1, if_pos h]

theorem queueOpStep_other (st : QueueGenSt) (op : OperationNode)
    (h1 : ¬ op.operation = "enqueue") (h2 : ¬ op.operation = "dequeue") :
    queueOpStep st op = st := by
  unfold queueOpStep
  rw [if_neg h1, if_neg h2]

theorem queueOps_refine :
    ∀ (ops : List OperationNode) (st : QueueGenSt) (all : List Int) (m : Nat),
      QueueSim st all m → all.length + countOps "enqueue" ops ≤ 256 →
      (ops.foldl queueOpStep st).ir = st.ir ++ queueEventsSpec ops all m := by
  intro ops
  induction ops with
  | nil => intro st all m _ _; simp [queueEventsSpec]
  | cons op ops ih =>
    intro st all m hsim hcap
    obtain ⟨hlen, hrear, hfront, hsize, hm, hval⟩ := hsim
    simp only [List.foldl_cons, queueEventsSpec]
    by_cases h1 : op.operation = "enqueue"
    · have hc : countOps "enqueue" (op :: ops) = countOps "enqueue" ops + 1 := by
        simp [countOps, h1]
      rw [hc] at hcap
      rw [queueOpStep_enqueue st op h1, if_pos h1]
      have hidx : (st.rear + 1).toNat = all.length := by omega
      have hrear1 : st.rear + 1 = (all.length : Int) := by omega
      rw [ih _ (all ++ [op.value]) m ?_
        (by simp only [List.length_append, List.length_singleton]; omega)]
      · simp only [addIRWithIndices, List.append_assoc, List.singleton_append, hrear1]
        rfl
      · refine ⟨by simp [hlen], ?_, hfront, ?_, ?_, ?_⟩
        · simp only [List.length_append, List.length_singleton]; push_cast; omega
        · simp only [List.length_append, List.length_singleton]; push_cast; omega
        · simp only [List.length_append, List.length_singleton]; omega
        · intro i hi
          simp only [List.length_append, List.length_singleton] at hi
          simp only [hidx]
          rw [getD_set_eq]
          by_cases hi2 : i = all.length
          · subst hi2
            rw [if_pos ⟨rfl, by omega⟩, getD_append_length]
          · rw [if_neg (fun h => hi2 h.1.symm), getD_append_left _ _ _ (by omega)]
            exact hval i (by omega)
    · have hc : countOps "enqueue" (op :: ops) = countOps "enqueue" ops := by
        simp [countOps, h1]
      rw [hc] at hcap
      rw [if_neg h1]
      by_cases h2 : op.operation = "dequeue"
      · rw [queueOpStep_dequeue st op h2, if_pos h2]
        by_cases hlt : m < all.length
        · have hpos : st.size > 0 := by omega
          rw [if_pos hpos, if_pos hlt]
          have e2 : st.queue.getD st.front.toNat 0 = all.getD m 0 := by
            have : st.front.toNat = m := by omega
            rw [this]
            exact hval m hlt
          rw [e2]
          rw [ih (QueueGenSt.mk st.queue (st.front + 1) st.rear (st.size - 1)
            (addIRWithIndices st.ir "dequeue" [st.front, all.getD m 0])) all (m + 1) ?_ hcap]
          · simp only [addIRWithIndices, List.append_assoc, List.singleton_append, hfront]
            rfl
          · exact ⟨hlen, hrear, by simp only; push_cast; omega, by simp only; push_cast; omega,
              by omega, hval⟩
        · have hnpos : ¬ st.size > 0 := by omega
          rw [if_neg hnpos, if_neg hlt]
          exact ih st all m ⟨hlen, hrear, hfront, hsize, hm, hval⟩ hcap
      · rw [queueOpStep_other st op h1 h2, if_neg h2]
        exact ih st all m ⟨hlen, hrear, hfront, hsize, hm, hval⟩ hcap

/-! ## C15: events of the queue generator -/

/-- C15: for every sequence of queue operations with at most 256 enqueues,
the trace of `generateQueueOperations` is the event list the specification
describes: the `k`-th enqueue gives `enqueue(k, v)`, a dequeue gives an event
exactly when the queue is non-empty, and the `m`-th dequeue event is
`dequeue(m, w)` with `w` the value of the `m`-th enqueue. -/
theorem queue_events_spec (ops : List OperationNode) (h : countOps "enqueue" ops ≤ 256) :
    generateQueueOperations ops = queueEventsSpec ops [] 0 := by
  have := queueOps_refine ops
    { queue := List.replicate 256 0, front := 0, rear := -1, size := 0, ir := [] } [] 0
    ⟨List.length_replicate _ _, rfl, rfl, rfl, Nat.le_refl _,
      fun i hi => absurd hi (Nat.not_lt_zero i)⟩
    (by rw [List.length_nil, Nat.zero_add]; exact h)
  rw [List.nil_append] at this
  exact this

/-- Witness for C15. -/
theorem queue_events_spec_witness :
    generateQueueOperations
        [⟨"enqueue", 4, 0⟩, ⟨"dequeue", 0, 0⟩, ⟨"dequeue", 0, 0⟩, ⟨"enqueue", 5, 0⟩,
          ⟨"enqueue", 6, 0⟩, ⟨"dequeue", 0, 0⟩] =
      queueEventsSpec
        [⟨"enqueue", 4, 0⟩, ⟨"dequeue", 0, 0⟩, ⟨"dequeue", 0, 0⟩, ⟨"enqueue", 5, 0⟩,
          ⟨"enqueue", 6, 0⟩, ⟨"dequeue", 0, 0⟩] [] 0 :=
  queue_events_spec _ (by decide)

/-! ## C14: operations on an empty structure -/

/-- C14: a pop issued while the simulated stack is empty (`top < 0` after the
operations `spre`) leaves the generator state unchanged, so the trace of the
whole program is the trace of the program without that pop; the same holds for
a dequeue issued while the simulated queue is empty (`size ≤ 0` after `qpre`);
and a program consisting of a single pop yields a trace with zero events. -/
theorem empty_pop_dequeue_no_event (spre spost qpre qpost : List OperationNode)
    (v v2 : Int) (hs : (stackOpsRun spre).top < 0) (hq : (queueOpsRun qpre).size ≤ 0) :
    (stackOpsRun (spre ++ [⟨"pop", v, v2⟩]) = stackOpsRun spre ∧
        generateStackOperations (spre ++ ⟨"pop", v, v2⟩ :: spost) =
          generateStackOperations (spre ++ spost)) ∧
      (queueOpsRun (qpre ++ [⟨"dequeue", v, v2⟩]) = queueOpsRun qpre ∧
        generateQueueOperations (qpre ++ ⟨"dequeue", v, v2⟩ :: qpost) =
          generateQueueOperations (qpre ++ qpost)) ∧
      generateStackOperations [⟨"pop", v, v2⟩] = [] := by
  have e1 : stackOpStep (stackOpsRun spre) ⟨"pop", v, v2⟩ = stackOpsRun spre := by
    rw [stackOpStep_pop _ _ rfl, if_neg (by omega)]
  have e2 : queueOpStep (queueOpsRun qpre) ⟨"dequeue", v, v2⟩ = queueOpsRun qpre := by
    rw [queueOpStep_dequeue _ _ rfl, if_neg (by omega)]
  refine ⟨⟨?_, ?_⟩, ⟨?_, ?_⟩, ?_⟩
  · simp only [stackOpsRun, List.foldl_append, List.foldl_cons, List.foldl_nil] at e1 ⊢
    exact e1
  · simp only [generateStackOperations, stackOpsRun, List.foldl_append, List.foldl_cons] at e1 ⊢
    rw [e1]
  · simp only [queueOpsRun, List.foldl_append, List.foldl_cons, List.foldl_nil] at e2 ⊢
    exact e2
  · simp only [generateQueueOperations, queueOpsRun, List.foldl_append, List.foldl_cons] at e2 ⊢
    rw [e2]
  · simp only [generateStackOperations, List.foldl_cons, List.foldl_nil]
    rw [stackOpStep_pop _ _ rfl, if_neg (by decide)]

/-- Witness for C14: a pop after `push 1; pop`, and a dequeue on a fresh
queue. -/
theorem empty_pop_dequeue_no_event_witness :
    (stackOpsRun ([⟨"push", 1, 0⟩, ⟨"pop", 0, 0⟩] ++ [⟨"pop", 0, 0⟩]) =
          stackOpsRun [⟨"push", 1, 0⟩, ⟨"pop", 0, 0⟩] ∧
        generateStackOperations
            ([⟨"push", 1, 0⟩, ⟨"pop", 0, 0⟩] ++ ⟨"pop", 0, 0⟩ :: [⟨"push", 2, 0⟩]) =
          generateStackOperations ([⟨"push", 1, 0⟩, ⟨"pop", 0, 0⟩] ++ [⟨"push", 2, 0⟩])) ∧
      (queueOpsRun ([] ++ [⟨"dequeue", 0, 0⟩]) = queueOpsRun [] ∧
        generateQueueOperations ([] ++ ⟨"dequeue", 0, 0⟩ :: [⟨"enqueue", 3, 0⟩]) =
          generateQueueOperations ([] ++ [⟨"enqueue", 3, 0⟩])) ∧
      generateStackOperations [⟨"pop", 0, 0⟩] = [] :=
  empty_pop_dequeue_no_event [⟨"push", 1, 0⟩, ⟨"pop", 0, 0⟩] [⟨"push", 2, 0⟩] []
    [⟨"enqueue", 3, 0⟩] 0 0 (by decide) (by decide)

theorem treeOpStep_insert_root (st : TreeGenSt) (v v2 : Int) :
    (treeOpStep st ⟨"insert", v, v2⟩).root = insertTreeNode st.root v := by
  simp only [treeOpStep, if_true]

theorem treeOpsRun_insertOps_root :
    ∀ (vals : List Int) (st : TreeGenSt),
      ((insertOps vals).foldl treeOpStep st).root = vals.foldl insertTreeNode st.root := by
  intro vals
  induction vals with
  | nil => intro st; rfl
  | cons v vals ih =>
    intro st
    simp only [insertOps, List.map_cons, List.foldl_cons]
    have := ih (treeOpStep st ⟨"insert", v, 0⟩)
    simp only [insertOps] at this
    rw [this, treeOpStep_insert_root]

theorem emitVisits_eq (result : List Int) :
    ∀ ir : List IRNode, emitVisits ir result = ir ++ result.map (fun v => ⟨"visit", [v]⟩) := by
  induction result with
  | nil => intro ir; simp [emitVisits]
  | cons v result ih =>
    intro ir
    have := ih (addIRWithIndices ir "visit" [v])
    simp only [emitVisits, List.foldl_cons] at this ⊢
    rw [this]
    simp [addIRWithIndices]

theorem inorder_insert_perm (t : TreeNode) (x : Int) :
    List.Perm (inorderTraversal (insertTreeNode t x)) (x :: inorderTraversal t) := by
  induction t with
  | nil => simp [insertTreeNode, inorderTraversal]
  | node v l r ihl ihr =>
    simp only [insertTreeNode]
    split
    · simp only [inorderTraversal, List.append_assoc, List.singleton_append]
      exact (List.Perm.append_right _ ihl).trans (by simp)
    · simp only [inorderTraversal, List.append_assoc, List.singleton_append]
      refine (List.Perm.append_left _ (List.Perm.cons _ ihr)).trans ?_
      refine (List.Perm.append_left _ (List.Perm.swap _ _ _)).trans ?_
      exact List.perm_middle

theorem insert_isBST (t : TreeNode) (x : Int) (h : IsBST t) : IsBST (insertTreeNode t x) := by
  induction t with
  | nil => simp [insertTreeNode, IsBST, inorderTraversal]
  | node v l r ihl ihr =>
    obtain ⟨h1, h2, h3, h4⟩ := h
    simp only [insertTreeNode]
    split
    · rename_i hlt
      refine ⟨?_, h2, ihl h3, h4⟩
      intro y hy
      rcases List.mem_cons.mp ((inorder_insert_perm l x).mem_iff.mp hy) with hy | hy
      · rw [hy]; exact hlt
      · exact h1 y hy
    · rename_i hge
      refine ⟨h1, ?_, h3, ihr h4⟩
      intro y hy
      rcases List.mem_cons.mp ((inorder_insert_perm r x).mem_iff.mp hy) with hy | hy
      · rw [hy]; exact not_lt.mp hge
      · exact h2 y hy

theorem inorder_sorted (t : TreeNode) (h : IsBST t) :
    List.Sorted (· ≤ ·) (inorderTraversal t) := by
  induction t with
  | nil => simp [inorderTraversal]
  | node v l r ihl ihr =>
    obtain ⟨h1, h2, h3, h4⟩ := h
    simp only [inorderTraversal, List.append_assoc, List.singleton_append]
    unfold List.Sorted
    rw [List.pairwise_append]
    refine ⟨ihl h3, ?_, ?_⟩
    · rw [List.pairwise_cons]
      exact ⟨h2, ihr h4⟩
    · intro a ha b hb
      rcases List.mem_cons.mp hb with hb | hb
      · rw [hb]; exact le_of_lt (h1 a ha)
      · exact le_trans (le_of_lt (h1 a ha)) (h2 b hb)

theorem foldl_insert_inv :
    ∀ (vals : List Int) (t : TreeNode), IsBST t →
      IsBST (vals.foldl insertTreeNode t) ∧
        List.Perm (inorderTraversal (vals.foldl insertTreeNode t)) (inorderTraversal t ++ vals) := by
  intro vals
  induction vals with
  | nil => intro t h; simpa using h
  | cons v vals ih =>
    intro t h
    simp only [List.foldl_cons]
    obtain ⟨h1, h2⟩ := ih (insertTreeNode t v) (insert_isBST t v h)
    refine ⟨h1, h2.trans ?_⟩
    exact (List.Perm.append_right _ (inorder_insert_perm t v)).trans (by
      simpa using (@List.perm_middle Int v (inorderTraversal t) vals).symm)

theorem insertOps_events_are_inserts :
    ∀ (vals : List Int) (st : TreeGenSt), (∀ e ∈ st.ir, e.action = "insert") →
      ∀ e ∈ ((insertOps vals).foldl treeOpStep st).ir, e.action = "insert" := by
  intro vals
  induction vals with
  | nil => intro st h; exact h
  | cons v vals ih =>
    intro st h
    simp only [insertOps, List.map_cons, List.foldl_cons]
    apply ih
    intro e he
    simp only [treeOpStep, if_true] at he
    split at he
    · simp only [addIRWithIndices, List.mem_append, List.mem_singleton] at he
      rcases he with he | he
      · exact h e he
      · rw [he]
    · simp only [addIRWithIndices, List.mem_append, List.mem_singleton] at he
      rcases he with he | he
      · exact h e he
      · rw [he]

/-! ## C17: in-order traversal -/

/-- C17: for every sequence of at most 256 inserts followed by
`traverse_inorder`, the trace is the trace of the inserts followed by one
`visit` event per value of the in-order traversal of the tree built; the trace
then holds exactly as many `visit` events as values were inserted, the visited
values are a permutation of the inserted values, and they are in
non-decreasing order.  For inserts 5, 3, 8 the visits are 3, 5, 8. -/
theorem tree_inorder_visits (vals : List Int) (_hlen : vals.length ≤ 256) :
    generateTreeOperations (insertOps vals ++ [⟨"traverse_inorder", 0, 0⟩]) =
        generateTreeOperations (insertOps vals) ++
          (inorderTraversal (vals.foldl insertTreeNode .nil)).map (fun v => ⟨"visit", [v]⟩) ∧
      countAction "visit"
        (generateTreeOperations (insertOps vals ++ [⟨"traverse_inorder", 0, 0⟩])) =
          vals.length ∧
      List.Perm (inorderTraversal (vals.foldl insertTreeNode .nil)) vals ∧
      List.Sorted (· ≤ ·) (inorderTraversal (vals.foldl insertTreeNode .nil)) ∧
      generateTreeOperations (insertOps [5, 3, 8] ++ [⟨"traverse_inorder", 0, 0⟩]) =
        [⟨"insert", [5, -1, -1, 0]⟩, ⟨"insert", [3, 5, 1, 0]⟩, ⟨"insert", [8, 5, 0, 0]⟩,
          ⟨"visit", [3]⟩, ⟨"visit", [5]⟩, ⟨"visit", [8]⟩] := by
  have hroot : (treeOpsRun (insertOps vals)).root = vals.foldl insertTreeNode .nil :=
    treeOpsRun_insertOps_root vals _
  obtain ⟨hbst, hperm⟩ := foldl_insert_inv vals .nil trivial
  have hperm' : List.Perm (inorderTraversal (vals.foldl insertTreeNode .nil)) vals := by
    simpa [inorderTraversal] using hperm
  have htrace : generateTreeOperations (insertOps vals ++ [⟨"traverse_inorder", 0, 0⟩]) =
      generateTreeOperations (insertOps vals) ++
        (inorderTraversal (vals.foldl insertTreeNode .nil)).map (fun v => ⟨"visit", [v]⟩) := by
    have h1 : ¬ ("traverse_inorder" = "insert") := by decide
    simp only [generateTreeOperations, treeOpsRun, List.foldl_append, List.foldl_cons,
      List.foldl_nil, treeOpStep, h1, if_false, if_true, emitVisits_eq]
    rw [← hroot]
    rfl
  refine ⟨htrace, ?_, hperm', inorder_sorted _ hbst, by decide⟩
  rw [htrace]
  have hins : ∀ e ∈ generateTreeOperations (insertOps vals), e.action = "insert" :=
    insertOps_events_are_inserts vals _ (fun e he => by simp at he)
  simp only [countAction, List.countP_append]
  have h0 : List.countP (fun e => decide (e.action = "visit"))
      (generateTreeOperations (insertOps vals)) = 0 := by
    rw [List.countP_eq_zero]
    intro e he
    have := hins e he
    simp only [decide_eq_true_eq]
    rw [this]
    decide
  rw [h0, Nat.zero_add, List.countP_map]
  have : List.countP ((fun e : IRNode => decide (e.action = "visit")) ∘
      fun v : Int => (⟨"visit", [v]⟩ : IRNode))
      (inorderTraversal (vals.foldl insertTreeNode .nil)) =
      (inorderTraversal (vals.foldl insertTreeNode .nil)).length := by
    rw [List.countP_eq_length]
    intro a _
    simp
  rw [this]
  exact hperm'.length_eq

/-- Witness for C17: inserts 5, 3, 8, 3. -/
theorem tree_inorder_visits_witness :
    countAction "visit"
      (generateTreeOperations (insertOps [5, 3, 8, 3] ++ [⟨"traverse_inorder", 0, 0⟩])) =
        ([5, 3, 8, 3] : List Int).length :=
  (tree_inorder_visits [5, 3, 8, 3] (by decide)).2.1

theorem nodeOK_length_le (l : List Int) (hnd : l.Nodup) (hr : ∀ x ∈ l, NodeOK x) :
    l.length ≤ 256 := by
  have h1 : l.toFinset ⊆ Finset.Ico (0 : Int) 256 := by
    intro x hx
    rw [List.mem_toFinset] at hx
    rw [Finset.mem_Ico]
    exact hr x hx
  have h2 := Finset.card_le_card h1
  rw [List.toFinset_card_of_nodup hnd, Int.card_Ico] at h2
  simpa using h2

theorem toNat_ne_of_nodeOK (x w : Int) (hx : NodeOK x) (hw : NodeOK w) (h : x ≠ w) :
    w.toNat ≠ x.toNat := by
  unfold NodeOK at hx hw
  omega

theorem toNat_lt_of_nodeOK (x : Int) (hx : NodeOK x) : x.toNat < 256 := by
  unfold NodeOK at hx
  omega

theorem visitEvents_append (l₁ l₂ : List Int) :
    visitEvents (l₁ ++ l₂) = visitEvents l₁ ++ visitEvents l₂ := by
  simp [visitEvents]

theorem bfsBase_push (edges : List (Int × Int)) (start : Int) (ir0 : List IRNode)
    (st : BfsSt) (w : Int) (h : BfsBase edges start ir0 st) (hw : NodeOK w)
    (hnew : w ∉ st.queue) (hc : Connected edges start w) :
    BfsBase edges start ir0
      ⟨st.visited.set w.toNat 1, st.queue ++ [w], st.q_front,
        addIRWithIndices st.ir "visit" [w]⟩ := by
  refine ⟨?_, ?_, ?_, ?_, ?_, ?_, ?_⟩
  · simp only [List.length_set]; exact h.vlen
  · intro x hx
    rcases List.mem_append.mp hx with hx | hx
    · exact h.qrange x hx
    · rw [List.mem_singleton.mp hx]; exact hw
  · refine List.nodup_append.mpr ⟨h.qnodup, List.nodup_singleton _, ?_⟩
    intro a ha hb
    rw [List.mem_singleton.mp hb] at ha
    exact hnew ha
  · intro x hx
    simp only [getD_set_eq, h.vlen]
    by_cases hxw : x = w
    · subst hxw
      simp [toNat_lt_of_nodeOK x hx]
    · have := toNat_ne_of_nodeOK x w hx hw hxw
      simp only [this, false_and, if_false, List.mem_append, List.mem_singleton, hxw, or_false]
      exact h.vis x hx
  · simp only [addIRWithIndices, h.ir_eq, visitEvents_append, List.append_assoc]
    rfl
  · intro x hx
    rcases List.mem_append.mp hx with hx | hx
    · exact h.conn x hx
    · rw [List.mem_singleton.mp hx]; exact hc
  · have := h.head
    cases hq : st.queue with
    | nil => rw [hq] at this; simp at this
    | cons a l => rw [hq] at this; simpa using this

theorem bfsEdgeStep_spec (edges : List (Int × Int)) (start : Int) (ir0 : List IRNode)
    (current : Int) (st : BfsSt) (e : Int × Int) (h : BfsBase edges start ir0 st)
    (hcur : current ∈ st.queue) (he : e ∈ edges) (hok : NodeOK e.1 ∧ NodeOK e.2) :
    BfsBase edges start ir0 (bfsEdgeStep current st e) ∧
      (bfsEdgeStep current st e).q_front = st.q_front ∧
      (∃ ext, (bfsEdgeStep current st e).queue = st.queue ++ ext) ∧
      (e.1 = current → e.2 ∈ (bfsEdgeStep current st e).queue) ∧
      (e.2 = current → e.1 ∈ (bfsEdgeStep current st e).queue) := by
  unfold bfsEdgeStep
  by_cases hA : e.1 = current ∧ st.visited.getD e.2.toNat 0 = 0
  · rw [if_pos hA]
    have hnew : e.2 ∉ st.queue := fun hm => (h.vis e.2 hok.2).mpr hm hA.2
    have hc : Connected edges start e.2 :=
      Relation.ReflTransGen.tail (h.conn current hcur) ⟨e, he, Or.inl ⟨hA.1, rfl⟩⟩
    refine ⟨bfsBase_push edges start ir0 st e.2 h hok.2 hnew hc, rfl, ⟨[e.2], rfl⟩, ?_, ?_⟩
    · intro _; simp
    · intro _
      show e.1 ∈ st.queue ++ [e.2]
      rw [hA.1]
      exact List.mem_append_left _ hcur
  · rw [if_neg hA]
    by_cases hB : e.2 = current ∧ st.visited.getD e.1.toNat 0 = 0
    · rw [if_pos hB]
      have hnew : e.1 ∉ st.queue := fun hm => (h.vis e.1 hok.1).mpr hm hB.2
      have hc : Connected edges start e.1 :=
        Relation.ReflTransGen.tail (h.conn current hcur) ⟨e, he, Or.inr ⟨hB.1, rfl⟩⟩
      refine ⟨bfsBase_push edges start ir0 st e.1 h hok.1 hnew hc, rfl, ⟨[e.1], rfl⟩, ?_, ?_⟩
      · intro _
        show e.2 ∈ st.queue ++ [e.1]
        rw [hB.1]
        exact List.mem_append_left _ hcur
      · intro _; simp
    · rw [if_neg hB]
      refine ⟨h, rfl, ⟨[], by simp⟩, ?_, ?_⟩
      · intro h1
        exact (h.vis e.2 hok.2).mp (fun h0 => hA ⟨h1, h0⟩)
      · intro h2
        exact (h.vis e.1 hok.1).mp (fun h0 => hB ⟨h2, h0⟩)

theorem bfsFold_spec (edges : List (Int × Int)) (start : Int) (ir0 : List IRNode)
    (current : Int) :
    ∀ (es : List (Int × Int)) (st : BfsSt), (∀ e ∈ es, e ∈ edges ∧ NodeOK e.1 ∧ NodeOK e.2) →
      BfsBase edges start ir0 st → current ∈ st.queue →
      BfsBase edges start ir0 (es.foldl (bfsEdgeStep current) st) ∧
        (es.foldl (bfsEdgeStep current) st).q_front = st.q_front ∧
        (∃ ext, (es.foldl (bfsEdgeStep current) st).queue = st.queue ++ ext) ∧
        ∀ e ∈ es, (e.1 = current → e.2 ∈ (es.foldl (bfsEdgeStep current) st).queue) ∧
          (e.2 = current → e.1 ∈ (es.foldl (bfsEdgeStep current) st).queue) := by
  intro es
  induction es with
  | nil =>
    intro st _ h _
    exact ⟨h, rfl, ⟨[], by simp⟩, fun e he => absurd he (List.not_mem_nil e)⟩
  | cons e es ih =>
    intro st hes h hcur
    obtain ⟨he, hok⟩ := hes e (List.mem_cons_self _ _)
    obtain ⟨h1, h2, ⟨ext1, h3⟩, h4, h5⟩ := bfsEdgeStep_spec edges start ir0 current st e h hcur he hok
    have hcur1 : current ∈ (bfsEdgeStep current st e).queue := by
      rw [h3]; exact List.mem_append_left _ hcur
    obtain ⟨k1, k2, ⟨ext2, k3⟩, k4⟩ :=
      ih (bfsEdgeStep current st e) (fun x hx => hes x (List.mem_cons_of_mem _ hx)) h1 hcur1
    simp only [List.foldl_cons]
    refine ⟨k1, k2.trans h2, ⟨ext1 ++ ext2, by rw [k3, h3, List.append_assoc]⟩, ?_⟩
    intro x hx
    rcases List.mem_cons.mp hx with hx | hx
    · subst hx
      rw [k3]
      exact ⟨fun hh => List.mem_append_left _ (h4 hh), fun hh => List.mem_append_left _ (h5 hh)⟩
    · exact k4 x hx

theorem bfsLoop_spec (edges : List (Int × Int)) (start : Int) (ir0 : List IRNode)
    (hE : EdgesOK edges) :
    ∀ (fuel : Nat) (st : BfsSt), BfsInv edges start ir0 st → 256 - st.q_front ≤ fuel →
      BfsInv edges start ir0 (bfsLoop edges fuel st) ∧
        (bfsLoop edges fuel st).q_front = (bfsLoop edges fuel st).queue.length := by
  intro fuel
  induction fuel with
  | zero =>
    intro st h hf
    have hlen := nodeOK_length_le st.queue h.base.qnodup h.base.qrange
    have := h.front_le
    simp only [bfsLoop]
    exact ⟨h, by omega⟩
  | succ fuel ih =>
    intro st h hf
    simp only [bfsLoop]
    by_cases hlt : st.q_front < st.queue.length
    · rw [if_pos hlt]
      have hcur : st.queue.getD st.q_front 0 ∈ st.queue := by
        rw [getD_eq_getElem_of_lt _ _ hlt]
        exact List.getElem_mem _
      have hb : BfsBase edges start ir0 { st with q_front := st.q_front + 1 } :=
        ⟨h.base.vlen, h.base.qrange, h.base.qnodup, h.base.vis, h.base.ir_eq, h.base.conn,
          h.base.head⟩
      obtain ⟨k1, k2, ⟨ext, k3⟩, k4⟩ := bfsFold_spec edges start ir0 (st.queue.getD st.q_front 0)
        edges { st with q_front := st.q_front + 1 } (fun e he => ⟨he, hE e he⟩) hb hcur
      apply ih
      · refine ⟨k1, ?_, ?_⟩
        · rw [k2, k3]
          simp only [List.length_append]
          omega
        · rw [k2, k3]
          show ∀ u ∈ (st.queue ++ ext).take (st.q_front + 1), ∀ w, _ → w ∈ st.queue ++ ext
          rw [List.take_append_of_le_length (by omega : st.q_front + 1 ≤ st.queue.length)]
          intro u hu w hadj
          have htake : st.queue.take (st.q_front + 1) =
              st.queue.take st.q_front ++ [st.queue.getD st.q_front 0] := by
            rw [getD_eq_getElem_of_lt _ _ hlt]
            rw [List.take_succ, List.getElem?_eq_getElem hlt]
            rfl
          rw [htake] at hu
          rcases List.mem_append.mp hu with hu | hu
          · exact List.mem_append_left _ (h.closed u hu w hadj)
          · rw [List.mem_singleton.mp hu] at hadj
            obtain ⟨e, he, hcase⟩ := hadj
            rw [← k3]
            rcases hcase with ⟨c1, c2⟩ | ⟨c1, c2⟩
            · rw [← c2]; exact (k4 e he).1 c1
            · rw [← c2]; exact (k4 e he).2 c1
      · rw [k2]
        show 256 - (st.q_front + 1) ≤ fuel
        omega
    · rw [if_neg hlt]
      exact ⟨h, by have := h.front_le; omega⟩

theorem bfsRun_spec (edges : List (Int × Int)) (start : Int) (ir0 : List IRNode)
    (hE : EdgesOK edges) (hs : NodeOK start) :
    ∃ visits : List Int,
      (bfsRun edges start ir0).ir = ir0 ++ ⟨"bfs_start", [start]⟩ :: visitEvents visits ∧
        visits.head? = some start ∧ visits.Nodup ∧
        ∀ v, v ∈ visits ↔ Connected edges start v := by
  have hinit : BfsInv edges start (ir0 ++ [⟨"bfs_start", [start]⟩])
      ⟨(List.replicate 256 (0 : Int)).set start.toNat 1, [start], 0,
        addIRWithIndices (addIRWithIndices ir0 "bfs_start" [start]) "visit" [start]⟩ := by
    refine ⟨⟨?_, ?_, ?_, ?_, ?_, ?_, rfl⟩, Nat.zero_le _, ?_⟩
    · rw [List.length_set]; exact List.length_replicate _ _
    · intro x hx; rw [List.mem_singleton.mp hx]; exact hs
    · exact List.nodup_singleton _
    · intro x hx
      rw [getD_set_eq, List.length_replicate]
      by_cases hxs : x = start
      · subst hxs
        simp [toNat_lt_of_nodeOK x hx]
      · have := toNat_ne_of_nodeOK x start hx hs hxs
        have hz : (List.replicate 256 (0 : Int)).getD x.toNat 0 = 0 := by
          rw [getD_eq_getElem_of_lt _ _ (by
            rw [List.length_replicate]; exact toNat_lt_of_nodeOK x hx)]
          exact List.getElem_replicate _ _
        simp only [this, false_and, if_false, hz, List.mem_singleton, hxs]
        simp
    · rfl
    · intro x hx; rw [List.mem_singleton.mp hx]; exact Relation.ReflTransGen.refl
    · intro u hu; simp at hu
  obtain ⟨hfin, hdone⟩ := bfsLoop_spec edges start _ hE 256 _ hinit (Nat.sub_le _ _)
  refine ⟨(bfsRun edges start ir0).queue, ?_, hfin.base.head, hfin.base.qnodup, ?_⟩
  · have := hfin.base.ir_eq
    simp only [List.append_assoc, List.singleton_append] at this
    exact this
  · intro v
    constructor
    · exact hfin.base.conn v
    · intro hc
      have hstart : start ∈ (bfsRun edges start ir0).queue := by
        have := hfin.base.head
        exact List.mem_of_mem_head? this
      have hclosed : ∀ u ∈ (bfsRun edges start ir0).queue, ∀ w, Adj edges u w →
          w ∈ (bfsRun edges start ir0).queue := by
        intro u hu w hadj
        apply hfin.closed u _ w hadj
        show u ∈ List.take (bfsRun edges start ir0).q_front (bfsRun edges start ir0).queue
        have hd : (bfsRun edges start ir0).q_front = (bfsRun edges start ir0).queue.length :=
          hdone
        rw [hd, List.take_length]
        exact hu
      induction hc with
      | refl => exact hstart
      | tail _ hadj ih => exact hclosed _ ih _ hadj

theorem addEdgeOps_run (edges : List (Int × Int)) :
    ∀ st : GraphGenSt, (addEdgeOps edges).foldl graphOpStep st =
      ⟨st.nodes, st.edges ++ edges, st.ir ++ addEdgeEvents edges⟩ := by
  induction edges with
  | nil => intro st; simp [addEdgeOps, addEdgeEvents]
  | cons e edges ih =>
    intro st
    have h := ih (graphOpStep st ⟨"add_edge", e.1, e.2⟩)
    simp only [addEdgeOps, List.map_cons, List.foldl_cons] at h ⊢
    rw [h]
    have h1 : ¬ ("add_edge" = "add_node") := by decide
    simp only [graphOpStep, h1, if_false, if_true, addIRWithIndices, addEdgeEvents,
      List.map_cons, List.append_assoc, List.singleton_append]
    rfl

/-! ## C18: breadth-first search -/

/-- C18: for every list of at most 256 edges with node ids in 0..255, recorded
by `add_edge` operations, and every source `s` in 0..255, the operation
`bfs(s)` emits `bfs_start(s)` followed by one `visit(v)` for each `v` of a list
`visits` that starts with `s`, has no repetition, and holds exactly the nodes
connected to `s` by a path of edges taken in either direction.  For the nodes
0, 1, 2, the edges (0,1), (1,2) and source 0 the visit order is 0, 1, 2. -/
theorem bfs_visits (edges : List (Int × Int)) (s : Int) (hE : EdgesOK edges)
    (_hlen : edges.length ≤ 256) (hs : NodeOK s) :
    (∃ visits : List Int,
        generateGraphOperations (addEdgeOps edges ++ [⟨"bfs", s, 0⟩]) =
          addEdgeEvents edges ++ ⟨"bfs_start", [s]⟩ :: visitEvents visits ∧
        visits.head? = some s ∧ visits.Nodup ∧
        ∀ v, v ∈ visits ↔ Connected edges s v) ∧
      generateGraphOperations
          [⟨"add_node", 0, 0⟩, ⟨"add_node", 1, 0⟩, ⟨"add_node", 2, 0⟩,
            ⟨"add_edge", 0, 1⟩, ⟨"add_edge", 1, 2⟩, ⟨"bfs", 0, 0⟩] =
        [⟨"add_node", [0]⟩, ⟨"add_node", [1]⟩, ⟨"add_node", [2]⟩,
          ⟨"add_edge", [0, 1]⟩, ⟨"add_edge", [1, 2]⟩, ⟨"bfs_start", [0]⟩,
          ⟨"visit", [0]⟩, ⟨"visit", [1]⟩, ⟨"visit", [2]⟩] := by
  refine ⟨?_, by decide⟩
  obtain ⟨visits, h1, h2, h3, h4⟩ := bfsRun_spec edges s (addEdgeEvents edges) hE hs
  refine ⟨visits, ?_, h2, h3, h4⟩
  have h5 : ¬ ("bfs" = "add_node") := by decide
  have h6 : ¬ ("bfs" = "add_edge") := by decide
  simp only [generateGraphOperations, graphOpsRun, List.foldl_append, addEdgeOps_run,
    List.foldl_cons, List.foldl_nil, graphOpStep, h5, h6, if_false, if_true,
    List.nil_append]
  exact h1

/-- Witness for C18: the edges (0,1), (1,2), (3,4) and source 0. -/
theorem bfs_visits_witness :
    ∃ visits : List Int,
      generateGraphOperations (addEdgeOps [(0, 1), (1, 2), (3, 4)] ++ [⟨"bfs", 0, 0⟩]) =
        addEdgeEvents [(0, 1), (1, 2), (3, 4)] ++ ⟨"bfs_start", [0]⟩ :: visitEvents visits ∧
      visits.head? = some 0 ∧ visits.Nodup ∧
      ∀ v, v ∈ visits ↔ Connected [(0, 1), (1, 2), (3, 4)] 0 v :=
  (bfs_visits [(0, 1), (1, 2), (3, 4)] 0 (by simp [EdgesOK, NodeOK]) (by decide)
    (by simp [NodeOK])).1

theorem visited_mark_iff (visited : List Int) (q : List Int) (w : Int)
    (hlen : visited.length = 256)
    (hvis : ∀ x, NodeOK x → (visited.getD x.toNat 0 ≠ 0 ↔ x ∈ q)) (hw : NodeOK w) :
    ∀ x, NodeOK x → ((visited.set w.toNat 1).getD x.toNat 0 ≠ 0 ↔ x ∈ q ++ [w]) := by
  intro x hx
  simp only [getD_set_eq, hlen]
  by_cases hxw : x = w
  · subst hxw
    simp [toNat_lt_of_nodeOK x hx]
  · have := toNat_ne_of_nodeOK x w hx hw hxw
    simp only [this, false_and, if_false, List.mem_append, List.mem_singleton, hxw, or_false]
    exact hvis x hx

theorem getD_mark_zero (visited : List Int) (c k : Nat)
    (h : (visited.set c 1).getD k 0 = 0) : visited.getD k 0 = 0 := by
  rw [getD_set_eq] at h
  split at h
  · exact absurd h (by decide)
  · exact h

theorem getD_mark_self (visited : List Int) (c : Nat) (hc : c < visited.length) :
    (visited.set c 1).getD c 0 = 1 := by
  rw [getD_set_eq]
  simp [hc]

theorem dfsFold_spec (edges : List (Int × Int)) (current : Int) :
    ∀ (es : List (Int × Int)) (st : DfsSt),
      (∀ e ∈ es, e ∈ edges ∧ NodeOK e.1 ∧ NodeOK e.2) →
      (es.foldl (dfsEdgeStep current) st).visited = st.visited ∧
        (es.foldl (dfsEdgeStep current) st).ir = st.ir ∧
        ∃ pushed, (es.foldl (dfsEdgeStep current) st).stack = pushed ++ st.stack ∧
          (∀ w ∈ pushed, NodeOK w ∧ Adj edges current w) ∧
          ∀ e ∈ es,
            (e.1 = current → st.visited.getD e.2.toNat 0 ≠ 0 ∨
              e.2 ∈ (es.foldl (dfsEdgeStep current) st).stack) ∧
            (e.2 = current → st.visited.getD e.1.toNat 0 ≠ 0 ∨
              e.1 ∈ (es.foldl (dfsEdgeStep current) st).stack) := by
  intro es
  induction es with
  | nil =>
    intro st _
    exact ⟨rfl, rfl, [], rfl, fun w hw => absurd hw (List.not_mem_nil w),
      fun e he => absurd he (List.not_mem_nil e)⟩
  | cons e es ih =>
    intro st hes
    obtain ⟨he, hok⟩ := hes e (List.mem_cons_self _ _)
    have hstep : (dfsEdgeStep current st e).visited = st.visited ∧
        (dfsEdgeStep current st e).ir = st.ir ∧
        ∃ p, (dfsEdgeStep current st e).stack = p ++ st.stack ∧
          (∀ w ∈ p, NodeOK w ∧ Adj edges current w) ∧
          (e.1 = current → st.visited.getD e.2.toNat 0 ≠ 0 ∨
              e.2 ∈ (dfsEdgeStep current st e).stack) ∧
          (e.2 = current → st.visited.getD e.1.toNat 0 ≠ 0 ∨
              e.1 ∈ (dfsEdgeStep current st e).stack) := by
      unfold dfsEdgeStep
      by_cases hA : e.1 = current ∧ st.visited.getD e.2.toNat 0 = 0
      · rw [if_pos hA]
        refine ⟨rfl, rfl, [e.2], rfl, ?_, ?_, ?_⟩
        · intro w hw
          rw [List.mem_singleton.mp hw]
          exact ⟨hok.2, e, he, Or.inl ⟨hA.1, rfl⟩⟩
        · intro _; exact Or.inr (List.mem_cons_self _ _)
        · intro h2
          rw [hA.1, ← h2]
          exact Or.inr (List.mem_cons_self _ _)
      · rw [if_neg hA]
        by_cases hB : e.2 = current ∧ st.visited.getD e.1.toNat 0 = 0
        · rw [if_pos hB]
          refine ⟨rfl, rfl, [e.1], rfl, ?_, ?_, ?_⟩
          · intro w hw
            rw [List.mem_singleton.mp hw]
            exact ⟨hok.1, e, he, Or.inr ⟨hB.1, rfl⟩⟩
          · intro h1
            exact Or.inl (fun h0 => hA ⟨h1, h0⟩)
          · intro _; exact Or.inr (List.mem_cons_self _ _)
        · rw [if_neg hB]
          refine ⟨rfl, rfl, [], rfl, fun w hw => absurd hw (List.not_mem_nil w), ?_, ?_⟩
          · intro h1
            exact Or.inl (fun h0 => hA ⟨h1, h0⟩)
          · intro h2
            exact Or.inl (fun h0 => hB ⟨h2, h0⟩)
    obtain ⟨s1, s2, p, s3, s4, s5, s6⟩ := hstep
    obtain ⟨k1, k2, q, k3, k4, k5⟩ :=
      ih (dfsEdgeStep current st e) (fun x hx => hes x (List.mem_cons_of_mem _ hx))
    simp only [List.foldl_cons]
    refine ⟨k1.trans s1, k2.trans s2, q ++ p, by rw [k3, s3, List.append_assoc], ?_, ?_⟩
    · intro w hw
      rcases List.mem_append.mp hw with hw | hw
      · exact k4 w hw
      · exact s4 w hw
    · intro x hx
      rcases List.mem_cons.mp hx with hx | hx
      · subst hx
        rw [k3]
        refine ⟨fun hh => ?_, fun hh => ?_⟩
        · rcases s5 hh with h | h
          · exact Or.inl h
          · exact Or.inr (List.mem_append_right _ h)
        · rcases s6 hh with h | h
          · exact Or.inl h
          · exact Or.inr (List.mem_append_right _ h)
      · have := k5 x hx
        rw [s1] at this
        exact this

theorem dfsFold_potential (visited : List Int) (current : Int)
    (hc : current.toNat < visited.length) (hfresh : visited.getD current.toNat 0 = 0) :
    ∀ (es : List (Int × Int)) (st : DfsSt), st.visited = visited.set current.toNat 1 →
      (es.foldl (dfsEdgeStep current) st).stack.length +
          freshEdges (visited.set current.toNat 1) es ≤
        st.stack.length + freshEdges visited es := by
  intro es
  induction es with
  | nil => intro st _; simp [freshEdges]
  | cons e es ih =>
    intro st hst
    have hv : (dfsEdgeStep current st e).visited = visited.set current.toNat 1 := by
      unfold dfsEdgeStep
      split
      · exact hst
      · split
        · exact hst
        · exact hst
    have := ih (dfsEdgeStep current st e) hv
    simp only [List.foldl_cons, freshEdges, List.countP_cons] at this ⊢
    have hself := getD_mark_self visited current.toNat hc
    have hstep : (dfsEdgeStep current st e).stack.length +
        (if decide ((visited.set current.toNat 1).getD e.1.toNat 0 = 0 ∧
            (visited.set current.toNat 1).getD e.2.toNat 0 = 0) = true then 1 else 0) ≤
        st.stack.length +
          (if decide (visited.getD e.1.toNat 0 = 0 ∧ visited.getD e.2.toNat 0 = 0) = true
            then 1 else 0) := by
      unfold dfsEdgeStep
      by_cases hA : e.1 = current ∧ st.visited.getD e.2.toNat 0 = 0
      · rw [if_pos hA]
        have h1 : ¬ ((visited.set current.toNat 1).getD e.1.toNat 0 = 0 ∧
            (visited.set current.toNat 1).getD e.2.toNat 0 = 0) := by
          rw [hA.1, hself]
          exact fun h => absurd h.1 (by decide)
        have h2 : visited.getD e.1.toNat 0 = 0 ∧ visited.getD e.2.toNat 0 = 0 := by
          refine ⟨by rw [hA.1]; exact hfresh, getD_mark_zero visited current.toNat _ ?_⟩
          rw [← hst]; exact hA.2
        rw [decide_eq_false h1, decide_eq_true h2]
        simp
      · rw [if_neg hA]
        by_cases hB : e.2 = current ∧ st.visited.getD e.1.toNat 0 = 0
        · rw [if_pos hB]
          have h1 : ¬ ((visited.set current.toNat 1).getD e.1.toNat 0 = 0 ∧
              (visited.set current.toNat 1).getD e.2.toNat 0 = 0) := by
            rw [hB.1, hself]
            exact fun h => absurd h.2 (by decide)
          have h2 : visited.getD e.1.toNat 0 = 0 ∧ visited.getD e.2.toNat 0 = 0 := by
            refine ⟨getD_mark_zero visited current.toNat _ ?_, by rw [hB.1]; exact hfresh⟩
            rw [← hst]; exact hB.2
          rw [decide_eq_false h1, decide_eq_true h2]
          simp
        · rw [if_neg hB]
          by_cases h1 : (visited.set current.toNat 1).getD e.1.toNat 0 = 0 ∧
              (visited.set current.toNat 1).getD e.2.toNat 0 = 0
          · have h2 : visited.getD e.1.toNat 0 = 0 ∧ visited.getD e.2.toNat 0 = 0 :=
              ⟨getD_mark_zero _ _ _ h1.1, getD_mark_zero _ _ _ h1.2⟩
            rw [decide_eq_true h1, decide_eq_true h2]
          · rw [decide_eq_false h1]
            simp
    omega

theorem dfsLoop_spec (edges : List (Int × Int)) (start : Int) (ir0 : List IRNode)
    (hE : EdgesOK edges) :
    ∀ (fuel : Nat) (st : DfsSt) (L : List Int), DfsInv edges start ir0 st L →
      st.stack.length + freshEdges st.visited edges ≤ fuel →
      ∃ L', DfsInv edges start ir0 (dfsLoop edges fuel st) L' ∧
        (dfsLoop edges fuel st).stack = [] := by
  intro fuel
  induction fuel with
  | zero =>
    intro st L h hf
    refine ⟨L, h, ?_⟩
    simp only [dfsLoop]
    exact List.length_eq_zero.mp (by omega)
  | succ fuel ih =>
    intro st L h hf
    unfold dfsLoop
    cases hstk : st.stack with
    | nil => exact ⟨L, h, hstk⟩
    | cons current rest =>
      simp only []
      have hcs : current ∈ st.stack := by rw [hstk]; exact List.mem_cons_self _ _
      have hrs : ∀ x ∈ rest, x ∈ st.stack := by
        intro x hx; rw [hstk]; exact List.mem_cons_of_mem _ hx
      have hcok : NodeOK current := h.srange current hcs
      have hlen : st.stack.length = rest.length + 1 := by rw [hstk]; rfl
      by_cases hv : st.visited.getD current.toNat 0 = 0
      · rw [if_pos hv]
        have hnew : current ∉ L := fun hm => (h.vis current hcok).mpr hm hv
        have hcl : current.toNat < st.visited.length := by
          rw [h.vlen]; exact toNat_lt_of_nodeOK current hcok
        obtain ⟨f1, f2, pushed, f3, f4, f5⟩ := dfsFold_spec edges current edges
          ⟨st.visited.set current.toNat 1, rest, addIRWithIndices st.ir "visit" [current]⟩
          (fun e he => ⟨he, hE e he⟩)
        have fpot := dfsFold_potential st.visited current hcl hv edges
          ⟨st.visited.set current.toNat 1, rest, addIRWithIndices st.ir "visit" [current]⟩ rfl
        have hvis2 := visited_mark_iff st.visited L current h.vlen h.vis hcok
        apply ih _ (L ++ [current])
        · refine ⟨?_, ?_, ?_, ?_, ?_, ?_, ?_, ?_, ?_⟩
          · rw [f1]; simp only [List.length_set]; exact h.vlen
          · rw [f2]
            simp only [addIRWithIndices, h.ir_eq, visitEvents_append, List.append_assoc]
            rfl
          · refine List.nodup_append.mpr ⟨h.nodup, List.nodup_singleton _, ?_⟩
            intro a ha hb
            rw [List.mem_singleton.mp hb] at ha
            exact hnew ha
          · rw [f1]; exact hvis2
          · intro x hx
            rw [f3] at hx
            rcases List.mem_append.mp hx with hx | hx
            · exact (f4 x hx).1
            · exact h.srange x (hrs x hx)
          · intro x hx
            rw [f3] at hx
            rcases List.mem_append.mp hx with hx | hx
            · exact Relation.ReflTransGen.tail (h.sconn current hcs) (f4 x hx).2
            · exact h.sconn x (hrs x hx)
          · intro x hx
            rcases List.mem_append.mp hx with hx | hx
            · exact h.lconn x hx
            · rw [List.mem_singleton.mp hx]; exact h.sconn current hcs
          · intro u hu w hadj
            rcases List.mem_append.mp hu with hu | hu
            · rcases h.closed u hu w hadj with hw | hw
              · exact Or.inl (List.mem_append_left _ hw)
              · rw [hstk] at hw
                rcases List.mem_cons.mp hw with hw | hw
                · exact Or.inl (by rw [hw]; simp)
                · exact Or.inr (by rw [f3]; exact List.mem_append_right _ hw)
            · rw [List.mem_singleton.mp hu] at hadj
              obtain ⟨e, he, hcase⟩ := hadj
              have hok := hE e he
              rcases hcase with ⟨c1, c2⟩ | ⟨c1, c2⟩
              · rw [← c2]
                rcases (f5 e he).1 c1 with hw | hw
                · exact Or.inl ((hvis2 e.2 hok.2).mp hw)
                · exact Or.inr hw
              · rw [← c2]
                rcases (f5 e he).2 c1 with hw | hw
                · exact Or.inl ((hvis2 e.1 hok.1).mp hw)
                · exact Or.inr hw
          · left
            rcases h.first with hf1 | ⟨hf1, hf2⟩
            · cases hL : L with
              | nil => rw [hL] at hf1; simp at hf1
              | cons a l => rw [hL] at hf1; simpa using hf1
            · rw [hf1]
              rw [hstk] at hf2
              have : current = start := by
                have := List.cons.inj hf2
                exact this.1
              rw [this]
              rfl
        · rw [f1]
          dsimp only at fpot ⊢
          omega
      · rw [if_neg hv]
        apply ih _ L
        · refine ⟨h.vlen, h.ir_eq, h.nodup, h.vis, fun x hx => h.srange x (hrs x hx),
            fun x hx => h.sconn x (hrs x hx), h.lconn, ?_, ?_⟩
          · intro u hu w hadj
            rcases h.closed u hu w hadj with hw | hw
            · exact Or.inl hw
            · rw [hstk] at hw
              rcases List.mem_cons.mp hw with hw | hw
              · left
                rw [hw]
                exact (h.vis current hcok).mp hv
              · exact Or.inr hw
          · left
            rcases h.first with hf1 | ⟨hf1, _⟩
            · exact hf1
            · have := (h.vis current hcok).mp hv
              rw [hf1] at this
              exact absurd this (List.not_mem_nil _)
        · show rest.length + freshEdges st.visited edges ≤ fuel
          omega

theorem dfsRun_spec (edges : List (Int × Int)) (start : Int) (ir0 : List IRNode)
    (hE : EdgesOK edges) (hs : NodeOK start) :
    ∃ visits : List Int,
      (dfsRun edges start ir0).ir = ir0 ++ ⟨"dfs_start", [start]⟩ :: visitEvents visits ∧
        visits.head? = some start ∧ visits.Nodup ∧
        ∀ v, v ∈ visits ↔ Connected edges start v := by
  have hinit : DfsInv edges start (ir0 ++ [⟨"dfs_start", [start]⟩])
      ⟨List.replicate 256 (0 : Int), [start], addIRWithIndices ir0 "dfs_start" [start]⟩ [] := by
    refine ⟨List.length_replicate _ _, ?_, List.nodup_nil, ?_, ?_, ?_, ?_, ?_, Or.inr ⟨rfl, rfl⟩⟩
    · simp [addIRWithIndices, visitEvents]
    · intro x hx
      have hz : (List.replicate 256 (0 : Int)).getD x.toNat 0 = 0 := by
        rw [getD_eq_getElem_of_lt _ _ (by
          rw [List.length_replicate]; exact toNat_lt_of_nodeOK x hx)]
        exact List.getElem_replicate _ _
      simp only [hz]
      simp
    · intro x hx; rw [List.mem_singleton.mp hx]; exact hs
    · intro x hx; rw [List.mem_singleton.mp hx]; exact Relation.ReflTransGen.refl
    · intro x hx; exact absurd hx (List.not_mem_nil x)
    · intro u hu; exact absurd hu (List.not_mem_nil u)
  have hpot : ([start] : List Int).length + freshEdges (List.replicate 256 (0 : Int)) edges ≤
      edges.length + 1 := by
    have : freshEdges (List.replicate 256 (0 : Int)) edges ≤ edges.length :=
      List.countP_le_length _
    simp only [List.length_singleton]
    omega
  obtain ⟨L, hfin, hdone⟩ := dfsLoop_spec edges start _ hE (edges.length + 1) _ [] hinit hpot
  have hhead : L.head? = some start := by
    rcases hfin.first with h | ⟨_, h⟩
    · exact h
    · rw [hdone] at h
      exact absurd h (by simp)
  refine ⟨L, ?_, hhead, hfin.nodup, ?_⟩
  · have := hfin.ir_eq
    simp only [List.append_assoc, List.singleton_append] at this
    exact this
  · intro v
    constructor
    · exact hfin.lconn v
    · intro hc
      induction hc with
      | refl => exact List.mem_of_mem_head? hhead
      | tail _ hadj ih =>
        rcases hfin.closed _ ih _ hadj with hw | hw
        · exact hw
        · rw [hdone] at hw
          exact absurd hw (List.not_mem_nil _)

theorem dfsLoopPeak_le (edges : List (Int × Int)) (hE : EdgesOK edges) (B : Nat) :
    ∀ (fuel : Nat) (st : DfsSt), st.visited.length = 256 → (∀ x ∈ st.stack, NodeOK x) →
      st.stack.length + freshEdges st.visited edges ≤ B + 1 → st.stack.length ≤ B →
      dfsLoopPeak edges fuel st ≤ B := by
  intro fuel
  induction fuel with
  | zero => intro st _ _ _ hb; exact hb
  | succ fuel ih =>
    intro st hvl hsr hpot hb
    unfold dfsLoopPeak
    cases hstk : st.stack with
    | nil => exact Nat.zero_le _
    | cons current rest =>
      simp only []
      have hcok : NodeOK current := hsr current (by rw [hstk]; exact List.mem_cons_self _ _)
      have hrs : ∀ x ∈ rest, NodeOK x := by
        intro x hx; exact hsr x (by rw [hstk]; exact List.mem_cons_of_mem _ hx)
      have hlen : st.stack.length = rest.length + 1 := by rw [hstk]; rfl
      have hb2 : (current :: rest).length ≤ B := by rw [← hstk]; exact hb
      by_cases hv : st.visited.getD current.toNat 0 = 0
      · rw [if_pos hv]
        have hcl : current.toNat < st.visited.length := by
          rw [hvl]; exact toNat_lt_of_nodeOK current hcok
        obtain ⟨f1, _, pushed, f3, f4, _⟩ := dfsFold_spec edges current edges
          ⟨st.visited.set current.toNat 1, rest, addIRWithIndices st.ir "visit" [current]⟩
          (fun e he => ⟨he, hE e he⟩)
        have fpot := dfsFold_potential st.visited current hcl hv edges
          ⟨st.visited.set current.toNat 1, rest, addIRWithIndices st.ir "visit" [current]⟩ rfl
        dsimp only at fpot
        refine max_le hb2 (ih _ ?_ ?_ ?_ ?_)
        · rw [f1]; simp only [List.length_set]; exact hvl
        · intro x hx
          rw [f3] at hx
          rcases List.mem_append.mp hx with hx | hx
          · exact (f4 x hx).1
          · exact hrs x hx
        · rw [f1]
          dsimp only
          omega
        · omega
      · rw [if_neg hv]
        refine max_le hb2 (ih _ hvl hrs ?_ ?_)
        · show rest.length + freshEdges st.visited edges ≤ B + 1
          omega
        · show rest.length ≤ B
          omega

/-- The explicit stack `stack[256]` of the depth-first search never holds more
than 256 entries when at most 256 edges are recorded. -/
theorem dfs_stack_within_capacity (edges : List (Int × Int)) (start : Int)
    (ir : List IRNode) (hE : EdgesOK edges) (hlen : edges.length ≤ 256) (hs : NodeOK start) :
    dfsLoopPeak edges (edges.length + 1)
      ⟨List.replicate 256 (0 : Int), [start], ir⟩ ≤ 256 := by
  apply dfsLoopPeak_le edges hE 256
  · exact List.length_replicate _ _
  · intro x hx; rw [List.mem_singleton.mp hx]; exact hs
  · have : freshEdges (List.replicate 256 (0 : Int)) edges ≤ edges.length :=
      List.countP_le_length _
    simp only [List.length_singleton]
    omega
  · simp

/-! ## C19: depth-first search -/

/-- C19: for every list of at most 256 edges with node ids in 0..255, recorded
by `add_edge` operations, and every source `s` in 0..255, the operation
`dfs(s)` emits `dfs_start(s)` followed by one `visit(v)` for each `v` of a list
`visits` that starts with `s`, has no repetition, and holds exactly the nodes
connected to `s` by a path of edges taken in either direction.  For the edges
(0,1), (0,2), (1,2) and source 0 the explicit stack holds node 1 twice after
two nodes were visited, and the visits are 0, 2, 1. -/
theorem dfs_visits (edges : List (Int × Int)) (s : Int) (hE : EdgesOK edges)
    (_hlen : edges.length ≤ 256) (hs : NodeOK s) :
    (∃ visits : List Int,
        generateGraphOperations (addEdgeOps edges ++ [⟨"dfs", s, 0⟩]) =
          addEdgeEvents edges ++ ⟨"dfs_start", [s]⟩ :: visitEvents visits ∧
        visits.head? = some s ∧ visits.Nodup ∧
        ∀ v, v ∈ visits ↔ Connected edges s v) ∧
      (dfsLoop [(0, 1), (0, 2), (1, 2)] 2 ⟨List.replicate 256 0, [0], []⟩).stack = [1, 1] ∧
      generateGraphOperations
          [⟨"add_edge", 0, 1⟩, ⟨"add_edge", 0, 2⟩, ⟨"add_edge", 1, 2⟩, ⟨"dfs", 0, 0⟩] =
        [⟨"add_edge", [0, 1]⟩, ⟨"add_edge", [0, 2]⟩, ⟨"add_edge", [1, 2]⟩,
          ⟨"dfs_start", [0]⟩, ⟨"visit", [0]⟩, ⟨"visit", [2]⟩, ⟨"visit", [1]⟩] := by
  refine ⟨?_, by decide, by decide⟩
  obtain ⟨visits, h1, h2, h3, h4⟩ := dfsRun_spec edges s (addEdgeEvents edges) hE hs
  refine ⟨visits, ?_, h2, h3, h4⟩
  have h5 : ¬ ("dfs" = "add_node") := by decide
  have h6 : ¬ ("dfs" = "add_edge") := by decide
  have h7 : ¬ ("dfs" = "bfs") := by decide
  simp only [generateGraphOperations, graphOpsRun, List.foldl_append, addEdgeOps_run,
    List.foldl_cons, List.foldl_nil, graphOpStep, h5, h6, h7, if_false, if_true,
    List.nil_append]
  exact h1

/-- Witness for C19: the edges (0,1), (0,2), (1,2), (3,4) and source 0. -/
theorem dfs_visits_witness :
    ∃ visits : List Int,
      generateGraphOperations
          (addEdgeOps [(0, 1), (0, 2), (1, 2), (3, 4)] ++ [⟨"dfs", 0, 0⟩]) =
        addEdgeEvents [(0, 1), (0, 2), (1, 2), (3, 4)] ++
          ⟨"dfs_start", [0]⟩ :: visitEvents visits ∧
      visits.head? = some 0 ∧ visits.Nodup ∧
      ∀ v, v ∈ visits ↔ Connected [(0, 1), (0, 2), (1, 2), (3, 4)] 0 v :=
  (dfs_visits [(0, 1), (0, 2), (1, 2), (3, 4)] 0 (by simp [EdgesOK, NodeOK]) (by decide)
    (by simp [NodeOK])).1

/-- The queue `queue[256]` of the breadth-first search never holds more than
256 entries: it only grows, and its final content has no repetition. -/
theorem bfs_queue_within_capacity (edges : List (Int × Int)) (start : Int)
    (ir : List IRNode) (hE : EdgesOK edges) (hs : NodeOK start) :
    (bfsRun edges start ir).queue.length ≤ 256 := by
  have hinit : BfsInv edges start (ir ++ [⟨"bfs_start", [start]⟩])
      ⟨(List.replicate 256 (0 : Int)).set start.toNat 1, [start], 0,
        addIRWithIndices (addIRWithIndices ir "bfs_start" [start]) "visit" [start]⟩ := by
    refine ⟨⟨?_, ?_, List.nodup_singleton _, ?_, rfl, ?_, rfl⟩, Nat.zero_le _, ?_⟩
    · rw [List.length_set]; exact List.length_replicate _ _
    · intro x hx; rw [List.mem_singleton.mp hx]; exact hs
    · have hvis0 : ∀ x, NodeOK x →
          ((List.replicate 256 (0 : Int)).getD x.toNat 0 ≠ 0 ↔ x ∈ ([] : List Int)) := by
        intro x hx
        have hz : (List.replicate 256 (0 : Int)).getD x.toNat 0 = 0 := by
          rw [getD_eq_getElem_of_lt _ _ (by
            rw [List.length_replicate]; exact toNat_lt_of_nodeOK x hx)]
          exact List.getElem_replicate _ _
        simp only [hz]
        simp
      exact visited_mark_iff _ [] start (List.length_replicate _ _) hvis0 hs
    · intro x hx; rw [List.mem_singleton.mp hx]; exact Relation.ReflTransGen.refl
    · intro u hu; simp at hu
  obtain ⟨hfin, _⟩ := bfsLoop_spec edges start _ hE 256 _ hinit (Nat.sub_le _ _)
  exact nodeOK_length_le _ hfin.base.qnodup hfin.base.qrange

theorem getD_take_of_lt (l : List Int) (n k : Nat) (h : k < n) :
    (l.take n).getD k 0 = l.getD k 0 := by
  simp only [List.getD_eq_getElem?_getD, List.getElem?_take, h, if_true]

theorem copyInts_spec (n : Nat) (src dst : List Int) (hs : n ≤ src.length)
    (hd : n ≤ dst.length) :
    (copyInts n src dst).length = dst.length ∧ (copyInts n src dst).take n = src.take n := by
  have key := forRange_induction
    (fun i (a : List Int) => a.length = dst.length ∧ ∀ k, k < i → a.getD k 0 = src.getD k 0)
    (fun i a => a.set i (src.getD i 0)) 0 n dst (Nat.zero_le _)
    ⟨rfl, fun k hk => absurd hk (Nat.not_lt_zero k)⟩
    (by
      intro i a _ hi ⟨hl, hk⟩
      refine ⟨by rw [List.length_set]; exact hl, ?_⟩
      intro k hk1
      rw [getD_set_eq]
      by_cases hik : i = k
      · subst hik
        rw [if_pos ⟨rfl, by omega⟩]
      · rw [if_neg (fun h => hik h.1)]
        exact hk k (by omega))
  obtain ⟨h1, h2⟩ := key
  refine ⟨h1, ?_⟩
  apply ext_getD
  · simp only [List.length_take]
    unfold copyInts
    omega
  · intro k hk
    simp only [List.length_take] at hk
    have hkn : k < n := by omega
    rw [getD_take_of_lt _ _ _ hkn, getD_take_of_lt _ _ _ hkn]
    exact h2 k hkn

theorem storeDeclared_frame (v : List Int) (g : Globals) :
    storeDeclared v g =
      { g with dsl_array := (storeDeclared v g).dsl_array,
               dsl_array_size := (storeDeclared v g).dsl_array_size } ∧
      (storeDeclared v g).dsl_array.length = g.dsl_array.length := by
  unfold storeDeclared
  split
  · refine ⟨rfl, ?_⟩
    unfold copyInts
    exact (forRange_induction (fun _ (a : List Int) => a.length = g.dsl_array.length)
      (fun i a => a.set i (v.getD i 0)) 0 (min v.length 256) g.dsl_array (Nat.zero_le _) rfl
      (by intro i a _ _ h; rw [List.length_set]; exact h))
  · exact ⟨rfl, rfl⟩

theorem storeDeclared_nil (g : Globals) : storeDeclared [] g = g := by
  simp [storeDeclared]

theorem storeDeclared_values (v : List Int) (g : Globals) (h1 : 1 ≤ v.length)
    (h2 : v.length ≤ 256) (hg : g.dsl_array.length = 256) :
    (storeDeclared v g).dsl_array_size = v.length ∧
      (storeDeclared v g).dsl_array.take v.length = v := by
  unfold storeDeclared
  rw [if_pos (by omega)]
  refine ⟨rfl, ?_⟩
  show (copyInts (min v.length 256) v g.dsl_array).take v.length = v
  rw [Nat.min_eq_left h2]
  rw [(copyInts_spec v.length v g.dsl_array (le_refl _) (by omega)).2]
  exact List.take_length v

theorem foldl_storeDeclared_frame :
    ∀ (ds : List (String × List Int)) (g : Globals),
      ds.foldl (fun g d => storeDeclared d.2 g) g =
        { g with dsl_array := (ds.foldl (fun g d => storeDeclared d.2 g) g).dsl_array,
                 dsl_array_size :=
                   (ds.foldl (fun g d => storeDeclared d.2 g) g).dsl_array_size } ∧
        (ds.foldl (fun g d => storeDeclared d.2 g) g).dsl_array.length = g.dsl_array.length := by
  intro ds
  induction ds with
  | nil => intro g; exact ⟨rfl, rfl⟩
  | cons d ds ih =>
    intro g
    simp only [List.foldl_cons]
    obtain ⟨h1, h2⟩ := ih (storeDeclared d.2 g)
    obtain ⟨h3, h4⟩ := storeDeclared_frame d.2 g
    refine ⟨?_, h2.trans h4⟩
    rw [h1]
    rw [h3]

theorem foldl_storeDeclared_empty :
    ∀ (es : List (String × List Int)) (g : Globals), (∀ x ∈ es, x.2 = []) →
      es.foldl (fun g d => storeDeclared d.2 g) g = g := by
  intro es
  induction es with
  | nil => intro g _; rfl
  | cons e es ih =>
    intro g h
    simp only [List.foldl_cons]
    rw [h e (List.mem_cons_self _ _), storeDeclared_nil]
    exact ih g (fun x hx => h x (List.mem_cons_of_mem _ hx))

theorem collect_declChain (rest : ASTNode) :
    ∀ (ds : List (String × List Int)) (g : Globals), g.has_error = false →
      (∀ d ∈ ds, d.1 ≠ "") →
      collectDSLInfo (declChain ds rest) g =
        collectDSLInfo rest (ds.foldl (fun g d => storeDeclared d.2 g) g) := by
  intro ds
  induction ds with
  | nil => intro g _ _; rfl
  | cons d ds ih =>
    intro g hg hn
    have hname : ¬ (some d.1 = none ∨ some d.1 = some "") := by
      intro h
      rcases h with h | h
      · exact absurd h (by simp)
      · exact hn d (List.mem_cons_self _ _) (Option.some.inj h)
    have herr : (storeDeclared d.2 g).has_error = false := by
      rw [(storeDeclared_frame d.2 g).1]; exact hg
    simp only [declChain, collectDSLInfo, if_neg hname, herr, List.foldl_cons]
    exact ih _ herr (fun x hx => hn x (List.mem_cons_of_mem _ hx))

theorem validAlgorithm_cases (alg : String) (h : isValidAlgorithm alg = true) :
    alg = "bubble_sort" ∨ alg = "insertion_sort" ∨ alg = "selection_sort" ∨
      alg = "merge_sort" ∨ alg = "quick_sort" ∨ alg = "quicksort" := by
  unfold isValidAlgorithm at h
  split at h
  · exact absurd h (by decide)
  · simp only [Bool.or_eq_true, decide_eq_true_eq] at h
    tauto

theorem validAlgorithm_plain (alg : String) (h : isValidAlgorithm alg = true) :
    strncpy alg 63 = alg ∧ (strchr alg.data '.').isSome = false ∧ alg ≠ "" := by
  rcases validAlgorithm_cases alg h with h | h | h | h | h | h <;> subst h <;> decide

theorem collect_algorithmCall (g : Globals) (alg : String) (arg : ASTNode)
    (hdot : (strchr alg.data '.').isSome = false) (hsize : g.dsl_array_size ≠ 0)
    (herr : g.has_error = false) :
    collectDSLInfo (algorithmCall alg arg) g =
      { g with algorithm_to_generate := strncpy alg 63 } := by
  cases arg with
  | null =>
    simp only [algorithmCall, collectDSLInfo, hdot, Bool.false_eq_true, if_false, hsize, herr]
  | node t nm num av l r b c i =>
    simp only [algorithmCall, collectDSLInfo, hdot, Bool.false_eq_true, if_false, herr]

theorem generateSortSteps_take (alg : String) (n : Nat) (arr : List Int) :
    generateSortSteps alg n arr = generateSortSteps alg n (arr.take n) := by
  simp only [generateSortSteps, generateBubbleSortSteps, bubbleSortRun,
    generateInsertionSortSteps, insertionSortRun, generateSelectionSortSteps, selectionSortRun,
    generateMergeSortSteps, mergeSortRun, generateQuickSortSteps, quickSortRun,
    List.take_take, min_self]

theorem generateSort_spec (g : Globals) (h1 : 0 < g.dsl_array_size)
    (h2 : g.dsl_array_size ≤ 256) (h3 : g.dsl_array.length = 256)
    (h4 : g.algorithmArray.length = 256) (h5 : isValidAlgorithm g.algorithm_to_generate = true)
    (h6 : g.has_error = false) :
    (generateSort g).has_error = false ∧
      storedArray (generateSort g) = g.dsl_array.take g.dsl_array_size ∧
      (generateSort g).ir =
        g.ir ++ generateSortSteps g.algorithm_to_generate g.dsl_array_size g.dsl_array := by
  have hne : g.algorithm_to_generate ≠ "" := (validAlgorithm_plain _ h5).2.2
  have hsz : ¬ (g.dsl_array_size > 256) := by omega
  have hcopy := copyInts_spec g.dsl_array_size g.dsl_array g.algorithmArray (by omega) (by omega)
  refine ⟨?_, ?_, ?_⟩
  · simp [generateSort, h1, h5, hne, setArray, setAlgorithmName, setDetectedAlgorithm, h6]
  · simp only [generateSort, h1, h5, hne, setArray, setAlgorithmName, setDetectedAlgorithm,
      storedArray, if_true, hsz, if_false, ne_eq, not_false_eq_true, not_true_eq_false,
      and_false]
    exact hcopy.2
  · simp [generateSort, h1, h5, hne, setArray, setAlgorithmName, setDetectedAlgorithm]

/-! ## C20: which array declaration supplies the initial array -/

/-- C20, counterexample to the claim as written: for the program
`a = [1, 2]; b = [9, 8, 7]; bubble_sort(b)` the array stored for the writer and
sorted by the generator is `[9, 8, 7]`, the value list of the second
declaration, not `[1, 2]`, the value list of the first. -/
theorem array_decl_first_wins_counterexample :
    storedArray (generateCode (declChain [("a", [1, 2]), ("b", [9, 8, 7])]
      (algorithmCall "bubble_sort"
        (.node .VALUE_NODE (some "b") 0 [] .null .null .null .null .null)))
      initialGlobals) = [9, 8, 7] ∧
    (generateCode (declChain [("a", [1, 2]), ("b", [9, 8, 7])]
      (algorithmCall "bubble_sort"
        (.node .VALUE_NODE (some "b") 0 [] .null .null .null .null .null)))
      initialGlobals).ir = generateBubbleSortSteps 3 [9, 8, 7] ∧
    (generateCode (declChain [("a", [1, 2]), ("b", [9, 8, 7])]
      (algorithmCall "bubble_sort"
        (.node .VALUE_NODE (some "b") 0 [] .null .null .null .null .null)))
      initialGlobals).ir ≠ generateBubbleSortSteps 2 [1, 2] := by
  decide

/-- C20, amended: when a program is a sequence of named array declarations
followed by a call of a sort algorithm, the initial array (the array stored
for the writer and the array the sort generator runs over) is the value list
of the last declaration that lists values (between 1 and 256 of them);
declarations that list no value are skipped and every earlier declaration is
overwritten. -/
theorem array_decl_last_wins (g : Globals) (pre es : List (String × List Int))
    (d : String × List Int) (alg : String) (arg : ASTNode)
    (hg : g.dsl_array.length = 256 ∧ g.algorithmArray.length = 256)
    (hnames : ∀ x ∈ pre ++ d :: es, x.1 ≠ "")
    (hd : 1 ≤ d.2.length ∧ d.2.length ≤ 256)
    (hes : ∀ x ∈ es, x.2 = [])
    (halg : isValidAlgorithm alg = true) :
    (generateCode (declChain (pre ++ d :: es) (algorithmCall alg arg)) g).has_error = false ∧
      storedArray (generateCode (declChain (pre ++ d :: es) (algorithmCall alg arg)) g) =
        d.2 ∧
      (generateCode (declChain (pre ++ d :: es) (algorithmCall alg arg)) g).ir =
        g.ir ++ generateSortSteps alg d.2.length d.2 := by
  obtain ⟨hcpy, hdot, _⟩ := validAlgorithm_plain alg halg
  let g0 : Globals := { g with dsl_array_size := 0, algorithm_to_generate := "", ds_type := "",
                               ds_operations := [], has_error := false }
  let gp := pre.foldl (fun g d => storeDeclared d.2 g) g0
  let g1 := storeDeclared d.2 gp
  have hfold : (pre ++ d :: es).foldl (fun g d => storeDeclared d.2 g) g0 = g1 := by
    rw [List.foldl_append, List.foldl_cons]
    exact foldl_storeDeclared_empty es _ hes
  obtain ⟨hp1, hp2⟩ := foldl_storeDeclared_frame pre g0
  obtain ⟨hs1, hs2⟩ := storeDeclared_frame d.2 gp
  have hgplen : gp.dsl_array.length = 256 := hp2.trans hg.1
  obtain ⟨hv1, hv2⟩ := storeDeclared_values d.2 gp hd.1 hd.2 hgplen
  have hg1 : g1 = { g0 with dsl_array := g1.dsl_array, dsl_array_size := g1.dsl_array_size } := by
    show storeDeclared d.2 gp = _
    rw [hs1]
    show _ = { g0 with dsl_array := (storeDeclared d.2 gp).dsl_array,
                       dsl_array_size := (storeDeclared d.2 gp).dsl_array_size }
    rw [show gp = _ from hp1]
  have herr1 : g1.has_error = false := by rw [hg1]
  have hops1 : g1.ds_operations = [] := by rw [hg1]
  have hir1 : g1.ir = g.ir := by rw [hg1]
  have halg1 : g1.algorithmArray.length = 256 := by rw [hg1]; exact hg.2
  have hlen1 : g1.dsl_array.length = 256 := hs2.trans hgplen
  have hsize1 : g1.dsl_array_size = d.2.length := hv1
  have hcollect : collectDSLInfo (declChain (pre ++ d :: es) (algorithmCall alg arg)) g0 =
      { g1 with algorithm_to_generate := alg } := by
    rw [collect_declChain _ _ g0 rfl hnames, hfold,
      collect_algorithmCall g1 alg arg hdot (by rw [hsize1]; omega) herr1, hcpy]
  have hgen : generateCode (declChain (pre ++ d :: es) (algorithmCall alg arg)) g =
      generateSort { g1 with algorithm_to_generate := alg } := by
    show (if (collectDSLInfo _ g0).ds_operations ≠ [] ∧ (collectDSLInfo _ g0).ds_type ≠ "" then
      generateStructure (collectDSLInfo _ g0) else generateSort (collectDSLInfo _ g0)) = _
    rw [hcollect]
    rw [if_neg]
    intro h
    exact h.1 hops1
  rw [hgen]
  obtain ⟨r1, r2, r3⟩ := generateSort_spec { g1 with algorithm_to_generate := alg }
    (by show 0 < g1.dsl_array_size; rw [hsize1]; omega)
    (by show g1.dsl_array_size ≤ 256; rw [hsize1]; exact hd.2)
    hlen1 halg1 halg herr1
  refine ⟨r1, ?_, ?_⟩
  · rw [r2]
    show g1.dsl_array.take g1.dsl_array_size = d.2
    rw [hsize1]
    exact hv2
  · rw [r3]
    show g1.ir ++ generateSortSteps alg g1.dsl_array_size g1.dsl_array = _
    rw [hir1, hsize1, generateSortSteps_take, hv2]

/-- Witness for C20: the declarations `a = [1, 2]`, `b = [9, 8, 7]`, `c = []`
followed by `quick_sort(b)`. -/
theorem array_decl_last_wins_witness :
    storedArray (generateCode (declChain ([("a", [1, 2])] ++ ("b", [9, 8, 7]) :: [("c", [])])
      (algorithmCall "quick_sort" .null)) initialGlobals) = [9, 8, 7] :=
  (array_decl_last_wins initialGlobals [("a", [1, 2])] [("c", [])] ("b", [9, 8, 7])
    "quick_sort" .null ⟨List.length_replicate _ _, List.length_replicate _ _⟩ (by decide) (by decide) (by decide) (by decide)).2.1

/-! ## C21: the error flag and the list of events -/

/-- C21: the claim fails on the sort branch.  For the program `bubble_sort()`
(a sort call without argument, no array declared) the scan reports the call as
malformed and sets the error flag, and `generateCode` still appends the 24
events of the bubble sort of the default array; the same happens after an
assignment without a name.  On the structure branch the same kind of error
leaves the list of events empty: `stack.push(1)` followed by the assignment
without a name appends nothing. -/
theorem error_flag_with_events :
    hasGenerationError (generateCode (algorithmCall "bubble_sort" .null) initialGlobals) = true ∧
      (generateCode (algorithmCall "bubble_sort" .null) initialGlobals).ir =
        generateBubbleSortSteps 5 [5, 3, 8, 4, 2] ∧
      (generateCode (algorithmCall "bubble_sort" .null) initialGlobals).ir.length = 24 ∧
      hasGenerationError
        (generateCode (.node .ASSIGN_NODE none 0 [] .null .null .null .null .null)
          initialGlobals) = true ∧
      (generateCode (.node .ASSIGN_NODE none 0 [] .null .null .null .null .null)
        initialGlobals).ir = generateBubbleSortSteps 5 [5, 3, 8, 4, 2] ∧
      hasGenerationError
        (generateCode
          (.node .ALGORITHM_CALL_NODE (some "stack.push") 0 []
            (.node .NUMBER_NODE none 1 [] .null .null .null .null .null)
            (.node .ASSIGN_NODE none 0 [] .null .null .null .null .null) .null .null .null)
          initialGlobals) = true ∧
      (generateCode
          (.node .ALGORITHM_CALL_NODE (some "stack.push") 0 []
            (.node .NUMBER_NODE none 1 [] .null .null .null .null .null)
            (.node .ASSIGN_NODE none 0 [] .null .null .null .null .null) .null .null .null)
          initialGlobals).ir = [] := by
  decide

theorem takeWhile_append_stop {α : Type} (p : α → Bool) (a : α) (ha : p a = false) :
    ∀ (l r : List α), (∀ x ∈ l, p x = true) → (l ++ a :: r).takeWhile p = l := by
  intro l
  induction l with
  | nil => intro r _; simp [List.takeWhile, ha]
  | cons x l ih =>
    intro r h
    have hx := h x (List.mem_cons_self _ _)
    simp only [List.cons_append, List.takeWhile_cons, hx, if_true]
    rw [ih r (fun y hy => h y (List.mem_cons_of_mem _ hy))]

theorem dropWhile_append_stop {α : Type} (p : α → Bool) (a : α) (ha : p a = false) :
    ∀ (l r : List α), (∀ x ∈ l, p x = true) → (l ++ a :: r).dropWhile p = a :: r := by
  intro l
  induction l with
  | nil => intro r _; simp [List.dropWhile, ha]
  | cons x l ih =>
    intro r h
    have hx := h x (List.mem_cons_self _ _)
    simp only [List.cons_append, List.dropWhile_cons, hx, if_true]
    exact ih r (fun y hy => h y (List.mem_cons_of_mem _ hy))

theorem strchr_none_of_not_mem (c : Char) : ∀ l : List Char, c ∉ l → strchr l c = none := by
  intro l
  induction l with
  | nil => intro _; rfl
  | cons x l ih =>
    intro h
    unfold strchr
    rw [if_neg (fun hx => h (by rw [hx]; exact List.mem_cons_self _ _))]
    exact ih (fun hm => h (List.mem_cons_of_mem _ hm))

theorem strncpy_eq_iff (s name : String) (n : Nat) (hlen : name.data.length < n) :
    strncpy s n = name ↔ s = name := by
  unfold strncpy
  constructor
  · intro h
    have h1 : s.data.take n = name.data := congrArg String.data h
    have h2 : (s.data.take n).length = name.data.length := congrArg List.length h1
    rw [List.length_take] at h2
    have h3 : s.data.length ≤ n := by omega
    rw [List.take_of_length_le h3] at h1
    exact String.ext h1
  · intro h
    subst h
    rw [List.take_of_length_le (by omega)]

theorem strncpy_ne_empty (s : String) (n : Nat) (hs : s ≠ "") (hn : 0 < n) :
    strncpy s n ≠ "" := by
  intro h
  have h1 : s.data.take n = [] := congrArg String.data h
  have h2 : s.data ≠ [] := fun h => hs (String.ext h)
  cases hd : s.data with
  | nil => exact h2 hd
  | cons a t =>
    rw [hd] at h1
    cases n with
    | zero => omega
    | succ m => simp at h1

theorem collect_algorithmCall_arg (g : Globals) (alg : String) (arg : ASTNode)
    (hdot : '.' ∉ alg.data) (harg : arg ≠ .null) (herr : g.has_error = false) :
    collectDSLInfo (algorithmCall alg arg) g =
      { g with algorithm_to_generate := strncpy alg 63 } := by
  have hnone : (strchr alg.data '.').isSome = false := by
    rw [strchr_none_of_not_mem _ _ hdot]; rfl
  cases arg with
  | null => exact absurd rfl harg
  | node t nm num av l r b c i =>
    simp only [algorithmCall, collectDSLInfo, hnone, Bool.false_eq_true, if_false, herr]

theorem generateSort_error (g : Globals) (hg : g.has_error = false) :
    (generateSort g).has_error = false ↔
      (g.algorithm_to_generate = "" ∨ isValidAlgorithm g.algorithm_to_generate = true) := by
  unfold generateSort
  by_cases hs : g.dsl_array_size > 0
  · by_cases ha : g.algorithm_to_generate = ""
    · simp [hs, ha, setArray, setAlgorithmName, setDetectedAlgorithm, hg]
    · by_cases hv : isValidAlgorithm g.algorithm_to_generate = true
      · simp [hs, ha, hv, setArray, setAlgorithmName, setDetectedAlgorithm, hg]
      · simp [hs, ha, hv, setArray, reportError]
  · by_cases ha : g.algorithm_to_generate = ""
    · simp [hs, ha, setArray, setAlgorithmName, setDetectedAlgorithm, hg]
    · by_cases hv : isValidAlgorithm g.algorithm_to_generate = true
      · simp [hs, ha, hv, setArray, setAlgorithmName, setDetectedAlgorithm, hg]
      · simp [hs, ha, hv, setArray, reportError]

theorem validAlgorithm_iff (alg : String) :
    isValidAlgorithm (strncpy alg 63) = true ↔
      alg ∈ ["bubble_sort", "insertion_sort", "selection_sort", "merge_sort", "quick_sort",
        "quicksort"] := by
  have e1 := strncpy_eq_iff alg "bubble_sort" 63 (by decide)
  have e2 := strncpy_eq_iff alg "insertion_sort" 63 (by decide)
  have e3 := strncpy_eq_iff alg "selection_sort" 63 (by decide)
  have e4 := strncpy_eq_iff alg "merge_sort" 63 (by decide)
  have e5 := strncpy_eq_iff alg "quick_sort" 63 (by decide)
  have e6 := strncpy_eq_iff alg "quicksort" 63 (by decide)
  unfold isValidAlgorithm
  by_cases h0 : strncpy alg 63 = ""
  · rw [if_pos h0]
    have : alg = "" := (strncpy_eq_iff alg "" 63 (by decide)).mp h0
    subst this
    decide
  · rw [if_neg h0]
    simp only [Bool.or_eq_true, decide_eq_true_eq, e1, e2, e3, e4, e5, e6, List.mem_cons,
      List.mem_singleton, List.not_mem_nil, or_false, or_assoc]

/-! ## C23: the accepted algorithm names -/

/-- C23, counterexample to the claim as written: the call `quicksort(arr)`,
whose name is none of the five names bubble_sort, insertion_sort,
selection_sort, merge_sort, quick_sort, is accepted (the error flag stays
clear) and produces the quick-sort trace. -/
theorem quicksort_accepted_counterexample :
    hasGenerationError (generateCode (algorithmCall "quicksort"
        (.node .VALUE_NODE (some "arr") 0 [] .null .null .null .null .null))
        initialGlobals) = false ∧
      "quicksort" ∉
        ["bubble_sort", "insertion_sort", "selection_sort", "merge_sort", "quick_sort"] ∧
      (generateCode (algorithmCall "quicksort"
        (.node .VALUE_NODE (some "arr") 0 [] .null .null .null .null .null))
        initialGlobals).ir = generateQuickSortSteps 5 [5, 3, 8, 4, 2] ∧
      (generateCode (algorithmCall "quicksort"
        (.node .VALUE_NODE (some "arr") 0 [] .null .null .null .null .null))
        initialGlobals).algorithmName = "Quick Sort" := by
  decide

/-- C23, amended: for a program that is one call `name(arg)` with an argument,
whose name is not empty and has no dot, `generateCode` leaves the error flag
clear if and only if the name is one of the six names bubble_sort,
insertion_sort, selection_sort, merge_sort, quick_sort, quicksort; every other
name sets the error flag. -/
theorem algorithm_name_accepted_iff (g : Globals) (alg : String) (arg : ASTNode)
    (hne : alg ≠ "") (hdot : '.' ∉ alg.data) (harg : arg ≠ .null) :
    hasGenerationError (generateCode (algorithmCall alg arg) g) = false ↔
      alg ∈ ["bubble_sort", "insertion_sort", "selection_sort", "merge_sort", "quick_sort",
        "quicksort"] := by
  have hcollect := collect_algorithmCall_arg
    { g with dsl_array_size := 0, algorithm_to_generate := "", ds_type := "",
             ds_operations := [], has_error := false } alg arg hdot harg rfl
  have hty := strncpy_ne_empty alg 63 hne (by decide)
  unfold hasGenerationError generateCode
  dsimp only
  rw [hcollect]
  dsimp only
  rw [if_neg (fun h => h.1 rfl), generateSort_error _ rfl]
  dsimp only
  rw [validAlgorithm_iff]
  constructor
  · intro h
    rcases h with h | h
    · exact absurd h hty
    · exact h
  · intro h
    exact Or.inr h

/-- Witness for C23: the call `merge_sort(arr)` is accepted. -/
theorem algorithm_name_accepted_iff_witness :
    hasGenerationError (generateCode (algorithmCall "merge_sort"
      (.node .VALUE_NODE (some "arr") 0 [] .null .null .null .null .null))
      initialGlobals) = false :=
  (algorithm_name_accepted_iff initialGlobals "merge_sort"
    (.node .VALUE_NODE (some "arr") 0 [] .null .null .null .null .null)
    (by decide) (by decide) (fun h => ASTNode.noConfusion h)).mpr (by decide)

theorem intercalate_go_append (s : String) :
    ∀ (l : List String) (x y : String),
      String.intercalate.go (x ++ y) s l = x ++ String.intercalate.go y s l := by
  intro l
  induction l with
  | nil => intro x y; rfl
  | cons a l ih =>
    intro x y
    simp only [String.intercalate.go]
    rw [String.append_assoc, String.append_assoc, ih x (y ++ (s ++ a)), String.append_assoc]

theorem intercalate_cons_cons (s a b : String) (l : List String) :
    s.intercalate (a :: b :: l) = a ++ s ++ s.intercalate (b :: l) := by
  show String.intercalate.go a s (b :: l) = a ++ s ++ String.intercalate.go b s l
  simp only [String.intercalate.go]
  rw [intercalate_go_append]

theorem writeIntList_eq : ∀ l : List Int, writeIntList l = ", ".intercalate (l.map fmtInt) := by
  intro l
  induction l with
  | nil => rfl
  | cons x l ih =>
    cases l with
    | nil => rfl
    | cons y rest =>
      have e : writeIntList (x :: y :: rest) = fmtInt x ++ ", " ++ writeIntList (y :: rest) :=
        rfl
      rw [e, ih]
      exact (intercalate_cons_cons _ _ _ _).symm

theorem writeStep_eq (curr : IRNode) (hasNext : Bool) :
    writeStep curr hasNext =
      stepObjectSpec curr ++ (if hasNext then "," else "") ++ "\n" := by
  obtain ⟨action, indices⟩ := curr
  unfold writeStep stepObjectSpec
  cases indices with
  | nil => simp [operandFieldSpec, String.append_assoc]
  | cons v t =>
    cases t with
    | nil => simp [operandFieldSpec, String.append_assoc]
    | cons w rest =>
      simp only [List.length_cons, operandFieldSpec, writeIntList_eq, String.append_assoc]
      simp
      apply String.ext
      simp only [String.data_append, List.append_assoc]
      rfl

theorem writeSteps_eq : ∀ ir : List IRNode,
    writeSteps ir =
      if ir = [] then "" else ",\n".intercalate (ir.map stepObjectSpec) ++ "\n" := by
  intro ir
  induction ir with
  | nil => rfl
  | cons e ir ih =>
    cases ir with
    | nil =>
      simp only [writeSteps, writeStep_eq, List.map_cons, List.map_nil]
      simp [String.intercalate, String.intercalate.go]
    | cons f rest =>
      simp only [writeSteps, List.map_cons] at ih ⊢
      rw [intercalate_cons_cons, ih, writeStep_eq]
      simp [String.append_assoc]

/-! ## C24: layout of the written document -/

/-- C24: the text written by `writeIRToJSON` has the keys `algorithm`, `array`,
`steps`, `metadata` in this order; the steps are the written events separated
by commas, and each written event is its action followed by no operand field
for no operand, by a scalar `index` for exactly one operand, and by an
`indices` array listing all operands in order for two or more operands (an
event of the generator has at most four). -/
theorem writer_layout (algorithmName : String) (algorithmArray : List Int)
    (ir : List IRNode) :
    writeIRToJSON algorithmName algorithmArray ir =
        "\x7b\n  \"algorithm\": \"" ++ algorithmName ++ "\",\n  \"array\": [" ++
          (if algorithmArray = [] then "5, 3, 8, 4, 2"
            else ", ".intercalate (algorithmArray.map fmtInt)) ++
          "],\n  \"steps\": [\n" ++
          (if ir = [] then "" else ",\n".intercalate (ir.map stepObjectSpec) ++ "\n") ++
          "  ],\n  \"metadata\": \x7b\n    \"timeComplexity\": \"O(n²)\",\n" ++
          "    \"spaceComplexity\": \"O(1)\",\n" ++
          "    \"description\": \"Generated from algorithm visualization compiler.\"\n" ++
          "  \x7d\n\x7d\n" ∧
      (∀ action, stepObjectSpec ⟨action, []⟩ =
        "    \x7b\n      \"action\": \"" ++ action ++ "\"\n    \x7d") ∧
      (∀ action v, stepObjectSpec ⟨action, [v]⟩ =
        "    \x7b\n      \"action\": \"" ++ action ++ "\",\n      \"index\": " ++ fmtInt v ++
          "\n    \x7d") ∧
      stepObjectSpec ⟨"compare", [0, 1]⟩ =
        "    \x7b\n      \"action\": \"compare\",\n      \"indices\": [0, 1]\n    \x7d" ∧
      stepObjectSpec ⟨"insert", [3, 5, 1, 0]⟩ =
        "    \x7b\n      \"action\": \"insert\",\n      \"indices\": [3, 5, 1, 0]\n    \x7d" := by
  refine ⟨?_, ?_, ?_, by decide, by decide⟩
  · unfold writeIRToJSON
    rw [writeSteps_eq, writeIntList_eq]
    by_cases h : algorithmArray = []
    · subst h
      simp [String.append_assoc]
    · have hl : algorithmArray.length > 0 := List.length_pos.mpr h
      simp [h, hl, String.append_assoc]
  · intro action
    simp [stepObjectSpec, operandFieldSpec, String.append_assoc]
  · intro action v
    simp only [stepObjectSpec, operandFieldSpec, String.append_assoc]
    rfl

theorem strchr_some (c : Char) :
    ∀ (l r : List Char), strchr l c = some r → r.length ≤ l.length ∧ ∃ t, r = c :: t := by
  intro l
  induction l with
  | nil => intro r h; simp [strchr] at h
  | cons x l ih =>
    intro r h
    unfold strchr at h
    by_cases hx : x = c
    · rw [if_pos hx] at h
      have := Option.some.inj h
      subst this
      exact ⟨le_refl _, l, by rw [hx]⟩
    · rw [if_neg hx] at h
      obtain ⟨h1, h2⟩ := ih r h
      exact ⟨by simp only [List.length_cons]; omega, h2⟩

theorem length_dropWhile_le {α : Type} (p : α → Bool) (l : List α) :
    (l.dropWhile p).length ≤ l.length := by
  have := congrArg List.length (List.takeWhile_append_dropWhile p l)
  rw [List.length_append] at this
  omega

theorem strtol_length (pos : List Char) (v : Int) (e : List Char)
    (h : strtol pos = some (v, e)) : e.length < pos.length := by
  unfold strtol at h
  dsimp only at h
  split at h
  · exact absurd h (by simp)
  · rename_i hd
    have he := (Prod.mk.inj (Option.some.inj h)).2
    rw [← he]
    have h1 := length_dropWhile_le isspace pos
    generalize pos.dropWhile isspace = s at hd h1 he
    have key : ∀ t : List Char, t.takeWhile Char.isDigit ≠ [] →
        (t.dropWhile Char.isDigit).length < t.length := by
      intro t ht
      have := congrArg List.length (List.takeWhile_append_dropWhile Char.isDigit t)
      rw [List.length_append] at this
      have : 0 < (t.takeWhile Char.isDigit).length := List.length_pos.mpr ht
      omega
    split at hd
    · have := key _ hd
      simp only [List.length_cons] at h1
      omega
    · have := key _ hd
      simp only [List.length_cons] at h1
      omega
    · have := key _ hd
      omega

theorem readInts_fuel (max_size : Nat) :
    ∀ (f1 f2 : Nat) (pos : List Char) (acc : List Int), pos.length ≤ f1 → pos.length ≤ f2 →
      readInts max_size f1 pos acc = readInts max_size f2 pos acc := by
  intro f1
  induction f1 with
  | zero =>
    intro f2 pos acc h1 _
    have : pos = [] := List.length_eq_zero.mp (by omega)
    subst this
    cases f2 <;> rfl
  | succ f1 ih =>
    intro f2 pos acc h1 h2
    cases f2 with
    | zero =>
      have : pos = [] := List.length_eq_zero.mp (by omega)
      subst this
      rfl
    | succ f2 =>
      unfold readInts
      cases pos with
      | nil => rfl
      | cons c t =>
        dsimp only
        split
        · rfl
        · split
          · rfl
          · split
            · rfl
            · rename_i v e hst
              have hl := strtol_length _ v e hst
              have hd := length_dropWhile_le (fun c => isspace c || c = ',') (c :: t)
              exact ih f2 e _ (by omega) (by omega)

theorem cli_parseStepsLoop_fuel :
    ∀ (f1 f2 : Nat) (s : List Char) (acc : List IRNode), s.length ≤ f1 → s.length ≤ f2 →
      CliVisualizer.parseStepsLoop f1 s acc = CliVisualizer.parseStepsLoop f2 s acc := by
  intro f1
  induction f1 with
  | zero =>
    intro f2 s acc h1 _
    have : s = [] := List.length_eq_zero.mp (by omega)
    subst this
    cases f2 <;> rfl
  | succ f1 ih =>
    intro f2 s acc h1 h2
    cases f2 with
    | zero =>
      have : s = [] := List.length_eq_zero.mp (by omega)
      subst this
      rfl
    | succ f2 =>
      unfold CliVisualizer.parseStepsLoop
      cases s with
      | nil => rfl
      | cons c t =>
        dsimp only
        split
        · rfl
        · rename_i obj_start hs
          split
          · rfl
          · rename_i obj_end he
            obtain ⟨a1, _⟩ := strchr_some _ _ _ hs
            obtain ⟨a2, t2, a3⟩ := strchr_some _ _ _ he
            have : (obj_end.drop 1).length < (c :: t).length := by
              rw [a3] at a2 ⊢
              simp only [List.drop_succ_cons, List.drop_zero, List.length_cons] at a2 a1 ⊢
              omega
            exact ih f2 _ _ (by omega) (by omega)

theorem readInts_length (max_size : Nat) :
    ∀ (fuel : Nat) (pos : List Char) (acc : List Int), acc.length ≤ max_size →
      (readInts max_size fuel pos acc).length ≤ max_size := by
  intro fuel
  induction fuel with
  | zero => intro pos acc h; exact h
  | succ fuel ih =>
    intro pos acc h
    unfold readInts
    cases pos with
    | nil => exact h
    | cons c t =>
      dsimp only
      split
      · exact h
      · rename_i hc
        split
        · exact h
        · split
          · exact h
          · apply ih
            have : ¬ (max_size ≤ acc.length) := fun hh => hc (Or.inr hh)
            simp only [List.length_append, List.length_singleton]
            omega

theorem cli_extractIndices_length (line : List Char) (l : List Int)
    (h : CliVisualizer.extractIndices line = some l) : l.length ≤ 4 := by
  have hfrom : ∀ o : Option (List Int),
      o = (match strstr line "\"index\"".toList with
        | none => none
        | some index_pos =>
          match strchr index_pos ':' with
          | none => none
          | some index_pos =>
            match strtol ((index_pos.drop 1).dropWhile isspace) with
            | some (value, _) => some [value]
            | none => none) → o = some l → l.length ≤ 4 := by
    intro o ho hl
    rw [hl] at ho
    split at ho
    · exact absurd ho (by simp)
    · split at ho
      · exact absurd ho (by simp)
      · split at ho
        · have := Option.some.inj ho
          rw [this]
          simp
        · exact absurd ho (by simp)
  unfold CliVisualizer.extractIndices at h
  dsimp only at h
  split at h
  · split at h
    · have := Option.some.inj h
      rw [← this]
      exact readInts_length 4 _ _ [] (by decide)
    · exact hfrom _ rfl h
  · exact hfrom _ rfl h

theorem stepOfObject_bounds (step_obj : List Char) :
    (stepOfObject CliVisualizer.extractIndices step_obj).indices.length ≤ 4 ∧
      (stepOfObject CliVisualizer.extractIndices step_obj).action.length ≤ 31 := by
  unfold stepOfObject
  dsimp only
  constructor
  · split
    · rename_i l hl
      exact cli_extractIndices_length _ l hl
    · exact Nat.zero_le _
  · split
    · show (List.take 31 _).length ≤ 31
      rw [List.length_take]
      omega
    · decide

theorem cli_parseStepsLoop_bounds :
    ∀ (fuel : Nat) (s : List Char) (acc : List IRNode),
      (∀ e ∈ acc, e.indices.length ≤ 4 ∧ e.action.length ≤ 31) →
      ∀ e ∈ CliVisualizer.parseStepsLoop fuel s acc, e.indices.length ≤ 4 ∧ e.action.length ≤ 31 := by
  intro fuel
  induction fuel with
  | zero => intro s acc h; exact h
  | succ fuel ih =>
    intro s acc h
    unfold CliVisualizer.parseStepsLoop
    cases s with
    | nil => exact h
    | cons c t =>
      dsimp only
      split
      · exact h
      · split
        · exact h
        · apply ih
          intro e he
          rcases List.mem_append.mp he with he | he
          · exact h e he
          · rw [List.mem_singleton.mp he]
            exact stepOfObject_bounds _

/-! ## C28: the player's reader on arbitrary text -/

/-- C28: `parseJSON` of `cli_visualizer.c` returns a trace for every text.
Without an `"algorithm"` key the name is `"Algorithm"`; without an `"array"`
key the array is empty; without a `"steps"` key there is no event; a step
object whose action cannot be read gets the empty action, and one whose
operands cannot be read gets no operand.  What is returned fits the reader's
buffers (at most 256 array values, at most 4 operands and 31 characters of
action per step), and the two scanning loops end by themselves: the fuel the
model passes never runs out, any larger fuel gives the same result. -/
theorem cli_reader_total (buffer : List Char) :
    (strstr buffer "\"algorithm\"".toList = none →
        (CliVisualizer.parseJSON buffer).algorithm = "Algorithm") ∧
      (strstr buffer "\"array\"".toList = none → (CliVisualizer.parseJSON buffer).array = []) ∧
      (strstr buffer "\"steps\"".toList = none → (CliVisualizer.parseJSON buffer).steps = []) ∧
      (∀ step_obj, extractString step_obj "action" 64 = none →
        (stepOfObject CliVisualizer.extractIndices step_obj).action = "") ∧
      (∀ step_obj, CliVisualizer.extractIndices step_obj = none →
        (stepOfObject CliVisualizer.extractIndices step_obj).indices = []) ∧
      (CliVisualizer.parseJSON buffer).array.length ≤ 256 ∧
      (∀ e ∈ (CliVisualizer.parseJSON buffer).steps,
        e.indices.length ≤ 4 ∧ e.action.length ≤ 31) ∧
      (∀ (fuel : Nat) (s : List Char) (acc : List IRNode), s.length ≤ fuel →
        CliVisualizer.parseStepsLoop fuel s acc =
          CliVisualizer.parseStepsLoop s.length s acc) ∧
      (∀ (max_size fuel : Nat) (pos : List Char) (acc : List Int), pos.length ≤ fuel →
        readInts max_size fuel pos acc = readInts max_size pos.length pos acc) ∧
      CliVisualizer.parseJSON "not a trace".toList = ⟨"Algorithm", [], []⟩ ∧
      CliVisualizer.parseJSON [] = ⟨"Algorithm", [], []⟩ := by
  refine ⟨?_, ?_, ?_, ?_, ?_, ?_, ?_, ?_, ?_, by decide, by decide⟩
  · intro h
    have h2 : strstr buffer (['"'] ++ "algorithm".toList ++ ['"']) = none := h
    simp only [CliVisualizer.parseJSON, parseHeader, extractString, h2]
  · intro h
    simp only [CliVisualizer.parseJSON, parseHeader, h]
  · intro h
    simp only [CliVisualizer.parseJSON, h]
  · intro step_obj h
    simp only [stepOfObject, h]
  · intro step_obj h
    simp only [stepOfObject, h]
  · simp only [CliVisualizer.parseJSON, parseHeader]
    split
    · unfold extractArray
      split
      · exact Nat.zero_le _
      · exact readInts_length 256 _ _ [] (Nat.zero_le _)
    · exact Nat.zero_le _
  · simp only [CliVisualizer.parseJSON]
    split
    · intro e he; exact absurd he (List.not_mem_nil e)
    · split
      · intro e he; exact absurd he (List.not_mem_nil e)
      · exact cli_parseStepsLoop_bounds _ _ [] (fun e he => absurd he (List.not_mem_nil e))
  · intro fuel s acc h
    exact cli_parseStepsLoop_fuel fuel s.length s acc h (le_refl _)
  · intro max_size fuel pos acc h
    exact readInts_fuel max_size fuel pos.length pos acc h (le_refl _)

/-! ## C25: events the code emitter skips -/

/-- C25, counterexample to the claim as written: a `swap` event with three
operands (its arity is two) is written and exchanges two cells of the shadow
array, and an `insert` event with one operand (its arity is four) is written
in the short form. -/
theorem emitter_wrong_arity_counterexample :
    generateJSStepText [5, 3] ⟨"swap", [0, 1, 9]⟩ =
        "log.println('Swapping 5 and 3');\nswap(0, 1);\ntracer.deselect(0, 1);\n" ++
          "Tracer.delay();\n\n" ∧
      generateJSArrayStep [5, 3] ⟨"swap", [0, 1, 9]⟩ = [3, 5] ∧
      generateJSStepText [5, 3] ⟨"insert", [7]⟩ =
        "log.println('Inserting node 7');\ntracer.select(7);\nTracer.delay();\n" ++
          "tracer.deselect(7);\nTracer.delay();\n\n" := by
  decide

/-- C25, amended: for every event whose action is not in the event vocabulary,
or whose operand count is below the number its action needs (2 for compare,
swap, no_swap, push, pop, enqueue, dequeue, add_edge; 1 for mark_sorted, peek,
visit, add_node, bfs_start, dfs_start and insert), `generateJS` writes nothing
for that event and leaves its shadow array unchanged. -/
theorem emitter_skips_short_events (array : List Int) (curr : IRNode)
    (h : requiredOperands curr.action = none ∨
      ∃ k, requiredOperands curr.action = some k ∧ curr.indices.length < k) :
    generateJSStepText array curr = "" ∧ generateJSArrayStep array curr = array := by
  obtain ⟨action, indices⟩ := curr
  unfold requiredOperands at h
  dsimp only at h
  by_cases h2 : action ∈
      ["compare", "swap", "no_swap", "push", "pop", "enqueue", "dequeue", "add_edge"]
  · rw [if_pos h2] at h
    have hlen : ¬ (indices.length ≥ 2) := by
      rcases h with h | ⟨k, hk, hl⟩
      · exact absurd h (by simp)
      · have := Option.some.inj hk
        omega
    have hlen4 : ¬ (indices.length ≥ 4) := by omega
    simp only [List.mem_cons, List.mem_singleton, List.not_mem_nil, or_false] at h2
    rcases h2 with h2 | h2 | h2 | h2 | h2 | h2 | h2 | h2 <;> subst h2 <;>
      simp [generateJSStepText, generateJSArrayStep, hlen]
  · rw [if_neg h2] at h
    by_cases h1 : action ∈
        ["mark_sorted", "peek", "visit", "add_node", "bfs_start", "dfs_start", "insert"]
    · rw [if_pos h1] at h
      have hlen : ¬ (indices.length ≥ 1) := by
        rcases h with h | ⟨k, hk, hl⟩
        · exact absurd h (by simp)
        · have := Option.some.inj hk
          omega
      have hlen4 : ¬ (indices.length ≥ 4) := by omega
      have hlen0 : indices = [] := List.length_eq_zero.mp (by omega)
      simp only [List.mem_cons, List.mem_singleton, List.not_mem_nil, or_false] at h1
      rcases h1 with h1 | h1 | h1 | h1 | h1 | h1 | h1 <;> subst h1 <;>
        simp [generateJSStepText, generateJSArrayStep, hlen0]
    · simp only [List.mem_cons, List.mem_singleton, List.not_mem_nil, or_false, not_or] at h1 h2
      obtain ⟨a1, a2, a3, a4, a5, a6, a7, a8⟩ := h2
      obtain ⟨b1, b2, b3, b4, b5, b6, b7⟩ := h1
      simp [generateJSStepText, generateJSArrayStep, a1, a2, a3, a4, a5, a6, a7, a8, b1, b2,
        b3, b4, b5, b6, b7]

/-- Witness for C25: a `swap` event with one operand, and an event with an
unknown action. -/
theorem emitter_skips_short_events_witness :
    (generateJSStepText [5, 3] ⟨"swap", [0]⟩ = "" ∧
        generateJSArrayStep [5, 3] ⟨"swap", [0]⟩ = [5, 3]) ∧
      (generateJSStepText [5, 3] ⟨"shuffle", [0, 1]⟩ = "" ∧
        generateJSArrayStep [5, 3] ⟨"shuffle", [0, 1]⟩ = [5, 3]) :=
  ⟨emitter_skips_short_events [5, 3] ⟨"swap", [0]⟩ (Or.inr ⟨2, by decide, by decide⟩),
    emitter_skips_short_events [5, 3] ⟨"shuffle", [0, 1]⟩ (Or.inl (by decide))⟩

theorem generateJSSteps_append :
    ∀ (l₁ l₂ : List IRNode) (A : List Int),
      generateJSSteps A (l₁ ++ l₂) =
        generateJSSteps A l₁ ++ generateJSSteps (emitterArray A l₁) l₂ := by
  intro l₁
  induction l₁ with
  | nil => intro l₂ A; simp [generateJSSteps, emitterArray]
  | cons e l₁ ih =>
    intro l₂ A
    show generateJSStepText A e ++ generateJSSteps (generateJSArrayStep A e) (l₁ ++ l₂) = _
    rw [ih]
    simp only [generateJSSteps, emitterArray, List.foldl_cons, String.append_assoc]

theorem emitterArray_eq (A : List Int) (steps : List IRNode) :
    emitterArray A steps = applySwapEvents A steps :=
  foldl_congr_mem _ _ steps A (fun e _ b => generateJSArrayStep_eq b e)

theorem applySwapEvents_length (steps : List IRNode) :
    ∀ A : List Int, (applySwapEvents A steps).length = A.length := by
  induction steps with
  | nil => intro A; rfl
  | cons e steps ih =>
    intro A
    simp only [applySwapEvents, List.foldl_cons] at ih ⊢
    rw [ih]
    unfold applySwapEvent
    split
    · exact length_swapEntries _ _ _
    · rfl

theorem shadowValue_of_lt (B : List Int) (i : Nat) (h : i < B.length) :
    shadowValue B (i : Int) = B.getD i 0 := by
  unfold shadowValue
  rw [if_pos (by exact_mod_cast h)]
  rfl

/-! ## C26: the values logged for a swap -/

/-- C26: for every initial array `A` and every sequence of `swap` events with
positions inside `A`, the text `generateJS` writes for a `swap(i, j)` that
follows the events `pre` logs the values at positions `i` and `j` of the array
obtained by applying the swaps of `pre` to `A` (the values before the swap),
and the steps after it are written with a shadow array in which those two
positions are exchanged. -/
theorem emitter_swap_log (A : List Int) (pre post : List IRNode) (i j : Nat)
    (_hpre : ∀ e ∈ pre, e.action = "swap" ∧
      ∃ a b : Nat, e.indices = [(a : Int), (b : Int)] ∧ a < A.length ∧ b < A.length)
    (hi : i < A.length) (hj : j < A.length) :
    generateJSSteps A (pre ++ ⟨"swap", [(i : Int), (j : Int)]⟩ :: post) =
        generateJSSteps A pre ++
          ("log.println('Swapping " ++ fmtInt ((applySwapEvents A pre).getD i 0) ++ " and " ++
            fmtInt ((applySwapEvents A pre).getD j 0) ++ "');\n" ++
            "swap(" ++ fmtInt i ++ ", " ++ fmtInt j ++ ");\n" ++
            "tracer.deselect(" ++ fmtInt i ++ ", " ++ fmtInt j ++ ");\n" ++
            "Tracer.delay();\n\n") ++
          generateJSSteps (swapEntries (applySwapEvents A pre) i j) post ∧
      emitterArray A (pre ++ [⟨"swap", [(i : Int), (j : Int)]⟩]) =
        swapEntries (applySwapEvents A pre) i j := by
  have hlen := applySwapEvents_length pre A
  have hvi := shadowValue_of_lt (applySwapEvents A pre) i (by omega)
  have hvj := shadowValue_of_lt (applySwapEvents A pre) j (by omega)
  have harr : generateJSArrayStep (applySwapEvents A pre) ⟨"swap", [(i : Int), (j : Int)]⟩ =
      swapEntries (applySwapEvents A pre) i j := by
    simp [generateJSArrayStep]
  have htext : generateJSStepText (applySwapEvents A pre) ⟨"swap", [(i : Int), (j : Int)]⟩ =
      "log.println('Swapping " ++ fmtInt ((applySwapEvents A pre).getD i 0) ++ " and " ++
        fmtInt ((applySwapEvents A pre).getD j 0) ++ "');\n" ++
        "swap(" ++ fmtInt i ++ ", " ++ fmtInt j ++ ");\n" ++
        "tracer.deselect(" ++ fmtInt i ++ ", " ++ fmtInt j ++ ");\n" ++
        "Tracer.delay();\n\n" := by
    have h1 : ¬ ("swap" = "compare") := by decide
    simp only [generateJSStepText, h1, if_false, if_true, List.length_cons, List.length_nil,
      List.getD_cons_zero, List.getD_cons_succ, hvi, hvj]
    rfl
  constructor
  · rw [generateJSSteps_append, emitterArray_eq]
    simp only [generateJSSteps]
    rw [harr, htext]
    simp only [String.append_assoc]
  · have e1 : emitterArray A (pre ++ [⟨"swap", [(i : Int), (j : Int)]⟩]) =
        generateJSArrayStep (emitterArray A pre) ⟨"swap", [(i : Int), (j : Int)]⟩ := by
      simp only [emitterArray, List.foldl_append, List.foldl_cons, List.foldl_nil]
    rw [e1, emitterArray_eq, harr]

/-- Witness for C26: the array `[5, 3, 8]` and the swaps `(0, 1)`, `(1, 2)`. -/
theorem emitter_swap_log_witness :
    generateJSSteps [5, 3, 8] ([⟨"swap", [0, 1]⟩] ++ ⟨"swap", [((1 : Nat) : Int), ((2 : Nat) : Int)]⟩ :: []) =
        generateJSSteps [5, 3, 8] [⟨"swap", [0, 1]⟩] ++
          ("log.println('Swapping " ++
            fmtInt ((applySwapEvents [5, 3, 8] [⟨"swap", [0, 1]⟩]).getD 1 0) ++ " and " ++
            fmtInt ((applySwapEvents [5, 3, 8] [⟨"swap", [0, 1]⟩]).getD 2 0) ++ "');\n" ++
            "swap(" ++ fmtInt ((1 : Nat) : Int) ++ ", " ++ fmtInt ((2 : Nat) : Int) ++ ");\n" ++
            "tracer.deselect(" ++ fmtInt ((1 : Nat) : Int) ++ ", " ++
            fmtInt ((2 : Nat) : Int) ++ ");\n" ++
            "Tracer.delay();\n\n") ++
          generateJSSteps (swapEntries (applySwapEvents [5, 3, 8] [⟨"swap", [0, 1]⟩]) 1 2) [] :=
  (emitter_swap_log [5, 3, 8] [⟨"swap", [0, 1]⟩] [] 1 2
    (by
      intro e he
      rw [List.mem_singleton.mp he]
      exact ⟨rfl, 0, 1, rfl, by decide, by decide⟩)
    (by decide) (by decide)).1

theorem generateStructure_name (g : Globals) :
    (generateStructure g).algorithmName ∈
      [g.algorithmName, "Stack Operations", "Queue Operations", "Binary Tree Operations",
        "Graph Operations"] := by
  unfold generateStructure
  split
  · simp [reportError]
  · split
    · simp
    · dsimp only
      split
      · simp [setArray, setAlgorithmName, setDetectedAlgorithm, strncpy]
      · split
        · simp [setArray, setAlgorithmName, setDetectedAlgorithm, strncpy]
        · split
          · split
            · simp [setArray, setAlgorithmName, setDetectedAlgorithm, strncpy]
            · simp [setArray, setAlgorithmName, setDetectedAlgorithm, strncpy]
          · split
            · simp [setArray, setAlgorithmName, setDetectedAlgorithm, strncpy]
            · simp

theorem generateSort_name (g : Globals) :
    (generateSort g).algorithmName ∈
      [g.algorithmName, "Bubble Sort", "Insertion Sort", "Selection Sort", "Merge Sort",
        "Quick Sort"] := by
  unfold generateSort
  by_cases hs : g.dsl_array_size > 0
  · by_cases ha : g.algorithm_to_generate = ""
    · simp [hs, ha, setArray, setAlgorithmName, setDetectedAlgorithm, strncpy]
    · by_cases hv : isValidAlgorithm g.algorithm_to_generate = true
      · rcases validAlgorithm_cases _ hv with h | h | h | h | h | h <;>
          simp [hs, h, setArray, setAlgorithmName, setDetectedAlgorithm, strncpy,
            isValidAlgorithm]
      · simp [hs, ha, hv, setArray, reportError]
  · by_cases ha : g.algorithm_to_generate = ""
    · simp [hs, ha, setArray, setAlgorithmName, setDetectedAlgorithm, strncpy]
    · by_cases hv : isValidAlgorithm g.algorithm_to_generate = true
      · rcases validAlgorithm_cases _ hv with h | h | h | h | h | h <;>
          simp [hs, h, setArray, setAlgorithmName, setDetectedAlgorithm, strncpy,
            isValidAlgorithm]
      · simp [hs, ha, hv, setArray, reportError]

theorem collectDSLInfo_name :
    ∀ (node : ASTNode) (g : Globals), (collectDSLInfo node g).algorithmName = g.algorithmName := by
  intro node
  induction node with
  | null => intro g; rfl
  | node type name number array_values left right body cond inc ihl ihr ihb _ _ =>
    intro g
    unfold collectDSLInfo
    have key : ∀ g' : Globals, g'.algorithmName = g.algorithmName →
        (if g'.has_error = true then g' else collectDSLInfo right g').algorithmName =
          g.algorithmName := by
      intro g' h
      split
      · exact h
      · rw [ihr]; exact h
    apply key
    cases type with
    | ARRAY_DECL_NODE =>
      dsimp only
      have : (storeDeclared array_values g).algorithmName = g.algorithmName := by
        rw [(storeDeclared_frame array_values g).1]
      split
      · exact this
      · exact this
    | ALGORITHM_CALL_NODE =>
      dsimp only
      split
      · rfl
      · split
        · split
          · rfl
          · rfl
        · split
          · split
            · rfl
            · rfl
          · rfl
    | ASSIGN_NODE =>
      dsimp only
      split
      · rfl
      · rfl
    | LOOP_NODE => dsimp only; rw [ihl, ihb]
    | IF_NODE => dsimp only; rw [ihl, ihb]
    | VALUE_NODE => dsimp only; rw [ihl, ihb]
    | NUMBER_NODE => dsimp only; rw [ihl, ihb]
    | SEQ_NODE => dsimp only; rw [ihl, ihb]

/-! ## C27: the preamble of the code emitter -/

/-- C27: the subject `generateCode` stores is one of the five sort subjects and
the four structure subjects (or is left as it was).  For the subjects Binary
Tree Operations and Graph Operations `generateJS` writes the graph preamble
(`GraphTracer`, no `tracer.set(array)`); for the five sort subjects and for
Stack Operations and Queue Operations it writes the array preamble
(`Array1DTracer` and `tracer.set(array)`); the two preambles differ. -/
theorem emitter_preamble_choice (array : List Int) (steps : List IRNode) :
    (∀ name ∈ ["Binary Tree Operations", "Graph Operations"],
        generateJSPreamble ⟨name, array, steps⟩ = graphPreambleSpec name array) ∧
      (∀ name ∈ ["Bubble Sort", "Insertion Sort", "Selection Sort", "Merge Sort", "Quick Sort",
          "Stack Operations", "Queue Operations"],
        generateJSPreamble ⟨name, array, steps⟩ = arrayPreambleSpec name array) ∧
      (∀ name, graphPreambleSpec name array ≠ arrayPreambleSpec name array) ∧
      (∀ (node : ASTNode) (g : Globals),
        (generateCode node g).algorithmName ∈
          [g.algorithmName, "Bubble Sort", "Insertion Sort", "Selection Sort", "Merge Sort",
            "Quick Sort", "Stack Operations", "Queue Operations", "Binary Tree Operations",
            "Graph Operations"]) := by
  refine ⟨?_, ?_, ?_, ?_⟩
  · intro name hname
    have h : isTreeOrGraph name = true := by
      simp only [List.mem_cons, List.mem_singleton, List.not_mem_nil, or_false] at hname
      rcases hname with h | h <;> subst h <;> decide
    simp only [generateJSPreamble, graphPreambleSpec, h, if_true, writeIntList_eq,
      String.append_assoc]
  · intro name hname
    have h : isTreeOrGraph name = false := by
      simp only [List.mem_cons, List.mem_singleton, List.not_mem_nil, or_false] at hname
      rcases hname with h | h | h | h | h | h | h <;> subst h <;> decide
    simp only [generateJSPreamble, arrayPreambleSpec, h, Bool.false_eq_true, if_false,
      writeIntList_eq, String.append_assoc]
  · intro name h
    have h1 : (graphPreambleSpec name array).data.take 73 =
        (arrayPreambleSpec name array).data.take 73 := by rw [h]
    have h2 : (graphPreambleSpec name array).data.take 73 =
        ("// === Auto-Generated Visualization Script ===\n" ++
          "const \x7b Array1DTracer, Gra").data := rfl
    have h3 : (arrayPreambleSpec name array).data.take 73 =
        ("// === Auto-Generated Visualization Script ===\n" ++
          "const \x7b Array1DTracer, Log").data := rfl
    rw [h2, h3] at h1
    exact absurd h1 (by decide)
  · intro node g
    unfold generateCode
    dsimp only
    have hn := collectDSLInfo_name node
      { g with dsl_array_size := 0, algorithm_to_generate := "", ds_type := "",
               ds_operations := [], has_error := false }
    split
    · have := generateStructure_name (collectDSLInfo node
        { g with dsl_array_size := 0, algorithm_to_generate := "", ds_type := "",
                 ds_operations := [], has_error := false })
      rw [hn] at this
      simp only [List.mem_cons, List.mem_singleton, List.not_mem_nil, or_false] at this ⊢
      tauto
    · have := generateSort_name (collectDSLInfo node
        { g with dsl_array_size := 0, algorithm_to_generate := "", ds_type := "",
                 ds_operations := [], has_error := false })
      rw [hn] at this
      simp only [List.mem_cons, List.mem_singleton, List.not_mem_nil, or_false] at this ⊢
      tauto

theorem bubbleInnerBody_spec (A : List Int) (i : Nat) (s : SortSt)
    (h : s.working_array = applySwapEvents A s.ir) :
    (bubbleInnerBody i s).working_array = applySwapEvents A (bubbleInnerBody i s).ir ∧
      (bubbleInnerBody i s).ir = bubbleStepSpec A s.ir i := by
  unfold bubbleInnerBody bubbleStepSpec
  simp only [SortSt.emit]
  rw [← h]
  by_cases hgt : s.working_array.getD i 0 > s.working_array.getD (i + 1) 0
  · rw [if_pos hgt, if_pos hgt]
    constructor
    · simp only [applySwapEvents_emit, applySwapEvent, ← h]
      simp
    · simp [addIRWithIndices]
  · rw [if_neg hgt, if_neg hgt]
    constructor
    · simp only [applySwapEvents_emit, applySwapEvent, ← h]
      simp
    · simp [addIRWithIndices]

theorem bubblePassBody_spec (A : List Int) (pass : Nat) (s : SortSt)
    (h : s.working_array = applySwapEvents A s.ir) :
    (bubblePassBody A.length pass s).working_array =
        applySwapEvents A (bubblePassBody A.length pass s).ir ∧
      (bubblePassBody A.length pass s).ir = bubblePassSpec A s.ir pass := by
  unfold bubblePassBody bubblePassSpec
  have key := forRange_induction
    (fun i (t : SortSt) => t.working_array = applySwapEvents A t.ir ∧
      t.ir = (List.range i).foldl (bubbleStepSpec A) s.ir)
    bubbleInnerBody 0 (A.length - pass - 1) s (Nat.zero_le _) ⟨h, rfl⟩
    (by
      intro i t _ _ ⟨h1, h2⟩
      obtain ⟨k1, k2⟩ := bubbleInnerBody_spec A i t h1
      refine ⟨k1, ?_⟩
      rw [k2, h2, List.range_succ, List.foldl_append]
      rfl)
  obtain ⟨k1, k2⟩ := key
  constructor
  · simp only [SortSt.emit, applySwapEvents_emit, applySwapEvent]
    simpa using k1
  · simp only [SortSt.emit, addIRWithIndices, k2]
    rfl

theorem bubbleSortRun_spec (A : List Int) :
    generateBubbleSortSteps A.length A = bubbleTraceSpec A := by
  unfold generateBubbleSortSteps bubbleSortRun bubbleTraceSpec
  have key := forRange_induction
    (fun p (t : SortSt) => t.working_array = applySwapEvents A t.ir ∧
      t.ir = (List.range p).foldl (bubblePassSpec A) [])
    (bubblePassBody A.length) 0 (A.length - 1) ⟨A.take A.length, []⟩ (Nat.zero_le _)
    ⟨by simp [applySwapEvents], rfl⟩
    (by
      intro p t _ _ ⟨h1, h2⟩
      obtain ⟨k1, k2⟩ := bubblePassBody_spec A p t h1
      refine ⟨k1, ?_⟩
      rw [k2, h2, List.range_succ, List.foldl_append]
      rfl)
  exact key.2

theorem markedOperands_emit (s : SortSt) (action : String) (indices : List Int) :
    markedOperands (s.emit action indices).ir =
      markedOperands s.ir ++ if action = "mark_sorted" then [indices.take 4] else [] := by
  unfold markedOperands
  simp only [SortSt.emit, addIRWithIndices, List.filter_append, List.map_append]
  by_cases h : action = "mark_sorted"
  · simp [h]
  · simp [h]

theorem bubbleInner_compare_count (i : Nat) (s : SortSt) :
    countAction "compare" (bubbleInnerBody i s).ir = countAction "compare" s.ir + 1 ∧
      markedOperands (bubbleInnerBody i s).ir = markedOperands s.ir := by
  unfold bubbleInnerBody
  dsimp only
  split
  · constructor
    · show countAction "compare" ((s.emit "compare" _).emit "swap" _).ir = _
      rw [countAction_emit, countAction_emit, if_pos rfl, if_neg (by decide)]
    · show markedOperands ((s.emit "compare" _).emit "swap" _).ir = _
      rw [markedOperands_emit, markedOperands_emit, if_neg (by decide), if_neg (by decide)]
      simp
  · constructor
    · rw [countAction_emit, countAction_emit, if_pos rfl, if_neg (by decide)]
    · rw [markedOperands_emit, markedOperands_emit, if_neg (by decide), if_neg (by decide)]
      simp

theorem bubblePass_compare_count (n p : Nat) (s : SortSt) :
    countAction "compare" (bubblePassBody n p s).ir =
        countAction "compare" s.ir + (n - p - 1) ∧
      markedOperands (bubblePassBody n p s).ir =
        markedOperands s.ir ++ [[((n - p - 1 : Nat) : Int)]] := by
  unfold bubblePassBody
  dsimp only
  rw [countAction_emit, if_neg (by decide), markedOperands_emit, if_pos rfl]
  have key := forRange_induction
    (fun i (t : SortSt) => countAction "compare" t.ir = countAction "compare" s.ir + i ∧
      markedOperands t.ir = markedOperands s.ir)
    bubbleInnerBody 0 (n - p - 1) s (Nat.zero_le _) ⟨rfl, rfl⟩
    (fun i t _ _ h => by
      obtain ⟨h1, h2⟩ := h
      obtain ⟨k1, k2⟩ := bubbleInner_compare_count i t
      exact ⟨by rw [k1, h1]; rfl, by rw [k2, h2]⟩)
  obtain ⟨k1, k2⟩ := key
  rw [k1, k2]
  exact ⟨rfl, rfl⟩

theorem bubble_compare_count (n : Nat) (A : List Int) :
    2 * countAction "compare" (generateBubbleSortSteps n A) = n * (n - 1) ∧
      markedOperands (generateBubbleSortSteps n A) =
        (List.range (n - 1)).map (fun pass => [((n - pass - 1 : Nat) : Int)]) := by
  unfold generateBubbleSortSteps bubbleSortRun
  have key := forRange_induction
    (fun p (t : SortSt) => 2 * countAction "compare" t.ir + p * (p + 1) = 2 * p * n ∧
      markedOperands t.ir = (List.range p).map (fun pass => [((n - pass - 1 : Nat) : Int)]))
    (bubblePassBody n) 0 (n - 1) ⟨A.take n, []⟩ (Nat.zero_le _)
    ⟨by simp [countAction], rfl⟩
    (fun p t _ hp h => by
      obtain ⟨h1, h2⟩ := h
      obtain ⟨k1, k2⟩ := bubblePass_compare_count n p t
      refine ⟨?_, ?_⟩
      · rw [k1]
        obtain ⟨k, hk⟩ : ∃ k, n = p + 2 + k := ⟨n - p - 2, by omega⟩
        subst hk
        have e : p + 2 + k - p - 1 = k + 1 := by omega
        rw [e]
        nlinarith [h1]
      · rw [k2, h2, List.range_succ, List.map_append]
        rfl)
  obtain ⟨k1, k2⟩ := key
  refine ⟨?_, k2⟩
  rcases Nat.eq_zero_or_pos n with h0 | hpos
  · subst h0
    simpa using k1
  · obtain ⟨m, hm⟩ : ∃ m, n = m + 1 := ⟨n - 1, by omega⟩
    subst hm
    simp only [Nat.add_sub_cancel] at k1 ⊢
    nlinarith [k1]

/-! ## C30: shape of the bubble-sort trace -/

/-- C30: for every array `A` of length `n` with `1 ≤ n ≤ 256`, the bubble-sort
trace is, for `pass = 0..n-2` and `i = 0..n-pass-2` in that order,
`compare(i, i+1)` followed by `swap(i, i+1)` when the live value at `i` is
greater than the live value at `i+1` and by `no_swap(i, i+1)` otherwise, with
`mark_sorted(n-pass-1)` closing each pass.  It has `n(n-1)/2` compare events
and `n-1` mark_sorted events, with operands `n-1, n-2, ..., 1`.  For
`[5, 3, 8, 4, 2]` it starts `compare(0,1)`, `swap(0,1)`, `compare(1,2)` and
has 4 mark_sorted events. -/
theorem bubble_trace_shape (A : List Int) (_h1 : 1 ≤ A.length) (_h2 : A.length ≤ 256) :
    generateBubbleSortSteps A.length A = bubbleTraceSpec A ∧
      countAction "compare" (generateBubbleSortSteps A.length A) =
        A.length * (A.length - 1) / 2 ∧
      countAction "mark_sorted" (generateBubbleSortSteps A.length A) = A.length - 1 ∧
      markedOperands (generateBubbleSortSteps A.length A) =
        (List.range (A.length - 1)).map (fun pass => [((A.length - pass - 1 : Nat) : Int)]) ∧
      (generateBubbleSortSteps 5 [5, 3, 8, 4, 2]).take 3 =
        [⟨"compare", [0, 1]⟩, ⟨"swap", [0, 1]⟩, ⟨"compare", [1, 2]⟩] ∧
      countAction "mark_sorted" (generateBubbleSortSteps 5 [5, 3, 8, 4, 2]) = 4 := by
  obtain ⟨k1, k2⟩ := bubble_compare_count A.length A
  refine ⟨bubbleSortRun_spec A, ?_, bubble_count _ _, k2, by decide, by decide⟩
  omega

/-- Witness for C30: the array `[3, 1, 2]`, whose trace has 3 compare events. -/
theorem bubble_trace_shape_witness :
    generateBubbleSortSteps 3 [3, 1, 2] = bubbleTraceSpec [3, 1, 2] ∧
      countAction "compare" (generateBubbleSortSteps 3 [3, 1, 2]) = 3 * (3 - 1) / 2 :=
  ⟨(bubble_trace_shape [3, 1, 2] (by decide) (by decide)).1,
    (bubble_trace_shape [3, 1, 2] (by decide) (by decide)).2.1⟩

theorem applySwapEvent_getD_of_not_touches (w : List Int) (e : IRNode) (q : Nat)
    (h : ¬ Touches e q) : (applySwapEvent w e).getD q 0 = w.getD q 0 := by
  unfold applySwapEvent
  split
  · rename_i hc
    have h1 : (e.indices.getD 0 0).toNat ≠ q := fun hh => h ⟨hc.1, hc.2, Or.inl hh⟩
    have h2 : (e.indices.getD 1 0).toNat ≠ q := fun hh => h ⟨hc.1, hc.2, Or.inr hh⟩
    simp only [swapEntries, getD_set_eq]
    rw [if_neg (fun hh => h2 hh.1), if_neg (fun hh => h1 hh.1)]
  · rfl

theorem marksKept_permanent (A : List Int) (ir : List IRNode) (h : MarksKept ir) :
    MarksPermanent A ir := by
  intro k p hk m hm
  induction m, hm using Nat.le_induction with
  | base => rfl
  | succ m hm ih =>
    by_cases hlt : m < ir.length
    · rw [List.take_succ, List.getElem?_eq_getElem hlt]
      simp only [Option.toList, applySwapEvents, List.foldl_append, List.foldl_cons,
        List.foldl_nil]
      rw [applySwapEvent_getD_of_not_touches _ _ _
        (h k m p ir[m] (by omega) hk (List.getElem?_eq_getElem hlt))]
      exact ih
    · rw [List.take_of_length_le (by omega)]
      rw [List.take_of_length_le (by omega : ir.length ≤ m)] at ih
      exact ih

theorem frozen_nil (F : Nat → Prop) : Frozen F [] :=
  ⟨fun a b p e _ h => by simp at h, fun p h => by simp at h⟩

theorem frozen_weaken (F F' : Nat → Prop) (ir : List IRNode) (h : Frozen F ir)
    (hF : ∀ q, F q → F' q) : Frozen F' ir :=
  ⟨h.1, fun p hp => hF _ (h.2 p hp)⟩

theorem frozen_append (F : Nat → Prop) (ir : List IRNode) (e : IRNode) (h : Frozen F ir)
    (ht : ∀ q, F q → ¬ Touches e q)
    (hm : ∀ p : Int, e = ⟨"mark_sorted", [p]⟩ → F p.toNat) : Frozen F (ir ++ [e]) := by
  obtain ⟨h1, h2⟩ := h
  constructor
  · intro a b p e' hab ha hb
    by_cases hb1 : b < ir.length
    · rw [List.getElem?_append_left hb1] at hb
      rw [List.getElem?_append_left (by omega)] at ha
      exact h1 a b p e' hab ha hb
    · have hble : ir.length ≤ b := by omega
      rw [List.getElem?_append_right hble] at hb
      have hb0 : b - ir.length = 0 := by
        by_contra hne
        have : ([e] : List IRNode)[b - ir.length]? = none := by
          apply List.getElem?_eq_none
          simp only [List.length_singleton]
          omega
        rw [this] at hb
        exact absurd hb (by simp)
      rw [hb0] at hb
      have he : e' = e := by simpa using hb.symm
      rw [he]
      have ha1 : a < ir.length := by omega
      rw [List.getElem?_append_left ha1] at ha
      have hmem : (⟨"mark_sorted", [p]⟩ : IRNode) ∈ ir := by
        rw [List.getElem?_eq_getElem ha1] at ha
        have := Option.some.inj ha
        rw [← this]
        exact List.getElem_mem _
      exact ht _ (h2 p hmem)
  · intro p hp
    rcases List.mem_append.mp hp with hp | hp
    · exact h2 p hp
    · exact hm p (List.mem_singleton.mp hp).symm

theorem frozen_emit_other (F : Nat → Prop) (s : SortSt) (action : String)
    (indices : List Int) (h : Frozen F s.ir) (h1 : action ≠ "swap")
    (h2 : action ≠ "mark_sorted") : Frozen F (s.emit action indices).ir := by
  apply frozen_append F s.ir _ h
  · intro q _ ht
    exact h1 ht.1
  · intro p hp
    exact absurd (congrArg IRNode.action hp) h2

theorem frozen_emit_swap (F : Nat → Prop) (s : SortSt) (i j : Nat) (h : Frozen F s.ir)
    (hi : ¬ F i) (hj : ¬ F j) : Frozen F (s.emit "swap" [(i : Int), (j : Int)]).ir := by
  apply frozen_append F s.ir _ h
  · intro q hq ht
    obtain ⟨_, _, hc⟩ := ht
    simp only [List.take, List.getD_cons_zero, List.getD_cons_succ, Int.toNat_ofNat] at hc
    rcases hc with hc | hc
    · exact hi (hc ▸ hq)
    · exact hj (hc ▸ hq)
  · intro p hp
    have hne : ¬ ("swap" = "mark_sorted") := by decide
    exact absurd (congrArg IRNode.action hp) hne

theorem frozen_emit_mark (F F' : Nat → Prop) (s : SortSt) (p : Nat) (h : Frozen F s.ir)
    (hF : ∀ q, F q → F' q) (hp : F' p) :
    Frozen F' (s.emit "mark_sorted" [(p : Int)]).ir := by
  apply frozen_append F' s.ir _ (frozen_weaken F F' s.ir h hF)
  · intro q _ ht
    have hne : ¬ ("mark_sorted" = "swap") := by decide
    exact hne ht.1
  · intro p' hp'
    have : [(p : Int)] = [p'] := congrArg IRNode.indices hp'
    have : (p : Int) = p' := by simpa using this
    rw [← this]
    exact hp

theorem bubble_frozen (n : Nat) (A : List Int) :
    Frozen (fun q => n - (n - 1) ≤ q) (generateBubbleSortSteps n A) := by
  unfold generateBubbleSortSteps bubbleSortRun
  refine forRange_induction (fun p (t : SortSt) => Frozen (fun q => n - p ≤ q) t.ir)
    (bubblePassBody n) 0 (n - 1) ⟨A.take n, []⟩ (Nat.zero_le _) (frozen_nil _) ?_
  intro p t _ hp h
  unfold bubblePassBody
  have hin := forRange_induction (fun _ (u : SortSt) => Frozen (fun q => n - p ≤ q) u.ir)
    bubbleInnerBody 0 (n - p - 1) t (Nat.zero_le _) h
    (by
      intro i u _ hi hu
      unfold bubbleInnerBody
      dsimp only
      have hc := frozen_emit_other _ u "compare" [(i : Int), ((i + 1 : Nat) : Int)] hu
        (by decide) (by decide)
      split
      · exact frozen_emit_swap _ _ i (i + 1) hc
          (fun hq => by have h' : n - p ≤ i := hq; omega)
          (fun hq => by have h' : n - p ≤ i + 1 := hq; omega)
      · exact frozen_emit_other _ _ _ _ hc (by decide) (by decide))
  exact frozen_emit_mark _ (fun q => n - (p + 1) ≤ q) _ (n - p - 1) hin
    (fun q hq => by have h' : n - p ≤ q := hq; show n - (p + 1) ≤ q; omega)
    (by show n - (p + 1) ≤ n - p - 1; omega)

theorem selection_frozen (n : Nat) (A : List Int) :
    Frozen (fun q => q < n - 1) (generateSelectionSortSteps n A) := by
  unfold generateSelectionSortSteps selectionSortRun
  refine forRange_induction (fun i (t : SortSt) => Frozen (fun q => q < i) t.ir)
    (selectionOuterBody n) 0 (n - 1) ⟨A.take n, []⟩ (Nat.zero_le _) (frozen_nil _) ?_
  intro i t _ hi h
  unfold selectionOuterBody
  have hin := forRange_induction
    (fun _ (u : Nat × SortSt) => Frozen (fun q => q < i) u.2.ir ∧ i ≤ u.1)
    selectionInnerBody (i + 1) n (i, t) (by omega) ⟨h, le_refl _⟩
    (by
      intro j u hj _ hu
      obtain ⟨hu1, hu2⟩ := hu
      unfold selectionInnerBody
      dsimp only
      have hc := frozen_emit_other _ u.2 "compare" [(u.1 : Int), (j : Int)] hu1
        (by decide) (by decide)
      split
      · exact ⟨frozen_emit_other _ _ _ _ hc (by decide) (by decide), by omega⟩
      · exact ⟨frozen_emit_other _ _ _ _ hc (by decide) (by decide), hu2⟩)
  obtain ⟨k1, k2⟩ := hin
  dsimp only
  split
  · have hs := frozen_emit_swap _ _ i (forRange (i + 1) n selectionInnerBody (i, t)).1 k1
      (fun hq => by have h' : i < i := hq; omega)
      (fun hq => by
        have h' : (forRange (i + 1) n selectionInnerBody (i, t)).1 < i := hq
        omega)
    exact frozen_emit_mark _ (fun q => q < i + 1) _ i hs
      (fun q hq => by have h' : q < i := hq; show q < i + 1; omega)
      (by show i < i + 1; omega)
  · exact frozen_emit_mark _ (fun q => q < i + 1) _ i k1
      (fun q hq => by have h' : q < i := hq; show q < i + 1; omega)
      (by show i < i + 1; omega)

theorem partitionRange_frozen (F : Nat → Prop) (s : SortSt) (lo hi : Nat) (hlo : lo < hi)
    (h : Frozen F s.ir) (hF : ∀ q, F q → q < lo ∨ hi < q) :
    ∃ q : Nat, (partitionRange (lo : Int) (hi : Int) s).i + 1 = (q : Int) ∧ lo ≤ q ∧ q ≤ hi ∧
      Frozen (fun x => F x ∨ x = q) (partitionRange (lo : Int) (hi : Int) s).s.ir := by
  unfold partitionRange
  simp only [Int.toNat_ofNat]
  have h0 : Frozen F (s.emit "compare" [(hi : Int)]).ir :=
    frozen_emit_other F s _ _ h (by decide) (by decide)
  have hloop := forRange_induction
    (fun j (p : PartSt) => Frozen F p.s.ir ∧ ∃ q : Nat, p.i + 1 = (q : Int) ∧ lo ≤ q ∧ q ≤ j)
    (partitionBody (hi : Int) (s.working_array.getD hi 0)) lo hi
    { i := (lo : Int) - 1, s := s.emit "compare" [(hi : Int)] } (le_of_lt hlo)
    ⟨h0, lo, by simp, le_refl _, le_refl _⟩
    (by
      intro j p hj1 hj2 hp
      obtain ⟨hp1, q, hq, hq1, hq2⟩ := hp
      unfold partitionBody
      dsimp only
      have hc := frozen_emit_other F p.s "compare" [(j : Int), (hi : Int)] hp1
        (by decide) (by decide)
      split
      · split
        · refine ⟨?_, q + 1, by push_cast; omega, by omega, by omega⟩
          show Frozen F ((p.s.emit "compare" [(j : Int), (hi : Int)]).emit "swap"
            [p.i + 1, (j : Int)]).ir
          rw [hq]
          exact frozen_emit_swap F _ q j hc
            (fun hh => by have := hF q hh; omega) (fun hh => by have := hF j hh; omega)
        · exact ⟨frozen_emit_other F _ _ _ hc (by decide) (by decide), q + 1,
            by push_cast; omega, by omega, by omega⟩
      · exact ⟨frozen_emit_other F _ _ _ hc (by decide) (by decide), q, hq, hq1, by omega⟩)
  obtain ⟨k1, q, hq, hq1, hq2⟩ := hloop
  refine ⟨q, hq, hq1, hq2, ?_⟩
  dsimp only
  rw [hq]
  have hs := frozen_emit_swap F _ q hi k1
    (fun hh => by have := hF q hh; omega) (fun hh => by have := hF hi hh; omega)
  exact frozen_emit_mark F (fun x => F x ∨ x = q)
    { (SortSt.emit _ "swap" [(q : Int), (hi : Int)]) with
      working_array := swapEntries _ (q : Int).toNat hi } q hs (fun x hx => Or.inl hx)
    (Or.inr rfl)

theorem rangesOK_sublist (n : Nat) (S S' : List (Int × Int)) (h : RangesOK n S)
    (hs : S'.Sublist S) : RangesOK n S' :=
  ⟨fun r hr => h.1 r (hs.subset hr), h.2.sublist hs⟩

theorem quick_push_ranges (n lo hi q : Nat) (rest : List (Int × Int)) (hq1 : lo ≤ q)
    (hq2 : q ≤ hi) (hr : RangesOK n (((lo : Int), (hi : Int)) :: rest)) :
    RangesOK n (((lo : Int), (q : Int) - 1) :: ((q : Int) + 1, (hi : Int)) :: rest) := by
  rw [rangesOK_cons] at hr
  obtain ⟨⟨h1, h2⟩, h3, h4⟩ := hr
  rw [rangesOK_cons, rangesOK_cons]
  simp only at h1 h2 ⊢
  refine ⟨⟨h1, by omega⟩, ?_, ⟨by omega, h2⟩, ?_, h4⟩
  · intro r' hr'
    rcases List.mem_cons.mp hr' with hr' | hr'
    · rw [hr']
      simp only
      omega
    · have := h3 r' hr'
      simp only at this
      omega
  · intro r' hr'
    have := h3 r' hr'
    simp only at this
    omega

theorem quick_push_outside (lo hi q : Nat) (rest S' : List (Int × Int)) (hq1 : lo ≤ q)
    (hq2 : q ≤ hi)
    (hdis : ∀ r' ∈ rest, (hi : Int) < r'.1 ∨ r'.2 < (lo : Int))
    (hs : S'.Sublist (((lo : Int), (q : Int) - 1) :: ((q : Int) + 1, (hi : Int)) :: rest)) :
    ∀ x, Outside (((lo : Int), (hi : Int)) :: rest) x ∨ x = q → Outside S' x := by
  intro x hx r hr
  have hr2 := hs.subset hr
  rcases hx with hx | hx
  · have hx1 := hx _ (List.mem_cons_self _ _)
    simp only at hx1
    rcases List.mem_cons.mp hr2 with h | h
    · rw [h]; simp only; omega
    · rcases List.mem_cons.mp h with h | h
      · rw [h]; simp only; omega
      · exact hx r (List.mem_cons_of_mem _ h)
  · subst hx
    rcases List.mem_cons.mp hr2 with h | h
    · rw [h]; simp only; omega
    · rcases List.mem_cons.mp h with h | h
      · rw [h]; simp only; omega
      · have := hdis r h
        omega

theorem quickLoop_frozen (n : Nat) :
    ∀ (fuel : Nat) (stack : List (Int × Int)) (s : SortSt), RangesOK n stack →
      Frozen (Outside stack) s.ir → MarksKept (quickLoop fuel stack s).2.ir := by
  intro fuel
  induction fuel with
  | zero => intro stack s _ h; exact h.1
  | succ fuel ih =>
    intro stack s hr h
    cases stack with
    | nil => exact h.1
    | cons r rest =>
      obtain ⟨low, high⟩ := r
      simp only [quickLoop]
      have hr0 := hr
      rw [rangesOK_cons] at hr0
      obtain ⟨⟨h1, h2⟩, h3, h4⟩ := hr0
      simp only at h1 h2 h3
      by_cases hlt : low < high
      · rw [if_pos hlt]
        obtain ⟨lo, hlo⟩ : ∃ lo : Nat, low = (lo : Int) := ⟨low.toNat, by omega⟩
        obtain ⟨hi, hhi⟩ : ∃ hi : Nat, high = (hi : Int) := ⟨high.toNat, by omega⟩
        subst hlo hhi
        have hlt' : lo < hi := by omega
        obtain ⟨q, hq, hq1, hq2, hfr⟩ := partitionRange_frozen
          (Outside (((lo : Int), (hi : Int)) :: rest)) s lo hi hlt' h
          (by
            intro x hx
            have := hx _ (List.mem_cons_self _ _)
            simp only at this
            omega)
        have hi_eq : (partitionRange (lo : Int) (hi : Int) s).i = (q : Int) - 1 := by omega
        have hfull := quick_push_ranges n lo hi q rest hq1 hq2 hr
        rw [hi_eq]
        have e2 : (q : Int) - 1 + 2 = (q : Int) + 1 := by omega
        rw [e2]
        by_cases c1 : (q : Int) - 1 + 1 + 1 < (hi : Int)
        · rw [if_pos c1]
          by_cases c2 : (lo : Int) < (q : Int) - 1 + 1 - 1
          · rw [if_pos c2]
            exact ih _ _ hfull (frozen_weaken _ _ _ hfr
              (quick_push_outside lo hi q rest _ hq1 hq2 h3 (List.Sublist.refl _)))
          · rw [if_neg c2]
            have hsub : (((q : Int) + 1, (hi : Int)) :: rest).Sublist
                (((lo : Int), (q : Int) - 1) :: ((q : Int) + 1, (hi : Int)) :: rest) :=
              List.Sublist.cons _ (List.Sublist.refl _)
            exact ih _ _ (rangesOK_sublist n _ _ hfull hsub) (frozen_weaken _ _ _ hfr
              (quick_push_outside lo hi q rest _ hq1 hq2 h3 hsub))
        · rw [if_neg c1]
          by_cases c2 : (lo : Int) < (q : Int) - 1 + 1 - 1
          · rw [if_pos c2]
            have hsub : (((lo : Int), (q : Int) - 1) :: rest).Sublist
                (((lo : Int), (q : Int) - 1) :: ((q : Int) + 1, (hi : Int)) :: rest) :=
              List.Sublist.cons₂ _ (List.Sublist.cons _ (List.Sublist.refl _))
            exact ih _ _ (rangesOK_sublist n _ _ hfull hsub) (frozen_weaken _ _ _ hfr
              (quick_push_outside lo hi q rest _ hq1 hq2 h3 hsub))
          · rw [if_neg c2]
            have hsub : rest.Sublist
                (((lo : Int), (q : Int) - 1) :: ((q : Int) + 1, (hi : Int)) :: rest) :=
              List.Sublist.cons _ (List.Sublist.cons _ (List.Sublist.refl _))
            exact ih _ _ (rangesOK_sublist n _ _ hfull hsub) (frozen_weaken _ _ _ hfr
              (quick_push_outside lo hi q rest _ hq1 hq2 h3 hsub))
      · rw [if_neg hlt]
        exact ih _ _ h4 (frozen_weaken _ _ _ h
          (fun x hx r hr' => hx r (List.mem_cons_of_mem _ hr')))

theorem quick_marksKept (n : Nat) (A : List Int) : MarksKept (generateQuickSortSteps n A) := by
  unfold generateQuickSortSteps quickSortRun
  apply quickLoop_frozen n
  · rw [rangesOK_cons]
    refine ⟨⟨le_refl _, by simp only; omega⟩, fun r' hr' => by simp at hr', ?_⟩
    exact ⟨fun r hr => by simp at hr, List.Pairwise.nil⟩
  · exact frozen_nil _

theorem noMarks_emit (s : SortSt) (action : String) (indices : List Int) (h : NoMarks s.ir)
    (ha : action ≠ "mark_sorted") : NoMarks (s.emit action indices).ir := by
  intro e he
  simp only [SortSt.emit, addIRWithIndices, List.mem_append, List.mem_singleton] at he
  rcases he with he | he
  · exact h e he
  · rw [he]; exact ha

theorem mergeCompareLoop_noMarks (mid right : Nat) :
    ∀ (fuel : Nat) (m : MergeSt), NoMarks m.s.ir →
      NoMarks (mergeCompareLoop mid right fuel m).s.ir := by
  intro fuel
  induction fuel with
  | zero => intro m h; exact h
  | succ fuel ih =>
    intro m h
    unfold mergeCompareLoop
    split
    · dsimp only
      have hc := noMarks_emit m.s "compare" [(m.i : Int), (m.j : Int)] h (by decide)
      split
      · exact ih _ (noMarks_emit _ _ _ hc (by decide))
      · exact ih _ (noMarks_emit _ _ _ hc (by decide))
    · exact h

theorem mergeRuns_noMarks (n step left : Nat) (s : SortSt) (h : NoMarks s.ir) :
    NoMarks (mergeRuns n step left s).ir := by
  unfold mergeRuns
  dsimp only
  exact mergeCompareLoop_noMarks _ _ _ _ h

theorem mergePass_noMarks (n step : Nat) :
    ∀ (fuel left : Nat) (s : SortSt), NoMarks s.ir → NoMarks (mergePass n step fuel left s).ir := by
  intro fuel
  induction fuel with
  | zero => intro left s h; exact h
  | succ fuel ih =>
    intro left s h
    unfold mergePass
    split
    · exact ih _ _ (mergeRuns_noMarks n step left s h)
    · exact h

theorem mergeOuter_noMarks (n : Nat) :
    ∀ (fuel step : Nat) (s : SortSt), NoMarks s.ir → NoMarks (mergeOuter n fuel step s).ir := by
  intro fuel
  induction fuel with
  | zero => intro step s h; exact h
  | succ fuel ih =>
    intro step s h
    unfold mergeOuter
    split
    · exact ih _ _ (mergePass_noMarks n step n 0 s h)
    · exact h

theorem marksKept_of_noMarks (ir : List IRNode) (h : NoMarks ir) : MarksKept ir := by
  intro a b p e _ ha _
  have hlt : a < ir.length := by
    by_contra hge
    rw [List.getElem?_eq_none (by omega)] at ha
    exact absurd ha (by simp)
  rw [List.getElem?_eq_getElem hlt] at ha
  have hmem : (⟨"mark_sorted", [p]⟩ : IRNode) ∈ ir := by
    rw [← Option.some.inj ha]
    exact List.getElem_mem _
  exact absurd rfl (h _ hmem)

/-! ## C29: positions marked as sorted stay in place -/

/-- C29, counterexample to the claim as written: in the insertion-sort trace
of `[3, 2, 1]` the fourth event is `mark_sorted(1)`; immediately after it the
replayed array holds 3 at position 1, and after the seventh event, `swap(1,2)`,
it holds 1 there. -/
theorem insertion_mark_not_permanent :
    (generateInsertionSortSteps 3 [3, 2, 1])[3]? = some ⟨"mark_sorted", [1]⟩ ∧
      (generateInsertionSortSteps 3 [3, 2, 1])[6]? = some ⟨"swap", [1, 2]⟩ ∧
      (applySwapEvents [3, 2, 1] ((generateInsertionSortSteps 3 [3, 2, 1]).take 4)).getD 1 0
        = 3 ∧
      (applySwapEvents [3, 2, 1] ((generateInsertionSortSteps 3 [3, 2, 1]).take 7)).getD 1 0
        = 1 ∧
      ¬ MarksPermanent [3, 2, 1] (generateInsertionSortSteps 3 [3, 2, 1]) := by
  refine ⟨by decide, by decide, by decide, by decide, ?_⟩
  intro h
  have := h 3 1 (by decide) 7 (by decide)
  revert this
  decide

/-- C29, amended: for bubble sort, selection sort, quick sort and merge sort
(which emits no `mark_sorted`) and every array of at most 256 values, once a
`mark_sorted(p)` event has been emitted the position `p` is permanently
placed: in the array obtained by folding the swap events of the trace, the
value at position `p` after every later event is the same as immediately after
that `mark_sorted(p)` event. -/
theorem marks_permanent (A : List Int) (_hn : A.length ≤ 256) :
    MarksPermanent A (generateBubbleSortSteps A.length A) ∧
      MarksPermanent A (generateSelectionSortSteps A.length A) ∧
      MarksPermanent A (generateQuickSortSteps A.length A) ∧
      MarksPermanent A (generateMergeSortSteps A.length A) := by
  refine ⟨marksKept_permanent A _ (bubble_frozen _ A).1,
    marksKept_permanent A _ (selection_frozen _ A).1,
    marksKept_permanent A _ (quick_marksKept _ A), ?_⟩
  apply marksKept_permanent
  apply marksKept_of_noMarks
  unfold generateMergeSortSteps mergeSortRun
  exact mergeOuter_noMarks _ _ _ _ (fun e he => by simp at he)

/-- Witness for C29: the array `[3, 1, 4, 2]` under quick sort, whose ninth
event is `mark_sorted(1)`. -/
theorem marks_permanent_witness :
    MarksPermanent [3, 1, 4, 2] (generateQuickSortSteps 4 [3, 1, 4, 2]) ∧
      (generateQuickSortSteps 4 [3, 1, 4, 2])[8]? = some ⟨"mark_sorted", [1]⟩ :=
  ⟨(marks_permanent [3, 1, 4, 2] (by decide)).2.2.1, by decide⟩

theorem selectionInnerBody_spec (A : List Int) (j : Nat) (st : Nat × SortSt)
    (h : st.2.working_array = applySwapEvents A st.2.ir) :
    (selectionInnerBody j st).2.working_array =
        applySwapEvents A (selectionInnerBody j st).2.ir ∧
      ((selectionInnerBody j st).1, (selectionInnerBody j st).2.ir) =
        selectionStepSpec A (st.1, st.2.ir) j := by
  unfold selectionInnerBody selectionStepSpec
  simp only [SortSt.emit]
  rw [← h]
  by_cases hlt : st.2.working_array.getD j 0 < st.2.working_array.getD st.1 0
  · rw [if_pos hlt, if_pos hlt]
    constructor
    · simp only [applySwapEvents_emit, applySwapEvent, ← h]
      simp
    · simp [addIRWithIndices]
  · rw [if_neg hlt, if_neg hlt]
    constructor
    · simp only [applySwapEvents_emit, applySwapEvent, ← h]
      simp
    · simp [addIRWithIndices]

theorem selectionScan_spec (A : List Int) (i : Nat) (s : SortSt) (hi : i + 1 ≤ A.length)
    (h : s.working_array = applySwapEvents A s.ir) :
    (forRange (i + 1) A.length selectionInnerBody (i, s)).2.working_array =
        applySwapEvents A (forRange (i + 1) A.length selectionInnerBody (i, s)).2.ir ∧
      (forRange (i + 1) A.length selectionInnerBody (i, s)).2.working_array =
        s.working_array ∧
      ((forRange (i + 1) A.length selectionInnerBody (i, s)).1,
        (forRange (i + 1) A.length selectionInnerBody (i, s)).2.ir) =
        selectionScanSpec A s.ir i := by
  have key := forRange_induction
    (fun j (u : Nat × SortSt) => u.2.working_array = applySwapEvents A u.2.ir ∧
      u.2.working_array = s.working_array ∧
      (u.1, u.2.ir) = (List.range' (i + 1) (j - (i + 1))).foldl (selectionStepSpec A) (i, s.ir))
    selectionInnerBody (i + 1) A.length (i, s) hi
    ⟨h, rfl, by simp⟩
    (by
      intro j u hj _ ⟨h1, h2, h3⟩
      obtain ⟨k1, k2⟩ := selectionInnerBody_spec A j u h1
      refine ⟨k1, ?_, ?_⟩
      · rw [← h2]
        unfold selectionInnerBody
        dsimp only
        split <;> rfl
      · have e : j + 1 - (i + 1) = (j - (i + 1)) + 1 := by omega
        rw [k2, e, List.range'_concat, List.foldl_append, ← h3]
        have e2 : i + 1 + 1 * (j - (i + 1)) = j := by omega
        rw [e2]
        rfl)
  exact key

theorem selectionOuterBody_spec (A : List Int) (i : Nat) (s : SortSt) (hi : i + 1 ≤ A.length)
    (hlen : s.working_array.length = A.length)
    (h : s.working_array = applySwapEvents A s.ir) :
    (selectionOuterBody A.length i s).working_array =
        applySwapEvents A (selectionOuterBody A.length i s).ir ∧
      (selectionOuterBody A.length i s).working_array.length = A.length ∧
      (selectionOuterBody A.length i s).ir = selectionPassSpec A s.ir i := by
  obtain ⟨k1, k2, k3⟩ := selectionScan_spec A i s hi h
  unfold selectionOuterBody selectionPassSpec
  rw [← k3]
  dsimp only
  generalize forRange (i + 1) A.length selectionInnerBody (i, s) = r at k1 k2 k3 ⊢
  by_cases hne : r.1 ≠ i
  · rw [if_pos hne, if_pos hne]
    refine ⟨?_, ?_, ?_⟩
    · simp only [SortSt.emit, applySwapEvents_emit, applySwapEvent, ← k1]
      simp
    · simp only [SortSt.emit, length_swapEntries, k2, hlen]
    · simp [SortSt.emit, addIRWithIndices]
  · rw [if_neg hne, if_neg hne]
    refine ⟨?_, ?_, ?_⟩
    · simp only [SortSt.emit, applySwapEvents_emit, applySwapEvent, ← k1]
      simp
    · simp only [SortSt.emit, k2, hlen]
    · simp [SortSt.emit, addIRWithIndices]

theorem selectionSortRun_spec (A : List Int) :
    generateSelectionSortSteps A.length A = selectionTraceSpec A := by
  unfold generateSelectionSortSteps selectionSortRun selectionTraceSpec
  have key := forRange_induction
    (fun p (t : SortSt) => t.working_array = applySwapEvents A t.ir ∧
      t.working_array.length = A.length ∧
      t.ir = (List.range p).foldl (selectionPassSpec A) [])
    (selectionOuterBody A.length) 0 (A.length - 1) ⟨A.take A.length, []⟩ (Nat.zero_le _)
    ⟨by simp [applySwapEvents], by simp, rfl⟩
    (by
      intro p t _ hp ⟨h1, h2, h3⟩
      obtain ⟨k1, k2, k3⟩ := selectionOuterBody_spec A p t (by omega) h2 h1
      refine ⟨k1, k2, ?_⟩
      rw [k3, h3, List.range_succ, List.foldl_append]
      rfl)
  exact key.2.2

theorem pairedClosed_nil : PairedClosed [] :=
  ⟨fun k e h => by simp at h, fun e h => by simp at h⟩

theorem pairedClosed_emit_other (s : SortSt) (action : String) (indices : List Int)
    (h : PairedClosed s.ir) (ha : action ≠ "compare") :
    PairedClosed (s.emit action indices).ir := by
  obtain ⟨h1, h2⟩ := h
  simp only [SortSt.emit, addIRWithIndices]
  refine ⟨?_, ?_⟩
  · intro k e hk he
    rcases Nat.lt_or_ge k s.ir.length with hlt | hge
    · rw [List.getElem?_append_left hlt] at hk
      have := h1 k e hk he
      have hlt2 : k + 1 < s.ir.length := by
        by_contra hc
        rw [List.getElem?_eq_none (by omega)] at this
        exact absurd this (by simp)
      rw [List.getElem?_append_left hlt2]
      exact this
    · rw [List.getElem?_append_right hge] at hk
      rcases Nat.eq_zero_or_pos (k - s.ir.length) with h0 | hpos
      · rw [h0] at hk
        simp only [List.getElem?_cons_zero, Option.some.injEq] at hk
        subst hk
        exact absurd he ha
      · obtain ⟨m, hm⟩ : ∃ m, k - s.ir.length = m + 1 := ⟨k - s.ir.length - 1, by omega⟩
        rw [hm] at hk
        simp at hk
  · intro e he
    rw [List.getLast?_concat, Option.some.injEq] at he
    subst he
    exact ha

theorem pairedClosed_emit_pair (s : SortSt) (indices : List Int) (hlen : indices.length ≤ 4)
    (h : PairedClosed s.ir) :
    PairedClosed ((s.emit "compare" indices).emit "no_swap" indices).ir := by
  obtain ⟨h1, h2⟩ := h
  simp only [SortSt.emit, addIRWithIndices, List.take_of_length_le hlen, List.append_assoc,
    List.singleton_append]
  refine ⟨?_, ?_⟩
  · intro k e hk he
    rcases Nat.lt_or_ge k s.ir.length with hlt | hge
    · rw [List.getElem?_append_left hlt] at hk
      have := h1 k e hk he
      have hlt2 : k + 1 < s.ir.length := by
        by_contra hc
        rw [List.getElem?_eq_none (by omega)] at this
        exact absurd this (by simp)
      rw [List.getElem?_append_left hlt2]
      exact this
    · rw [List.getElem?_append_right hge] at hk
      rw [List.getElem?_append_right (by omega)]
      have e1 : k + 1 - s.ir.length = (k - s.ir.length) + 1 := by omega
      rw [e1]
      rcases Nat.eq_zero_or_pos (k - s.ir.length) with h0 | hpos
      · rw [h0] at hk ⊢
        simp only [List.getElem?_cons_zero, Option.some.injEq] at hk
        subst hk
        rfl
      · obtain ⟨m, hm⟩ : ∃ m, k - s.ir.length = m + 1 := ⟨k - s.ir.length - 1, by omega⟩
        rw [hm] at hk
        rcases m with _ | m
        · simp only [Nat.zero_add, List.getElem?_cons_succ, List.getElem?_cons_zero,
            Option.some.injEq] at hk
          subst hk
          have hne : ¬ ("no_swap" = "compare") := by decide
          exact absurd he hne
        · simp at hk
  · intro e he
    have e2 : s.ir ++ (⟨"compare", indices⟩ : IRNode) :: [⟨"no_swap", indices⟩] =
        (s.ir ++ [⟨"compare", indices⟩]) ++ [⟨"no_swap", indices⟩] := by simp
    rw [e2] at he
    rw [List.getLast?_concat, Option.some.injEq] at he
    subst he
    show ¬ ("no_swap" = "compare")
    decide

theorem selectionInner_paired (j : Nat) (st : Nat × SortSt) (h : PairedClosed st.2.ir) :
    PairedClosed (selectionInnerBody j st).2.ir ∧
      countAction "compare" (selectionInnerBody j st).2.ir =
        countAction "compare" st.2.ir + 1 ∧
      markedOperands (selectionInnerBody j st).2.ir = markedOperands st.2.ir := by
  unfold selectionInnerBody
  dsimp only
  split
  · refine ⟨pairedClosed_emit_pair _ _ (by simp) h, ?_, ?_⟩
    · show countAction "compare" ((st.2.emit "compare" _).emit "no_swap" _).ir = _
      rw [countAction_emit, countAction_emit, if_pos rfl, if_neg (by decide)]
    · show markedOperands ((st.2.emit "compare" _).emit "no_swap" _).ir = _
      rw [markedOperands_emit, markedOperands_emit, if_neg (by decide), if_neg (by decide)]
      simp
  · refine ⟨pairedClosed_emit_pair _ _ (by simp) h, ?_, ?_⟩
    · show countAction "compare" ((st.2.emit "compare" _).emit "no_swap" _).ir = _
      rw [countAction_emit, countAction_emit, if_pos rfl, if_neg (by decide)]
    · show markedOperands ((st.2.emit "compare" _).emit "no_swap" _).ir = _
      rw [markedOperands_emit, markedOperands_emit, if_neg (by decide), if_neg (by decide)]
      simp

theorem selectionOuter_paired (n i : Nat) (s : SortSt) (hi : i + 1 ≤ n)
    (h : PairedClosed s.ir) :
    PairedClosed (selectionOuterBody n i s).ir ∧
      countAction "compare" (selectionOuterBody n i s).ir =
        countAction "compare" s.ir + (n - (i + 1)) ∧
      markedOperands (selectionOuterBody n i s).ir = markedOperands s.ir ++ [[(i : Int)]] := by
  have hin := forRange_induction
    (fun j (u : Nat × SortSt) => PairedClosed u.2.ir ∧
      countAction "compare" u.2.ir = countAction "compare" s.ir + (j - (i + 1)) ∧
      markedOperands u.2.ir = markedOperands s.ir)
    selectionInnerBody (i + 1) n (i, s) hi ⟨h, by simp, rfl⟩
    (by
      intro j u hj _ ⟨h1, h2, h3⟩
      obtain ⟨k1, k2, k3⟩ := selectionInner_paired j u h1
      refine ⟨k1, ?_, by rw [k3, h3]⟩
      rw [k2, h2]
      omega)
  unfold selectionOuterBody
  dsimp only
  generalize forRange (i + 1) n selectionInnerBody (i, s) = r at hin ⊢
  obtain ⟨h1, h2, h3⟩ := hin
  split
  · refine ⟨?_, ?_, ?_⟩
    · exact pairedClosed_emit_other ⟨_, _⟩ _ _
        (pairedClosed_emit_other r.2 "swap" _ h1 (by decide)) (by decide)
    · show countAction "compare" (SortSt.emit ⟨_, (r.2.emit "swap" _).ir⟩ "mark_sorted" _).ir = _
      rw [countAction_emit]
      show countAction "compare" (r.2.emit "swap" _).ir + _ = _
      rw [countAction_emit, if_neg (by decide), if_neg (by decide), h2]
      rfl
    · show markedOperands (SortSt.emit ⟨_, (r.2.emit "swap" _).ir⟩ "mark_sorted" _).ir = _
      rw [markedOperands_emit]
      show markedOperands (r.2.emit "swap" _).ir ++ _ = _
      rw [markedOperands_emit, if_neg (by decide), if_pos rfl, h3]
      simp
  · refine ⟨pairedClosed_emit_other _ _ _ h1 (by decide), ?_, ?_⟩
    · rw [countAction_emit, if_neg (by decide), h2]
      rfl
    · rw [markedOperands_emit, if_pos rfl, h3]
      simp

theorem selection_compare_count (n : Nat) (A : List Int) :
    ComparesPaired (generateSelectionSortSteps n A) ∧
      2 * countAction "compare" (generateSelectionSortSteps n A) = n * (n - 1) ∧
      markedOperands (generateSelectionSortSteps n A) =
        (List.range (n - 1)).map (fun (i : Nat) => [(i : Int)]) := by
  unfold generateSelectionSortSteps selectionSortRun
  have key := forRange_induction
    (fun p (t : SortSt) => PairedClosed t.ir ∧
      2 * countAction "compare" t.ir + p * (p + 1) = 2 * p * n ∧
      markedOperands t.ir = (List.range p).map (fun (i : Nat) => [(i : Int)]))
    (selectionOuterBody n) 0 (n - 1) ⟨A.take n, []⟩ (Nat.zero_le _)
    ⟨pairedClosed_nil, by simp [countAction], rfl⟩
    (fun p t _ hp h => by
      obtain ⟨h0, h1, h2⟩ := h
      obtain ⟨k0, k1, k2⟩ := selectionOuter_paired n p t (by omega) h0
      refine ⟨k0, ?_, ?_⟩
      · rw [k1]
        obtain ⟨k, hk⟩ : ∃ k, n = p + 2 + k := ⟨n - p - 2, by omega⟩
        subst hk
        have e : p + 2 + k - (p + 1) = k + 1 := by omega
        rw [e]
        nlinarith [h1]
      · rw [k2, h2, List.range_succ, List.map_append]
        rfl)
  obtain ⟨k0, k1, k2⟩ := key
  refine ⟨k0.1, ?_, k2⟩
  rcases Nat.eq_zero_or_pos n with h0 | hpos
  · subst h0
    simpa using k1
  · obtain ⟨m, hm⟩ : ∃ m, n = m + 1 := ⟨n - 1, by omega⟩
    subst hm
    simp only [Nat.add_sub_cancel] at k1 ⊢
    nlinarith [k1]

/-! ## C31: shape of the selection-sort trace -/

/-- C31: for every array `A` of length `n` with `1 ≤ n ≤ 256`, the
selection-sort trace is, for `i = 0..n-2` in order, the scan `j = i+1..n-1`
emitting `compare(m, j)` immediately followed by `no_swap(m, j)` (`m` the
minimum position so far, which moves to `j` when the live value there is
smaller), then `swap(i, min_idx)` exactly when the selected position differs
from `i`, then `mark_sorted(i)`.  Every compare event is immediately followed
by a no_swap event with the same operands, the trace has `n(n-1)/2` compare
events, and its mark_sorted events are those of `i = 0..n-2` in order. -/
theorem selection_trace_shape (A : List Int) (_h1 : 1 ≤ A.length) (_h2 : A.length ≤ 256) :
    generateSelectionSortSteps A.length A = selectionTraceSpec A ∧
      ComparesPaired (generateSelectionSortSteps A.length A) ∧
      countAction "compare" (generateSelectionSortSteps A.length A) =
        A.length * (A.length - 1) / 2 ∧
      markedOperands (generateSelectionSortSteps A.length A) =
        (List.range (A.length - 1)).map (fun (i : Nat) => [(i : Int)]) := by
  obtain ⟨k0, k1, k2⟩ := selection_compare_count A.length A
  refine ⟨selectionSortRun_spec A, k0, ?_, k2⟩
  omega

/-- Witness for C31: the array `[3, 1, 2]`, whose trace has 3 compare events. -/
theorem selection_trace_shape_witness :
    generateSelectionSortSteps 3 [3, 1, 2] = selectionTraceSpec [3, 1, 2] ∧
      countAction "compare" (generateSelectionSortSteps 3 [3, 1, 2]) = 3 * (3 - 1) / 2 :=
  ⟨(selection_trace_shape [3, 1, 2] (by decide) (by decide)).1,
    (selection_trace_shape [3, 1, 2] (by decide) (by decide)).2.2.1⟩

theorem finalQueue_fold :
    ∀ (ops : List OperationNode) (st : QueueGenSt),
      st.size = st.rear - st.front + 1 →
      ∃ ext, (ops.foldl queueOpStep st).ir = st.ir ++ ext ∧
        ext.foldl finalQueueStep (st.queue, st.front, st.rear) =
          ((ops.foldl queueOpStep st).queue, (ops.foldl queueOpStep st).front,
            (ops.foldl queueOpStep st).rear) := by
  intro ops
  induction ops with
  | nil => intro st _; exact ⟨[], by simp, rfl⟩
  | cons op ops ih =>
    intro st hsz
    simp only [List.foldl_cons]
    by_cases h1 : op.operation = "enqueue"
    · rw [queueOpStep_enqueue st op h1]
      obtain ⟨ext, e1, e2⟩ := ih
        { st with queue := st.queue.set (st.rear + 1).toNat op.value, rear := st.rear + 1,
                  size := st.size + 1,
                  ir := addIRWithIndices st.ir "enqueue" [st.rear + 1, op.value] }
        (by dsimp only; omega)
      refine ⟨⟨"enqueue", [st.rear + 1, op.value]⟩ :: ext, ?_, ?_⟩
      · rw [e1]
        simp [addIRWithIndices]
      · rw [← e2]
        simp [finalQueueStep]
    · by_cases h2 : op.operation = "dequeue"
      · rw [queueOpStep_dequeue st op h2]
        by_cases hpos : st.size > 0
        · rw [if_pos hpos]
          obtain ⟨ext, e1, e2⟩ := ih
            { st with front := st.front + 1, size := st.size - 1,
                      ir := addIRWithIndices st.ir "dequeue"
                        [st.front, st.queue.getD st.front.toNat 0] }
            (by dsimp only; omega)
          refine ⟨⟨"dequeue", [st.front, st.queue.getD st.front.toNat 0]⟩ :: ext, ?_, ?_⟩
          · rw [e1]
            simp [addIRWithIndices]
          · rw [← e2]
            have hle : st.front ≤ st.rear := by omega
            simp [finalQueueStep, hle]
        · rw [if_neg hpos]
          exact ih st hsz
      · rw [queueOpStep_other st op h1 h2]
        exact ih st hsz

/-! ## C32: the player's final queue is the generator's -/

/-- C32: for every sequence of queue operations with at most 256 enqueues, the
queue that the player rebuilds by folding the enqueue and dequeue events of the
generated trace (the array, the front index and the rear index) equals the
generator's own final array, `front` and `rear`. -/
theorem final_queue_eq_generator (ops : List OperationNode)
    (_h : countOps "enqueue" ops ≤ 256) :
    finalQueue (generateQueueOperations ops) =
      ((queueOpsRun ops).queue, (queueOpsRun ops).front, (queueOpsRun ops).rear) := by
  obtain ⟨ext, e1, e2⟩ := finalQueue_fold ops
    { queue := List.replicate 256 0, front := 0, rear := -1, size := 0, ir := [] } (by decide)
  unfold finalQueue generateQueueOperations queueOpsRun
  rw [e1]
  exact e2

/-- Witness for C32: enqueue 7, enqueue 9, dequeue, dequeue, dequeue (the last
one on an empty queue), enqueue 4. -/
theorem final_queue_eq_generator_witness :
    countOps "enqueue" [⟨"enqueue", 7, 0⟩, ⟨"enqueue", 9, 0⟩, ⟨"dequeue", 0, 0⟩,
        ⟨"dequeue", 0, 0⟩, ⟨"dequeue", 0, 0⟩, ⟨"enqueue", 4, 0⟩] ≤ 256 ∧
      finalQueue (generateQueueOperations [⟨"enqueue", 7, 0⟩, ⟨"enqueue", 9, 0⟩,
        ⟨"dequeue", 0, 0⟩, ⟨"dequeue", 0, 0⟩, ⟨"dequeue", 0, 0⟩, ⟨"enqueue", 4, 0⟩]) =
      ((queueOpsRun [⟨"enqueue", 7, 0⟩, ⟨"enqueue", 9, 0⟩, ⟨"dequeue", 0, 0⟩,
        ⟨"dequeue", 0, 0⟩, ⟨"dequeue", 0, 0⟩, ⟨"enqueue", 4, 0⟩]).queue, 2, 2) :=
  ⟨by decide, final_queue_eq_generator _ (by decide)⟩

theorem insertTreeNodeOut_spec (t : TreeNode) (v : Int) :
    ∀ out : Int × Int,
      (insertTreeNodeOut t v out).1 = insertTreeNode t v ∧
        (t ≠ .nil → (insertTreeNodeOut t v out).2 = findInsertParent t v) ∧
        (t = .nil → (insertTreeNodeOut t v out).2 = out) := by
  induction t with
  | nil => intro out; exact ⟨rfl, fun h => absurd rfl h, fun _ => rfl⟩
  | node x l r ihl ihr =>
    intro out
    simp only [insertTreeNodeOut, insertTreeNode, findInsertParent]
    by_cases h : v < x
    · simp only [h, if_true]
      obtain ⟨k1, k2, k3⟩ := ihl (x, 1)
      refine ⟨by rw [k1], fun _ => ?_, fun hh => by simp at hh⟩
      by_cases hl : l = .nil
      · rw [if_pos hl, k3 hl]
      · rw [if_neg hl, k2 hl]
    · simp only [h, if_false]
      obtain ⟨k1, k2, k3⟩ := ihr (x, 0)
      refine ⟨by rw [k1], fun _ => ?_, fun hh => by simp at hh⟩
      by_cases hr : r = .nil
      · rw [if_pos hr, k3 hr]
      · rw [if_neg hr, k2 hr]

theorem insert_attachedAt (t : TreeNode) (v : Int) (hne : t ≠ .nil) :
    AttachedAt t (insertTreeNode t v) (descentPath t v)
      v (findInsertParent t v).1 (findInsertParent t v).2 := by
  induction t with
  | nil => exact absurd rfl hne
  | node x l r ihl ihr =>
    simp only [insertTreeNode, descentPath, findInsertParent]
    by_cases h : v < x
    · simp only [h, if_true]
      by_cases hl : l = .nil
      · subst hl
        simp only [if_true]
        exact Or.inl ⟨rfl, r, rfl, rfl⟩
      · simp only [hl, if_false]
        rcases ihl hl with ⟨h1, r', h2, h3⟩ | ⟨h1, l', h2, h3⟩
        · exact Or.inl ⟨h1, r', h2, h3⟩
        · exact Or.inr ⟨h1, l', h2, h3⟩
    · simp only [h, if_false]
      by_cases hr : r = .nil
      · subst hr
        simp only [if_true]
        exact Or.inr ⟨rfl, l, rfl, rfl⟩
      · simp only [hr, if_false]
        rcases ihr hr with ⟨h1, r', h2, h3⟩ | ⟨h1, l', h2, h3⟩
        · exact Or.inl ⟨h1, r', h2, h3⟩
        · exact Or.inr ⟨h1, l', h2, h3⟩

/-! ## C40: the descent of the generator and the out-parameters of `insertTreeNode` -/

/-- C40: for every non-empty tree `t` and every value `v`, whatever the
out-parameters held before the call, the `(parent_val, is_left)` that
`insertTreeNode` leaves in them equals the `(temp_parent, temp_side)` that the
descent of `generateTreeOperations` computed on `t` before the insertion; the
returned tree is the tree with `v` inserted, the descent slot is an empty child
slot of the node holding that parent value, and the new leaf `v` is attached
there on that side (1 = left, 0 = right). -/
theorem insert_out_params_eq_descent (t : TreeNode) (v : Int) (out : Int × Int)
    (hne : t ≠ .nil) :
    (insertTreeNodeOut t v out).2 = findInsertParent t v ∧
      (insertTreeNodeOut t v out).1 = insertTreeNode t v ∧
      AttachedAt t (insertTreeNodeOut t v out).1 (descentPath t v)
        v (findInsertParent t v).1 (findInsertParent t v).2 := by
  obtain ⟨k1, k2, _⟩ := insertTreeNodeOut_spec t v out
  refine ⟨k2 hne, k1, ?_⟩
  rw [k1]
  exact insert_attachedAt t v hne

/-- Witness for C40: inserting 4 into the tree of 5, 3, 8 gives the parent 3
and the side 0 (right), whatever the out-parameters held. -/
theorem insert_out_params_eq_descent_witness :
    TreeNode.node 5 (.node 3 .nil .nil) (.node 8 .nil .nil) ≠ .nil ∧
      (insertTreeNodeOut (.node 5 (.node 3 .nil .nil) (.node 8 .nil .nil)) 4 (-1, -1)).2 =
        (3, 0) :=
  ⟨by decide, (insert_out_params_eq_descent
    (.node 5 (.node 3 .nil .nil) (.node 8 .nil .nil)) 4 (-1, -1) (by decide)).1⟩

theorem quickInv_pop (A : List Int) (low high : Int) (rest : List (Int × Int)) (s : SortSt)
    (hinv : QuickInv A ((low, high) :: rest) s) (hge : ¬ low < high) :
    QuickInv A rest s := by
  have hr := hinv.2.1
  rw [rangesOK_cons] at hr
  obtain ⟨-, -, hrest⟩ := hr
  obtain ⟨ht, -, hcov, hcnt⟩ := hinv
  refine ⟨ht, hrest, ?_, ?_⟩
  · intro b hb1 hb2
    rcases hcov b hb1 hb2 with hc | hp
    · rw [covered_cons] at hc
      rcases hc with hc | hc
      · simp only at hc; omega
      · exact Or.inl hc
    · exact Or.inr hp
  · rw [stackSpan_cons] at hcnt
    omega

theorem quickLoopStacks_inv (A : List Int) (P : Int × Int → Prop)
    (hP : ∀ a b : Int, a < b → P (a, b)) :
    ∀ (fuel : Nat) (stack : List (Int × Int)) (s : SortSt),
      QuickInv A stack s → (∀ r ∈ stack, P r) →
      ∀ stk ∈ quickLoopStacks fuel stack s,
        stackWork stk ≤ stackWork stack ∧ RangesOK A.length stk ∧ ∀ r ∈ stk, P r := by
  intro fuel
  induction fuel with
  | zero =>
    intro stack s hinv hp stk hstk
    simp only [quickLoopStacks, List.mem_singleton] at hstk
    subst hstk
    exact ⟨le_refl _, hinv.2.1, hp⟩
  | succ fuel ih =>
    intro stack s hinv hp stk hstk
    cases stack with
    | nil =>
      simp only [quickLoopStacks, List.mem_singleton] at hstk
      subst hstk
      exact ⟨le_refl _, hinv.2.1, hp⟩
    | cons r rest =>
      obtain ⟨low, high⟩ := r
      simp only [quickLoopStacks] at hstk
      have hr := hinv.2.1
      rw [rangesOK_cons] at hr
      obtain ⟨⟨hlow0, hhighn⟩, hdis, hrest⟩ := hr
      simp only at hlow0 hhighn
      split at hstk
      · rename_i hlt
        rw [List.mem_cons] at hstk
        rcases hstk with hstk | hstk
        · subst hstk
          exact ⟨le_refl _, hinv.2.1, hp⟩
        · obtain ⟨lo, rfl⟩ := Int.eq_ofNat_of_zero_le hlow0
          obtain ⟨hi, rfl⟩ := Int.eq_ofNat_of_zero_le (by omega : (0 : Int) ≤ high)
          have hlt' : lo < hi := by exact_mod_cast hlt
          obtain ⟨h1, h2⟩ := quickStep_inv A lo hi rest s hlt' hinv
          have hp' : ∀ r ∈
              (if (lo : Int) < (partitionRange (lo : Int) (hi : Int) s).i + 1 - 1 then
                ((lo : Int), (partitionRange (lo : Int) (hi : Int) s).i) ::
                  (if (partitionRange (lo : Int) (hi : Int) s).i + 1 + 1 < (hi : Int) then
                    ((partitionRange (lo : Int) (hi : Int) s).i + 2, (hi : Int)) :: rest
                  else rest)
              else
                (if (partitionRange (lo : Int) (hi : Int) s).i + 1 + 1 < (hi : Int) then
                    ((partitionRange (lo : Int) (hi : Int) s).i + 2, (hi : Int)) :: rest
                  else rest)), P r := by
            have hrest' : ∀ r ∈ rest, P r := fun r hr => hp r (List.mem_cons_of_mem _ hr)
            intro r hr
            split at hr
            · rename_i c2
              rw [List.mem_cons] at hr
              rcases hr with hr | hr
              · subst hr; exact hP _ _ (by omega)
              · split at hr
                · rename_i c1
                  rw [List.mem_cons] at hr
                  rcases hr with hr | hr
                  · subst hr; exact hP _ _ (by omega)
                  · exact hrest' r hr
                · exact hrest' r hr
            · split at hr
              · rename_i c1
                rw [List.mem_cons] at hr
                rcases hr with hr | hr
                · subst hr; exact hP _ _ (by omega)
                · exact hrest' r hr
              · exact hrest' r hr
          obtain ⟨k1, k2, k3⟩ := ih _ _ h1 hp' stk hstk
          exact ⟨by omega, k2, k3⟩
      · rename_i hge
        rw [List.mem_cons] at hstk
        rcases hstk with hstk | hstk
        · subst hstk
          exact ⟨le_refl _, hinv.2.1, hp⟩
        · obtain ⟨k1, k2, k3⟩ := ih rest s (quickInv_pop A low high rest s hinv hge)
            (fun r hr => hp r (List.mem_cons_of_mem _ hr)) stk hstk
          refine ⟨?_, k2, k3⟩
          rw [stackWork_cons]
          omega

theorem quickLoopStacks_getLast (fuel : Nat) :
    ∀ (stack : List (Int × Int)) (s : SortSt),
      (quickLoopStacks fuel stack s).getLast? = some (quickLoop fuel stack s).1 := by
  induction fuel with
  | zero => intro stack s; rfl
  | succ fuel ih =>
    intro stack s
    cases stack with
    | nil => rfl
    | cons r rest =>
      obtain ⟨low, high⟩ := r
      simp only [quickLoopStacks, quickLoop]
      have hne : ∀ st s', quickLoopStacks fuel st s' ≠ [] := by
        intro st s' h
        have := ih st s'
        rw [h] at this
        simp at this
      split
      · obtain ⟨x, xs, hx⟩ := List.exists_cons_of_ne_nil (hne
          (if low < (partitionRange low high s).i + 1 - 1 then
            (low, (partitionRange low high s).i) ::
              if (partitionRange low high s).i + 1 + 1 < high then
                ((partitionRange low high s).i + 2, high) :: rest
              else rest
          else
            if (partitionRange low high s).i + 1 + 1 < high then
              ((partitionRange low high s).i + 2, high) :: rest
            else rest) (partitionRange low high s).s)
        rw [← ih, hx, List.getLast?_cons_cons]
      · obtain ⟨x, xs, hx⟩ := List.exists_cons_of_ne_nil (hne rest s)
        rw [← ih, hx, List.getLast?_cons_cons]

/-! ## C37: the range stack of quick sort -/

/-- C37: for every array of length `n ≤ 256` the loop of
`generateQuickSortSteps` stops with an empty range stack within the fuel of the
model (it terminates), and at the head of every iteration the stack holds at
most 256 ranges, which lie inside `0..n-1` and are pairwise disjoint; every
range other than the initial `(0, n-1)` has `low < high`, that is at least two
positions. -/
theorem quick_stack_ranges (A : List Int) (hn : A.length ≤ 256) :
    (quickSortRun A.length A).1 = [] ∧
      (quickLoopStacks (A.length + 1) [((0 : Int), (A.length : Int) - 1)]
        ⟨A.take A.length, []⟩).getLast? = some [] ∧
      ∀ stk ∈ quickLoopStacks (A.length + 1) [((0 : Int), (A.length : Int) - 1)]
          ⟨A.take A.length, []⟩,
        stk.length ≤ 256 ∧ RangesOK A.length stk ∧
          ∀ r ∈ stk, r = ((0 : Int), (A.length : Int) - 1) ∨ r.1 < r.2 := by
  have hinv : QuickInv A [((0 : Int), (A.length : Int) - 1)] ⟨A.take A.length, []⟩ := by
    refine ⟨⟨by simp, by simp, by simp [applySwapEvents]⟩, ?_, ?_, ?_⟩
    · rw [rangesOK_cons]
      refine ⟨⟨le_refl _, by simp only; omega⟩, fun r' hr' => by simp at hr', ?_⟩
      exact ⟨fun r hr => by simp at hr, List.Pairwise.nil⟩
    · intro b hb1 hb2
      left
      rw [covered_cons]
      left
      simp only [List.take_length]
      omega
    · rw [stackSpan_cons]
      simp only [countAction, List.countP_nil, stackSpan, List.map_nil, List.sum_nil]
      omega
  have hterm := (quickSortRun_inv A).1
  refine ⟨hterm, ?_, ?_⟩
  · rw [quickLoopStacks_getLast]
    exact congrArg some hterm
  · intro stk hstk
    obtain ⟨k1, k2, k3⟩ := quickLoopStacks_inv A
      (fun r => r = ((0 : Int), (A.length : Int) - 1) ∨ r.1 < r.2)
      (fun a b hab => Or.inr hab) (A.length + 1) _ _ hinv
      (fun r hr => Or.inl (by simpa using hr)) stk hstk
    refine ⟨?_, k2, k3⟩
    have := length_le_stackWork stk
    rw [stackWork_cons] at k1
    simp only [stackWork, List.map_nil, List.sum_nil] at k1 this
    omega

/-- Witness for C37: on `[4, 1, 5, 2, 3]` the stacks at the loop heads are
`[(0,4)]`, `[(0,1), (3,4)]`, `[(3,4)]` and the empty stack. -/
theorem quick_stack_ranges_witness :
    [4, 1, 5, 2, 3].length ≤ 256 ∧ (quickSortRun 5 [4, 1, 5, 2, 3]).1 = [] ∧
      quickLoopStacks 6 [(0, 4)] ⟨[4, 1, 5, 2, 3], []⟩ =
        [[(0, 4)], [(0, 1), (3, 4)], [(3, 4)], []] :=
  ⟨by decide, (quick_stack_ranges [4, 1, 5, 2, 3] (by decide)).1, by decide⟩

theorem foldl_store_frame :
    ∀ (l : List (List Int)) (g : Globals),
      l.foldl (fun g v => storeDeclared v g) g =
        { g with dsl_array := (l.foldl (fun g v => storeDeclared v g) g).dsl_array,
                 dsl_array_size := (l.foldl (fun g v => storeDeclared v g) g).dsl_array_size } ∧
        (l.foldl (fun g v => storeDeclared v g) g).dsl_array.length = g.dsl_array.length := by
  intro l
  induction l with
  | nil => intro g; exact ⟨rfl, rfl⟩
  | cons d ds ih =>
    intro g
    simp only [List.foldl_cons]
    obtain ⟨h1, h2⟩ := ih (storeDeclared d g)
    obtain ⟨h3, h4⟩ := storeDeclared_frame d g
    refine ⟨?_, h2.trans h4⟩
    rw [h1]
    rw [h3]

theorem foldl_store_empty :
    ∀ (es : List (List Int)) (g : Globals), (∀ x ∈ es, decide (x.length > 0) = false) →
      es.foldl (fun g v => storeDeclared v g) g = g := by
  intro es
  induction es with
  | nil => intro g _; rfl
  | cons e es ih =>
    intro g h
    simp only [List.foldl_cons]
    have he : e = [] := by
      have := h e (List.mem_cons_self _ _)
      simp only [gt_iff_lt, decide_eq_false_iff_not, not_lt, Nat.le_zero] at this
      exact List.eq_nil_of_length_eq_zero this
    rw [he, storeDeclared_nil]
    exact ih g (fun x hx => h x (List.mem_cons_of_mem _ hx))

theorem filter_getLast_split {α : Type} (p : α → Bool) :
    ∀ (l : List α),
      ((l.filter p).getLast? = none → ∀ x ∈ l, p x = false) ∧
      (∀ d, (l.filter p).getLast? = some d →
        ∃ pre es, l = pre ++ d :: es ∧ p d = true ∧ ∀ x ∈ es, p x = false) := by
  intro l
  induction l with
  | nil =>
    exact ⟨fun _ x hx => by simp at hx, fun d h => by simp at h⟩
  | cons a l ih =>
    obtain ⟨ih1, ih2⟩ := ih
    by_cases ha : p a = true
    · rw [List.filter_cons_of_pos ha]
      rcases hf : l.filter p with _ | ⟨b, fl⟩
      · have hnone : (l.filter p).getLast? = none := by rw [hf]; rfl
        refine ⟨fun h => by simp at h, ?_⟩
        intro d hd
        simp only [List.getLast?_singleton, Option.some.injEq] at hd
        subst hd
        exact ⟨[], l, rfl, ha, ih1 hnone⟩
      · refine ⟨fun h => by simp [List.getLast?_cons_cons] at h, ?_⟩
        intro d hd
        rw [List.getLast?_cons_cons, ← hf] at hd
        obtain ⟨pre, es, h1, h2, h3⟩ := ih2 d hd
        exact ⟨a :: pre, es, by rw [h1]; rfl, h2, h3⟩
    · have ha' : p a = false := by simpa using ha
      rw [List.filter_cons_of_neg ha]
      refine ⟨?_, ?_⟩
      · intro h x hx
        rw [List.mem_cons] at hx
        rcases hx with hx | hx
        · rw [hx]; exact ha'
        · exact ih1 h x hx
      · intro d hd
        obtain ⟨pre, es, h1, h2, h3⟩ := ih2 d hd
        exact ⟨a :: pre, es, by rw [h1]; rfl, h2, h3⟩

theorem collect_callFree :
    ∀ (node : ASTNode) (g : Globals), callFree node = true → namedStatements node = true →
      g.has_error = false →
      collectDSLInfo node g = (scanDeclared node).foldl (fun g v => storeDeclared v g) g := by
  intro node
  induction node with
  | null => intro g _ _ _; rfl
  | node type name number array_values left right body cond inc ihl ihr ihb _ _ =>
    intro g hfree hnamed hg
    have herr : ∀ (l : List (List Int)),
        (l.foldl (fun g v => storeDeclared v g) g).has_error = false := by
      intro l
      rw [(foldl_store_frame l g).1]
      exact hg
    unfold collectDSLInfo
    simp only [callFree, Bool.and_eq_true] at hfree
    simp only [namedStatements, Bool.and_eq_true] at hnamed
    obtain ⟨hhead, hright⟩ := hfree
    obtain ⟨hnhead, hnright⟩ := hnamed
    simp only [scanDeclared, List.foldl_append]
    cases type with
    | ARRAY_DECL_NODE =>
      dsimp only at hnhead ⊢
      have hname : ¬ (name = none ∨ name = some "") := by simpa using hnhead
      rw [if_neg hname]
      have h1 := herr [array_values]
      simp only [List.foldl_cons, List.foldl_nil] at h1 ⊢
      rw [h1]
      exact ihr _ hright hnright h1
    | ALGORITHM_CALL_NODE =>
      dsimp only at hhead
      exact absurd hhead (by decide)
    | ASSIGN_NODE =>
      dsimp only at hnhead ⊢
      have hname : ¬ (name = none ∨ name = some "") := by simpa using hnhead
      rw [if_neg hname]
      simp only [List.foldl_nil]
      rw [hg]
      exact ihr _ hright hnright hg
    | LOOP_NODE =>
      dsimp only at hhead hnhead ⊢
      simp only [Bool.and_eq_true] at hhead hnhead
      rw [ihb g hhead.1 hnhead.1 hg, ihl _ hhead.2 hnhead.2 (herr _), ← List.foldl_append]
      rw [herr]
      simp only [List.foldl_append]
      rw [ihr _ hright hnright (by rw [← List.foldl_append]; exact herr _)]
      rfl
    | IF_NODE =>
      dsimp only at hhead hnhead ⊢
      simp only [Bool.and_eq_true] at hhead hnhead
      rw [ihb g hhead.1 hnhead.1 hg, ihl _ hhead.2 hnhead.2 (herr _), ← List.foldl_append]
      rw [herr]
      simp only [List.foldl_append]
      rw [ihr _ hright hnright (by rw [← List.foldl_append]; exact herr _)]
      rfl
    | VALUE_NODE =>
      dsimp only at hhead hnhead ⊢
      simp only [Bool.and_eq_true] at hhead hnhead
      rw [ihb g hhead.1 hnhead.1 hg, ihl _ hhead.2 hnhead.2 (herr _), ← List.foldl_append]
      rw [herr]
      simp only [List.foldl_append]
      rw [ihr _ hright hnright (by rw [← List.foldl_append]; exact herr _)]
      rfl
    | NUMBER_NODE =>
      dsimp only at hhead hnhead ⊢
      simp only [Bool.and_eq_true] at hhead hnhead
      rw [ihb g hhead.1 hnhead.1 hg, ihl _ hhead.2 hnhead.2 (herr _), ← List.foldl_append]
      rw [herr]
      simp only [List.foldl_append]
      rw [ihr _ hright hnright (by rw [← List.foldl_append]; exact herr _)]
      rfl
    | SEQ_NODE =>
      dsimp only at hhead hnhead ⊢
      simp only [Bool.and_eq_true] at hhead hnhead
      rw [ihb g hhead.1 hnhead.1 hg, ihl _ hhead.2 hnhead.2 (herr _), ← List.foldl_append]
      rw [herr]
      simp only [List.foldl_append]
      rw [ihr _ hright hnright (by rw [← List.foldl_append]; exact herr _)]
      rfl

theorem bubble_take (n : Nat) (arr : List Int) :
    generateBubbleSortSteps n arr = generateBubbleSortSteps n (arr.take n) := by
  simp only [generateBubbleSortSteps, bubbleSortRun, List.take_take, min_self]

theorem generateSort_default_declared (g : Globals) (h1 : 0 < g.dsl_array_size)
    (h2 : g.dsl_array_size ≤ 256) (h3 : g.dsl_array.length = 256)
    (h4 : g.algorithmArray.length = 256) (h5 : g.algorithm_to_generate = "")
    (h6 : g.has_error = false) :
    (generateSort g).has_error = false ∧
      (generateSort g).algorithmName = "Bubble Sort" ∧
      storedArray (generateSort g) = g.dsl_array.take g.dsl_array_size ∧
      (generateSort g).ir =
        g.ir ++ generateBubbleSortSteps g.dsl_array_size g.dsl_array := by
  have hsz : ¬ (g.dsl_array_size > 256) := by omega
  have hcopy := copyInts_spec g.dsl_array_size g.dsl_array g.algorithmArray (by omega) (by omega)
  refine ⟨?_, ?_, ?_, ?_⟩
  · simp [generateSort, h1, h5, setArray, setAlgorithmName, setDetectedAlgorithm, h6]
  · simp [generateSort, h1, h5, setArray, setAlgorithmName, setDetectedAlgorithm, strncpy]
  · simp only [generateSort, h1, h5, setArray, setAlgorithmName, setDetectedAlgorithm,
      storedArray, if_true, hsz, if_false, ne_eq, not_false_eq_true, not_true_eq_false,
      false_and]
    exact hcopy.2
  · simp [generateSort, h1, h5, setArray, setAlgorithmName, setDetectedAlgorithm,
      generateSortSteps]

theorem generateSort_default_none (g : Globals) (h1 : g.dsl_array_size = 0)
    (h3 : g.dsl_array.length = 256)
    (h4 : g.algorithmArray.length = 256) (h5 : g.algorithm_to_generate = "")
    (h6 : g.has_error = false) :
    (generateSort g).has_error = false ∧
      (generateSort g).algorithmName = "Bubble Sort" ∧
      storedArray (generateSort g) = [5, 3, 8, 4, 2] ∧
      (generateSort g).ir = g.ir ++ generateBubbleSortSteps 5 [5, 3, 8, 4, 2] := by
  have hc1 := copyInts_spec 5 [5, 3, 8, 4, 2] g.algorithmArray (by decide) (by omega)
  have hc2 := copyInts_spec 5 [5, 3, 8, 4, 2] g.dsl_array (by decide) (by omega)
  refine ⟨?_, ?_, ?_, ?_⟩
  · simp [generateSort, h1, h5, setArray, setAlgorithmName, setDetectedAlgorithm, h6]
  · simp [generateSort, h1, h5, setArray, setAlgorithmName, setDetectedAlgorithm, strncpy]
  · simp only [generateSort, h1, h5, setArray, setAlgorithmName, setDetectedAlgorithm,
      storedArray, gt_iff_lt, lt_self_iff_false, if_false, ne_eq, not_true_eq_false,
      false_and, Nat.reduceLT]
    exact hc1.2
  · have e : (generateSort g).ir =
        g.ir ++ generateBubbleSortSteps 5 (copyInts 5 [5, 3, 8, 4, 2] g.dsl_array) := by
      simp [generateSort, h1, h5, setArray, setAlgorithmName, setDetectedAlgorithm,
        generateSortSteps]
    rw [e, bubble_take 5 (copyInts 5 [5, 3, 8, 4, 2] g.dsl_array), hc2.2]
    rfl

/-! ## C38: a named program without calls is a bubble sort -/

/-- C38 as stated fails: a program without any call sets the error flag when
an assignment or an array declaration carries an empty name, as
`createAssignNode("", ...)` and `createArrayDeclNode("", ...)` build them. -/
theorem call_free_program_counterexample :
    callFree (.node .ASSIGN_NODE (some "") 0 []
        (.node .NUMBER_NODE none 1 [] .null .null .null .null .null) .null .null .null .null) =
        true ∧
      hasGenerationError
        (generateCode (.node .ASSIGN_NODE (some "") 0 []
          (.node .NUMBER_NODE none 1 [] .null .null .null .null .null) .null .null .null .null)
          initialGlobals) = true ∧
      callFree (.node .ARRAY_DECL_NODE (some "") 0 [3, 1, 2] .null .null .null .null .null) =
        true ∧
      hasGenerationError
        (generateCode (.node .ARRAY_DECL_NODE (some "") 0 [3, 1, 2] .null .null .null .null .null)
          initialGlobals) = true := by
  decide

/-- C38, amended: for a program in which the scan meets no call statement (no
algorithm call and no structure operation), whose array declarations and
assignments all carry a non-empty name and whose declared array has at most
256 values, `generateCode` leaves the error flag clear, sets the subject to
`"Bubble Sort"`, stores the declared array for the writer and appends the
bubble-sort trace over it.  The declared array is the value list of the last
declaration that lists values, or `[5, 3, 8, 4, 2]` when no declaration lists
any. -/
theorem call_free_program_is_bubble_sort (node : ASTNode) (g : Globals)
    (hg : g.dsl_array.length = 256 ∧ g.algorithmArray.length = 256)
    (hfree : callFree node = true) (hnamed : namedStatements node = true)
    (hlen : (declaredArray node).length ≤ 256) :
    hasGenerationError (generateCode node g) = false ∧
      (generateCode node g).algorithmName = "Bubble Sort" ∧
      storedArray (generateCode node g) = declaredArray node ∧
      (generateCode node g).ir =
        g.ir ++ generateBubbleSortSteps (declaredArray node).length (declaredArray node) := by
  let g0 : Globals := { g with dsl_array_size := 0, algorithm_to_generate := "", ds_type := "",
                               ds_operations := [], has_error := false }
  let g1 := (scanDeclared node).foldl (fun g v => storeDeclared v g) g0
  have hcollect : collectDSLInfo node g0 = g1 := collect_callFree node g0 hfree hnamed rfl
  obtain ⟨hf1, hf2⟩ := foldl_store_frame (scanDeclared node) g0
  have hg1 : g1 = { g0 with dsl_array := g1.dsl_array, dsl_array_size := g1.dsl_array_size } :=
    hf1
  have herr1 : g1.has_error = false := by rw [hg1]
  have hops1 : g1.ds_operations = [] := by rw [hg1]
  have halgo1 : g1.algorithm_to_generate = "" := by rw [hg1]
  have hir1 : g1.ir = g.ir := by rw [hg1]
  have halg1 : g1.algorithmArray.length = 256 := by rw [hg1]; exact hg.2
  have hlen1 : g1.dsl_array.length = 256 := hf2.trans hg.1
  have hgen : generateCode node g = generateSort g1 := by
    show (if (collectDSLInfo node g0).ds_operations ≠ [] ∧ (collectDSLInfo node g0).ds_type ≠ ""
      then generateStructure (collectDSLInfo node g0)
      else generateSort (collectDSLInfo node g0)) = _
    rw [hcollect, if_neg (fun h => h.1 hops1)]
  rw [hgen]
  unfold hasGenerationError
  obtain ⟨s1, s2⟩ := filter_getLast_split (fun v : List Int => decide (v.length > 0))
    (scanDeclared node)
  rcases hlast : ((scanDeclared node).filter (fun v => decide (v.length > 0))).getLast? with
    _ | d
  · have hda : declaredArray node = [5, 3, 8, 4, 2] := by
      unfold declaredArray
      rw [hlast]
    have hg1eq : g1 = g0 := foldl_store_empty _ g0 (s1 hlast)
    have hsize1 : g1.dsl_array_size = 0 := by rw [hg1eq]
    obtain ⟨r1, r2, r3, r4⟩ := generateSort_default_none g1 hsize1 hlen1 halg1 halgo1 herr1
    rw [hda]
    exact ⟨r1, r2, r3, by rw [r4, hir1]; rfl⟩
  · have hda : declaredArray node = d := by
      unfold declaredArray
      rw [hlast]
    rw [hda] at hlen ⊢
    obtain ⟨pre, es, e1, e2, e3⟩ := s2 d hlast
    have hd1 : 1 ≤ d.length := by
      simp only [gt_iff_lt, decide_eq_true_eq] at e2
      omega
    have hfold : g1 = storeDeclared d (pre.foldl (fun g v => storeDeclared v g) g0) := by
      show (scanDeclared node).foldl (fun g v => storeDeclared v g) g0 = _
      rw [e1, List.foldl_append, List.foldl_cons]
      exact foldl_store_empty es _ e3
    have hplen : (pre.foldl (fun g v => storeDeclared v g) g0).dsl_array.length = 256 :=
      (foldl_store_frame pre g0).2.trans hg.1
    obtain ⟨hv1, hv2⟩ := storeDeclared_values d _ hd1 hlen hplen
    rw [← hfold] at hv1 hv2
    obtain ⟨r1, r2, r3, r4⟩ := generateSort_default_declared g1 (by omega) (by omega) hlen1 halg1
      halgo1 herr1
    refine ⟨r1, r2, ?_, ?_⟩
    · rw [r3, hv1, hv2]
    · rw [r4, hir1, hv1, bubble_take, hv2]

/-- Witness for the amended C38: a program of two declarations and a named
assignment; the trace is the bubble sort of the values of the second
declaration. -/
theorem call_free_program_is_bubble_sort_witness :
    (generateCode (declChain [("a", [1, 2]), ("b", [9, 8, 7])]
        (.node .ASSIGN_NODE (some "x") 0 [] .null .null .null .null .null))
      initialGlobals).ir = generateBubbleSortSteps 3 [9, 8, 7] :=
  (call_free_program_is_bubble_sort (declChain [("a", [1, 2]), ("b", [9, 8, 7])]
      (.node .ASSIGN_NODE (some "x") 0 [] .null .null .null .null .null))
    initialGlobals ⟨List.length_replicate _ _, List.length_replicate _ _⟩
    (by decide) (by decide) (by decide)).2.2.2

theorem operandsValid_emit (n : Nat) (s : SortSt) (action : String) (indices : List Int)
    (h : OperandsValid n s.ir) (hi : ∀ x ∈ indices, 0 ≤ x ∧ x < (n : Int)) :
    OperandsValid n (s.emit action indices).ir := by
  intro e he x hx
  simp only [SortSt.emit, addIRWithIndices, List.mem_append, List.mem_singleton] at he
  rcases he with he | he
  · exact h e he x hx
  · subst he
    exact hi x (List.mem_of_mem_take hx)

theorem pair_valid (n : Nat) (a b : Int) (ha : 0 ≤ a ∧ a < (n : Int))
    (hb : 0 ≤ b ∧ b < (n : Int)) : ∀ x ∈ [a, b], 0 ≤ x ∧ x < (n : Int) := by
  intro x hx
  simp only [List.mem_cons, List.mem_singleton, List.not_mem_nil, or_false] at hx
  rcases hx with hx | hx <;> subst hx <;> assumption

theorem single_valid (n : Nat) (a : Int) (ha : 0 ≤ a ∧ a < (n : Int)) :
    ∀ x ∈ [a], 0 ≤ x ∧ x < (n : Int) := by
  intro x hx
  simp only [List.mem_singleton] at hx
  subst hx
  exact ha

theorem bubble_operandsValid (n : Nat) (A : List Int) :
    OperandsValid n (generateBubbleSortSteps n A) := by
  unfold generateBubbleSortSteps bubbleSortRun
  refine forRange_induction (fun _ (t : SortSt) => OperandsValid n t.ir)
    (bubblePassBody n) 0 (n - 1) ⟨A.take n, []⟩ (Nat.zero_le _)
    (fun e he => by simp at he) ?_
  intro pass t _ hp h
  unfold bubblePassBody
  have hin := forRange_induction (fun _ (u : SortSt) => OperandsValid n u.ir)
    bubbleInnerBody 0 (n - pass - 1) t (Nat.zero_le _) h
    (by
      intro i u _ hi hu
      unfold bubbleInnerBody
      dsimp only
      have hv : ∀ x ∈ [(i : Int), ((i + 1 : Nat) : Int)], 0 ≤ x ∧ x < (n : Int) :=
        pair_valid n _ _ ⟨by omega, by omega⟩ ⟨by omega, by omega⟩
      have hc := operandsValid_emit n u "compare" _ hu hv
      split
      · exact operandsValid_emit n _ "swap" _ hc hv
      · exact operandsValid_emit n _ "no_swap" _ hc hv)
  exact operandsValid_emit n _ _ _ hin (single_valid n _ ⟨by omega, by omega⟩)

theorem insertionShift_operandsValid (n : Nat) (key : Int) :
    ∀ (k : Nat) (s : SortSt), k < n → OperandsValid n s.ir →
      OperandsValid n (insertionShift key k s).2.ir := by
  intro k
  induction k with
  | zero => intro s _ h; exact h
  | succ j ih =>
    intro s hk h
    unfold insertionShift
    split
    · dsimp only
      have hv : ∀ x ∈ [(j : Int), ((j + 1 : Nat) : Int)], 0 ≤ x ∧ x < (n : Int) :=
        pair_valid n _ _ ⟨by omega, by omega⟩ ⟨by omega, by omega⟩
      have hc := operandsValid_emit n s "compare" _ h hv
      apply ih _ (by omega)
      exact operandsValid_emit n
        { (s.emit "compare" [(j : Int), ((j + 1 : Nat) : Int)]) with
          working_array := (s.emit "compare" [(j : Int), ((j + 1 : Nat) : Int)]).working_array.set
            (j + 1) ((s.emit "compare" [(j : Int), ((j + 1 : Nat) : Int)]).working_array.getD j 0) }
        "swap" _ hc hv
    · exact h

theorem insertion_operandsValid (n : Nat) (A : List Int) :
    OperandsValid n (generateInsertionSortSteps n A) := by
  unfold generateInsertionSortSteps insertionSortRun
  rcases Nat.lt_or_ge n 1 with h0 | h1
  · have : n = 0 := by omega
    subst this
    intro e he
    simp [forRange, loopFrom] at he
  · refine forRange_induction (fun _ (t : SortSt) => OperandsValid n t.ir)
      insertionOuterBody 1 n ⟨A.take n, []⟩ h1 (fun e he => by simp at he) ?_
    intro i t hi1 hi2 h
    unfold insertionOuterBody
    dsimp only
    have hc := operandsValid_emit n t "compare" [(i : Int), (i : Int) - 1] h
      (pair_valid n _ _ ⟨by omega, by omega⟩ ⟨by omega, by omega⟩)
    have hs := insertionShift_operandsValid n (t.working_array.getD i 0) i _ hi2 hc
    exact operandsValid_emit n
      { (insertionShift (t.working_array.getD i 0) i
          (t.emit "compare" [(i : Int), (i : Int) - 1])).2 with
        working_array := (insertionShift (t.working_array.getD i 0) i
          (t.emit "compare" [(i : Int), (i : Int) - 1])).2.working_array.set
            (insertionShift (t.working_array.getD i 0) i
              (t.emit "compare" [(i : Int), (i : Int) - 1])).1 (t.working_array.getD i 0) }
      "mark_sorted" _ hs (single_valid n _ ⟨by omega, by omega⟩)

theorem selection_operandsValid (n : Nat) (A : List Int) :
    OperandsValid n (generateSelectionSortSteps n A) := by
  unfold generateSelectionSortSteps selectionSortRun
  refine forRange_induction (fun _ (t : SortSt) => OperandsValid n t.ir)
    (selectionOuterBody n) 0 (n - 1) ⟨A.take n, []⟩ (Nat.zero_le _)
    (fun e he => by simp at he) ?_
  intro i t _ hi h
  unfold selectionOuterBody
  have hin := forRange_induction
    (fun _ (u : Nat × SortSt) => OperandsValid n u.2.ir ∧ u.1 < n)
    selectionInnerBody (i + 1) n (i, t) (by omega) ⟨h, by omega⟩
    (by
      intro j u _ hj ⟨hu1, hu2⟩
      unfold selectionInnerBody
      dsimp only
      have hv : ∀ x ∈ [(u.1 : Int), (j : Int)], 0 ≤ x ∧ x < (n : Int) :=
        pair_valid n _ _ ⟨by omega, by omega⟩ ⟨by omega, by omega⟩
      have hc := operandsValid_emit n u.2 "compare" _ hu1 hv
      split
      · exact ⟨operandsValid_emit n _ "no_swap" _ hc hv, hj⟩
      · exact ⟨operandsValid_emit n _ "no_swap" _ hc hv, hu2⟩)
  dsimp only
  generalize forRange (i + 1) n selectionInnerBody (i, t) = r at hin ⊢
  obtain ⟨h1, h2⟩ := hin
  split
  · exact operandsValid_emit n
      { (r.2.emit "swap" [(i : Int), (r.1 : Int)]) with
        working_array := swapEntries (r.2.emit "swap" [(i : Int), (r.1 : Int)]).working_array
          i r.1 }
      "mark_sorted" _
      (operandsValid_emit n r.2 "swap" _ h1
        (pair_valid n _ _ ⟨by omega, by omega⟩ ⟨by omega, by omega⟩))
      (single_valid n _ ⟨by omega, by omega⟩)
  · exact operandsValid_emit n _ _ _ h1 (single_valid n _ ⟨by omega, by omega⟩)

theorem mergeCompareLoop_operandsValid (n mid right : Nat) (hmid : mid < n) (hright : right < n) :
    ∀ (fuel : Nat) (m : MergeSt), OperandsValid n m.s.ir →
      OperandsValid n (mergeCompareLoop mid right fuel m).s.ir := by
  intro fuel
  induction fuel with
  | zero => intro m h; exact h
  | succ fuel ih =>
    intro m h
    unfold mergeCompareLoop
    split
    · rename_i hc
      dsimp only
      have hv : ∀ x ∈ [(m.i : Int), (m.j : Int)], 0 ≤ x ∧ x < (n : Int) :=
        pair_valid n _ _ ⟨by omega, by omega⟩ ⟨by omega, by omega⟩
      have hcmp := operandsValid_emit n m.s "compare" _ h hv
      split
      · exact ih _ (operandsValid_emit n _ _ _ hcmp hv)
      · exact ih _ (operandsValid_emit n _ _ _ hcmp hv)
    · exact h

theorem mergeRuns_operandsValid (n step left : Nat) (s : SortSt) (hstep : 1 ≤ step)
    (hleft : left < n - step) (h : OperandsValid n s.ir) :
    OperandsValid n (mergeRuns n step left s).ir := by
  unfold mergeRuns
  dsimp only
  apply mergeCompareLoop_operandsValid n _ _ (by omega) _ _ _ h
  split <;> omega

theorem mergePass_operandsValid (n step : Nat) (hstep : 1 ≤ step) :
    ∀ (fuel left : Nat) (s : SortSt), OperandsValid n s.ir →
      OperandsValid n (mergePass n step fuel left s).ir := by
  intro fuel
  induction fuel with
  | zero => intro left s h; exact h
  | succ fuel ih =>
    intro left s h
    unfold mergePass
    split
    · rename_i hl
      exact ih _ _ (mergeRuns_operandsValid n step left s hstep hl h)
    · exact h

theorem mergeOuter_operandsValid (n : Nat) :
    ∀ (fuel step : Nat) (s : SortSt), 1 ≤ step → OperandsValid n s.ir →
      OperandsValid n (mergeOuter n fuel step s).ir := by
  intro fuel
  induction fuel with
  | zero => intro step s _ h; exact h
  | succ fuel ih =>
    intro step s hstep h
    unfold mergeOuter
    split
    · exact ih _ _ (by omega) (mergePass_operandsValid n step hstep n 0 s h)
    · exact h

theorem merge_operandsValid (n : Nat) (A : List Int) :
    OperandsValid n (generateMergeSortSteps n A) := by
  unfold generateMergeSortSteps mergeSortRun
  exact mergeOuter_operandsValid n n 1 _ (le_refl _) (fun e he => by simp at he)

theorem partitionRange_operandsValid (n : Nat) (s : SortSt) (lo hi : Nat) (hlo : lo < hi)
    (hhi : hi < n) (h : OperandsValid n s.ir) :
    ∃ q : Nat, (partitionRange (lo : Int) (hi : Int) s).i + 1 = (q : Int) ∧ lo ≤ q ∧ q ≤ hi ∧
      OperandsValid n (partitionRange (lo : Int) (hi : Int) s).s.ir := by
  unfold partitionRange
  simp only [Int.toNat_ofNat]
  have h0 : OperandsValid n (s.emit "compare" [(hi : Int)]).ir :=
    operandsValid_emit n s _ _ h (single_valid n _ ⟨by omega, by omega⟩)
  have hloop := forRange_induction
    (fun j (p : PartSt) => OperandsValid n p.s.ir ∧
      ∃ q : Nat, p.i + 1 = (q : Int) ∧ lo ≤ q ∧ q ≤ j)
    (partitionBody (hi : Int) (s.working_array.getD hi 0)) lo hi
    { i := (lo : Int) - 1, s := s.emit "compare" [(hi : Int)] } (le_of_lt hlo)
    ⟨h0, lo, by simp, le_refl _, le_refl _⟩
    (by
      intro j p hj1 hj2 hp
      obtain ⟨hp1, q, hq, hq1, hq2⟩ := hp
      unfold partitionBody
      dsimp only
      have hv : ∀ x ∈ [(j : Int), (hi : Int)], 0 ≤ x ∧ x < (n : Int) :=
        pair_valid n _ _ ⟨by omega, by omega⟩ ⟨by omega, by omega⟩
      have hc := operandsValid_emit n p.s "compare" [(j : Int), (hi : Int)] hp1 hv
      split
      · split
        · refine ⟨?_, q + 1, by push_cast; omega, by omega, by omega⟩
          exact operandsValid_emit n (p.s.emit "compare" [(j : Int), (hi : Int)]) "swap"
            [p.i + 1, (j : Int)] hc
            (pair_valid n _ _ ⟨by omega, by omega⟩ ⟨by omega, by omega⟩)
        · exact ⟨operandsValid_emit n _ _ _ hc hv, q + 1,
            by push_cast; omega, by omega, by omega⟩
      · exact ⟨operandsValid_emit n _ _ _ hc hv, q, hq, hq1, by omega⟩)
  obtain ⟨k1, q, hq, hq1, hq2⟩ := hloop
  refine ⟨q, hq, hq1, hq2, ?_⟩
  dsimp only
  rw [hq]
  have hs := operandsValid_emit n _ "swap" [(q : Int), (hi : Int)] k1
    (pair_valid n _ _ ⟨by omega, by omega⟩ ⟨by omega, by omega⟩)
  exact operandsValid_emit n
    { (SortSt.emit _ "swap" [(q : Int), (hi : Int)]) with
      working_array := swapEntries _ (q : Int).toNat hi } "mark_sorted" _ hs
    (single_valid n _ ⟨by omega, by omega⟩)

theorem quickLoop_operandsValid (n : Nat) :
    ∀ (fuel : Nat) (stack : List (Int × Int)) (s : SortSt), RangesOK n stack →
      OperandsValid n s.ir → OperandsValid n (quickLoop fuel stack s).2.ir := by
  intro fuel
  induction fuel with
  | zero => intro stack s _ h; exact h
  | succ fuel ih =>
    intro stack s hr h
    cases stack with
    | nil => exact h
    | cons r rest =>
      obtain ⟨low, high⟩ := r
      simp only [quickLoop]
      have hr0 := hr
      rw [rangesOK_cons] at hr0
      obtain ⟨⟨h1, h2⟩, h3, h4⟩ := hr0
      simp only at h1 h2 h3
      by_cases hlt : low < high
      · rw [if_pos hlt]
        obtain ⟨lo, hlo⟩ : ∃ lo : Nat, low = (lo : Int) := ⟨low.toNat, by omega⟩
        obtain ⟨hi, hhi⟩ : ∃ hi : Nat, high = (hi : Int) := ⟨high.toNat, by omega⟩
        subst hlo hhi
        have hlt' : lo < hi := by omega
        obtain ⟨q, hq, hq1, hq2, hv⟩ :=
          partitionRange_operandsValid n s lo hi hlt' (by omega) h
        have hi_eq : (partitionRange (lo : Int) (hi : Int) s).i = (q : Int) - 1 := by omega
        have hfull := quick_push_ranges n lo hi q rest hq1 hq2 hr
        rw [hi_eq]
        have e2 : (q : Int) - 1 + 2 = (q : Int) + 1 := by omega
        rw [e2]
        by_cases c1 : (q : Int) - 1 + 1 + 1 < (hi : Int)
        · rw [if_pos c1]
          by_cases c2 : (lo : Int) < (q : Int) - 1 + 1 - 1
          · rw [if_pos c2]
            exact ih _ _ hfull hv
          · rw [if_neg c2]
            have hsub : (((q : Int) + 1, (hi : Int)) :: rest).Sublist
                (((lo : Int), (q : Int) - 1) :: ((q : Int) + 1, (hi : Int)) :: rest) :=
              List.Sublist.cons _ (List.Sublist.refl _)
            exact ih _ _ (rangesOK_sublist n _ _ hfull hsub) hv
        · rw [if_neg c1]
          by_cases c2 : (lo : Int) < (q : Int) - 1 + 1 - 1
          · rw [if_pos c2]
            have hsub : (((lo : Int), (q : Int) - 1) :: rest).Sublist
                (((lo : Int), (q : Int) - 1) :: ((q : Int) + 1, (hi : Int)) :: rest) :=
              List.Sublist.cons₂ _ (List.Sublist.cons _ (List.Sublist.refl _))
            exact ih _ _ (rangesOK_sublist n _ _ hfull hsub) hv
          · rw [if_neg c2]
            exact ih _ _ h4 hv
      · rw [if_neg hlt]
        exact ih _ _ h4 h

theorem quick_operandsValid (n : Nat) (A : List Int) :
    OperandsValid n (generateQuickSortSteps n A) := by
  unfold generateQuickSortSteps quickSortRun
  apply quickLoop_operandsValid n
  · rw [rangesOK_cons]
    refine ⟨⟨le_refl _, by simp only; omega⟩, fun r' hr' => by simp at hr', ?_⟩
    exact ⟨fun r hr => by simp at hr, List.Pairwise.nil⟩
  · intro e he
    simp at he

/-! ## C34: the operands of the sort traces are valid positions -/

/-- C34: for each of the five sort generators and every array of length
`n ≤ 256` (the empty array included), every operand of every event of the
trace lies in `0..n-1`. -/
theorem sort_operands_valid (A : List Int) (_h : A.length ≤ 256) :
    OperandsValid A.length (generateBubbleSortSteps A.length A) ∧
      OperandsValid A.length (generateInsertionSortSteps A.length A) ∧
      OperandsValid A.length (generateSelectionSortSteps A.length A) ∧
      OperandsValid A.length (generateMergeSortSteps A.length A) ∧
      OperandsValid A.length (generateQuickSortSteps A.length A) :=
  ⟨bubble_operandsValid _ A, insertion_operandsValid _ A, selection_operandsValid _ A,
    merge_operandsValid _ A, quick_operandsValid _ A⟩

/-- Witness for C34: the array `[3, 1, 2]`; the quick-sort trace, whose events
carry one or two operands, stays inside `0..2`. -/
theorem sort_operands_valid_witness :
    [3, 1, 2].length ≤ 256 ∧
      generateQuickSortSteps 3 [3, 1, 2] =
        [⟨"compare", [2]⟩, ⟨"compare", [0, 2]⟩, ⟨"no_swap", [0, 2]⟩, ⟨"compare", [1, 2]⟩,
          ⟨"swap", [0, 1]⟩, ⟨"swap", [1, 2]⟩, ⟨"mark_sorted", [1]⟩] ∧
      OperandsValid 3 (generateQuickSortSteps 3 [3, 1, 2]) :=
  ⟨by decide, by decide, (sort_operands_valid [3, 1, 2] (by decide)).2.2.2.2⟩

theorem digitChar_spec (d : Nat) (hd : d < 10) :
    (Nat.digitChar d).isDigit = true ∧ (Nat.digitChar d).toNat - 48 = d := by
  interval_cases d <;> exact ⟨by decide, by decide⟩

theorem toDigitsCore_spec :
    ∀ (fuel n : Nat) (ds : List Char), n < fuel →
      ∃ pre, Nat.toDigitsCore 10 fuel n ds = pre ++ ds ∧ pre ≠ [] ∧
        (∀ c ∈ pre, c.isDigit = true) ∧ digitsValue pre = n := by
  intro fuel
  induction fuel with
  | zero => intro n ds h; omega
  | succ fuel ih =>
    intro n ds h
    obtain ⟨d1, d2⟩ := digitChar_spec (n % 10) (Nat.mod_lt _ (by decide))
    unfold Nat.toDigitsCore
    dsimp only
    by_cases h0 : n / 10 = 0
    · rw [if_pos h0]
      refine ⟨[Nat.digitChar (n % 10)], rfl, by simp, ?_, ?_⟩
      · intro c hc
        rw [List.mem_singleton.mp hc]
        exact d1
      · simp only [digitsValue, List.foldl_cons, List.foldl_nil, d2]
        omega
    · rw [if_neg h0]
      obtain ⟨pre, e1, e2, e3, e4⟩ := ih (n / 10) (Nat.digitChar (n % 10) :: ds) (by omega)
      refine ⟨pre ++ [Nat.digitChar (n % 10)], by rw [e1]; simp, by simp, ?_, ?_⟩
      · intro c hc
        rcases List.mem_append.mp hc with hc | hc
        · exact e3 c hc
        · rw [List.mem_singleton.mp hc]
          exact d1
      · unfold digitsValue at e4 ⊢
        rw [List.foldl_append, e4]
        simp only [List.foldl_cons, List.foldl_nil, d2]
        omega

theorem repr_digits (m : Nat) :
    (Nat.repr m).data ≠ [] ∧ (∀ c ∈ (Nat.repr m).data, c.isDigit = true) ∧
      digitsValue (Nat.repr m).data = m := by
  obtain ⟨pre, e1, e2, e3, e4⟩ := toDigitsCore_spec (m + 1) m [] (by omega)
  have e : (Nat.repr m).data = pre := by
    show Nat.toDigitsCore 10 (m + 1) m [] = pre
    rw [e1, List.append_nil]
  rw [e]
  exact ⟨e2, e3, e4⟩

theorem isDigit_not_space (c : Char) (h : c.isDigit = true) : isspace c = false := by
  unfold isspace
  simp only [Bool.or_eq_false_iff, decide_eq_false_iff_not]
  refine ⟨⟨⟨⟨⟨?_, ?_⟩, ?_⟩, ?_⟩, ?_⟩, ?_⟩ <;>
    · intro hc
      rw [hc] at h
      exact absurd h (by decide)

theorem isDigit_ne (c d : Char) (h : c.isDigit = true) (hd : d.isDigit = false) : c ≠ d := by
  intro hc
  rw [hc, hd] at h
  exact absurd h (by decide)

theorem strtol_cons_other (d : Char) (l : List Char) (hsp : isspace d = false)
    (h1 : d ≠ '-') (h2 : d ≠ '+') :
    strtol (d :: l) =
      if (d :: l).takeWhile Char.isDigit = [] then none
      else some (((((d :: l).takeWhile Char.isDigit).foldl
        (fun a c => 10 * a + (c.toNat - 48)) 0 : Nat) : Int),
        (d :: l).dropWhile Char.isDigit) := by
  have hdrop : (d :: l).dropWhile isspace = d :: l := by
    simp [List.dropWhile, hsp]
  unfold strtol
  simp only [hdrop]
  have key : ∀ (X : List Char) (b : Bool), X = d :: l → b = false →
      (if List.takeWhile Char.isDigit X = [] then none
        else some (if b = true then
            -((List.foldl (fun a c => 10 * a + (c.toNat - 48)) 0
              (List.takeWhile Char.isDigit X) : Nat) : Int)
          else ((List.foldl (fun a c => 10 * a + (c.toNat - 48)) 0
              (List.takeWhile Char.isDigit X) : Nat) : Int),
          List.dropWhile Char.isDigit X)) =
      if (d :: l).takeWhile Char.isDigit = [] then none
      else some (((((d :: l).takeWhile Char.isDigit).foldl
        (fun a c => 10 * a + (c.toNat - 48)) 0 : Nat) : Int),
        (d :: l).dropWhile Char.isDigit) := by
    intro X b hX hb
    subst hX hb
    simp
  apply key
  · split
    · rename_i heq
      exact absurd (List.cons.inj heq).1 h1
    · rename_i heq
      exact absurd (List.cons.inj heq).1 h2
    · rfl
  · split
    · rename_i heq
      exact absurd (List.cons.inj heq).1 h1
    · rfl

theorem strtol_minus (l : List Char) :
    strtol ('-' :: l) =
      if l.takeWhile Char.isDigit = [] then none
      else some (-(((l.takeWhile Char.isDigit).foldl
        (fun a c => 10 * a + (c.toNat - 48)) 0 : Nat) : Int),
        l.dropWhile Char.isDigit) := by
  have hdrop : ('-' :: l).dropWhile isspace = '-' :: l := by
    have : isspace '-' = false := by decide
    simp [List.dropWhile, this]
  unfold strtol
  simp only [hdrop]
  simp

theorem strtol_digits (ds : List Char) (a : Char) (r : List Char) (hne : ds ≠ [])
    (hds : ∀ c ∈ ds, c.isDigit = true) (ha : a.isDigit = false) :
    strtol (ds ++ a :: r) = some ((digitsValue ds : Int), a :: r) := by
  obtain ⟨d, ds', rfl⟩ := List.exists_cons_of_ne_nil hne
  have hd := hds d (List.mem_cons_self _ _)
  have hsp : isspace d = false := isDigit_not_space d hd
  have h1 : d ≠ '-' := isDigit_ne d '-' hd (by decide)
  have h2 : d ≠ '+' := isDigit_ne d '+' hd (by decide)
  have htake : (d :: (ds' ++ a :: r)).takeWhile Char.isDigit = d :: ds' := by
    have := takeWhile_append_stop Char.isDigit a ha (d :: ds') r hds
    simpa using this
  have hdropd : (d :: (ds' ++ a :: r)).dropWhile Char.isDigit = a :: r := by
    have := dropWhile_append_stop Char.isDigit a ha (d :: ds') r hds
    simpa using this
  show strtol (d :: (ds' ++ a :: r)) = _
  rw [strtol_cons_other d _ hsp h1 h2, htake, hdropd, if_neg (by simp)]
  rfl

theorem strtol_neg_digits (ds : List Char) (a : Char) (r : List Char) (hne : ds ≠ [])
    (hds : ∀ c ∈ ds, c.isDigit = true) (ha : a.isDigit = false) :
    strtol ('-' :: ds ++ a :: r) = some (-(digitsValue ds : Int), a :: r) := by
  have htake : (ds ++ a :: r).takeWhile Char.isDigit = ds :=
    takeWhile_append_stop Char.isDigit a ha ds r hds
  have hdropd : (ds ++ a :: r).dropWhile Char.isDigit = a :: r :=
    dropWhile_append_stop Char.isDigit a ha ds r hds
  show strtol ('-' :: (ds ++ a :: r)) = _
  rw [strtol_minus, htake, hdropd, if_neg hne]
  rfl

theorem fmtInt_data (v : Int) :
    ∃ ds, ds ≠ [] ∧ (∀ c ∈ ds, c.isDigit = true) ∧
      ((0 ≤ v ∧ (fmtInt v).data = ds ∧ (digitsValue ds : Int) = v) ∨
        (v < 0 ∧ (fmtInt v).data = '-' :: ds ∧ -(digitsValue ds : Int) = v)) := by
  cases v with
  | ofNat m =>
    obtain ⟨h1, h2, h3⟩ := repr_digits m
    refine ⟨(Nat.repr m).data, h1, h2, Or.inl ⟨Int.ofNat_nonneg _, rfl, ?_⟩⟩
    rw [h3]
    rfl
  | negSucc m =>
    obtain ⟨h1, h2, h3⟩ := repr_digits (m + 1)
    refine ⟨(Nat.repr (m + 1)).data, h1, h2, Or.inr ⟨Int.negSucc_lt_zero _, ?_, ?_⟩⟩
    · show ("-" ++ Nat.repr (m + 1)).data = _
      rw [String.data_append]
      rfl
    · rw [h3]
      rfl

/-- Reading back a written integer: `strtol` returns the value and stops at
the first character after it, when that character is not a digit. -/
theorem strtol_fmtInt (v : Int) (a : Char) (r : List Char) (ha : a.isDigit = false) :
    strtol ((fmtInt v).data ++ a :: r) = some (v, a :: r) := by
  obtain ⟨ds, h1, h2, h3 | h3⟩ := fmtInt_data v
  · rw [h3.2.1, strtol_digits ds a r h1 h2 ha, h3.2.2]
  · rw [h3.2.1]
    have := strtol_neg_digits ds a r h1 h2 ha
    rw [h3.2.2] at this
    exact this

theorem fmtInt_numChar (v : Int) :
    (fmtInt v).data ≠ [] ∧ ∀ c ∈ (fmtInt v).data, numChar c = true := by
  obtain ⟨ds, h1, h2, h3 | h3⟩ := fmtInt_data v
  · rw [h3.2.1]
    refine ⟨h1, fun c hc => ?_⟩
    simp [numChar, h2 c hc]
  · rw [h3.2.1]
    refine ⟨by simp, fun c hc => ?_⟩
    rcases List.mem_cons.mp hc with hc | hc
    · simp [numChar, hc]
    · simp [numChar, h2 c hc]

theorem strchr_hit (c : Char) (s : List Char) : strchr (c :: s) c = some (c :: s) := by
  simp [strchr]

theorem strchr_skip (c : Char) :
    ∀ (pre s : List Char), (∀ x ∈ pre, x ≠ c) → strchr (pre ++ s) c = strchr s c := by
  intro pre
  induction pre with
  | nil => intro s _; rfl
  | cons x pre ih =>
    intro s h
    show (if x = c then some (x :: (pre ++ s)) else strchr (pre ++ s) c) = _
    rw [if_neg (h x (List.mem_cons_self _ _))]
    exact ih s (fun y hy => h y (List.mem_cons_of_mem _ hy))

theorem startsWith_append_self :
    ∀ (needle rest : List Char), startsWith (needle ++ rest) needle = true := by
  intro needle
  induction needle with
  | nil => intro rest; cases rest <;> rfl
  | cons d needle ih =>
    intro rest
    show startsWith (d :: (needle ++ rest)) (d :: needle) = true
    simp [startsWith, ih]

theorem strstr_hit (q : Char) (needle rest : List Char) :
    strstr (q :: needle ++ rest) (q :: needle) = some (q :: needle ++ rest) := by
  show (if startsWith (q :: (needle ++ rest)) (q :: needle) then some (q :: (needle ++ rest))
    else strstr (needle ++ rest) (q :: needle)) = _
  have : startsWith (q :: (needle ++ rest)) (q :: needle) = true :=
    startsWith_append_self (q :: needle) rest
  rw [if_pos this]
  rfl

theorem startsWith_mayStart :
    ∀ (a s needle : List Char), startsWith (a ++ s) needle = true → mayStart a needle = true := by
  intro a
  induction a with
  | nil => intro s needle _; cases needle <;> rfl
  | cons c a ih =>
    intro s needle h
    cases needle with
    | nil => rfl
    | cons d needle =>
      have h' : (decide (c = d) && startsWith (a ++ s) needle) = true := h
      simp only [Bool.and_eq_true, decide_eq_true_eq] at h'
      show (decide (c = d) && mayStart a needle) = true
      simp only [Bool.and_eq_true, decide_eq_true_eq]
      exact ⟨h'.1, ih s needle h'.2⟩

theorem strstr_skip_noEarly (needle : List Char) :
    ∀ (pre s : List Char), noEarly pre needle = true →
      strstr (pre ++ s) needle = strstr s needle := by
  intro pre
  induction pre with
  | nil => intro s _; rfl
  | cons x pre ih =>
    intro s h
    unfold noEarly at h
    rw [List.all_eq_true] at h
    have h0 : mayStart (x :: pre) needle = false := by
      have := h 0 (List.mem_range.mpr (by simp))
      simpa using this
    have hrest : noEarly pre needle = true := by
      unfold noEarly
      rw [List.all_eq_true]
      intro i hi
      have := h (i + 1) (List.mem_range.mpr (by
        have := List.mem_range.mp hi
        simp only [List.length_cons]
        omega))
      simpa using this
    show (if startsWith (x :: (pre ++ s)) needle then some (x :: (pre ++ s))
      else strstr (pre ++ s) needle) = _
    have hsw : startsWith (x :: (pre ++ s)) needle = false := by
      by_contra hc
      have := startsWith_mayStart (x :: pre) s needle (by simpa using hc)
      rw [h0] at this
      exact absurd this (by decide)
    rw [hsw, if_neg (by decide)]
    exact ih s hrest

theorem strstr_skip_char (q : Char) (needle : List Char) :
    ∀ (pre s : List Char), (∀ x ∈ pre, x ≠ q) →
      strstr (pre ++ s) (q :: needle) = strstr s (q :: needle) := by
  intro pre
  induction pre with
  | nil => intro s _; rfl
  | cons x pre ih =>
    intro s h
    show (if startsWith (x :: (pre ++ s)) (q :: needle) then some (x :: (pre ++ s))
      else strstr (pre ++ s) (q :: needle)) = _
    have hsw : startsWith (x :: (pre ++ s)) (q :: needle) = false := by
      simp [startsWith, h x (List.mem_cons_self _ _)]
    rw [hsw, if_neg (by decide)]
    exact ih s (fun y hy => h y (List.mem_cons_of_mem _ hy))

/-- The first occurrence of `needle` lies at or before any place where it
occurs: the search returns a suffix that begins inside `pre` or at its end. -/
theorem strstr_within (q : Char) (needle rest : List Char) :
    ∀ pre : List Char, ∃ pre1 pre2, pre = pre1 ++ pre2 ∧
      strstr (pre ++ (q :: needle ++ rest)) (q :: needle) =
        some (pre2 ++ (q :: needle ++ rest)) := by
  intro pre
  induction pre with
  | nil => exact ⟨[], [], rfl, strstr_hit q needle rest⟩
  | cons x pre ih =>
    by_cases hsw : startsWith (x :: (pre ++ (q :: needle ++ rest))) (q :: needle) = true
    · refine ⟨[], x :: pre, rfl, ?_⟩
      show (if startsWith (x :: (pre ++ (q :: needle ++ rest))) (q :: needle)
        then some (x :: (pre ++ (q :: needle ++ rest)))
        else strstr (pre ++ (q :: needle ++ rest)) (q :: needle)) = _
      rw [if_pos hsw]
      rfl
    · obtain ⟨p1, p2, e1, e2⟩ := ih
      refine ⟨x :: p1, p2, by rw [e1]; rfl, ?_⟩
      show (if startsWith (x :: (pre ++ (q :: needle ++ rest))) (q :: needle)
        then some (x :: (pre ++ (q :: needle ++ rest)))
        else strstr (pre ++ (q :: needle ++ rest)) (q :: needle)) = _
      rw [if_neg hsw]
      exact e2

theorem strrchrOffset_none (c : Char) :
    ∀ s : List Char, (∀ x ∈ s, x ≠ c) → strrchrOffset s c = none := by
  intro s
  induction s with
  | nil => intro _; rfl
  | cons x s ih =>
    intro h
    unfold strrchrOffset
    rw [ih (fun y hy => h y (List.mem_cons_of_mem _ hy))]
    simp [h x (List.mem_cons_self _ _)]

theorem strrchrOffset_last (c : Char) (tail : List Char) (htail : ∀ x ∈ tail, x ≠ c) :
    ∀ pre : List Char, strrchrOffset (pre ++ c :: tail) c = some pre.length := by
  intro pre
  induction pre with
  | nil =>
    show strrchrOffset (c :: tail) c = _
    unfold strrchrOffset
    rw [strrchrOffset_none c tail htail]
    simp
  | cons x pre ih =>
    show strrchrOffset (x :: (pre ++ c :: tail)) c = _
    unfold strrchrOffset
    rw [ih]
    rfl

/-! ### Reading back a written list of integers -/

theorem numChar_props (c : Char) (h : numChar c = true) :
    c ≠ ']' ∧ c ≠ '"' ∧ c ≠ '[' ∧ c ≠ '\x7b' ∧ c ≠ '\x7d' ∧ c ≠ ',' ∧ isspace c = false := by
  unfold numChar at h
  simp only [Bool.or_eq_true, decide_eq_true_eq] at h
  rcases h with h | h
  · refine ⟨?_, ?_, ?_, ?_, ?_, ?_, isDigit_not_space c h⟩ <;>
      · intro hc
        rw [hc] at h
        exact absurd h (by decide)
  · subst h
    exact ⟨by decide, by decide, by decide, by decide, by decide, by decide, by decide⟩

theorem writeIntList_cons_cons (x y : Int) (l : List Int) :
    (writeIntList (x :: y :: l)).data =
      (fmtInt x).data ++ ',' :: ' ' :: (writeIntList (y :: l)).data := by
  show (fmtInt x ++ ", " ++ writeIntList (y :: l)).data = _
  simp only [String.data_append, List.append_assoc]
  rfl

theorem writeIntList_chars :
    ∀ l : List Int, (∀ c ∈ (writeIntList l).data, listChar c = true) ∧
      l.length ≤ (writeIntList l).data.length ∧
      (l ≠ [] → ∃ d t, (writeIntList l).data = d :: t ∧ numChar d = true) := by
  intro l
  induction l with
  | nil => exact ⟨fun c hc => by simp [writeIntList] at hc, Nat.zero_le _, fun h => absurd rfl h⟩
  | cons x l ih =>
    obtain ⟨f1, f2⟩ := fmtInt_numChar x
    obtain ⟨d, t, hdt⟩ := List.exists_cons_of_ne_nil f1
    cases l with
    | nil =>
      refine ⟨?_, ?_, fun _ => ⟨d, t, hdt, f2 d (by rw [hdt]; exact List.mem_cons_self _ _)⟩⟩
      · intro c hc
        have : numChar c = true := f2 c hc
        simp [listChar, this]
      · show 1 ≤ (fmtInt x).data.length
        rw [hdt]
        simp
    | cons y l =>
      obtain ⟨i1, i2, _⟩ := ih
      rw [writeIntList_cons_cons]
      refine ⟨?_, ?_, fun _ => ⟨d, t ++ ',' :: ' ' :: (writeIntList (y :: l)).data,
        by rw [hdt]; rfl, f2 d (by rw [hdt]; exact List.mem_cons_self _ _)⟩⟩
      · intro c hc
        rcases List.mem_append.mp hc with hc | hc
        · have : numChar c = true := f2 c hc
          simp [listChar, this]
        · rcases List.mem_cons.mp hc with hc | hc
          · subst hc; decide
          · rcases List.mem_cons.mp hc with hc | hc
            · subst hc; decide
            · exact i1 c hc
      · simp only [List.length_append, List.length_cons] at i2 ⊢
        rw [hdt]
        simp only [List.length_cons]
        omega

theorem listChar_props (c : Char) (h : listChar c = true) :
    c ≠ ']' ∧ c ≠ '"' ∧ c ≠ '[' ∧ c ≠ '\x7b' ∧ c ≠ '\x7d' := by
  unfold listChar at h
  simp only [Bool.or_eq_true, decide_eq_true_eq] at h
  rcases h with (h | h) | h
  · obtain ⟨a, b, c', d, e, _, _⟩ := numChar_props c h
    exact ⟨a, b, c', d, e⟩
  · subst h
    exact ⟨by decide, by decide, by decide, by decide, by decide⟩
  · subst h
    exact ⟨by decide, by decide, by decide, by decide, by decide⟩

theorem readInts_stop (max_size fuel : Nat) (rest : List Char) (acc : List Int) :
    readInts max_size fuel (']' :: rest) acc = acc := by
  cases fuel with
  | zero => rfl
  | succ fuel => simp [readInts]

/-- One iteration of the scanning loop that reads a number: the separators
`sep` are skipped and `strtol` reads the value `v`. -/
theorem readInts_number (max_size fuel : Nat) (sep : List Char) (d : Char) (t e : List Char)
    (acc : List Int) (v : Int)
    (hsep : ∀ c ∈ sep, (isspace c || decide (c = ',')) = true ∧ c ≠ ']')
    (hd : numChar d = true) (hacc : acc.length < max_size)
    (hst : strtol (d :: t) = some (v, e)) :
    readInts max_size (fuel + 1) (sep ++ d :: t) acc = readInts max_size fuel e (acc ++ [v]) := by
  obtain ⟨n1, _, _, _, _, n6, n7⟩ := numChar_props d hd
  have hpd : (isspace d || decide (d = ',')) = false := by simp [n6, n7]
  have hdrop : (sep ++ d :: t).dropWhile (fun c => isspace c || decide (c = ',')) = d :: t :=
    dropWhile_append_stop _ d hpd sep t (fun x hx => (hsep x hx).1)
  have hhead : ∃ c0 t0, sep ++ d :: t = c0 :: t0 ∧ c0 ≠ ']' := by
    cases sep with
    | nil => exact ⟨d, t, rfl, n1⟩
    | cons s0 sep' => exact ⟨s0, sep' ++ d :: t, rfl, (hsep s0 (List.mem_cons_self _ _)).2⟩
  obtain ⟨c0, t0, h0, hc0⟩ := hhead
  rw [h0] at hdrop ⊢
  conv_lhs => unfold readInts
  have hcond : ¬ (c0 = ']' ∨ max_size ≤ acc.length) := by
    intro h
    rcases h with h | h
    · exact hc0 h
    · omega
  simp only [if_neg hcond, hdrop]
  split
  · rename_i heq
    exact absurd (List.cons.inj heq).1 n1
  · rw [hst]

theorem readInts_written (max_size : Nat) :
    ∀ (l : List Int) (fuel : Nat) (sep rest : List Char) (acc : List Int), l ≠ [] →
      (∀ c ∈ sep, (isspace c || decide (c = ',')) = true ∧ c ≠ ']') →
      l.length ≤ fuel → acc.length + l.length ≤ max_size →
      readInts max_size fuel (sep ++ (writeIntList l).data ++ ']' :: rest) acc = acc ++ l := by
  intro l
  induction l with
  | nil => intro fuel sep rest acc h; exact absurd rfl h
  | cons x l ih =>
    intro fuel sep rest acc _ hsep hfuel hacc
    obtain ⟨f1, f2⟩ := fmtInt_numChar x
    obtain ⟨d, t, hdt⟩ := List.exists_cons_of_ne_nil f1
    have hd : numChar d = true := f2 d (by rw [hdt]; exact List.mem_cons_self _ _)
    obtain ⟨fuel', rfl⟩ : ∃ f, fuel = f + 1 := ⟨fuel - 1, by
      simp only [List.length_cons] at hfuel; omega⟩
    simp only [List.length_cons] at hfuel hacc
    cases l with
    | nil =>
      have htext : sep ++ (writeIntList [x]).data ++ ']' :: rest =
          sep ++ d :: (t ++ ']' :: rest) := by
        show sep ++ (fmtInt x).data ++ ']' :: rest = _
        rw [hdt]
        simp
      have hst : strtol (d :: (t ++ ']' :: rest)) = some (x, ']' :: rest) := by
        have := strtol_fmtInt x ']' rest (by decide)
        rw [hdt] at this
        exact this
      rw [htext, readInts_number max_size fuel' sep d _ _ acc x hsep hd (by omega) hst,
        readInts_stop]
    | cons y l =>
      have htext : sep ++ (writeIntList (x :: y :: l)).data ++ ']' :: rest =
          sep ++ d :: (t ++ ',' :: ([' '] ++ (writeIntList (y :: l)).data ++ ']' :: rest)) := by
        rw [writeIntList_cons_cons, hdt]
        simp
      have hst : strtol (d :: (t ++ ',' :: ([' '] ++ (writeIntList (y :: l)).data ++ ']' :: rest))) =
          some (x, ',' :: ([' '] ++ (writeIntList (y :: l)).data ++ ']' :: rest)) := by
        have := strtol_fmtInt x ',' ([' '] ++ (writeIntList (y :: l)).data ++ ']' :: rest)
          (by decide)
        rw [hdt] at this
        exact this
      rw [htext, readInts_number max_size fuel' sep d _ _ acc x hsep hd (by omega) hst]
      have e : ',' :: ([' '] ++ (writeIntList (y :: l)).data ++ ']' :: rest) =
          [',', ' '] ++ (writeIntList (y :: l)).data ++ ']' :: rest := by simp
      rw [e, ih fuel' [',', ' '] rest (acc ++ [x]) (by simp)
        (by
          intro c hc
          simp only [List.mem_cons, List.mem_singleton, List.not_mem_nil, or_false] at hc
          rcases hc with hc | hc <;> subst hc <;> exact ⟨by decide, by decide⟩)
        (by simp only [List.length_cons] at hfuel ⊢; omega)
        (by simp only [List.length_append, List.length_cons, List.length_nil] at hacc ⊢; omega)]
      simp

theorem writeStep_data (e : IRNode) (hasNext : Bool) :
    (writeStep e hasNext).data =
      "    ".data ++ '\x7b' :: stepBody e ++ '\x7d' :: ((if hasNext then [','] else []) ++ ['\n']) := by
  unfold writeStep stepBody operandsText
  simp only [String.data_append, List.append_assoc]
  by_cases h0 : e.indices.length > 0
  · by_cases h1 : e.indices.length = 1
    · cases hasNext <;> simp [h0, h1, String.data_append]
    · cases hasNext <;> simp [h0, h1, String.data_append]
  · cases hasNext <;> simp [h0, String.data_append]

theorem extractString_value (pre value rest : List Char) (key : String) (max_len : Nat)
    (hpre : ∀ x ∈ pre, x ≠ '"') (hkey : ∀ x ∈ key.toList, x ≠ ':')
    (hval : ∀ x ∈ value, x ≠ '"') (hlen : value.length < max_len) :
    extractString (pre ++ '"' :: (key.toList ++ '"' :: ':' :: ' ' :: '"' :: (value ++ '"' :: rest)))
      key max_len = some value := by
  have h1 : strstr (pre ++ '"' :: (key.toList ++ '"' :: ':' :: ' ' :: '"' :: (value ++ '"' :: rest)))
      (['"'] ++ key.toList ++ ['"']) =
      some ('"' :: (key.toList ++ '"' :: ':' :: ' ' :: '"' :: (value ++ '"' :: rest))) := by
    have e1 : ['"'] ++ key.toList ++ ['"'] = '"' :: (key.toList ++ ['"']) := by simp
    have e2 : '"' :: (key.toList ++ '"' :: ':' :: ' ' :: '"' :: (value ++ '"' :: rest)) =
        '"' :: (key.toList ++ ['"']) ++ (':' :: ' ' :: '"' :: (value ++ '"' :: rest)) := by simp
    rw [e1, strstr_skip_char '"' _ pre _ hpre, e2, strstr_hit]
  have h2 : strchr ('"' :: (key.toList ++ '"' :: ':' :: ' ' :: '"' :: (value ++ '"' :: rest))) ':' =
      some (':' :: ' ' :: '"' :: (value ++ '"' :: rest)) := by
    have e2 : '"' :: (key.toList ++ '"' :: ':' :: ' ' :: '"' :: (value ++ '"' :: rest)) =
        ('"' :: (key.toList ++ ['"'])) ++ (':' :: ' ' :: '"' :: (value ++ '"' :: rest)) := by simp
    rw [e2, strchr_skip ':' _ _ (by
      intro x hx
      rcases List.mem_cons.mp hx with hx | hx
      · rw [hx]; decide
      · rcases List.mem_append.mp hx with hx | hx
        · exact hkey x hx
        · rw [List.mem_singleton.mp hx]; decide), strchr_hit]
  have h3 : strchr (value ++ '"' :: rest) '"' = some ('"' :: rest) := by
    rw [strchr_skip '"' _ _ hval, strchr_hit]
  have h4 : ((':' :: ' ' :: '"' :: (value ++ '"' :: rest)).drop 1).dropWhile isspace =
      '"' :: (value ++ '"' :: rest) := by
    simp [List.dropWhile, isspace]
  unfold extractString
  simp only [h1, h2, h4, h3]
  have hl : (value ++ '"' :: rest).length - ('"' :: rest).length = value.length := by
    simp only [List.length_append, List.length_cons]
    omega
  rw [hl, if_neg (by omega)]
  simp

theorem indices_found (A ints rest : List Char) (hA : ∀ x ∈ A, x ≠ '[') :
    ∃ p, strstr (A ++ ('"' :: "indices\": [".data ++ (ints ++ ']' :: rest))) "\"indices\"".toList =
        some p ∧
      strchr p '[' = some ('[' :: (ints ++ ']' :: rest)) := by
  have e0 : "\"indices\"".toList = '"' :: "indices\"".data := rfl
  have e1 : ('"' :: "indices\": [".data ++ (ints ++ ']' :: rest)) =
      '"' :: "indices\"".data ++ (':' :: ' ' :: '[' :: (ints ++ ']' :: rest)) := rfl
  obtain ⟨p1, p2, hp, hs⟩ := strstr_within '"' "indices\"".data
    (':' :: ' ' :: '[' :: (ints ++ ']' :: rest)) A
  refine ⟨_, by rw [e0, e1]; exact hs, ?_⟩
  have hp2 : ∀ x ∈ p2, x ≠ '[' := fun x hx => hA x (by rw [hp]; exact List.mem_append_right _ hx)
  rw [strchr_skip '[' _ _ hp2]
  have e2 : '"' :: "indices\"".data ++ (':' :: ' ' :: '[' :: (ints ++ ']' :: rest)) =
      ('"' :: "indices\": ".data) ++ ('[' :: (ints ++ ']' :: rest)) := rfl
  rw [e2, strchr_skip '[' _ _ (by decide), strchr_hit]

theorem readInts_operands (l : List Int) (rest : List Char) (hl : l ≠ []) (h4 : l.length ≤ 4) :
    readInts 4 ('[' :: ((writeIntList l).data ++ ']' :: rest)).length
      (('[' :: ((writeIntList l).data ++ ']' :: rest)).drop 1) [] = l := by
  have := readInts_written 4 l ('[' :: ((writeIntList l).data ++ ']' :: rest)).length [] rest []
    hl (fun c hc => by simp at hc)
    (by
      have := (writeIntList_chars l).2.1
      simp only [List.length_cons, List.length_append]
      omega)
    (by simpa using h4)
  simpa using this

theorem cli_extractIndices_written (A rest : List Char) (l : List Int)
    (hA : ∀ x ∈ A, x ≠ '[') (hl : l ≠ []) (h4 : l.length ≤ 4) :
    CliVisualizer.extractIndices
      (A ++ ('"' :: "indices\": [".data ++ ((writeIntList l).data ++ ']' :: rest))) = some l := by
  obtain ⟨p, h1, h2⟩ := indices_found A (writeIntList l).data rest hA
  unfold CliVisualizer.extractIndices
  simp only [h1, h2]
  rw [readInts_operands l rest hl h4]

theorem js_extractIndices_written (A rest : List Char) (l : List Int)
    (hA : ∀ x ∈ A, x ≠ '[') (hl : l ≠ []) (h4 : l.length ≤ 4) :
    JsonToJs.extractIndices
      (A ++ ('"' :: "indices\": [".data ++ ((writeIntList l).data ++ ']' :: rest))) = some l := by
  obtain ⟨p, h1, h2⟩ := indices_found A (writeIntList l).data rest hA
  unfold JsonToJs.extractIndices
  simp only [h1, h2]
  rw [readInts_operands l rest hl h4]

/-- The text of a step of two to four operands, from its opening brace, in
the form the readers take it apart. -/
theorem stepObject_form (e : IRNode) (suffix : List Char) (h2 : 2 ≤ e.indices.length) :
    '\x7b' :: (stepBody e ++ suffix) =
        "\x7b\n      ".data ++ '"' :: ("action".toList ++ '"' :: ':' :: ' ' :: '"' ::
          (e.action.data ++ '"' :: (",\n      \"indices\": [".data ++
            ((writeIntList e.indices).data ++ ']' :: ("\n    ".data ++ suffix))))) ∧
      '\x7b' :: (stepBody e ++ suffix) =
        ("\x7b\n      \"action\": \"".data ++ e.action.data ++ "\",\n      ".data) ++
          ('"' :: "indices\": [".data ++
            ((writeIntList e.indices).data ++ ']' :: ("\n    ".data ++ suffix))) := by
  have h0 : e.indices.length > 0 := by omega
  have h1 : ¬ e.indices.length = 1 := by omega
  unfold stepBody operandsText
  rw [if_pos h0, if_neg h1]
  constructor
  · simp only [List.append_assoc, List.cons_append, List.nil_append, List.singleton_append]
    rfl
  · simp only [List.append_assoc, List.cons_append, List.nil_append, List.singleton_append]

theorem stepOfObject_written (e : IRNode) (suffix : List Char) (ha : ActionOK e.action)
    (h2 : 2 ≤ e.indices.length) (h4 : e.indices.length ≤ 4) :
    stepOfObject CliVisualizer.extractIndices ('\x7b' :: (stepBody e ++ suffix)) = e ∧
      stepOfObject JsonToJs.extractIndices ('\x7b' :: (stepBody e ++ suffix)) = e := by
  obtain ⟨f1, f2⟩ := stepObject_form e suffix h2
  have hl : e.indices ≠ [] := by
    intro h
    rw [h] at h2
    simp at h2
  have hact : extractString ('\x7b' :: (stepBody e ++ suffix)) "action" 64 = some e.action.data := by
    rw [f1]
    exact extractString_value _ _ _ "action" 64 (by decide) (by decide)
      (fun x hx => (ha.2 x hx).1) (by have := ha.1; omega)
  have hA : ∀ x ∈ "\x7b\n      \"action\": \"".data ++ e.action.data ++ "\",\n      ".data,
      x ≠ '[' := by
    intro x hx
    rcases List.mem_append.mp hx with hx | hx
    · rcases List.mem_append.mp hx with hx | hx
      · exact (by decide : ∀ y ∈ "\x7b\n      \"action\": \"".data, y ≠ '[') x hx
      · exact (ha.2 x hx).2.1
    · exact (by decide : ∀ y ∈ "\",\n      ".data, y ≠ '[') x hx
  have hcli := cli_extractIndices_written _ ("\n    ".data ++ suffix) e.indices hA hl h4
  have hjs := js_extractIndices_written _ ("\n    ".data ++ suffix) e.indices hA hl h4
  rw [← f2] at hcli hjs
  have htake : String.mk (e.action.data.take 31) = e.action := by
    rw [List.take_of_length_le ha.1]
  constructor
  · unfold stepOfObject
    simp only [hact, hcli, htake]
  · unfold stepOfObject
    simp only [hact, hjs, htake]

theorem writeSteps_cons (e : IRNode) (rest : List IRNode) :
    (writeSteps (e :: rest)).data =
      "    ".data ++ '\x7b' :: stepBody e ++ '\x7d' :: (stepSep rest ++ (writeSteps rest).data) := by
  cases rest with
  | nil =>
    show (writeStep e false).data = _
    rw [writeStep_data]
    simp [stepSep, writeSteps]
  | cons n r =>
    show (writeStep e true ++ writeSteps (n :: r)).data = _
    rw [String.data_append, writeStep_data]
    simp [stepSep]

theorem operandsText_nobrace (e : IRNode) :
    ∀ x ∈ operandsText e, x ≠ '\x7b' ∧ x ≠ '\x7d' := by
  intro x hx
  unfold operandsText at hx
  split at hx
  · split at hx
    · rcases List.mem_append.mp hx with hx | hx
      · exact (by decide : ∀ y ∈ ",\n      \"index\": ".data, y ≠ '\x7b' ∧ y ≠ '\x7d') x hx
      · obtain ⟨_, _, _, h4, h5, _, _⟩ := numChar_props x ((fmtInt_numChar _).2 x hx)
        exact ⟨h4, h5⟩
    · rcases List.mem_append.mp hx with hx | hx
      · rcases List.mem_append.mp hx with hx | hx
        · exact (by decide : ∀ y ∈ ",\n      \"indices\": [".data, y ≠ '\x7b' ∧ y ≠ '\x7d') x hx
        · obtain ⟨_, _, _, h4, h5⟩ := listChar_props x ((writeIntList_chars _).1 x hx)
          exact ⟨h4, h5⟩
      · rw [List.mem_singleton.mp hx]
        exact ⟨by decide, by decide⟩
  · simp at hx

theorem stepBody_nobrace (e : IRNode) (ha : ActionOK e.action) :
    ∀ x ∈ stepBody e, x ≠ '\x7b' ∧ x ≠ '\x7d' := by
  intro x hx
  unfold stepBody at hx
  rcases List.mem_append.mp hx with hx | hx
  · rcases List.mem_append.mp hx with hx | hx
    · rcases List.mem_append.mp hx with hx | hx
      · exact (by decide : ∀ y ∈ "\n      \"action\": \"".data, y ≠ '\x7b' ∧ y ≠ '\x7d') x hx
      · exact ⟨(ha.2 x hx).2.2.1, (ha.2 x hx).2.2.2⟩
    · rcases List.mem_cons.mp hx with hx | hx
      · rw [hx]
        exact ⟨by decide, by decide⟩
      · exact operandsText_nobrace e x hx
  · exact (by decide : ∀ y ∈ "\n    ".data, y ≠ '\x7b' ∧ y ≠ '\x7d') x hx

/-! ### The loop of the player's reader -/

theorem cli_loop_iter (fuel : Nat) (X os oe : List Char) (steps : List IRNode) (hX : X ≠ [])
    (h1 : strchr X '\x7b' = some os) (h2 : strchr os '\x7d' = some oe) :
    CliVisualizer.parseStepsLoop (fuel + 1) X steps =
      CliVisualizer.parseStepsLoop fuel (oe.drop 1)
        (steps ++ [stepOfObject CliVisualizer.extractIndices (os.take (os.length - oe.length))]) := by
  obtain ⟨c0, t0, rfl⟩ := List.exists_cons_of_ne_nil hX
  conv_lhs => unfold CliVisualizer.parseStepsLoop
  simp only [h1, h2]

theorem cli_loop_keeps :
    ∀ (fuel : Nat) (pos : List Char) (steps : List IRNode),
      ∃ ext, CliVisualizer.parseStepsLoop fuel pos steps = steps ++ ext := by
  intro fuel
  induction fuel with
  | zero => intro pos steps; exact ⟨[], by simp [CliVisualizer.parseStepsLoop]⟩
  | succ fuel ih =>
    intro pos steps
    unfold CliVisualizer.parseStepsLoop
    cases pos with
    | nil => exact ⟨[], by simp⟩
    | cons c t =>
      dsimp only
      split
      · exact ⟨[], by simp⟩
      · split
        · exact ⟨[], by simp⟩
        · obtain ⟨ext, he⟩ := ih _ (steps ++ [_])
          rw [he]
          exact ⟨_, List.append_assoc _ _ _⟩

theorem cli_loop_steps :
    ∀ (ir : List IRNode) (fuel : Nat) (pre tail : List Char) (steps : List IRNode),
      (∀ e ∈ ir, ActionOK e.action ∧ e.indices.length ≤ 4) → (∀ x ∈ pre, x ≠ '\x7b') →
      ir.length ≤ fuel →
      ∃ rd fuel' pos', rd.length = ir.length ∧
        (∀ (k : Nat) (e : IRNode), ir[k]? = some e → 2 ≤ e.indices.length → rd[k]? = some e) ∧
        CliVisualizer.parseStepsLoop fuel (pre ++ (writeSteps ir).data ++ tail) steps =
          CliVisualizer.parseStepsLoop fuel' pos' (steps ++ rd) := by
  intro ir
  induction ir with
  | nil =>
    intro fuel pre tail steps _ _ _
    exact ⟨[], fuel, pre ++ (writeSteps []).data ++ tail, rfl, fun k e h => by simp at h,
      by rw [List.append_nil]⟩
  | cons e rest ih =>
    intro fuel pre tail steps hir hpre hfuel
    obtain ⟨fuel', rfl⟩ : ∃ f, fuel = f + 1 := ⟨fuel - 1, by
      simp only [List.length_cons] at hfuel; omega⟩
    obtain ⟨ha, h4⟩ := hir e (List.mem_cons_self _ _)
    have hbody := stepBody_nobrace e ha
    have htext : pre ++ (writeSteps (e :: rest)).data ++ tail =
        (pre ++ "    ".data) ++ ('\x7b' :: stepBody e ++
          '\x7d' :: (stepSep rest ++ (writeSteps rest).data ++ tail)) := by
      rw [writeSteps_cons]
      simp
    have h1 : strchr (pre ++ (writeSteps (e :: rest)).data ++ tail) '\x7b' =
        some ('\x7b' :: stepBody e ++ '\x7d' :: (stepSep rest ++ (writeSteps rest).data ++ tail)) := by
      rw [htext, strchr_skip '\x7b' _ _ (by
        intro x hx
        rcases List.mem_append.mp hx with hx | hx
        · exact hpre x hx
        · exact (by decide : ∀ y ∈ "    ".data, y ≠ '\x7b') x hx)]
      exact strchr_hit _ _
    have h2 : strchr ('\x7b' :: stepBody e ++
        '\x7d' :: (stepSep rest ++ (writeSteps rest).data ++ tail)) '\x7d' =
        some ('\x7d' :: (stepSep rest ++ (writeSteps rest).data ++ tail)) := by
      rw [strchr_skip '\x7d' _ _ (by
        intro x hx
        rcases List.mem_cons.mp hx with hx | hx
        · rw [hx]; decide
        · exact (hbody x hx).2)]
      exact strchr_hit _ _
    have hne : pre ++ (writeSteps (e :: rest)).data ++ tail ≠ [] := by
      rw [htext]
      simp
    rw [cli_loop_iter fuel' _ _ _ steps hne h1 h2]
    have hobj : ('\x7b' :: stepBody e ++
        '\x7d' :: (stepSep rest ++ (writeSteps rest).data ++ tail)).take
        (('\x7b' :: stepBody e ++
          '\x7d' :: (stepSep rest ++ (writeSteps rest).data ++ tail)).length -
          ('\x7d' :: (stepSep rest ++ (writeSteps rest).data ++ tail)).length) =
        '\x7b' :: (stepBody e ++ []) := by
      have hl : ('\x7b' :: stepBody e ++
          '\x7d' :: (stepSep rest ++ (writeSteps rest).data ++ tail)).length -
          ('\x7d' :: (stepSep rest ++ (writeSteps rest).data ++ tail)).length =
          ('\x7b' :: stepBody e).length := by
        simp only [List.length_append, List.length_cons]
        omega
      rw [hl, List.take_left, List.append_nil]
    rw [hobj]
    have hdrop : ('\x7d' :: (stepSep rest ++ (writeSteps rest).data ++ tail)).drop 1 =
        stepSep rest ++ (writeSteps rest).data ++ tail := rfl
    rw [hdrop]
    obtain ⟨rd, f2, p2, r1, r2, r3⟩ := ih fuel' (stepSep rest) tail
      (steps ++ [stepOfObject CliVisualizer.extractIndices ('\x7b' :: (stepBody e ++ []))])
      (fun x hx => hir x (List.mem_cons_of_mem _ hx))
      (by
        intro x hx
        unfold stepSep at hx
        split at hx
        · rw [List.mem_singleton.mp hx]; decide
        · simp only [List.mem_cons, List.mem_singleton, List.not_mem_nil, or_false] at hx
          rcases hx with hx | hx <;> subst hx <;> decide)
      (by simp only [List.length_cons] at hfuel; omega)
    refine ⟨stepOfObject CliVisualizer.extractIndices ('\x7b' :: (stepBody e ++ [])) :: rd,
      f2, p2, by simp [r1], ?_, ?_⟩
    · intro k x hk hx
      cases k with
      | zero =>
        simp only [List.getElem?_cons_zero, Option.some.injEq] at hk ⊢
        subst hk
        exact (stepOfObject_written e [] ha hx h4).1
      | succ k =>
        simp only [List.getElem?_cons_succ] at hk ⊢
        exact r2 k x hk hx
    · rw [r3]
      simp

/-! ### The loop of the code emitter's reader -/

theorem matchBrace_body :
    ∀ (body rest : List Char) (R : Nat), (∀ x ∈ body, x ≠ '\x7b' ∧ x ≠ '\x7d') →
      body.length < R →
      JsonToJs.matchBrace (body ++ '\x7d' :: rest) R 1 = (rest, R - body.length - 1, 0) := by
  intro body
  induction body with
  | nil =>
    intro rest R _ hR
    show JsonToJs.matchBrace ('\x7d' :: rest) R 1 = _
    unfold JsonToJs.matchBrace
    have hc : 0 < R ∧ 0 < 1 := ⟨by simp at hR; omega, by decide⟩
    rw [if_pos hc]
    have e1 : (if '\x7d' = '\x7b' then 1 + 1 else if '\x7d' = '\x7d' then 1 - 1 else 1) = 0 := by
      decide
    rw [e1]
    cases rest with
    | nil => simp [JsonToJs.matchBrace]
    | cons c r => simp [JsonToJs.matchBrace]
  | cons b body ih =>
    intro rest R hb hR
    show JsonToJs.matchBrace (b :: (body ++ '\x7d' :: rest)) R 1 = _
    unfold JsonToJs.matchBrace
    have hc : 0 < R ∧ 0 < 1 := ⟨by omega, by decide⟩
    rw [if_pos hc]
    obtain ⟨b1, b2⟩ := hb b (List.mem_cons_self _ _)
    rw [if_neg b1, if_neg b2]
    simp only [List.length_cons] at hR
    rw [ih rest (R - 1) (fun x hx => hb x (List.mem_cons_of_mem _ hx)) (by omega)]
    simp only [List.length_cons]
    congr 2
    omega

theorem js_loop_iter (fuel : Nat) (ws body Y : List Char) (c : Char) (R' : Nat)
    (steps : List IRNode) (hws : ∀ x ∈ ws, (isspace x || decide (x = ',')) = true)
    (hbody : ∀ x ∈ body, x ≠ '\x7b' ∧ x ≠ '\x7d') :
    JsonToJs.parseStepsLoop (fuel + 1) (ws ++ ('\x7b' :: body ++ '\x7d' :: c :: Y))
        (ws.length + (body.length + 3 + R')) steps =
      JsonToJs.parseStepsLoop fuel Y R'
        (steps ++ [stepOfObject JsonToJs.extractIndices ('\x7b' :: (body ++ ['\x7d', c]))]) := by
  have hp : (isspace '\x7b' || decide ('\x7b' = ',')) = false := by decide
  have htake : (ws ++ ('\x7b' :: body ++ '\x7d' :: c :: Y)).take (ws.length + (body.length + 3 + R')) =
      ws ++ '\x7b' :: ((body ++ '\x7d' :: c :: Y).take (body.length + 2 + R')) := by
    rw [List.take_append]
    have : body.length + 3 + R' = (body.length + 2 + R') + 1 := by omega
    rw [this]
    rfl
  have hskip : (((ws ++ ('\x7b' :: body ++ '\x7d' :: c :: Y)).take
      (ws.length + (body.length + 3 + R'))).takeWhile
        (fun c => isspace c || decide (c = ','))).length = ws.length := by
    rw [htake, takeWhile_append_stop _ '\x7b' hp ws _ hws]
  have hdrop : (ws ++ ('\x7b' :: body ++ '\x7d' :: c :: Y)).drop ws.length =
      '\x7b' :: body ++ '\x7d' :: c :: Y := List.drop_left _ _
  have hrem : ws.length + (body.length + 3 + R') - ws.length = body.length + 3 + R' := by omega
  have hm := matchBrace_body body (c :: Y) (body.length + 2 + R') hbody (by omega)
  conv_lhs => unfold JsonToJs.parseStepsLoop
  have hR0 : ¬ (ws.length + (body.length + 3 + R') = 0) := by omega
  have hR1 : ¬ (body.length + 3 + R' = 0) := by omega
  simp only [hskip, hdrop, hrem, if_neg hR0, if_neg hR1]
  have hs : strchr ('\x7b' :: body ++ '\x7d' :: c :: Y) '\x7b' =
      some ('\x7b' :: body ++ '\x7d' :: c :: Y) := strchr_hit _ _
  simp only [hs, Nat.sub_self]
  have hle : ¬ (body.length + 3 + R' ≤ 0) := by omega
  rw [if_neg hle]
  have hd1 : ('\x7b' :: body ++ '\x7d' :: c :: Y).drop 1 = body ++ '\x7d' :: c :: Y := rfl
  have hr2 : body.length + 3 + R' - 0 - 1 = body.length + 2 + R' := by omega
  simp only [hd1, hr2, hm]
  have hz : ¬ ((0 : Nat) ≠ 0) := by simp
  rw [if_neg hz]
  have hlen : ('\x7b' :: body ++ '\x7d' :: c :: Y).length - (c :: Y).length + 1 =
      ('\x7b' :: (body ++ ['\x7d', c])).length := by
    simp only [List.length_append, List.length_cons, List.length_nil]
    omega
  have hobj : ('\x7b' :: body ++ '\x7d' :: c :: Y).take
      (('\x7b' :: body ++ '\x7d' :: c :: Y).length - (c :: Y).length + 1) =
      '\x7b' :: (body ++ ['\x7d', c]) := by
    rw [hlen]
    have : '\x7b' :: body ++ '\x7d' :: c :: Y = ('\x7b' :: (body ++ ['\x7d', c])) ++ Y := by simp
    rw [this, List.take_left]
  rw [hobj]
  have hd2 : (c :: Y).drop 1 = Y := rfl
  have hr3 : body.length + 2 + R' - body.length - 1 - 1 = R' := by omega
  rw [hd2, hr3]

theorem js_loop_keeps :
    ∀ (fuel : Nat) (pos : List Char) (remaining : Nat) (steps : List IRNode),
      ∃ ext, JsonToJs.parseStepsLoop fuel pos remaining steps = steps ++ ext := by
  intro fuel
  induction fuel with
  | zero => intro pos remaining steps; exact ⟨[], by simp [JsonToJs.parseStepsLoop]⟩
  | succ fuel ih =>
    intro pos remaining steps
    unfold JsonToJs.parseStepsLoop
    split
    · exact ⟨[], by simp⟩
    · dsimp only
      split
      · exact ⟨[], by simp⟩
      · split
        · exact ⟨[], by simp⟩
        · split
          · exact ⟨[], by simp⟩
          · split
            · exact ⟨[], by simp⟩
            · obtain ⟨ext, he⟩ := ih _ _ (steps ++ [_])
              rw [he]
              exact ⟨_, List.append_assoc _ _ _⟩

theorem js_loop_steps :
    ∀ (ir : List IRNode) (fuel : Nat) (pre tail : List Char) (r0 : Nat) (steps : List IRNode),
      (∀ e ∈ ir, ActionOK e.action ∧ e.indices.length ≤ 4) →
      (∀ x ∈ pre, (isspace x || decide (x = ',')) = true) → ir.length ≤ fuel →
      ∃ rd fuel' pos' rem', rd.length = ir.length ∧
        (∀ (k : Nat) (e : IRNode), ir[k]? = some e → 2 ≤ e.indices.length → rd[k]? = some e) ∧
        JsonToJs.parseStepsLoop fuel (pre ++ (writeSteps ir).data ++ tail)
            (pre.length + (writeSteps ir).data.length + r0) steps =
          JsonToJs.parseStepsLoop fuel' pos' rem' (steps ++ rd) := by
  intro ir
  induction ir with
  | nil =>
    intro fuel pre tail r0 steps _ _ _
    exact ⟨[], fuel, pre ++ (writeSteps []).data ++ tail,
      pre.length + (writeSteps []).data.length + r0, rfl, fun k e h => by simp at h,
      by rw [List.append_nil]⟩
  | cons e rest ih =>
    intro fuel pre tail r0 steps hir hpre hfuel
    obtain ⟨fuel', rfl⟩ : ∃ f, fuel = f + 1 := ⟨fuel - 1, by
      simp only [List.length_cons] at hfuel; omega⟩
    obtain ⟨ha, h4⟩ := hir e (List.mem_cons_self _ _)
    have hbody := stepBody_nobrace e ha
    obtain ⟨c, sep', hsep, hsepws⟩ : ∃ c sep', stepSep rest = c :: sep' ∧
        ∀ x ∈ sep', (isspace x || decide (x = ',')) = true := by
      unfold stepSep
      split
      · exact ⟨'\n', [], rfl, fun x hx => by simp at hx⟩
      · exact ⟨',', ['\n'], rfl, fun x hx => by rw [List.mem_singleton.mp hx]; decide⟩
    have htext : pre ++ (writeSteps (e :: rest)).data ++ tail =
        (pre ++ "    ".data) ++ ('\x7b' :: stepBody e ++
          '\x7d' :: c :: (sep' ++ (writeSteps rest).data ++ tail)) := by
      rw [writeSteps_cons, hsep]
      simp
    have hlen : pre.length + (writeSteps (e :: rest)).data.length + r0 =
        (pre ++ "    ".data).length + ((stepBody e).length + 3 +
          (sep'.length + (writeSteps rest).data.length + r0)) := by
      rw [writeSteps_cons, hsep]
      simp only [List.length_append, List.length_cons]
      omega
    rw [htext, hlen, js_loop_iter fuel' _ _ _ c _ steps (by
      intro x hx
      rcases List.mem_append.mp hx with hx | hx
      · exact hpre x hx
      · exact (by decide : ∀ y ∈ "    ".data, (isspace y || decide (y = ',')) = true) x hx)
      hbody]
    obtain ⟨rd, f2, p2, m2, r1, r2, r3⟩ := ih fuel' sep' tail r0
      (steps ++ [stepOfObject JsonToJs.extractIndices ('\x7b' :: (stepBody e ++ ['\x7d', c]))])
      (fun x hx => hir x (List.mem_cons_of_mem _ hx)) hsepws
      (by simp only [List.length_cons] at hfuel; omega)
    refine ⟨stepOfObject JsonToJs.extractIndices ('\x7b' :: (stepBody e ++ ['\x7d', c])) :: rd,
      f2, p2, m2, by simp [r1], ?_, ?_⟩
    · intro k x hk hx
      cases k with
      | zero =>
        simp only [List.getElem?_cons_zero, Option.some.injEq] at hk ⊢
        subst hk
        exact (stepOfObject_written e ['\x7d', c] ha hx h4).2
      | succ k =>
        simp only [List.getElem?_cons_succ] at hk ⊢
        exact r2 k x hk hx
    · rw [r3]
      simp

theorem writeIRToJSON_data (name : String) (arr : List Int) (ir : List IRNode) :
    (writeIRToJSON name arr ir).data =
      "\x7b\n  \"algorithm\": \"".data ++ (name.data ++ ("\",\n  \"array\": [".data ++
        ((writeIntList (writtenArray arr)).data ++ ("],\n  \"steps\": [\n".data ++
          ((writeSteps ir).data ++ trailerText))))) := by
  unfold writeIRToJSON writtenArray trailerText
  by_cases h : arr.length > 0
  · simp only [h, if_true, String.data_append, List.append_assoc]
    rfl
  · simp only [h, if_false, String.data_append, List.append_assoc]
    rfl

theorem writtenArray_props (arr : List Int) (h : arr.length ≤ 256) :
    writtenArray arr ≠ [] ∧ (writtenArray arr).length ≤ 256 := by
  unfold writtenArray
  split
  · rename_i h0
    exact ⟨fun hc => by rw [hc] at h0; simp at h0, h⟩
  · exact ⟨by decide, by decide⟩

theorem subjectNames_ok :
    ∀ n ∈ subjectNames, n.data.length < 64 ∧ (∀ c ∈ n.data, c ≠ '"' ∧ c ≠ '[') ∧
      noEarly ("\x7b\n  \"algorithm\": \"".data ++ (n.data ++ "\",\n  \"array\": [".data))
        "\"steps\"".toList = true := by
  decide

theorem traceActions_ok : ∀ a ∈ traceActions, ActionOK a := by
  have : ∀ a ∈ traceActions, a.data.length ≤ 31 ∧
      ∀ c ∈ a.data, c ≠ '"' ∧ c ≠ '[' ∧ c ≠ '\x7b' ∧ c ≠ '\x7d' := by decide
  exact this

theorem writeSteps_length : ∀ ir : List IRNode, ir.length ≤ (writeSteps ir).data.length := by
  intro ir
  induction ir with
  | nil => exact Nat.zero_le _
  | cons e rest ih =>
    rw [writeSteps_cons]
    simp only [List.length_append, List.length_cons]
    omega

/-- The header of a written file as both readers take it: name and array. -/
theorem parseHeader_written (name : String) (arr : List Int) (ir : List IRNode)
    (hname : name ∈ subjectNames) (harr : arr.length ≤ 256) :
    parseHeader (writeIRToJSON name arr ir).data = (name, writtenArray arr) := by
  obtain ⟨n1, n2, _⟩ := subjectNames_ok name hname
  obtain ⟨w1, w2⟩ := writtenArray_props arr harr
  have hA : extractString (writeIRToJSON name arr ir).data "algorithm" 64 = some name.data := by
    rw [writeIRToJSON_data]
    exact extractString_value "\x7b\n  ".data name.data _ "algorithm" 64 (by decide) (by decide)
      (fun x hx => (n2 x hx).1) n1
  have hB : ∃ p, strstr (writeIRToJSON name arr ir).data "\"array\"".toList = some p := by
    rw [writeIRToJSON_data]
    obtain ⟨p1, p2, _, hs⟩ := strstr_within '"' "array\"".data
      (": [".data ++ ((writeIntList (writtenArray arr)).data ++ ("],\n  \"steps\": [\n".data ++
          ((writeSteps ir).data ++ trailerText))))
      ("\x7b\n  \"algorithm\": \"".data ++ (name.data ++ "\",\n  ".data))
    have e : "\x7b\n  \"algorithm\": \"".data ++ (name.data ++ ("\",\n  \"array\": [".data ++
        ((writeIntList (writtenArray arr)).data ++ ("],\n  \"steps\": [\n".data ++
          ((writeSteps ir).data ++ trailerText))))) =
        ("\x7b\n  \"algorithm\": \"".data ++ (name.data ++ "\",\n  ".data)) ++
          ('"' :: "array\"".data ++ (": [".data ++ ((writeIntList (writtenArray arr)).data ++
            ("],\n  \"steps\": [\n".data ++ ((writeSteps ir).data ++ trailerText))))) := by
      simp only [List.append_assoc]
      rfl
    rw [e]
    exact ⟨_, hs⟩
  have hC : extractArray (writeIRToJSON name arr ir).data 256 = writtenArray arr := by
    rw [writeIRToJSON_data]
    have e : "\x7b\n  \"algorithm\": \"".data ++ (name.data ++ ("\",\n  \"array\": [".data ++
        ((writeIntList (writtenArray arr)).data ++ ("],\n  \"steps\": [\n".data ++
          ((writeSteps ir).data ++ trailerText))))) =
        ("\x7b\n  \"algorithm\": \"".data ++ (name.data ++ "\",\n  \"array\": ".data)) ++
          ('[' :: ((writeIntList (writtenArray arr)).data ++
            ']' :: (",\n  \"steps\": [\n".data ++ ((writeSteps ir).data ++ trailerText)))) := by
      simp only [List.append_assoc]
      rfl
    have hs : strchr (("\x7b\n  \"algorithm\": \"".data ++
        (name.data ++ "\",\n  \"array\": ".data)) ++
          ('[' :: ((writeIntList (writtenArray arr)).data ++
            ']' :: (",\n  \"steps\": [\n".data ++ ((writeSteps ir).data ++ trailerText))))) '[' =
        some ('[' :: ((writeIntList (writtenArray arr)).data ++
            ']' :: (",\n  \"steps\": [\n".data ++ ((writeSteps ir).data ++ trailerText)))) := by
      rw [strchr_skip '[' _ _ (by
        intro x hx
        rcases List.mem_append.mp hx with hx | hx
        · exact (by decide : ∀ y ∈ "\x7b\n  \"algorithm\": \"".data, y ≠ '[') x hx
        · rcases List.mem_append.mp hx with hx | hx
          · exact (n2 x hx).2
          · exact (by decide : ∀ y ∈ "\",\n  \"array\": ".data, y ≠ '[') x hx)]
      exact strchr_hit _ _
    rw [e]
    unfold extractArray
    simp only [hs]
    have := readInts_written 256 (writtenArray arr)
      ('[' :: ((writeIntList (writtenArray arr)).data ++
            ']' :: (",\n  \"steps\": [\n".data ++ ((writeSteps ir).data ++ trailerText)))).length
      [] (",\n  \"steps\": [\n".data ++ ((writeSteps ir).data ++ trailerText)) [] w1
      (fun c hc => by simp at hc)
      (by
        have := (writeIntList_chars (writtenArray arr)).2.1
        simp only [List.length_cons, List.length_append]
        omega)
      (by simpa using w2)
    simpa using this
  obtain ⟨p, hp⟩ := hB
  unfold parseHeader
  simp only [hA, hp, hC]
  rw [List.take_of_length_le (by omega)]

/-- Where both readers start to read the steps of a written file. -/
theorem steps_start_written (name : String) (arr : List Int) (ir : List IRNode)
    (hname : name ∈ subjectNames) :
    ∃ p, strstr (writeIRToJSON name arr ir).data "\"steps\"".toList = some p ∧
      strchr p '[' = some ('[' :: '\n' :: ((writeSteps ir).data ++ trailerText)) := by
  obtain ⟨_, _, n3⟩ := subjectNames_ok name hname
  have e : (writeIRToJSON name arr ir).data =
      ("\x7b\n  \"algorithm\": \"".data ++ (name.data ++ "\",\n  \"array\": [".data)) ++
        ((writeIntList (writtenArray arr)).data ++ ("],\n  ".data ++
          ('"' :: "steps\"".data ++ (": [\n".data ++ ((writeSteps ir).data ++ trailerText))))) := by
    rw [writeIRToJSON_data]
    simp only [List.append_assoc]
    rfl
  have e0 : "\"steps\"".toList = '"' :: "steps\"".data := rfl
  refine ⟨'"' :: "steps\"".data ++ (": [\n".data ++ ((writeSteps ir).data ++ trailerText)), ?_, ?_⟩
  · rw [e, strstr_skip_noEarly _ _ _ n3, e0,
      strstr_skip_char '"' _ _ _ (fun x hx =>
        (listChar_props x ((writeIntList_chars _).1 x hx)).2.1),
      strstr_skip_noEarly _ "],\n  ".data _ (by decide)]
    exact strstr_hit _ _ _
  · have e2 : '"' :: "steps\"".data ++ (": [\n".data ++ ((writeSteps ir).data ++ trailerText)) =
        "\"steps\": ".data ++ ('[' :: '\n' :: ((writeSteps ir).data ++ trailerText)) := rfl
    rw [e2, strchr_skip '[' _ _ (by decide)]
    exact strchr_hit _ _

theorem cli_steps_written (name : String) (arr : List Int) (ir : List IRNode)
    (hname : name ∈ subjectNames)
    (hir : ∀ e ∈ ir, ActionOK e.action ∧ e.indices.length ≤ 4) :
    ∀ (k : Nat) (e : IRNode), ir[k]? = some e → 2 ≤ e.indices.length →
      (CliVisualizer.parseJSON (writeIRToJSON name arr ir).data).steps[k]? = some e := by
  obtain ⟨p, hp1, hp2⟩ := steps_start_written name arr ir hname
  have hsteps : (CliVisualizer.parseJSON (writeIRToJSON name arr ir).data).steps =
      CliVisualizer.parseStepsLoop
        ('[' :: '\n' :: ((writeSteps ir).data ++ trailerText)).length
        (['\n'] ++ (writeSteps ir).data ++ trailerText) [] := by
    unfold CliVisualizer.parseJSON
    simp only [hp1, hp2]
    rfl
  obtain ⟨rd, f2, p2, r1, r2, r3⟩ := cli_loop_steps ir
    ('[' :: '\n' :: ((writeSteps ir).data ++ trailerText)).length ['\n'] trailerText [] hir
    (by decide)
    (by
      have := writeSteps_length ir
      simp only [List.length_cons, List.length_append]
      omega)
  obtain ⟨ext, hext⟩ := cli_loop_keeps f2 p2 ([] ++ rd)
  intro k e hk he
  rw [hsteps, r3, hext, List.nil_append]
  have hlt : k < rd.length := by
    rw [r1]
    by_contra hc
    rw [List.getElem?_eq_none (by omega)] at hk
    exact absurd hk (by simp)
  rw [List.getElem?_append_left hlt]
  exact r2 k e hk he

set_option maxRecDepth 100000 in
theorem trailer_bracket :
    trailerText = "  ".data ++ ']' :: trailerRest ∧ ∀ x ∈ trailerRest, x ≠ ']' := by
  decide

theorem cli_parseJSON_header (buffer : List Char) :
    (CliVisualizer.parseJSON buffer).algorithm = (parseHeader buffer).1 ∧
      (CliVisualizer.parseJSON buffer).array = (parseHeader buffer).2 :=
  ⟨rfl, rfl⟩

theorem js_parseJSON_header (buffer : List Char) :
    (JsonToJs.parseJSON buffer).algorithm = (parseHeader buffer).1 ∧
      (JsonToJs.parseJSON buffer).array = (parseHeader buffer).2 :=
  ⟨rfl, rfl⟩

theorem js_steps_written (name : String) (arr : List Int) (ir : List IRNode)
    (hname : name ∈ subjectNames)
    (hir : ∀ e ∈ ir, ActionOK e.action ∧ e.indices.length ≤ 4) :
    ∀ (k : Nat) (e : IRNode), ir[k]? = some e → 2 ≤ e.indices.length →
      (JsonToJs.parseJSON (writeIRToJSON name arr ir).data).steps[k]? = some e := by
  obtain ⟨p, hp1, hp2⟩ := steps_start_written name arr ir hname
  obtain ⟨t1, t2⟩ := trailer_bracket
  have hoff : strrchrOffset (('[' :: '\n' :: ((writeSteps ir).data ++ trailerText)).drop 1) ']' =
      some ((['\n'] : List Char).length + (writeSteps ir).data.length + 2) := by
    have e : ('[' :: '\n' :: ((writeSteps ir).data ++ trailerText)).drop 1 =
        ('\n' :: ((writeSteps ir).data ++ "  ".data)) ++ ']' :: trailerRest := by
      rw [t1]
      simp
    have hl : ('\n' :: ((writeSteps ir).data ++ "  ".data)).length =
        (['\n'] : List Char).length + (writeSteps ir).data.length + 2 := by
      have h2 : "  ".data.length = 2 := rfl
      simp only [List.length_cons, List.length_append, List.length_nil, h2]
      omega
    rw [e, strrchrOffset_last ']' _ t2, hl]
  have hsteps : (JsonToJs.parseJSON (writeIRToJSON name arr ir).data).steps =
      JsonToJs.parseStepsLoop ((['\n'] : List Char).length + (writeSteps ir).data.length + 2)
        (['\n'] ++ (writeSteps ir).data ++ trailerText)
        ((['\n'] : List Char).length + (writeSteps ir).data.length + 2) [] := by
    unfold JsonToJs.parseJSON
    simp only [hp1, hp2, hoff]
    rfl
  obtain ⟨rd, f2, p2, m2, r1, r2, r3⟩ := js_loop_steps ir
    ((['\n'] : List Char).length + (writeSteps ir).data.length + 2) ['\n'] trailerText 2 [] hir
    (by decide)
    (by
      have := writeSteps_length ir
      omega)
  obtain ⟨ext, hext⟩ := js_loop_keeps f2 p2 m2 ([] ++ rd)
  intro k e hk he
  rw [hsteps, r3, hext, List.nil_append]
  have hlt : k < rd.length := by
    rw [r1]
    by_contra hc
    rw [List.getElem?_eq_none (by omega)] at hk
    exact absurd hk (by simp)
  rw [List.getElem?_append_left hlt]
  exact r2 k e hk he

/-! ## C35: what both readers recover from a written trace -/

/-- C35: for every subject name the generator stores, every stored array of at
most 256 values (negative ones included) and every list of events whose action
is one the generators emit, with at most 4 operands, the file `writeIRToJSON`
writes is read back by `parseJSON` of `cli_visualizer.c` and by `parseJSON` of
`json_to_js.c` with the same subject name and the written array (the stored
array, or `[5, 3, 8, 4, 2]` when none is stored), and every event that has two
to four operands is read back at the same position in the list of steps with
the same action and the same operands. -/
theorem written_trace_read_back (name : String) (arr : List Int) (ir : List IRNode)
    (hname : name ∈ subjectNames) (harr : arr.length ≤ 256)
    (hir : ∀ e ∈ ir, e.action ∈ traceActions ∧ e.indices.length ≤ 4) :
    (CliVisualizer.parseJSON (writeIRToJSON name arr ir).data).algorithm = name ∧
      (CliVisualizer.parseJSON (writeIRToJSON name arr ir).data).array = writtenArray arr ∧
      (JsonToJs.parseJSON (writeIRToJSON name arr ir).data).algorithm = name ∧
      (JsonToJs.parseJSON (writeIRToJSON name arr ir).data).array = writtenArray arr ∧
      ∀ (k : Nat) (e : IRNode), ir[k]? = some e → 2 ≤ e.indices.length →
        (CliVisualizer.parseJSON (writeIRToJSON name arr ir).data).steps[k]? = some e ∧
          (JsonToJs.parseJSON (writeIRToJSON name arr ir).data).steps[k]? = some e := by
  have hh := parseHeader_written name arr ir hname harr
  have hir' : ∀ e ∈ ir, ActionOK e.action ∧ e.indices.length ≤ 4 :=
    fun e he => ⟨traceActions_ok _ (hir e he).1, (hir e he).2⟩
  refine ⟨?_, ?_, ?_, ?_, fun k e hk he =>
    ⟨cli_steps_written name arr ir hname hir' k e hk he,
      js_steps_written name arr ir hname hir' k e hk he⟩⟩
  · rw [(cli_parseJSON_header _).1, hh]
  · rw [(cli_parseJSON_header _).2, hh]
  · rw [(js_parseJSON_header _).1, hh]
  · rw [(js_parseJSON_header _).2, hh]

/-- Witness for C35: the tree trace of the inserts 5, -3, 8 with its stored
array; the second event `insert(-3, 5, 1, 0)` is read back by both readers. -/
theorem written_trace_read_back_witness :
    (CliVisualizer.parseJSON (writeIRToJSON "Binary Tree Operations" [5, -3, 8]
        (generateTreeOperations (insertOps [5, -3, 8]))).data).steps[1]? =
        some ⟨"insert", [-3, 5, 1, 0]⟩ ∧
      (JsonToJs.parseJSON (writeIRToJSON "Binary Tree Operations" [5, -3, 8]
        (generateTreeOperations (insertOps [5, -3, 8]))).data).steps[1]? =
        some ⟨"insert", [-3, 5, 1, 0]⟩ :=
  (written_trace_read_back "Binary Tree Operations" [5, -3, 8]
    (generateTreeOperations (insertOps [5, -3, 8])) (by decide) (by decide) (by decide)).2.2.2.2
    1 ⟨"insert", [-3, 5, 1, 0]⟩ (by decide) (by decide)

/-! ## The events and the subject handed to the writer -/

theorem writable_nil : Writable [] := by
  intro e he
  simp at he

theorem writable_append (a b : List IRNode) (ha : Writable a) (hb : Writable b) :
    Writable (a ++ b) := by
  intro e he
  rcases List.mem_append.mp he with h | h
  · exact ha e h
  · exact hb e h

theorem writable_add (ir : List IRNode) (action : String) (indices : List Int)
    (h : Writable ir) (ha : action ∈ traceActions) :
    Writable (addIRWithIndices ir action indices) := by
  intro e he
  simp only [addIRWithIndices, List.mem_append, List.mem_singleton] at he
  rcases he with he | he
  · exact h e he
  · subst he
    refine ⟨ha, ?_⟩
    simp only [List.length_take]
    omega

theorem writable_emit (s : SortSt) (action : String) (indices : List Int)
    (h : Writable s.ir) (ha : action ∈ traceActions) :
    Writable (s.emit action indices).ir :=
  writable_add _ _ _ h ha

theorem bubble_writable (n : Nat) (A : List Int) : Writable (generateBubbleSortSteps n A) := by
  unfold generateBubbleSortSteps bubbleSortRun
  refine forRange_preserves (fun t : SortSt => Writable t.ir) (bubblePassBody n) ?_ 0 (n - 1)
    ⟨A.take n, []⟩ writable_nil
  intro pass t h
  unfold bubblePassBody
  have hin := forRange_preserves (fun u : SortSt => Writable u.ir) bubbleInnerBody
    (by
      intro i u hu
      unfold bubbleInnerBody
      dsimp only
      have hc := writable_emit u "compare" [(i : Int), ((i + 1 : Nat) : Int)] hu (by decide)
      split
      · exact writable_emit _ "swap" _ hc (by decide)
      · exact writable_emit _ "no_swap" _ hc (by decide))
    0 (n - pass - 1) t h
  exact writable_emit _ _ _ hin (by decide)

theorem insertionShift_writable (key : Int) :
    ∀ (k : Nat) (s : SortSt), Writable s.ir → Writable (insertionShift key k s).2.ir := by
  intro k
  induction k with
  | zero => intro s h; exact h
  | succ j ih =>
    intro s h
    unfold insertionShift
    split
    · dsimp only
      have hc := writable_emit s "compare" [(j : Int), ((j + 1 : Nat) : Int)] h (by decide)
      apply ih
      exact writable_emit
        { (s.emit "compare" [(j : Int), ((j + 1 : Nat) : Int)]) with
          working_array := (s.emit "compare" [(j : Int), ((j + 1 : Nat) : Int)]).working_array.set
            (j + 1) ((s.emit "compare" [(j : Int), ((j + 1 : Nat) : Int)]).working_array.getD j 0) }
        "swap" _ hc (by decide)
    · exact h

theorem insertion_writable (n : Nat) (A : List Int) :
    Writable (generateInsertionSortSteps n A) := by
  unfold generateInsertionSortSteps insertionSortRun
  refine forRange_preserves (fun t : SortSt => Writable t.ir) insertionOuterBody ?_ 1 n
    ⟨A.take n, []⟩ writable_nil
  intro i t h
  unfold insertionOuterBody
  dsimp only
  have hc := writable_emit t "compare" [(i : Int), (i : Int) - 1] h (by decide)
  have hs := insertionShift_writable (t.working_array.getD i 0) i _ hc
  exact writable_emit
    { (insertionShift (t.working_array.getD i 0) i
        (t.emit "compare" [(i : Int), (i : Int) - 1])).2 with
      working_array := (insertionShift (t.working_array.getD i 0) i
        (t.emit "compare" [(i : Int), (i : Int) - 1])).2.working_array.set
          (insertionShift (t.working_array.getD i 0) i
            (t.emit "compare" [(i : Int), (i : Int) - 1])).1 (t.working_array.getD i 0) }
    "mark_sorted" _ hs (by decide)

theorem selection_writable (n : Nat) (A : List Int) :
    Writable (generateSelectionSortSteps n A) := by
  unfold generateSelectionSortSteps selectionSortRun
  refine forRange_preserves (fun t : SortSt => Writable t.ir) (selectionOuterBody n) ?_ 0 (n - 1)
    ⟨A.take n, []⟩ writable_nil
  intro i t h
  unfold selectionOuterBody
  have hin := forRange_preserves (fun u : Nat × SortSt => Writable u.2.ir) selectionInnerBody
    (by
      intro j u hu
      unfold selectionInnerBody
      dsimp only
      have hc := writable_emit u.2 "compare" [(u.1 : Int), (j : Int)] hu (by decide)
      split
      · exact writable_emit _ "no_swap" _ hc (by decide)
      · exact writable_emit _ "no_swap" _ hc (by decide))
    (i + 1) n (i, t) h
  dsimp only
  generalize forRange (i + 1) n selectionInnerBody (i, t) = r at hin ⊢
  split
  · exact writable_emit
      { (r.2.emit "swap" [(i : Int), (r.1 : Int)]) with
        working_array := swapEntries (r.2.emit "swap" [(i : Int), (r.1 : Int)]).working_array
          i r.1 }
      "mark_sorted" _ (writable_emit r.2 "swap" _ hin (by decide)) (by decide)
  · exact writable_emit _ _ _ hin (by decide)

theorem mergeCompareLoop_writable (mid right : Nat) :
    ∀ (fuel : Nat) (m : MergeSt), Writable m.s.ir →
      Writable (mergeCompareLoop mid right fuel m).s.ir := by
  intro fuel
  induction fuel with
  | zero => intro m h; exact h
  | succ fuel ih =>
    intro m h
    unfold mergeCompareLoop
    split
    · dsimp only
      have hcmp := writable_emit m.s "compare" [(m.i : Int), (m.j : Int)] h (by decide)
      split
      · exact ih _ (writable_emit _ _ _ hcmp (by decide))
      · exact ih _ (writable_emit _ _ _ hcmp (by decide))
    · exact h

theorem mergeRuns_writable (n step left : Nat) (s : SortSt) (h : Writable s.ir) :
    Writable (mergeRuns n step left s).ir := by
  unfold mergeRuns
  dsimp only
  exact mergeCompareLoop_writable _ _ _ _ h

theorem mergePass_writable (n step : Nat) :
    ∀ (fuel left : Nat) (s : SortSt), Writable s.ir →
      Writable (mergePass n step fuel left s).ir := by
  intro fuel
  induction fuel with
  | zero => intro left s h; exact h
  | succ fuel ih =>
    intro left s h
    unfold mergePass
    split
    · exact ih _ _ (mergeRuns_writable n step left s h)
    · exact h

theorem mergeOuter_writable (n : Nat) :
    ∀ (fuel step : Nat) (s : SortSt), Writable s.ir →
      Writable (mergeOuter n fuel step s).ir := by
  intro fuel
  induction fuel with
  | zero => intro step s h; exact h
  | succ fuel ih =>
    intro step s h
    unfold mergeOuter
    split
    · exact ih _ _ (mergePass_writable n step n 0 s h)
    · exact h

theorem merge_writable (n : Nat) (A : List Int) : Writable (generateMergeSortSteps n A) := by
  unfold generateMergeSortSteps mergeSortRun
  exact mergeOuter_writable n n 1 _ writable_nil

theorem partitionRange_writable (low high : Int) (s : SortSt) (h : Writable s.ir) :
    Writable (partitionRange low high s).s.ir := by
  unfold partitionRange
  dsimp only
  have h0 : Writable (s.emit "compare" [high]).ir := writable_emit s _ _ h (by decide)
  have hloop := forRange_preserves (fun p : PartSt => Writable p.s.ir)
    (partitionBody high (s.working_array.getD high.toNat 0))
    (by
      intro j p hp
      unfold partitionBody
      dsimp only
      have hc := writable_emit p.s "compare" [(j : Int), high] hp (by decide)
      split
      · split
        · exact writable_emit (p.s.emit "compare" [(j : Int), high]) "swap" [p.i + 1, (j : Int)]
            hc (by decide)
        · exact writable_emit _ _ _ hc (by decide)
      · exact writable_emit _ _ _ hc (by decide))
    low.toNat high.toNat { i := low - 1, s := s.emit "compare" [high] } h0
  generalize forRange low.toNat high.toNat
    (partitionBody high (s.working_array.getD high.toNat 0))
    { i := low - 1, s := s.emit "compare" [high] } = p at hloop ⊢
  have hs := writable_emit p.s "swap" [p.i + 1, high] hloop (by decide)
  exact writable_emit
    { (p.s.emit "swap" [p.i + 1, high]) with
      working_array := swapEntries (p.s.emit "swap" [p.i + 1, high]).working_array
        (p.i + 1).toNat high.toNat } "mark_sorted" _ hs (by decide)

theorem quickLoop_writable :
    ∀ (fuel : Nat) (stack : List (Int × Int)) (s : SortSt), Writable s.ir →
      Writable (quickLoop fuel stack s).2.ir := by
  intro fuel
  induction fuel with
  | zero => intro stack s h; exact h
  | succ fuel ih =>
    intro stack s h
    cases stack with
    | nil => exact h
    | cons r rest =>
      obtain ⟨low, high⟩ := r
      simp only [quickLoop]
      split
      · exact ih _ _ (partitionRange_writable low high s h)
      · exact ih _ _ h

theorem quick_writable (n : Nat) (A : List Int) : Writable (generateQuickSortSteps n A) := by
  unfold generateQuickSortSteps quickSortRun
  exact quickLoop_writable _ _ _ writable_nil

theorem generateSortSteps_writable (alg : String) (n : Nat) (A : List Int) :
    Writable (generateSortSteps alg n A) := by
  unfold generateSortSteps
  split
  · exact bubble_writable n A
  · split
    · exact insertion_writable n A
    · split
      · exact selection_writable n A
      · split
        · exact merge_writable n A
        · split
          · exact quick_writable n A
          · exact writable_nil

theorem stackOpStep_writable (st : StackGenSt) (op : OperationNode) (h : Writable st.ir) :
    Writable (stackOpStep st op).ir := by
  unfold stackOpStep
  split
  · exact writable_add _ _ _ h (by decide)
  · split
    · split
      · exact writable_add _ _ _ h (by decide)
      · exact h
    · split
      · split
        · exact writable_add _ _ _ h (by decide)
        · exact h
      · exact h

theorem stack_writable (ops : List OperationNode) : Writable (generateStackOperations ops) := by
  unfold generateStackOperations
  exact foldl_preserves (fun st : StackGenSt => Writable st.ir) stackOpStep
    stackOpStep_writable ops _ writable_nil

theorem queueOpStep_writable (st : QueueGenSt) (op : OperationNode) (h : Writable st.ir) :
    Writable (queueOpStep st op).ir := by
  unfold queueOpStep
  split
  · exact writable_add _ _ _ h (by decide)
  · split
    · split
      · exact writable_add _ _ _ h (by decide)
      · exact h
    · exact h

theorem queue_writable (ops : List OperationNode) : Writable (generateQueueOperations ops) := by
  unfold generateQueueOperations queueOpsRun
  exact foldl_preserves (fun st : QueueGenSt => Writable st.ir) queueOpStep
    queueOpStep_writable ops _ writable_nil

theorem emitVisits_writable (ir : List IRNode) (result : List Int) (h : Writable ir) :
    Writable (emitVisits ir result) := by
  unfold emitVisits
  exact foldl_preserves Writable (fun ir v => addIRWithIndices ir "visit" [v])
    (fun s x hs => writable_add s "visit" [x] hs (by decide)) result ir h

theorem treeOpStep_writable (st : TreeGenSt) (op : OperationNode) (h : Writable st.ir) :
    Writable (treeOpStep st op).ir := by
  unfold treeOpStep
  split
  · dsimp only
    split
    · exact writable_add _ _ _ h (by decide)
    · exact writable_add _ _ _ h (by decide)
  · split
    · exact emitVisits_writable _ _ h
    · split
      · exact emitVisits_writable _ _ h
      · split
        · exact emitVisits_writable _ _ h
        · exact h

theorem tree_writable (ops : List OperationNode) : Writable (treeOpsRun ops).ir := by
  unfold treeOpsRun
  exact foldl_preserves (fun st : TreeGenSt => Writable st.ir) treeOpStep
    treeOpStep_writable ops _ writable_nil

theorem bfsEdgeStep_writable (current : Int) (st : BfsSt) (e : Int × Int)
    (h : Writable st.ir) : Writable (bfsEdgeStep current st e).ir := by
  unfold bfsEdgeStep
  split
  · exact writable_add _ _ _ h (by decide)
  · split
    · exact writable_add _ _ _ h (by decide)
    · exact h

theorem bfsLoop_writable (edges : List (Int × Int)) :
    ∀ (fuel : Nat) (st : BfsSt), Writable st.ir → Writable (bfsLoop edges fuel st).ir := by
  intro fuel
  induction fuel with
  | zero => intro st h; exact h
  | succ fuel ih =>
    intro st h
    simp only [bfsLoop]
    split
    · apply ih
      exact foldl_preserves (fun t : BfsSt => Writable t.ir)
        (bfsEdgeStep (st.queue.getD st.q_front 0))
        (bfsEdgeStep_writable _) edges _ h
    · exact h

theorem bfsRun_writable (edges : List (Int × Int)) (start : Int) (ir : List IRNode)
    (h : Writable ir) : Writable (bfsRun edges start ir).ir := by
  unfold bfsRun
  exact bfsLoop_writable edges 256 _
    (writable_add _ _ _ (writable_add _ _ _ h (by decide)) (by decide))

theorem dfsEdgeStep_ir (current : Int) (st : DfsSt) (e : Int × Int) :
    (dfsEdgeStep current st e).ir = st.ir := by
  unfold dfsEdgeStep
  split
  · rfl
  · split
    · rfl
    · rfl

theorem dfsLoop_writable (edges : List (Int × Int)) :
    ∀ (fuel : Nat) (st : DfsSt), Writable st.ir → Writable (dfsLoop edges fuel st).ir := by
  intro fuel
  induction fuel with
  | zero => intro st h; exact h
  | succ fuel ih =>
    intro st h
    unfold dfsLoop
    split
    · exact h
    · dsimp only
      split
      · apply ih
        refine foldl_preserves (fun t : DfsSt => Writable t.ir) _ ?_ edges _ ?_
        · intro t e ht
          show Writable (dfsEdgeStep _ t e).ir
          rw [dfsEdgeStep_ir]
          exact ht
        · exact writable_add _ _ _ h (by decide)
      · exact ih _ h

theorem dfsRun_writable (edges : List (Int × Int)) (start : Int) (ir : List IRNode)
    (h : Writable ir) : Writable (dfsRun edges start ir).ir := by
  unfold dfsRun
  exact dfsLoop_writable edges _ _ (writable_add _ _ _ h (by decide))

theorem graphOpStep_writable (st : GraphGenSt) (op : OperationNode) (h : Writable st.ir) :
    Writable (graphOpStep st op).ir := by
  unfold graphOpStep
  split
  · exact writable_add _ _ _ h (by decide)
  · split
    · exact writable_add _ _ _ h (by decide)
    · split
      · exact bfsRun_writable _ _ _ h
      · split
        · exact dfsRun_writable _ _ _ h
        · exact h

theorem graph_writable (ops : List OperationNode) : Writable (generateGraphOperations ops) := by
  unfold generateGraphOperations graphOpsRun
  exact foldl_preserves (fun st : GraphGenSt => Writable st.ir) graphOpStep
    graphOpStep_writable ops _ writable_nil

theorem setArray_size (g : Globals) (arr : List Int) (size : Nat) :
    (setArray g arr size).algorithmArraySize ≤ 256 ∧ (setArray g arr size).ir = g.ir := by
  unfold setArray
  dsimp only
  refine ⟨?_, rfl⟩
  split <;> omega

theorem generateStructure_writable (g : Globals) (h : Writable g.ir)
    (hsize : g.algorithmArraySize ≤ 256) :
    Writable (generateStructure g).ir ∧ (generateStructure g).algorithmArraySize ≤ 256 := by
  unfold generateStructure
  split
  · exact ⟨h, hsize⟩
  · split
    · exact ⟨h, hsize⟩
    · dsimp only
      split
      · exact ⟨writable_append _ _ h (stack_writable _), hsize⟩
      · split
        · exact ⟨writable_append _ _ h (queue_writable _), hsize⟩
        · split
          · split
            · refine ⟨?_, (setArray_size _ _ _).1⟩
              rw [(setArray_size _ _ _).2]
              exact writable_append _ _ h (tree_writable _)
            · exact ⟨writable_append _ _ h (tree_writable _), hsize⟩
          · split
            · exact ⟨writable_append _ _ h (graph_writable _), hsize⟩
            · exact ⟨h, hsize⟩

theorem generateSort_writable (g : Globals) (h : Writable g.ir) :
    Writable (generateSort g).ir ∧ (generateSort g).algorithmArraySize ≤ 256 := by
  unfold generateSort
  by_cases hs : g.dsl_array_size > 0
  · simp only [hs, if_true]
    have hz := (setArray_size g g.dsl_array g.dsl_array_size).1
    split
    · exact ⟨h, hz⟩
    · exact ⟨writable_append _ _ h (generateSortSteps_writable _ _ _), hz⟩
  · simp only [hs, if_false]
    have hz := (setArray_size g [5, 3, 8, 4, 2] 5).1
    split
    · exact ⟨h, hz⟩
    · exact ⟨writable_append _ _ h (generateSortSteps_writable _ _ _), hz⟩

theorem collectDSLInfo_frame :
    ∀ (node : ASTNode) (g : Globals),
      (collectDSLInfo node g).ir = g.ir ∧
        (collectDSLInfo node g).algorithmArraySize = g.algorithmArraySize := by
  intro node
  induction node with
  | null => intro g; exact ⟨rfl, rfl⟩
  | node type name number array_values left right body cond inc ihl ihr ihb _ _ =>
    intro g
    unfold collectDSLInfo
    have key : ∀ g' : Globals,
        (g'.ir = g.ir ∧ g'.algorithmArraySize = g.algorithmArraySize) →
        (if g'.has_error = true then g' else collectDSLInfo right g').ir = g.ir ∧
          (if g'.has_error = true then g' else collectDSLInfo right g').algorithmArraySize =
            g.algorithmArraySize := by
      intro g' h
      split
      · exact h
      · rw [(ihr g').1, (ihr g').2]; exact h
    have hsub : (collectDSLInfo left (collectDSLInfo body g)).ir = g.ir ∧
        (collectDSLInfo left (collectDSLInfo body g)).algorithmArraySize =
          g.algorithmArraySize := by
      rw [(ihl _).1, (ihl _).2]
      exact ihb g
    apply key
    cases type with
    | ARRAY_DECL_NODE =>
      dsimp only
      have : (storeDeclared array_values g).ir = g.ir ∧
          (storeDeclared array_values g).algorithmArraySize = g.algorithmArraySize := by
        rw [(storeDeclared_frame array_values g).1]
        exact ⟨rfl, rfl⟩
      split
      · exact this
      · exact this
    | ALGORITHM_CALL_NODE =>
      dsimp only
      split
      · exact ⟨rfl, rfl⟩
      · split
        · split
          · exact ⟨rfl, rfl⟩
          · exact ⟨rfl, rfl⟩
        · split
          · split
            · exact ⟨rfl, rfl⟩
            · exact ⟨rfl, rfl⟩
          · exact ⟨rfl, rfl⟩
    | ASSIGN_NODE =>
      dsimp only
      split
      · exact ⟨rfl, rfl⟩
      · exact ⟨rfl, rfl⟩
    | LOOP_NODE => exact hsub
    | IF_NODE => exact hsub
    | VALUE_NODE => exact hsub
    | NUMBER_NODE => exact hsub
    | SEQ_NODE => exact hsub

/-- What `generateCode` leaves for `writeIRToJSON`, run on globals that hold a
subject of `subjectNames`, events of the generators and an array of at most
256 values (the initial globals in particular): again such a subject, such
events, and a stored array of at most 256 values. -/
theorem generateCode_writable (node : ASTNode) (g : Globals) (hir : Writable g.ir)
    (hname : g.algorithmName ∈ subjectNames) (hsize : g.algorithmArraySize ≤ 256) :
    (generateCode node g).algorithmName ∈ subjectNames ∧
      (storedArray (generateCode node g)).length ≤ 256 ∧
      Writable (generateCode node g).ir := by
  have hlen : ∀ g' : Globals, g'.algorithmArraySize ≤ 256 → (storedArray g').length ≤ 256 := by
    intro g' h'
    unfold storedArray
    exact le_trans (List.length_take_le _ _) h'
  have hsub : ∀ (a : String) (l : List String), a ∈ l →
      (∀ x ∈ l, x ∈ subjectNames) → a ∈ subjectNames := fun a l ha hl => hl a ha
  unfold generateCode
  dsimp only
  have hc := collectDSLInfo_frame node (Globals.mk g.dsl_array 0 "" "" [] false g.algorithmName
    g.algorithmArray g.algorithmArraySize g.detectedAlgorithm g.ir)
  have hn := collectDSLInfo_name node (Globals.mk g.dsl_array 0 "" "" [] false g.algorithmName
    g.algorithmArray g.algorithmArraySize g.detectedAlgorithm g.ir)
  dsimp only at hc hn
  generalize collectDSLInfo node (Globals.mk g.dsl_array 0 "" "" [] false g.algorithmName
    g.algorithmArray g.algorithmArraySize g.detectedAlgorithm g.ir) = g1 at hc hn ⊢
  have h1 : Writable g1.ir := by rw [hc.1]; exact hir
  have h2 : g1.algorithmArraySize ≤ 256 := by rw [hc.2]; exact hsize
  have h3 : g1.algorithmName ∈ subjectNames := by rw [hn]; exact hname
  split
  · refine ⟨?_, hlen _ (generateStructure_writable g1 h1 h2).2,
      (generateStructure_writable g1 h1 h2).1⟩
    refine hsub _ _ (generateStructure_name g1) ?_
    intro x hx
    simp only [List.mem_cons, List.mem_singleton, List.not_mem_nil, or_false] at hx
    rcases hx with hx | hx | hx | hx | hx
    · rw [hx]; exact h3
    all_goals (rw [hx]; decide)
  · refine ⟨?_, hlen _ (generateSort_writable g1 h1).2, (generateSort_writable g1 h1).1⟩
    refine hsub _ _ (generateSort_name g1) ?_
    intro x hx
    simp only [List.mem_cons, List.mem_singleton, List.not_mem_nil, or_false] at hx
    rcases hx with hx | hx | hx | hx | hx | hx
    · rw [hx]; exact h3
    all_goals (rw [hx]; decide)

end DSAVisualizer
